import Mathlib

/-!
# ChatInterface.jsx: text normaliser, frame splitter and transcript aggregator

A shallow embedding of the algorithmic core of
`src/client/src/components/ChatInterface.jsx`.

JavaScript strings are modelled as Lean `String`s and, inside the text
functions, as their `List Char`.  Every character class used by the source's
regular expressions is ASCII or a white-space class, so working on Unicode
scalar values instead of UTF-16 code units does not change which positions
match.
-/

namespace ChatInterface

/-! ## Character classes -/

/-- White space as understood by the regular-expression class `\s` and by
`String.prototype.trim` (ECMAScript WhiteSpace and LineTerminator). -/
def isJsSpace (c : Char) : Bool :=
  let n := c.toNat
  n = 0x09 || n = 0x0A || n = 0x0B || n = 0x0C || n = 0x0D || n = 0x20 ||
  n = 0xA0 || n = 0x1680 || (0x2000 ≤ n && n ≤ 0x200A) ||
  n = 0x2028 || n = 0x2029 || n = 0x202F || n = 0x205F || n = 0x3000 || n = 0xFEFF

/-- The class `[A-Z]`. -/
def isUpperAZ (c : Char) : Bool := 65 ≤ c.toNat && c.toNat ≤ 90

/-- The class `[a-z]`. -/
def isLowerAZ (c : Char) : Bool := 97 ≤ c.toNat && c.toNat ≤ 122

/-- The class `\d`, that is `[0-9]`. -/
def isDigit09 (c : Char) : Bool := 48 ≤ c.toNat && c.toNat ≤ 57

/-- The class `[A-Za-z]`. -/
def isLetter (c : Char) : Bool := isUpperAZ c || isLowerAZ c

/-- The class `[a-z0-9]`. -/
def isLowerOrDigit (c : Char) : Bool := isLowerAZ c || isDigit09 c

/-- The class `[a-z0-9]` under the `i` flag: ASCII letters and digits (a
character outside ASCII never canonicalises to an ASCII one). -/
def isLetterOrDigit (c : Char) : Bool := isLetter c || isDigit09 c

/-- The class `[.?!,]`. -/
def isSentencePunct (c : Char) : Bool := c = '.' || c = '?' || c = '!' || c = ','

/-- The class `[\*|\-|\:|\#]`: the four markers and the literal bar. -/
def isMarker (c : Char) : Bool := c = '*' || c = '|' || c = '-' || c = ':' || c = '#'

/-- The class `[,.!?;:]`. -/
def isClosingPunct (c : Char) : Bool :=
  c = ',' || c = '.' || c = '!' || c = '?' || c = ';' || c = ':'

/-! ## String primitives -/

/-- `String.prototype.trim` on a character list. -/
def jsTrim (l : List Char) : List Char :=
  (l.dropWhile isJsSpace).rdropWhile isJsSpace

/-- `String.prototype.split` with a one-character separator. -/
def splitOnChar (sep : Char) : List Char → List (List Char)
  | [] => [[]]
  | c :: rest =>
    if c = sep then [] :: splitOnChar sep rest
    else
      match splitOnChar sep rest with
      | [] => [[c]]
      | h :: t => (c :: h) :: t

/-- `Array.prototype.join`. -/
def joinWith (sep : List Char) (parts : List (List Char)) : List Char :=
  sep.intercalate parts

/-- A pattern matcher anchored at the head of the remaining input: when the
pattern matches there it returns the replacement text and the number of
characters the match consumes. -/
abbrev Matcher := List Char → Option (List Char × Nat)

/-- `String.prototype.replace` with a global (`g`) pattern: scan left to right,
replace the leftmost match, resume right after it.  The first argument counts
the characters of the current match that are still to be skipped.  No pattern
of the source matches the empty string. -/
def replaceAll (m : Matcher) : Nat → List Char → List Char
  | _, [] => []
  | skip + 1, _ :: rest => replaceAll m skip rest
  | 0, c :: rest =>
    match m (c :: rest) with
    | some (out, len) => out ++ replaceAll m (len - 1) rest
    | none => c :: replaceAll m 0 rest

/-- A pattern of the shape `(P)(Q)` over two single characters with the
replacement `"$1 $2"`. -/
def spaceBetween (P Q : Char → Bool) : Matcher
  | a :: b :: _ => if P a && Q b then some ([a, ' ', b], 2) else none
  | _ => none

/-! ## cleanSynthesizedText, steps 1 to 6 -/

/-- Step 1: `/([a-z0-9])([A-Z])/g` with `"$1 $2"`. -/
def splitCamel : Matcher := spaceBetween isLowerOrDigit isUpperAZ

/-- Step 2: `/([.?!,])([A-Za-z])/g` with `"$1 $2"`. -/
def spaceAfterPunct : Matcher := spaceBetween isSentencePunct isLetter

/-- Step 3: the global pattern `-\n` (hyphen, line feed) with `""`. -/
def hyphenBreak : Matcher
  | '-' :: '\n' :: _ => some ([], 2)
  | _ => none

/-- Step 4: `/([a-z0-9])\n([a-z0-9*])/gi` with `"$1 $2"`. -/
def softBreak : Matcher
  | a :: '\n' :: b :: _ =>
    if isLetterOrDigit a && (isLetterOrDigit b || b = '*') then some ([a, ' ', b], 3) else none
  | _ => none

/-- Step 5, first pattern: `/([\*|\-|\:|\#])([A-Za-z])/g` with `"$1 $2"`. -/
def spaceAfterMarker : Matcher := spaceBetween isMarker isLetter

/-- Step 5, second pattern: `/([A-Za-z])(:)/g` with `"$1 $2"`. -/
def spaceBeforeColon : Matcher := spaceBetween isLetter (fun c => c = ':')

/-- The capture `([^\*]+)` of step 6 inside a star-free run: the preceding
`\s*` is greedy but must leave the group one character. -/
def emphasisGroup (run : List Char) : List Char :=
  match run.dropWhile isJsSpace with
  | [] => run.getLast?.toList
  | g => g

/-- Step 6: `/\*{2,3}\s*([^\*]+)\s*\*\*:?/g` with `"**$1**"`.  Two or three
stars, a non-empty star-free run, two closing stars and an optional colon; the
group is greedy, so the second `\s*` is always empty. -/
def overEmphasis : Matcher
  | '*' :: '*' :: rest0 =>
    let opened : Nat × List Char :=
      match rest0 with
      | '*' :: r => (3, r)
      | _ => (2, rest0)
    let run := opened.2.takeWhile (fun c => c != '*')
    match run, opened.2.dropWhile (fun c => c != '*') with
    | [], _ => none
    | _ :: _, '*' :: '*' :: ':' :: _ =>
      some ('*' :: '*' :: emphasisGroup run ++ ['*', '*'], opened.1 + run.length + 3)
    | _ :: _, '*' :: '*' :: _ =>
      some ('*' :: '*' :: emphasisGroup run ++ ['*', '*'], opened.1 + run.length + 2)
    | _, _ => none
  | _ => none

/-- Steps 1 to 6 of `cleanSynthesizedText`, in source order. -/
def repairSteps (t : List Char) : List Char :=
  let t := replaceAll splitCamel 0 t
  let t := replaceAll spaceAfterPunct 0 t
  let t := replaceAll hyphenBreak 0 t
  let t := replaceAll softBreak 0 t
  let t := replaceAll spaceAfterMarker 0 t
  let t := replaceAll spaceBeforeColon 0 t
  replaceAll overEmphasis 0 t

/-! ## cleanSynthesizedText, step 7 and the final normalisation -/

/-- The number of matches of `\s+` in a string: its maximal white-space runs. -/
def countSpaceRuns : List Char → Nat
  | [] => 0
  | [c] => if isJsSpace c then 1 else 0
  | c :: d :: rest =>
    (if isJsSpace c && !isJsSpace d then 1 else 0) + countSpaceRuns (d :: rest)

/-- The value `l.split(/\s+/).length`. -/
def wordCount (l : List Char) : Nat := countSpaceRuns l + 1

/-- The test `isStructural` of the paragraph loop. -/
def isStructural (l : List Char) : Bool :=
  l.head? = some '#' || l.head? = some '*' || l.head? = some '-' || l.head? = some '`' ||
  l.getLast? = some ':'

/-- One iteration of the paragraph loop over the state `(paragraphs, buf)`. -/
def paragraphStep (st : List (List Char) × List (List Char)) (l : List Char) :
    List (List Char) × List (List Char) :=
  if isStructural l then
    ((if st.2.length ≠ 0 then st.1 ++ [joinWith [' '] st.2] else st.1) ++ [l], [])
  else (st.1, st.2 ++ [l])

/-- The paragraph loop and the flush of the last buffer. -/
def buildParagraphs (nonEmpty : List (List Char)) : List (List Char) :=
  let st := nonEmpty.foldl paragraphStep ([], [])
  if st.2.length ≠ 0 then st.1 ++ [joinWith [' '] st.2] else st.1

/-- The final pattern `/\n{3,}/g` with `"\n\n"`. -/
def newlineRun : Matcher := fun s =>
  let k := (s.takeWhile (fun c => c = '\n')).length
  if 3 ≤ k then some (['\n', '\n'], k) else none

/-- The body of `cleanSynthesizedText` on the characters of a non-empty string. -/
def cleanChars (text : List Char) : List Char :=
  let t := repairSteps text
  let lines := (splitOnChar '\n' t).map jsTrim
  let nonEmpty := lines.filter (fun l => l ≠ [])
  if nonEmpty.length = 0 then t
  else
    let shortCount := (nonEmpty.filter (fun l => wordCount l ≤ 3)).length
    let t :=
      if 2 * shortCount > nonEmpty.length then joinWith ['\n', '\n'] (buildParagraphs nonEmpty)
      else t
    jsTrim (replaceAll newlineRun 0 t)

/-- The function `cleanSynthesizedText`. -/
def cleanSynthesizedText (text : String) : String :=
  if text = "" then text else ⟨cleanChars text.data⟩

/-! ## normalizeMarkdown -/

/-- Step 1: `/#+\s*/g` with the replacer `(m) => m.trim() + " "`. -/
def headingSpace : Matcher
  | '#' :: rest =>
    let hashes := rest.takeWhile (fun c => c = '#')
    let ws := (rest.dropWhile (fun c => c = '#')).takeWhile isJsSpace
    some (jsTrim ('#' :: hashes ++ ws) ++ [' '], 1 + hashes.length + ws.length)
  | _ => none

/-- Step 2: `/(\d+)\s*\.\s*/g` with `"$1. "`.  The digits are taken greedily; a
shorter digit group would leave a digit where the dot has to be. -/
def numberedDot : Matcher := fun s =>
  let digits := s.takeWhile isDigit09
  let r := s.dropWhile isDigit09
  match digits, r.dropWhile isJsSpace with
  | _ :: _, '.' :: r2 =>
    some (digits ++ ['.', ' '],
      digits.length + (r.takeWhile isJsSpace).length + 1 + (r2.takeWhile isJsSpace).length)
  | _, _ => none

/-- Step 3, first pattern: `/\*\*\s*/g` with `"**"`. -/
def boldOpen : Matcher
  | '*' :: '*' :: rest => some (['*', '*'], 2 + (rest.takeWhile isJsSpace).length)
  | _ => none

/-- Step 3, second pattern: `/\s*\*\*/g` with `"**"`. -/
def boldClose : Matcher := fun s =>
  match s.dropWhile isJsSpace with
  | '*' :: '*' :: _ => some (['*', '*'], (s.takeWhile isJsSpace).length + 2)
  | _ => none

/-- Step 4: `/\s*::\s*/g` with `": "`. -/
def doubleColon : Matcher := fun s =>
  match s.dropWhile isJsSpace with
  | ':' :: ':' :: r =>
    some ([':', ' '], (s.takeWhile isJsSpace).length + 2 + (r.takeWhile isJsSpace).length)
  | _ => none

/-- Step 5: `/(\*|\-)\s+/g` with `"$1 "`. -/
def bulletSpace : Matcher
  | c :: rest =>
    if c = '*' || c = '-' then
      match rest.takeWhile isJsSpace with
      | [] => none
      | w :: ws => some ([c, ' '], 1 + (w :: ws).length)
    else none
  | _ => none

/-- Step 6: `/\s+([,.!?;:])/g` with `"$1"`. -/
def spaceBeforePunct : Matcher := fun s =>
  match s.takeWhile isJsSpace, s.dropWhile isJsSpace with
  | w :: ws, p :: _ => if isClosingPunct p then some ([p], (w :: ws).length + 1) else none
  | _, _ => none

/-- The text matched by `#+\s+[^\n]+` at the head of the input.  When the
white space runs to the end of the input, `\s+` backtracks until the last
character it gives up is not a line feed. -/
def headingLine (s : List Char) : Option (List Char) :=
  let hashes := s.takeWhile (fun c => c = '#')
  let r := s.dropWhile (fun c => c = '#')
  let ws := r.takeWhile isJsSpace
  match hashes, ws, r.dropWhile isJsSpace with
  | _ :: _, _ :: _, a :: after => some (hashes ++ ws ++ (a :: after).takeWhile (fun c => c != '\n'))
  | _ :: _, _ :: _, [] =>
    let kept := ws.rdropWhile (fun c => c = '\n')
    if 2 ≤ kept.length then some (hashes ++ kept) else none
  | _, _, _ => none

/-- Step 7 away from the start of the input: `/(\n|^)(#+\s+[^\n]+)/g` with
`"\n\n$2"`, first alternative. -/
def headingAfterBreak : Matcher
  | '\n' :: rest => (headingLine rest).map (fun h => ('\n' :: '\n' :: h, 1 + h.length))
  | _ => none

/-- Step 7 at the start of the input, where `^` also matches. -/
def headingAtStart : Matcher := fun s =>
  match headingAfterBreak s with
  | some r => some r
  | none => (headingLine s).map (fun h => ('\n' :: '\n' :: h, h.length))

/-- A global replace whose pattern may match differently at index 0. -/
def replaceAllAnchored (m0 m : Matcher) : List Char → List Char
  | [] => []
  | c :: rest =>
    match m0 (c :: rest) with
    | some (out, len) => out ++ replaceAll m (len - 1) rest
    | none => c :: replaceAll m 0 rest

/-- The seven rewriting steps of `normalizeMarkdown`, in source order. -/
def markdownSteps (t : List Char) : List Char :=
  let t := replaceAll headingSpace 0 t
  let t := replaceAll numberedDot 0 t
  let t := replaceAll boldOpen 0 t
  let t := replaceAll boldClose 0 t
  let t := replaceAll doubleColon 0 t
  let t := replaceAll bulletSpace 0 t
  let t := replaceAll spaceBeforePunct 0 t
  replaceAllAnchored headingAtStart headingAfterBreak t

/-- The function `normalizeMarkdown`. -/
def normalizeMarkdown (text : String) : String :=
  if text = "" then text
  else ⟨jsTrim (markdownSteps (cleanSynthesizedText text).data)⟩

/-! ## Agent transcript -/

/-- The palette `AGENT_COLORS`. -/
def AGENT_COLORS : List String :=
  ["#8BAE66", "#FECACA", "#A1BC98", "#EBD5AB", "#628141", "#D2DCB6"]

/-- The value `ch.charCodeAt(0)` for an element `ch` of `Array.from(name)`: the
first UTF-16 code unit of the code point. -/
def charCodeAt0 (c : Char) : Nat :=
  if c.toNat < 0x10000 then c.toNat else 0xD800 + (c.toNat - 0x10000) / 0x400

/-- The function `chooseColorForAgent`. -/
def chooseColorForAgent (name : String) : String :=
  if name = "" then AGENT_COLORS.get ⟨0, by decide⟩
  else
    let hash := name.data.foldl (fun acc ch => acc + charCodeAt0 ch) 0
    AGENT_COLORS.get ⟨hash % AGENT_COLORS.length, Nat.mod_lt _ (by decide)⟩

/-- One transcript entry, the object `{ id, agent, output, display, color,
status, finalized, timestamp }`.  Entries built from a fallback response carry
no timestamp. -/
structure AgentLog where
  id : String
  agent : String
  output : String
  display : String
  color : String
  status : String
  finalized : Bool
  timestamp : Option Nat
deriving DecidableEq, Repr

/-- What the clock and the random generator supply to one call of
`pushOrAppendAgentLog`: the text of the template literal used as `id` and the
value of `Date.now()` used as `timestamp`. -/
structure Stamp where
  id : String
  timestamp : Nat
deriving DecidableEq, Repr

/-- The argument `opts` of `pushOrAppendAgentLog`; an absent `status` is the
empty string (both are falsy) and an absent `finalized` is `false`. -/
structure PushOpts where
  status : String
  finalized : Bool
deriving DecidableEq, Repr

/-- The default `opts = {}`. -/
def noOpts : PushOpts := ⟨"", false⟩

/-- The state updater of `pushOrAppendAgentLog`. -/
def pushOrAppendAgentLog (stamp : Stamp) (agentName chunkText : String) (opts : PushOpts)
    (prev : List AgentLog) : List AgentLog :=
  let newLog : AgentLog :=
    { id := stamp.id
      agent := if agentName ≠ "" then agentName else "Agent"
      output := chunkText
      display := chunkText
      color := chooseColorForAgent agentName
      status := if opts.status ≠ "" then opts.status else "thinking"
      finalized := opts.finalized
      timestamp := some stamp.timestamp }
  match prev.getLast? with
  | some last =>
    if last.agent = agentName ∧ last.finalized = false then
      prev.dropLast ++
        [{ last with output := last.output ++ chunkText, display := last.display ++ chunkText }]
    else prev ++ [newLog]
  | none => prev ++ [newLog]

/-- The state updater of `finalizeAgentLog`. -/
def finalizeAgentLog (agentName : String) (prev : List AgentLog) : List AgentLog :=
  match prev.getLast? with
  | some last =>
    if last.agent = agentName ∧ last.finalized = false then
      prev.dropLast ++ [{ last with finalized := true, status := "done" }]
    else prev
  | none => prev

/-- A transcript operation: a chunk handed to `pushOrAppendAgentLog` (called,
as everywhere in the source, without `opts`) or a call of `finalizeAgentLog`. -/
inductive Op where
  | chunk (stamp : Stamp) (agentName chunkText : String)
  | finalize (agentName : String)
deriving DecidableEq, Repr

/-- The effect of one operation on the transcript. -/
def applyOp (logs : List AgentLog) : Op → List AgentLog
  | .chunk stamp a c => pushOrAppendAgentLog stamp a c noOpts logs
  | .finalize a => finalizeAgentLog a logs

/-- The transcript reached from the empty one by a sequence of operations. -/
def runOps (ops : List Op) : List AgentLog := ops.foldl applyOp []

/-- The property that two different entries of one agent are never both
non-finalized. -/
def AtMostOneOpenPerAgent (logs : List AgentLog) : Prop :=
  ∀ (i j : Fin logs.length), i ≠ j → (logs.get i).agent = (logs.get j).agent →
    ¬ ((logs.get i).finalized = false ∧ (logs.get j).finalized = false)

/-- The property that of two neighbouring entries with the same agent the
earlier one is finalized. -/
def NoOpenNeighbours (logs : List AgentLog) : Prop :=
  logs.Chain' (fun a b => a.agent = b.agent → a.finalized = true)

/-- The operation is a finalize or a chunk with a non-empty agent name. -/
def Op.named : Op → Prop
  | .chunk _ a _ => a ≠ ""
  | .finalize _ => True

/-! ## The read loop of startStream -/

/-- `String.prototype.split("\n\n")`. -/
def splitBlankLine : List Char → List (List Char)
  | [] => [[]]
  | '\n' :: '\n' :: rest => [] :: splitBlankLine rest
  | c :: rest =>
    match splitBlankLine rest with
    | [] => [[c]]
    | h :: t => (c :: h) :: t

/-- One iteration of the read loop after a successful `reader.read()`: append
the decoded text to the buffer, split, keep the last piece as the new buffer
and hand every other piece, with the separator put back, to the handler. -/
def readStep {σ : Type} (handle : σ → List Char → σ) (acc : List Char × σ)
    (value : List Char) : List Char × σ :=
  let chunks := splitBlankLine (acc.1 ++ value)
  (chunks.getLast?.getD [],
    chunks.dropLast.foldl (fun s chunk => handle s (chunk ++ ['\n', '\n'])) acc.2)

/-- The read loop over the decoded texts of a stream that runs to completion,
followed by the flush of the leftover (`if (buffer && buffer.trim())`). -/
def readLoop {σ : Type} (handle : σ → List Char → σ) (values : List (List Char)) (s0 : σ) : σ :=
  let acc := values.foldl (readStep handle) ([], s0)
  if acc.1 ≠ [] ∧ jsTrim acc.1 ≠ [] then handle acc.2 acc.1 else acc.2

/-- The sequence of arguments with which the read loop calls `handleSseChunk`. -/
def framesHanded (values : List (List Char)) : List (List Char) :=
  readLoop (fun calls frame => calls ++ [frame]) values []

/-! ## Decoded records and handleSseChunk -/

/-- A JavaScript value as produced by `JSON.parse`, plus `undefined` for an
absent property.  Numbers are only ever tested for being zero, so their
integral values suffice. -/
inductive JsVal where
  | undefined
  | null
  | bool (b : Bool)
  | num (n : Int)
  | str (s : String)
  | arr (items : List JsVal)
  | obj (fields : List (String × JsVal))

/-- JavaScript truthiness (`ToBoolean`). -/
def JsVal.truthy : JsVal → Bool
  | .undefined => false
  | .null => false
  | .bool b => b
  | .num n => n != 0
  | .str s => s != ""
  | .arr _ => true
  | .obj _ => true

/-- Property access `v.key` for the property names the source reads (`type`,
`agent`, `from`, `content`, `text`, `recommendations`, `synthesized_guidance`,
`status`): an own property of an object, `undefined` on every other value. -/
def JsVal.get (key : String) : JsVal → JsVal
  | .obj fields => ((fields.find? (fun kv => kv.1 = key)).map (fun kv => kv.2)).getD .undefined
  | _ => .undefined

/-- The expression `a || b`. -/
def JsVal.orElse (a b : JsVal) : JsVal := if a.truthy then a else b

/-- The test `v === s` against a string `s`. -/
def JsVal.isStr (s : String) : JsVal → Bool
  | .str x => x = s
  | _ => false

/-- The test `Array.isArray(v)`. -/
def JsVal.isArray : JsVal → Bool
  | .arr _ => true
  | _ => false

/-- The conversation state the handlers write: `agentLogs`, `summary`,
`recommendations` and `status`. -/
structure ChatState where
  agentLogs : List AgentLog
  summary : String
  recommendations : JsVal
  status : String

/-- The updater `(prev) => (prev ? prev + "\n\n" + cleaned : cleaned)`. -/
def appendSummary (prev cleaned : String) : String :=
  if prev ≠ "" then prev ++ "\n\n" ++ cleaned else cleaned

/-- The branch of `handleSseChunk` for the record types `thought`, `step` and
`agent`.  The transcript holds strings: a record that would store a non-string
agent name or chunk is outside the embedding and yields `none`. -/
def handleThought (stringify : JsVal → String) (stamp : Stamp) (evt : JsVal) (st : ChatState) :
    Option ChatState :=
  let agentName := (evt.get "agent").orElse ((evt.get "from").orElse (.str "Agent"))
  let content : JsVal :=
    match evt.get "content" with
    | .str s => .str s
    | c =>
      if c.truthy && (c.get "text").truthy then c.get "text"
      else .str (stringify (c.orElse (.str "")))
  match agentName, content with
  | .str a, .str c => some { st with agentLogs := pushOrAppendAgentLog stamp a c noOpts st.agentLogs }
  | _, _ => none

/-- The summary update of the answer branch for an object `c`: the `if
(c.synthesized_guidance) ... else if (c.text) ...` cascade.  A truthy guidance
that is not a string makes `cleanSynthesizedText` throw and yields `none`. -/
def answerGuidance (c : JsVal) (st : ChatState) : Option ChatState :=
  if (c.get "synthesized_guidance").truthy then
    match c.get "synthesized_guidance" with
    | .str g => some { st with summary := appendSummary st.summary (cleanSynthesizedText g) }
    | _ => none
  else if (c.get "text").truthy then
    match c.get "text" with
    | .str g => some { st with summary := appendSummary st.summary (cleanSynthesizedText g) }
    | _ => none
  else some st

/-- The statement `if (evt.agent) finalizeAgentLog(evt.agent)`.  A truthy agent
that is not a string is never `===` to the agent name of an entry, so
`finalizeAgentLog` leaves the transcript as it is. -/
def finalizeNamed (agent : JsVal) (st : ChatState) : ChatState :=
  if agent.truthy then
    match agent with
    | .str a => { st with agentLogs := finalizeAgentLog a st.agentLogs }
    | _ => st
  else st

/-- The branch of `handleSseChunk` for the record types `answer`, `final` and
`synthesized`. -/
def handleAnswer (evt : JsVal) (st : ChatState) : Option ChatState :=
  let c := evt.get "content"
  let updated : Option ChatState :=
    match c with
    | .str s => some { st with summary := appendSummary st.summary (cleanSynthesizedText s) }
    | .obj _ | .arr _ =>
      let recs := c.get "recommendations"
      answerGuidance c (if recs.truthy && recs.isArray then { st with recommendations := recs } else st)
    | _ => some st
  updated.map (finalizeNamed (evt.get "agent"))

/-- The branch of `handleSseChunk` for the record type `meta`. -/
def handleMeta (evt : JsVal) (st : ChatState) : Option ChatState :=
  if (evt.get "status").truthy then
    match evt.get "status" with
    | .str s => some { st with status := s }
    | _ => none
  else some st

/-- The last branch of `handleSseChunk`, for every other record type. -/
def handleUnknown (stringify : JsVal → String) (stamp : Stamp) (evt : JsVal) (st : ChatState) :
    Option ChatState :=
  let agentName := (evt.get "agent").orElse (.str "Agent")
  let content : String :=
    match evt.get "content" with
    | .str s => s
    | c => stringify (c.orElse (.str ""))
  match agentName with
  | .str a => some { st with agentLogs := pushOrAppendAgentLog stamp a content noOpts st.agentLogs }
  | _ => none

/-- The part of the loop body of `handleSseChunk` that follows a successful
`JSON.parse`, applied to the decoded record `evt`.  `JSON.stringify` is a
parameter; `none` marks a record outside the string-typed embedding. -/
def handleRecord (stringify : JsVal → String) (stamp : Stamp) (evt : JsVal) (st : ChatState) :
    Option ChatState :=
  let type := evt.get "type"
  if !evt.truthy || !type.truthy then some st
  else if type.isStr "thought" || type.isStr "step" || type.isStr "agent" then
    handleThought stringify stamp evt st
  else if type.isStr "answer" || type.isStr "final" || type.isStr "synthesized" then
    handleAnswer evt st
  else if type.isStr "meta" then handleMeta evt st
  else handleUnknown stringify stamp evt st

/-- The record has one of the types `answer`, `final`, `synthesized`. -/
def JsVal.answerClass (evt : JsVal) : Prop :=
  evt.get "type" = .str "answer" ∨ evt.get "type" = .str "final" ∨
    evt.get "type" = .str "synthesized"

/-- A record consisting of a type, a content and, optionally, an agent. -/
def mkRecord (type : String) (content : JsVal) (agent : JsVal) : JsVal :=
  .obj [("type", .str type), ("content", content), ("agent", agent)]

/-- What one transcript update may change: every entry but the last stays in
place, the length grows by at most one, a longer result still starts with the
whole old transcript, and in a result of the same length the last entry keeps
its id and agent and its old text is a prefix of its new text. -/
def KeepsOrder (prev next : List AgentLog) : Prop :=
  prev.dropLast <+: next ∧
  (next.length = prev.length ∨ next.length = prev.length + 1) ∧
  (next.length = prev.length + 1 → prev <+: next) ∧
  (next.length = prev.length → ∀ last ∈ prev.getLast?, ∃ last' ∈ next.getLast?,
      last'.id = last.id ∧ last'.agent = last.agent ∧ last.output.data <+: last'.output.data)

/-- The value is falsy or a string: what the string-typed state can absorb. -/
def JsVal.stringOrFalsy (v : JsVal) : Prop := v.truthy = true → ∃ s, v = .str s

/-! ## Already repaired text -/

/-- The test that no character of class `P` is directly followed by a
character of class `Q`. -/
def noAdjacentPair (P Q : Char → Bool) : List Char → Bool
  | a :: b :: rest => !(P a && Q b) && noAdjacentPair P Q (b :: rest)
  | _ => true

/-- No character of class `P` is directly followed by a character of class `Q`. -/
def NoAdjacent (P Q : Char → Bool) (l : List Char) : Prop := noAdjacentPair P Q l = true

instance decidableNoAdjacent (P Q : Char → Bool) (l : List Char) : Decidable (NoAdjacent P Q l) :=
  inferInstanceAs (Decidable (noAdjacentPair P Q l = true))

/-- A single line without asterisks in which none of the two-character
patterns of steps 1, 2 and 5 of `cleanSynthesizedText` occurs: no lowercase
letter or digit directly before an uppercase letter, no `.`, `?`, `!`, `,`
and no marker `*`, `|`, `-`, `:`, `#` directly before a letter, no letter
directly before a colon. -/
def Repaired (t : List Char) : Prop :=
  '\n' ∉ t ∧ '*' ∉ t ∧
  NoAdjacent isLowerOrDigit isUpperAZ t ∧
  NoAdjacent isSentencePunct isLetter t ∧
  NoAdjacent isMarker isLetter t ∧
  NoAdjacent isLetter (fun c => c = ':') t

/-- Repaired text in which no pattern of `normalizeMarkdown` occurs either: no
`#`, no digit directly before a dot, no doubled colon, no hyphen directly
before white space and no white space directly before `,`, `.`, `!`, `?`, `;`
or `:`. -/
def Normalized (t : List Char) : Prop :=
  Repaired t ∧ '#' ∉ t ∧
  NoAdjacent isDigit09 (fun c => c = '.') t ∧
  NoAdjacent (fun c => c = ':') (fun c => c = ':') t ∧
  NoAdjacent (fun c => c = '-') isJsSpace t ∧
  NoAdjacent isJsSpace isClosingPunct t

/-! ## handleSseChunk: frames, data lines and payload -/

/-- The test `ln.trim().startsWith("data:")` of the line filter. -/
def isDataLine (ln : List Char) : Bool :=
  match jsTrim ln with
  | 'd' :: 'a' :: 't' :: 'a' :: ':' :: _ => true
  | _ => false

/-- The call `ln.replace(/^data:\s?/, "")`: a line that starts with `data:`
loses that prefix and one white-space character after it, if there is one;
every other line is returned as it is. -/
def stripDataPrefix : List Char → List Char
  | 'd' :: 'a' :: 't' :: 'a' :: ':' :: rest =>
    match rest with
    | c :: rest' => if isJsSpace c then rest' else c :: rest'
    | [] => []
  | ln => ln

/-- The lines of a part that pass the filter. -/
def dataLines (p : List Char) : List (List Char) :=
  (splitOnChar '\n' p).filter isDataLine

/-- The text handed to `JSON.parse`: the selected lines, each passed through
the prefix replacement, joined with line feeds. -/
def payload (p : List Char) : List Char :=
  joinWith ['\n'] ((dataLines p).map stripDataPrefix)

/-- The body of the loop of `handleSseChunk` for one part `p` of the raw text.
`parse` is `JSON.parse` (`none` when it throws) and `stringify` is
`JSON.stringify`; `stamp` is used by the push this part may make. -/
def handleFrame (parse : String → Option JsVal) (stringify : JsVal → String) (stamp : Stamp)
    (p : List Char) (st : ChatState) : Option ChatState :=
  if jsTrim p = [] then some st
  else if (dataLines p).length = 0 then some st
  else
    match parse ⟨payload p⟩ with
    | none =>
      some { st with agentLogs := pushOrAppendAgentLog stamp "Agent" ⟨payload p⟩ noOpts st.agentLogs }
    | some evt => handleRecord stringify stamp evt st

/-- The loop of `handleSseChunk` over the parts, the `i`-th part using the
stamp `stamps i`. -/
def handleParts (parse : String → Option JsVal) (stringify : JsVal → String)
    (stamps : Nat → Stamp) : Nat → List (List Char) → ChatState → Option ChatState
  | _, [], st => some st
  | i, p :: ps, st =>
    match handleFrame parse stringify (stamps i) p st with
    | some st' => handleParts parse stringify stamps (i + 1) ps st'
    | none => none

/-- The function `handleSseChunk`. -/
def handleSseChunk (parse : String → Option JsVal) (stringify : JsVal → String)
    (stamps : Nat → Stamp) (raw : List Char) (st : ChatState) : Option ChatState :=
  handleParts parse stringify stamps 0 (splitBlankLine raw) st

/-- The object `r` with the property `key` set to `v`, as in
`{ ...r, [key]: v }`; a value that is not an object is returned as it is. -/
def JsVal.setField (r : JsVal) (key : String) (v : JsVal) : JsVal :=
  match r with
  | .obj fields => .obj ((key, v) :: fields.filter (fun kv => kv.1 ≠ key))
  | x => x

/-- The record type is none of the seven recognised ones (but truthy, so the
record is not ignored). -/
def JsVal.unknownType (evt : JsVal) : Prop :=
  (evt.get "type").truthy = true ∧
  (evt.get "type").isStr "thought" = false ∧ (evt.get "type").isStr "step" = false ∧
  (evt.get "type").isStr "agent" = false ∧ (evt.get "type").isStr "answer" = false ∧
  (evt.get "type").isStr "final" = false ∧ (evt.get "type").isStr "synthesized" = false ∧
  (evt.get "type").isStr "meta" = false

/-! ## startStream and handleSubmit -/

/-- What the network does to the streaming request of one call of
`startStream`: the decoded texts the reader yields, and whether the stream
then ends (`done`) or the request or a read is rejected.  A response that is
not `ok` is a failure with no text. -/
inductive StreamOutcome where
  | completed (values : List (List Char))
  | failed (values : List (List Char))

/-- What the network does to the fallback request to `/health-assist`: the
response body `res.data`, or a rejection, of which the code reads
`e2.response?.data?.error` (`undefined` when there is none). -/
inductive FallbackOutcome where
  | success (data : JsVal)
  | failure (error : JsVal)

/-- The library functions and environment values `startStream` depends on:
`JSON.parse` (`none` when it throws), `JSON.stringify`, the stamp for the part
`i` of the `k`-th call of `handleSseChunk`, and the value of `Date.now()` while
the element `idx` of `agent_flow` is converted. -/
structure Env where
  parse : String → Option JsVal
  stringify : JsVal → String
  stamps : Nat → Nat → Stamp
  clock : Nat → Nat

/-- The handler the read loop calls: `handleSseChunk` on the conversation
state, counting the calls. -/
def streamHandle (env : Env) (acc : Nat × Option ChatState) (frame : List Char) :
    Nat × Option ChatState :=
  (acc.1 + 1,
    match acc.2 with
    | some st => handleSseChunk env.parse env.stringify (env.stamps acc.1) frame st
    | none => none)

/-- The entry built from the element `a` at index `idx` of `agent_flow`.  An
element `null` makes `a.agent` throw, and a truthy agent that is not a string
does not fit the string-typed transcript: both yield `none`. -/
def fallbackLog (env : Env) (idx : Nat) (a : JsVal) : Option AgentLog :=
  match a with
  | .null => none
  | .undefined => none
  | _ =>
    match (a.get "agent").orElse (.str ("Agent " ++ toString (idx + 1))) with
    | .str name =>
      let text : String :=
        match a.get "output" with
        | .str s => s
        | o => env.stringify (o.orElse (.str ""))
      some
        { id := "fallback-" ++ toString idx ++ "-" ++ toString (env.clock idx)
          agent := name
          output := text
          display := text
          color := chooseColorForAgent name
          status := "done"
          finalized := true
          timestamp := none }
    | _ => none

/-- The call `data.agent_flow.map((a, idx) => ...)` from index `idx` on. -/
def fallbackLogs (env : Env) : Nat → List JsVal → Option (List AgentLog)
  | _, [] => some []
  | idx, a :: rest =>
    match fallbackLog env idx a, fallbackLogs env (idx + 1) rest with
    | some e, some es => some (e :: es)
    | _, _ => none

/-- The update `setAgentLogs((prev) => prev.concat(data.agent_flow.map(...)))`;
a value without `map` yields `none`. -/
def appendAgentFlow (env : Env) (flow : JsVal) (st : ChatState) : Option ChatState :=
  match flow with
  | .arr items =>
    match fallbackLogs env 0 items with
    | some entries => some { st with agentLogs := st.agentLogs ++ entries }
    | none => none
  | _ => none

/-- The value `data.synthesized_guidance || data.final_summary || ""`. -/
def guidanceOf (data : JsVal) : JsVal :=
  (data.get "synthesized_guidance").orElse ((data.get "final_summary").orElse (.str ""))

/-- The body of the inner `try` after a completed stream, given the response
body of the fallback request. -/
def adoptAfterStream (env : Env) (body : JsVal) (st : ChatState) : Option ChatState :=
  let data := body.orElse (.obj [])
  let st1 : ChatState :=
    if (data.get "recommendations").truthy then
      { st with recommendations := data.get "recommendations" }
    else st
  let st2 : Option ChatState :=
    if (guidanceOf data).truthy then
      match guidanceOf data with
      | .str g => some { st1 with summary := appendSummary st1.summary (cleanSynthesizedText g) }
      | _ => none
    else some st1
  match st2 with
  | some s =>
    if (data.get "agent_flow").truthy then appendAgentFlow env (data.get "agent_flow") s
    else some s
  | none => none

/-- The statements `if (guidance) setSummary(...)` and `setStatus("")` for an
already cleaned guidance. -/
def adoptGuidance (cleaned : String) (st : ChatState) : ChatState :=
  { (if cleaned ≠ "" then { st with summary := appendSummary st.summary cleaned } else st) with
    status := "" }

/-- The body of the `try` inside the `catch` block, given the response body of
the fallback request.  A guidance object whose inner text is a truthy
non-string makes `cleanSynthesizedText` throw; the inner `catch` then sets the
generic error status.  A truthy guidance that is neither a string nor an object
would be stored as the summary and yields `none`. -/
def adoptAfterError (env : Env) (body : JsVal) (st : ChatState) : Option ChatState :=
  let data := body.orElse (.obj [])
  let st1 : ChatState :=
    { st with recommendations := (data.get "recommendations").orElse (.arr []) }
  let st2 : Option ChatState :=
    if (data.get "agent_flow").truthy && (data.get "agent_flow").isArray then
      appendAgentFlow env (data.get "agent_flow") st1
    else some st1
  match st2 with
  | none => none
  | some s =>
    match guidanceOf data with
    | .str g => some (adoptGuidance (cleanSynthesizedText g) s)
    | .obj fields =>
      match ((JsVal.obj fields).get "synthesized_guidance").orElse
          (((JsVal.obj fields).get "text").orElse (.str "")) with
      | .str g => some (adoptGuidance (cleanSynthesizedText g) s)
      | _ => some { s with status := "Something went wrong. Please try again." }
    | .arr _ => some (adoptGuidance (cleanSynthesizedText "") s)
    | _ => none

/-- The `catch (err)` block of `startStream`, run on the conversation state as
it is when the rejection is handled; the result carries the number of fallback
requests made.  The block does not look at `err`. -/
def streamErrorPath (env : Env) (fallback : FallbackOutcome) (st : ChatState) :
    Option (ChatState × Nat) :=
  let s1 : ChatState := { st with status := "Streaming failed — trying standard request..." }
  match fallback with
  | .success body =>
    match adoptAfterError env body s1 with
    | some s => some (s, 1)
    | none => none
  | .failure error =>
    if error.truthy then
      match error with
      | .str e => some ({ s1 with status := e }, 1)
      | _ => none
    else some ({ s1 with status := "Something went wrong. Please try again." }, 1)

/-- The test `(!recommendations || recommendations.length === 0) && !summary`
on the values of `recommendations` and `summary` that the closure of
`startStream` holds. -/
def looksEmpty (rendered : ChatState) : Bool :=
  (!rendered.recommendations.truthy ||
    (match rendered.recommendations with
     | .arr items => items.length = 0
     | _ => false)) && !(rendered.summary != "")

/-- The conversation state after the resets at the start of `startStream`. -/
def resetState : ChatState :=
  { agentLogs := [], summary := "", recommendations := .arr [],
    status := "Preparing your wellness guidance…" }

/-- The conversation state when a read is rejected after the texts `values`
have been read: the resets and the loop iterations for those texts, without
the flush of the leftover. -/
def streamedBeforeError (env : Env) (values : List (List Char)) : Option ChatState :=
  (values.foldl (readStep (streamHandle env)) ([], (0, some resetState))).2.2

/-- The function `startStream` for one call: `rendered` holds the state
variables as captured by the closure, that is the state of the rendering that
created the handler.  The result is the conversation state when the call
returns and the number of fallback requests it made.  The flag `isGenerating`
and the controller reference, which the `finally` block clears, are not part
of the conversation state. -/
def startStream (env : Env) (rendered : ChatState) (stream : StreamOutcome)
    (fallback : FallbackOutcome) : Option (ChatState × Nat) :=
  match stream with
  | .completed values =>
    match (readLoop (streamHandle env) values (0, some resetState)).2 with
    | none => none
    | some s1 =>
      if looksEmpty rendered then
        match fallback with
        | .success body =>
          match adoptAfterStream env body s1 with
          | some s => some ({ s with status := "" }, 1)
          | none => none
        | .failure _ => some ({ s1 with status := "" }, 1)
      else some ({ s1 with status := "" }, 0)
  | .failed values =>
    match streamedBeforeError env values with
    | none => none
    | some s1 => streamErrorPath env fallback s1

/-- What `handleSubmit` does: the state it writes and, when it calls
`startStream`, the arguments of that call. -/
structure Submission where
  state : ChatState
  started : Option (String × String)

/-- The function `handleSubmit` up to the call of `startStream`. -/
def handleSubmit (symptoms report : String) (st : ChatState) : Submission :=
  if jsTrim symptoms.data = [] then
    { state := { st with status := "Please enter symptoms to continue." }, started := none }
  else
    { state :=
        { agentLogs := [], summary := "", recommendations := .arr [],
          status := "Preparing your wellness guidance…" }
      started := some (symptoms, report) }

/-- One submission from the state `st` of the current rendering: `handleSubmit`
and, if it makes the call, `startStream`, whose closure holds the values of
that rendering. -/
def submitTurn (env : Env) (symptoms report : String) (stream : StreamOutcome)
    (fallback : FallbackOutcome) (st : ChatState) : Option (ChatState × Nat) :=
  match (handleSubmit symptoms report st).started with
  | none => some ((handleSubmit symptoms report st).state, 0)
  | some _ => startStream env st stream fallback

/-- The guidance and text of the content are strings or falsy, so that the
answer branch can append them to the string-typed summary. -/
def JsVal.guidanceTyped (c : JsVal) : Prop :=
  (c.get "synthesized_guidance").stringOrFalsy ∧ (c.get "text").stringOrFalsy

/-- An element of `agent_flow` the string-typed transcript can take: not
`null`, and with an agent that is a string or falsy. -/
def JsVal.flowElementTyped (a : JsVal) : Prop :=
  a ≠ .null ∧ a ≠ .undefined ∧ (a.get "agent").stringOrFalsy

/-- The guidance of a fallback response is a string, absent, or an object. -/
def JsVal.fallbackGuidanceTyped (data : JsVal) : Prop :=
  match guidanceOf data with
  | .str _ => True
  | .obj _ => True
  | .arr _ => True
  | _ => False

/-- A fallback response body the string-typed embedding can take: its guidance is
a string, absent, or an object, and when its `agent_flow` is an array every
element of it is typed. -/
def JsVal.fallbackTyped (body : JsVal) : Prop :=
  (body.orElse (.obj [])).fallbackGuidanceTyped ∧
  ∀ F, (body.orElse (.obj [])).get "agent_flow" = .arr F → ∀ a ∈ F, a.flowElementTyped

/-- The text of the answer record used in the examples. -/
def samplePayload : String := "\x7b\"type\":\"answer\",\"content\":\"Rest well\"\x7d"

/-- An environment for the examples: `JSON.parse` on the sample payload, which
is the only valid JSON text the examples contain, fixed stamps and clock. -/
def sampleEnv : Env :=
  { parse := fun s =>
      if s = samplePayload then some (.obj [("type", .str "answer"), ("content", .str "Rest well")])
      else none
    stringify := fun _ => "\"\""
    stamps := fun k i => ⟨"id", k + i⟩
    clock := fun _ => 0 }

/-! ## Content characters -/

/-- Every character that no step of the two normalisers inserts or removes:
everything except white space, the hyphen, the star and the colon.  All letters
and digits, of any script, are content characters. -/
def isContentChar (c : Char) : Bool :=
  !isJsSpace c && c != '-' && c != '*' && c != ':'

/-- A class of content characters: it holds no white space, hyphen, star or
colon. -/
def ContentClass (keep : Char → Bool) : Prop :=
  ∀ c, keep c = true → isContentChar c = true

/-- A matcher keeps content when each match consumes at least one character of
the input and the replacement has the content characters of the matched text,
in the same order. -/
def KeepsContent (keep : Char → Bool) (m : Matcher) : Prop :=
  ∀ s out len, m s = some (out, len) →
    1 ≤ len ∧ ∃ consumed rest, s = consumed ++ rest ∧ consumed.length = len ∧
      out.filter keep = consumed.filter keep

/-! ## Paragraph reconstruction, as specified -/

/-- The non-empty trimmed lines of the text after steps 1 to 6 (`nonEmpty`). -/
def repairedLines (text : List Char) : List (List Char) :=
  ((splitOnChar '\n' (repairSteps text)).map jsTrim).filter (fun l => l ≠ [])

/-- The test of step 7, `shortCount > nonEmpty.length / 2`: more than half of
the lines have at most three words. -/
def mostlyShort (lines : List (List Char)) : Bool :=
  decide (2 * (lines.filter (fun l => wordCount l ≤ 3)).length > lines.length)

/-- A run of non-structural lines ends in front of these lines: at the end of
the block and in front of a structural line. -/
def runEnds : List (List Char) → Bool
  | [] => true
  | r :: _ => isStructural r

/-- Put a line in front of the first paragraph of a list, separated from it by a
single blank. -/
def joinOnto (l : List Char) : List (List Char) → List (List Char)
  | [] => [l]
  | p :: ps => (l ++ ' ' :: p) :: ps

/-- The paragraphs of a sequence of lines in the words of the specification:
walking the lines in order, each structural line is a paragraph of its own, and
each maximal run of consecutive non-structural lines is one paragraph, its
lines joined by single blanks.  A non-structural line that is directly followed
by a non-structural line belongs to the paragraph of that line. -/
def paragraphsOf : List (List Char) → List (List Char)
  | [] => []
  | l :: rest =>
    if isStructural l || runEnds rest then l :: paragraphsOf rest
    else joinOnto l (paragraphsOf rest)

/-- The paragraphs of a pending run of lines, already joined to `b`, followed by
the lines `ls`. -/
def pendingThen (b : List Char) (ls : List (List Char)) : List (List Char) :=
  if runEnds ls then b :: paragraphsOf ls else joinOnto b (paragraphsOf ls)

/-- A non-empty text without line feed that neither starts nor ends with white
space. -/
def TrimmedLine (p : List Char) : Prop :=
  p ≠ [] ∧ '\n' ∉ p ∧ (∀ c, p.head? = some c → isJsSpace c = false) ∧
    (∀ c, p.getLast? = some c → isJsSpace c = false)

/-! ## Plain prose -/

/-- The characters that the two normalisers treat as markup: the markers `*`,
`|`, `-`, `:`, `#` of step 5 and the backtick. -/
def isMarkup (c : Char) : Bool := isMarker c || c = '`'

/-- Sentence punctuation of plain prose: `.`, `?`, `!`, `,` and `;`. -/
def isProsePunct (c : Char) : Bool := isSentencePunct c || c = ';'

/-- Well-formed clean input in the words of the specification: a single line
of already spaced plain prose.  No markup character occurs and the only white
space is the blank; words are separated by single blanks; a sentence
punctuation character is attached to the preceding word (it follows neither a
blank nor another punctuation character and does not open the text) and is
followed by a blank or by the end of the text. -/
def PlainProse (t : List Char) : Prop :=
  t.all (fun c => !isMarkup c && (!isJsSpace c || c = ' ')) = true ∧
  NoAdjacent (fun c => c = ' ') (fun c => c = ' ') t ∧
  NoAdjacent (fun c => c = ' ' || isProsePunct c) isProsePunct t ∧
  NoAdjacent isProsePunct (fun c => c != ' ') t ∧
  t.head?.all (fun c => !isProsePunct c) = true

instance decidablePlainProse (t : List Char) : Decidable (PlainProse t) := by
  unfold PlainProse
  infer_instance

/-- Prose without markup in which the only white space is the single blank, no
blank stands in front of closing punctuation, and a period is followed by a
blank or by the end of the text. -/
def SpacedProse (u : List Char) : Prop :=
  (∀ c ∈ u, isMarkup c = false) ∧ (∀ c ∈ u, isJsSpace c = true → c = ' ') ∧
  NoAdjacent isJsSpace isClosingPunct u ∧
  NoAdjacent (fun c => c = '.') (fun c => c != ' ') u ∧
  NoAdjacent (fun c => c = ' ') (fun c => c = ' ') u

/-! ## Lines that start with a marker -/

/-- The markers at the start of a line that step 4 never joins to the preceding
line: `#`, `-` and the backtick. -/
def isLineMark (c : Char) : Bool := c = '#' || c = '-' || c = '`'

/-! ## Colours of transcript entries -/

/-- Every entry of the transcript carries the colour of its agent name. -/
def ColouredByName (logs : List AgentLog) : Prop :=
  ∀ e ∈ logs, e.color = chooseColorForAgent e.agent

/-! ## Bold spans -/

/-- The star skeleton of a text: `true` for every `*`, and one `false` for
every maximal run of other characters. -/
def starSkeleton : List Char → List Bool
  | [] => []
  | c :: t =>
    if c = '*' then true :: starSkeleton t
    else
      match starSkeleton t with
      | false :: s => false :: s
      | s => false :: s

/-- The stars of a skeleton are single stars, each followed by another
character or by the end, or form complete bold spans: two or three stars, a
run of other characters, two stars. -/
def closedSpans : List Bool → Bool
  | [] => true
  | false :: t => closedSpans t
  | [true] => true
  | true :: false :: t => closedSpans t
  | true :: true :: false :: true :: true :: t => closedSpans t
  | true :: true :: true :: false :: true :: true :: t => closedSpans t
  | _ => false

/-- Every `**` of the text belongs to a complete bold span `**…**` (or
`***…**`) around a non-empty text without stars; single stars may stand
anywhere else. -/
def BoldClosed (t : List Char) : Prop := closedSpans (starSkeleton t) = true

instance decidableBoldClosed (t : List Char) : Decidable (BoldClosed t) :=
  inferInstanceAs (Decidable (closedSpans (starSkeleton t) = true))

/-! ## Submissions and live calls of startStream -/

/-- What can happen in the mounted component as far as calls of `startStream`
are concerned: the form fires `onSubmit` with the current symptoms text, a call
performs one of its state updates (`setAgentLogs`, `setSummary`,
`setRecommendations`, `setStatus`), or a call reaches the end of its `finally`
block.  Calls are numbered in the order in which they start. -/
inductive UiEvent where
  | submit (symptoms : String)
  | write (call : Nat)
  | finish (call : Nat)
deriving DecidableEq, Repr

/-- An entry of the history of the component. -/
inductive UiTrace where
  | started (call : Nat)
  | aborted (call : Nat)
  | wrote (call : Nat)
  | finished (call : Nat)
deriving DecidableEq, Repr

/-- The part of the component that decides which call may run: the state
variable `isGenerating`, the call whose controller `streamControllerRef.current`
holds, the calls that have started and not yet left their `finally` block, the
number of calls started so far, and the history. -/
structure Ui where
  isGenerating : Bool
  controller : Option Nat
  live : List Nat
  calls : Nat
  history : List UiTrace
deriving DecidableEq, Repr

/-- The component after mounting. -/
def Ui.initial : Ui :=
  { isGenerating := false, controller := none, live := [], calls := 0, history := [] }

/-- One event.  The form holds two text areas and the submit button, which is
rendered with `disabled={isGenerating}`, so `onSubmit` fires only while
`isGenerating` is false; `handleSubmit` returns without a call when the
symptoms are blank; otherwise `startStream` aborts the controller the reference
holds, if any, stores its own and sets `isGenerating`, all before its first
`await`.  A call writes only between its start and the end of its `finally`
block, which clears `isGenerating` and the reference.  An event that cannot
happen yields `none`. -/
def Ui.step (s : Ui) : UiEvent → Option Ui
  | .submit symptoms =>
    if s.isGenerating then none
    else if jsTrim symptoms.data = [] then some s
    else
      some
        { isGenerating := true
          controller := some s.calls
          live := s.live ++ [s.calls]
          calls := s.calls + 1
          history :=
            s.history ++
              (match s.controller with
               | some k => [UiTrace.aborted k]
               | none => []) ++ [UiTrace.started s.calls] }
  | .write k =>
    if k ∈ s.live then some { s with history := s.history ++ [UiTrace.wrote k] } else none
  | .finish k =>
    if k ∈ s.live then
      some
        { s with
          isGenerating := false
          controller := none
          live := s.live.erase k
          history := s.history ++ [UiTrace.finished k] }
    else none

/-- The component after a sequence of events, `none` if one of them cannot
happen. -/
def Ui.run (events : List UiEvent) : Option Ui :=
  events.foldl (fun acc e => acc.bind (fun s => s.step e)) (some Ui.initial)

/-- No entry of an earlier call stands behind the start of a later one. -/
def Ui.Ordered (h : List UiTrace) : Prop :=
  ∀ before after j, h = before ++ UiTrace.started j :: after →
    ∀ i, i < j → UiTrace.wrote i ∉ after

/-- What holds after every sequence of events. -/
structure Ui.Inv (s : Ui) : Prop where
  shape : (s.live = [] ∧ s.isGenerating = false ∧ s.controller = none) ∨
    (∃ k, s.live = [k] ∧ s.isGenerating = true ∧ s.controller = some k ∧ k + 1 = s.calls)
  noAbort : ∀ k, UiTrace.aborted k ∉ s.history
  startedBelow : ∀ j, UiTrace.started j ∈ s.history → j < s.calls
  ordered : Ui.Ordered s.history

/-! ## Single lines as visible characters and gaps -/

/-- A line as its visible characters, each with the white space that follows
it. -/
abbrev Cells := List (Char × List Char)

/-- The text of a list of cells. -/
def renderCells : Cells → List Char
  | [] => []
  | (c, g) :: rest => c :: (g ++ renderCells rest)

/-- The leading white space of a text and the cells behind it. -/
def toCells : List Char → List Char × Cells
  | [] => ([], [])
  | c :: rest =>
    if isJsSpace c then (c :: (toCells rest).1, (toCells rest).2)
    else ([], (c, (toCells rest).1) :: (toCells rest).2)

/-- The visible character of the first cell. -/
def nextChar (rest : Cells) : Option Char := rest.head?.map Prod.fst

/-- Rewrite every gap by a rule that sees the visible character in front of the
cell, the character of the cell, the next visible character and the gap. -/
def mapCtx (f : Option Char → Char → Option Char → List Char → List Char) :
    Option Char → Cells → Cells
  | _, [] => []
  | p, (c, g) :: rest => (c, f p c (nextChar rest) g) :: mapCtx f (some c) rest

/-- The cells with the gap of the last cell removed. -/
def dropLastGap : Cells → Cells
  | [] => []
  | [(c, _)] => [(c, [])]
  | x :: y :: rest => x :: dropLastGap (y :: rest)

/-- The characters of the cells are visible and the gaps are white space
without line feed. -/
def CellsOk (cells : Cells) : Prop :=
  ∀ cell ∈ cells, isJsSpace cell.1 = false ∧ ∀ x ∈ cell.2, isJsSpace x = true ∧ x ≠ '\n'

/-- A property of every gap with its context. -/
def ForallCtx (Pr : Option Char → Char → Option Char → List Char → Prop) :
    Option Char → Cells → Prop
  | _, [] => True
  | p, (c, g) :: rest => Pr p c (nextChar rest) g ∧ ForallCtx Pr (some c) rest

/-- The gap rule of a pattern `(P)(Q)` with the replacement `"$1 $2"`: a blank
is put into an empty gap between a character of `P` and one of `Q`. -/
def gapBetween (P Q : Char → Bool) (_ : Option Char) (c : Char) (n : Option Char)
    (g : List Char) : List Char :=
  if g = [] ∧ P c = true ∧ n.any Q = true then [' '] else g

/-- The gap rule of step 5 of `normalizeMarkdown`: white space behind a star or
a hyphen becomes one blank. -/
def gapBullet (_ : Option Char) (c : Char) (_ : Option Char) (g : List Char) : List Char :=
  if (c = '*' ∨ c = '-') ∧ g ≠ [] then [' '] else g

/-- The gap rule of step 6 of `normalizeMarkdown`: white space in front of
closing punctuation goes. -/
def gapPunct (_ : Option Char) (_ : Char) (n : Option Char) (g : List Char) : List Char :=
  if n.any isClosingPunct = true then [] else g

/-- The gap rule of step 1 of `normalizeMarkdown`: behind a run of `#` stands
one blank. -/
def gapHeading (_ : Option Char) (c : Char) (n : Option Char) (g : List Char) : List Char :=
  if c = '#' then (if g = [] ∧ n = some '#' then [] else [' ']) else g

/-- The gap rule of step 2 of `normalizeMarkdown`: a dot is attached to the
digit in front of it and followed by one blank. -/
def gapDot (p : Option Char) (c : Char) (n : Option Char) (g : List Char) : List Char :=
  if isDigit09 c = true ∧ n = some '.' then []
  else if c = '.' ∧ p.any isDigit09 = true then [' ']
  else g

/-! # Theorems -/

/-! ## Transcript operations -/

theorem getLast?_snoc (pre : List AgentLog) (last : AgentLog) :
    (pre ++ [last]).getLast? = some last := by
  simp

theorem pushOrAppend_snoc_same (stamp : Stamp) (A c : String) (opts : PushOpts)
    (pre : List AgentLog) (last : AgentLog) (hag : last.agent = A)
    (hfin : last.finalized = false) :
    pushOrAppendAgentLog stamp A c opts (pre ++ [last]) =
      pre ++ [{ last with output := last.output ++ c, display := last.display ++ c }] := by
  simp [pushOrAppendAgentLog, hag, hfin]

theorem pushOrAppend_snoc_other (stamp : Stamp) (A c : String) (opts : PushOpts)
    (pre : List AgentLog) (last : AgentLog)
    (h : ¬ (last.agent = A ∧ last.finalized = false)) :
    pushOrAppendAgentLog stamp A c opts (pre ++ [last]) =
      pre ++ [last] ++ [{ id := stamp.id
                          agent := if A ≠ "" then A else "Agent"
                          output := c
                          display := c
                          color := chooseColorForAgent A
                          status := if opts.status ≠ "" then opts.status else "thinking"
                          finalized := opts.finalized
                          timestamp := some stamp.timestamp }] := by
  simp only [pushOrAppendAgentLog, getLast?_snoc, if_neg h]

theorem finalize_snoc_same (A : String) (pre : List AgentLog) (last : AgentLog)
    (hag : last.agent = A) (hfin : last.finalized = false) :
    finalizeAgentLog A (pre ++ [last]) =
      pre ++ [{ last with finalized := true, status := "done" }] := by
  simp [finalizeAgentLog, hag, hfin]

theorem finalize_snoc_other (A : String) (pre : List AgentLog) (last : AgentLog)
    (h : ¬ (last.agent = A ∧ last.finalized = false)) :
    finalizeAgentLog A (pre ++ [last]) = pre ++ [last] := by
  simp only [finalizeAgentLog, getLast?_snoc, if_neg h]

/-- C5: two chunks of one non-empty agent name pushed onto the empty transcript
give exactly one entry, of that agent, whose text is the first chunk followed
by the second; and a chunk for the agent of a non-finalized last entry keeps
the length of the transcript and appends the chunk to that entry's text. -/
theorem pushOrAppend_accumulates (A c1 c2 : String) (s1 s2 : Stamp) (hA : A ≠ "")
    (pre : List AgentLog) (last : AgentLog) (hag : last.agent = A)
    (hfin : last.finalized = false) :
    (∃ e, pushOrAppendAgentLog s2 A c2 noOpts (pushOrAppendAgentLog s1 A c1 noOpts []) = [e] ∧
        e.agent = A ∧ e.output = c1 ++ c2 ∧ e.display = c1 ++ c2 ∧ e.finalized = false) ∧
    pushOrAppendAgentLog s2 A c2 noOpts (pre ++ [last]) =
        pre ++ [{ last with output := last.output ++ c2, display := last.display ++ c2 }] ∧
    (pushOrAppendAgentLog s2 A c2 noOpts (pre ++ [last])).length = (pre ++ [last]).length := by
  refine ⟨?_, pushOrAppend_snoc_same s2 A c2 noOpts pre last hag hfin, ?_⟩
  · have h1 : pushOrAppendAgentLog s1 A c1 noOpts [] =
        [] ++ [{ id := s1.id, agent := A, output := c1, display := c1,
                 color := chooseColorForAgent A, status := "thinking", finalized := false,
                 timestamp := some s1.timestamp }] := by
      simp [pushOrAppendAgentLog, noOpts, hA]
    rw [h1, pushOrAppend_snoc_same s2 A c2 noOpts [] _ rfl rfl]
    exact ⟨_, rfl, rfl, rfl, rfl, rfl⟩
  · rw [pushOrAppend_snoc_same s2 A c2 noOpts pre last hag hfin]
    simp

/-- Witness for C5: the chunks "Hello" and "World" of agent "A" give the single
text "HelloWorld". -/
theorem pushOrAppend_accumulates_witness :
    ("A" ≠ "" ∧ (⟨"0", "A", "x", "x", "", "thinking", false, none⟩ : AgentLog).agent = "A") ∧
    ((∃ e, pushOrAppendAgentLog ⟨"2", 2⟩ "A" "World" noOpts
          (pushOrAppendAgentLog ⟨"1", 1⟩ "A" "Hello" noOpts []) = [e] ∧
        e.agent = "A" ∧ e.output = "Hello" ++ "World" ∧ e.display = "Hello" ++ "World" ∧
        e.finalized = false) ∧
      pushOrAppendAgentLog ⟨"2", 2⟩ "A" "World" noOpts
          ([] ++ [⟨"0", "A", "x", "x", "", "thinking", false, none⟩]) =
        [] ++ [{ (⟨"0", "A", "x", "x", "", "thinking", false, none⟩ : AgentLog) with
                  output := "x" ++ "World", display := "x" ++ "World" }] ∧
      (pushOrAppendAgentLog ⟨"2", 2⟩ "A" "World" noOpts
          ([] ++ [⟨"0", "A", "x", "x", "", "thinking", false, none⟩])).length =
        ([] ++ [(⟨"0", "A", "x", "x", "", "thinking", false, none⟩ : AgentLog)]).length) :=
  ⟨⟨by decide, rfl⟩,
    pushOrAppend_accumulates "A" "Hello" "World" ⟨"1", 1⟩ ⟨"2", 2⟩ (by decide) []
      ⟨"0", "A", "x", "x", "", "thinking", false, none⟩ rfl rfl⟩

/-- C6: a chunk, a finalize and a second chunk of one non-empty agent name,
applied to the empty transcript, give exactly two entries: the first finalized
with status done and the first chunk as text, the second non-finalized with
status thinking and the second chunk as text. -/
theorem chunk_finalize_chunk_two_entries (A c1 c2 : String) (s1 s2 : Stamp) (hA : A ≠ "") :
    ∃ e1 e2,
      pushOrAppendAgentLog s2 A c2 noOpts
          (finalizeAgentLog A (pushOrAppendAgentLog s1 A c1 noOpts [])) = [e1, e2] ∧
      e1.agent = A ∧ e1.finalized = true ∧ e1.status = "done" ∧ e1.output = c1 ∧
      e2.agent = A ∧ e2.finalized = false ∧ e2.status = "thinking" ∧ e2.output = c2 := by
  have h1 : pushOrAppendAgentLog s1 A c1 noOpts [] =
      [] ++ [{ id := s1.id, agent := A, output := c1, display := c1,
               color := chooseColorForAgent A, status := "thinking", finalized := false,
               timestamp := some s1.timestamp }] := by
    simp [pushOrAppendAgentLog, noOpts, hA]
  rw [h1, finalize_snoc_same A [] _ rfl rfl, pushOrAppend_snoc_other s2 A c2 noOpts [] _ (by simp)]
  refine ⟨_, _, rfl, rfl, rfl, rfl, rfl, ?_, rfl, ?_, rfl⟩
  · simp [hA]
  · simp [noOpts]

/-- Witness for C6 with agent "A" and the chunks "Hello" and "World". -/
theorem chunk_finalize_chunk_two_entries_witness :
    "A" ≠ "" ∧
    ∃ e1 e2,
      pushOrAppendAgentLog ⟨"2", 2⟩ "A" "World" noOpts
          (finalizeAgentLog "A" (pushOrAppendAgentLog ⟨"1", 1⟩ "A" "Hello" noOpts [])) =
        [e1, e2] ∧
      e1.agent = "A" ∧ e1.finalized = true ∧ e1.status = "done" ∧ e1.output = "Hello" ∧
      e2.agent = "A" ∧ e2.finalized = false ∧ e2.status = "thinking" ∧ e2.output = "World" :=
  ⟨by decide, chunk_finalize_chunk_two_entries "A" "Hello" "World" ⟨"1", 1⟩ ⟨"2", 2⟩ (by decide)⟩

theorem keepsOrder_refl (prev : List AgentLog) : KeepsOrder prev prev := by
  refine ⟨List.dropLast_prefix prev, Or.inl rfl, fun _ => List.prefix_refl prev, ?_⟩
  intro _ last hlast
  exact ⟨last, hlast, rfl, rfl, List.prefix_refl _⟩

theorem keepsOrder_snoc (prev : List AgentLog) (e : AgentLog) : KeepsOrder prev (prev ++ [e]) := by
  refine ⟨(List.dropLast_prefix prev).trans (List.prefix_append prev [e]), Or.inr (by simp),
    fun _ => List.prefix_append prev [e], ?_⟩
  intro h
  simp at h

theorem keepsOrder_update (pre : List AgentLog) (last last' : AgentLog) (hid : last'.id = last.id)
    (hag : last'.agent = last.agent) (hout : last.output.data <+: last'.output.data) :
    KeepsOrder (pre ++ [last]) (pre ++ [last']) := by
  refine ⟨by simp, Or.inl (by simp), fun h => by simp at h, ?_⟩
  intro _ x hx
  simp only [getLast?_snoc, Option.mem_def, Option.some.injEq] at hx
  subst hx
  exact ⟨last', by simp, hid, hag, hout⟩

/-- C7: neither `pushOrAppendAgentLog` nor `finalizeAgentLog` reorders or drops
entries: all entries but the last keep their place, the length grows by zero
or one, and a last entry that is updated in place keeps its id and agent and
only has text appended. -/
theorem transcript_updates_keep_order (stamp : Stamp) (A c : String) (opts : PushOpts)
    (prev : List AgentLog) :
    KeepsOrder prev (pushOrAppendAgentLog stamp A c opts prev) ∧
    KeepsOrder prev (finalizeAgentLog A prev) := by
  rcases List.eq_nil_or_concat prev with rfl | ⟨pre, last, rfl⟩
  · exact ⟨keepsOrder_snoc [] _, keepsOrder_refl []⟩
  · rw [List.concat_eq_append]
    by_cases h : last.agent = A ∧ last.finalized = false
    · rw [pushOrAppend_snoc_same stamp A c opts pre last h.1 h.2, finalize_snoc_same A pre last h.1 h.2]
      exact ⟨keepsOrder_update pre last _ rfl rfl (by simp [String.data_append]),
        keepsOrder_update pre last _ rfl rfl (List.prefix_refl _)⟩
    · rw [pushOrAppend_snoc_other stamp A c opts pre last h, finalize_snoc_other A pre last h]
      exact ⟨keepsOrder_snoc _ _, keepsOrder_refl _⟩

/-! ## The open-entry invariant -/

/-- Counterexample to C4: chunks of agents A, B, A leave the first and the
third entry, both of agent A, non-finalized. -/
theorem interleaved_agents_two_open :
    ¬ AtMostOneOpenPerAgent
      (runOps [.chunk ⟨"1", 1⟩ "A" "x", .chunk ⟨"2", 2⟩ "B" "y", .chunk ⟨"3", 3⟩ "A" "z"]) := by
  intro h
  exact h ⟨0, by decide⟩ ⟨2, by decide⟩ (by decide) (by decide) ⟨by decide, by decide⟩

theorem noOpenNeighbours_snoc (pre : List AgentLog) (last e : AgentLog)
    (h : NoOpenNeighbours (pre ++ [last])) (he : last.agent = e.agent → last.finalized = true) :
    NoOpenNeighbours (pre ++ [last] ++ [e]) := by
  unfold NoOpenNeighbours at *
  rw [List.chain'_append]
  refine ⟨h, List.chain'_singleton e, ?_⟩
  intro x hx y hy
  simp only [getLast?_snoc, Option.mem_def, Option.some.injEq, List.head?_cons] at hx hy
  subst hx hy
  exact he

theorem noOpenNeighbours_update (pre : List AgentLog) (last last' : AgentLog)
    (h : NoOpenNeighbours (pre ++ [last])) (hag : last'.agent = last.agent) :
    NoOpenNeighbours (pre ++ [last']) := by
  unfold NoOpenNeighbours at *
  rw [List.chain'_append] at h ⊢
  refine ⟨h.1, List.chain'_singleton last', ?_⟩
  intro x hx y hy
  simp only [Option.mem_def, List.head?_cons, Option.some.injEq] at hy
  subst hy
  rw [hag]
  exact h.2.2 x hx last (by simp)

theorem applyOp_noOpenNeighbours (logs : List AgentLog) (op : Op) (hop : op.named)
    (h : NoOpenNeighbours logs) : NoOpenNeighbours (applyOp logs op) := by
  rcases List.eq_nil_or_concat logs with rfl | ⟨pre, last, rfl⟩
  · cases op with
    | chunk stamp a c => exact List.chain'_singleton _
    | finalize a => exact h
  · rw [List.concat_eq_append] at h ⊢
    cases op with
    | chunk stamp a c =>
      simp only [applyOp]
      by_cases hc : last.agent = a ∧ last.finalized = false
      · rw [pushOrAppend_snoc_same stamp a c noOpts pre last hc.1 hc.2]
        exact noOpenNeighbours_update pre last _ h rfl
      · rw [pushOrAppend_snoc_other stamp a c noOpts pre last hc]
        apply noOpenNeighbours_snoc pre last _ h
        intro hag
        have ha : a ≠ "" := hop
        simp only [ha, ne_eq, not_false_eq_true, if_true] at hag
        cases hf : last.finalized with
        | true => rfl
        | false => exact absurd ⟨hag, hf⟩ hc
    | finalize a =>
      simp only [applyOp]
      by_cases hc : last.agent = a ∧ last.finalized = false
      · rw [finalize_snoc_same a pre last hc.1 hc.2]
        exact noOpenNeighbours_update pre last _ h rfl
      · rw [finalize_snoc_other a pre last hc]
        exact h

theorem foldl_applyOp_noOpenNeighbours (ops : List Op) :
    ∀ logs : List AgentLog, NoOpenNeighbours logs → (∀ op ∈ ops, op.named) →
      NoOpenNeighbours (ops.foldl applyOp logs) := by
  induction ops with
  | nil => intro logs h _; exact h
  | cons op ops ih =>
    intro logs h hops
    exact ih (applyOp logs op)
      (applyOp_noOpenNeighbours logs op (hops op (List.mem_cons_self op ops)) h)
      (fun o ho => hops o (List.mem_cons_of_mem op ho))

/-- C4, amended: in every transcript reached from the empty one by finalize
operations and chunk operations with non-empty agent names, of two neighbouring
entries with the same agent name the earlier one is finalized, so neighbouring
entries of one agent are never both non-finalized. -/
theorem reachable_noOpenNeighbours (ops : List Op) (hops : ∀ op ∈ ops, op.named) :
    NoOpenNeighbours (runOps ops) :=
  foldl_applyOp_noOpenNeighbours ops [] List.chain'_nil hops

/-- Witness for the amended C4 on a run with interleaved agents and a finalize. -/
theorem reachable_noOpenNeighbours_witness :
    NoOpenNeighbours
      (runOps [.chunk ⟨"1", 1⟩ "A" "x", .chunk ⟨"2", 2⟩ "B" "y", .finalize "B",
        .chunk ⟨"3", 3⟩ "B" "z"]) :=
  reachable_noOpenNeighbours _ (by
    intro op hop
    simp only [List.mem_cons, List.mem_singleton, List.not_mem_nil, or_false] at hop
    rcases hop with rfl | rfl | rfl | rfl
    · exact (by decide : "A" ≠ "")
    · exact (by decide : "B" ≠ "")
    · exact True.intro
    · exact (by decide : "B" ≠ ""))

/-! ## Frame splitting -/

theorem splitBlankLine_ne_nil (a : List Char) : splitBlankLine a ≠ [] := by
  induction a using splitBlankLine.induct with
  | case1 => simp [splitBlankLine]
  | case2 rest _ => simp [splitBlankLine]
  | case3 c rest hc hS _ =>
    rw [splitBlankLine]
    · simp [hS]
    · intro r h1 h2; exact hc r h1 h2
  | case4 c rest hc h t hS _ =>
    rw [splitBlankLine]
    · simp [hS]
    · intro r h1 h2; exact hc r h1 h2

theorem splitBlankLine_cons (c : Char) (rest h : List Char) (t : List (List Char))
    (hc : ∀ r : List Char, c = '\n' → rest = '\n' :: r → False)
    (hS : splitBlankLine rest = h :: t) :
    splitBlankLine (c :: rest) = (c :: h) :: t := by
  rw [splitBlankLine]
  · simp [hS]
  · intro r h1 h2; exact hc r h1 h2

theorem splitBlankLine_singleton (a h : List Char) (hS : splitBlankLine a = [h]) : h = a := by
  induction a using splitBlankLine.induct generalizing h with
  | case1 => simpa [splitBlankLine] using hS.symm
  | case2 rest _ =>
    rw [splitBlankLine] at hS
    simp only [List.cons.injEq] at hS
    exact absurd hS.2 (splitBlankLine_ne_nil rest)
  | case3 c rest hc hS' _ => exact absurd hS' (splitBlankLine_ne_nil rest)
  | case4 c rest hc h' t hS' ih =>
    rw [splitBlankLine_cons c rest h' t hc hS'] at hS
    simp only [List.cons.injEq] at hS
    obtain ⟨rfl, rfl⟩ := hS
    rw [ih h' hS']

theorem splitBlankLine_append (a b : List Char) :
    splitBlankLine (a ++ b) =
      (splitBlankLine a).dropLast ++ splitBlankLine ((splitBlankLine a).getLast?.getD [] ++ b) := by
  induction a using splitBlankLine.induct with
  | case1 => simp [splitBlankLine]
  | case2 rest ih =>
    obtain ⟨h, t, hS⟩ := List.exists_cons_of_ne_nil (splitBlankLine_ne_nil rest)
    have e : '\n' :: '\n' :: rest ++ b = '\n' :: '\n' :: (rest ++ b) := rfl
    rw [e, splitBlankLine, splitBlankLine, ih, hS]
    simp [List.dropLast, List.getLast?_cons_cons]
  | case3 c rest hc hS _ => exact absurd hS (splitBlankLine_ne_nil rest)
  | case4 c rest hc h t hS ih =>
    rw [splitBlankLine_cons c rest h t hc hS]
    by_cases hsep : ∃ r, c = '\n' ∧ rest ++ b = '\n' :: r
    · obtain ⟨r, rfl, hr⟩ := hsep
      cases rest with
      | nil =>
        simp only [splitBlankLine, List.cons.injEq, List.nil_eq] at hS
        obtain ⟨rfl, rfl⟩ := hS
        simp
      | cons d rest' =>
        simp only [List.cons_append, List.cons.injEq] at hr
        exact (hc rest' rfl (by rw [hr.1])).elim
    · have hc' : ∀ r : List Char, c = '\n' → rest ++ b = '\n' :: r → False :=
        fun r h1 h2 => hsep ⟨r, h1, h2⟩
      obtain ⟨h2, t2, hS2⟩ := List.exists_cons_of_ne_nil (splitBlankLine_ne_nil (rest ++ b))
      have e : c :: rest ++ b = c :: (rest ++ b) := rfl
      rw [e, splitBlankLine_cons c (rest ++ b) h2 t2 hc' hS2]
      rw [ih, hS] at hS2
      cases t with
      | nil =>
        have hh : h = rest := splitBlankLine_singleton rest h hS
        subst hh
        simp only [List.dropLast_single, List.getLast?_singleton, Option.getD_some,
          List.nil_append] at hS2 ⊢
        have e2 : c :: h ++ b = c :: (h ++ b) := rfl
        rw [e2, splitBlankLine_cons c (h ++ b) h2 t2 hc' hS2]
      | cons t1 ts =>
        simp only [List.dropLast_cons₂, List.getLast?_cons_cons, List.cons_append,
          List.cons.injEq] at hS2 ⊢
        obtain ⟨rfl, rfl⟩ := hS2
        simp

theorem splitBlankLine_getLast_append (a b : List Char) :
    (splitBlankLine (a ++ b)).getLast?.getD [] =
      (splitBlankLine ((splitBlankLine a).getLast?.getD [] ++ b)).getLast?.getD [] := by
  obtain ⟨h, t, hS⟩ := List.exists_cons_of_ne_nil
    (splitBlankLine_ne_nil ((splitBlankLine a).getLast?.getD [] ++ b))
  rw [splitBlankLine_append a b, hS, List.getLast?_append, List.getLast?_cons]
  simp

theorem splitBlankLine_dropLast_append (a b : List Char) :
    (splitBlankLine (a ++ b)).dropLast =
      (splitBlankLine a).dropLast ++
        (splitBlankLine ((splitBlankLine a).getLast?.getD [] ++ b)).dropLast := by
  rw [splitBlankLine_append a b, List.dropLast_append_of_ne_nil _ (splitBlankLine_ne_nil _)]

theorem foldl_readStep {σ : Type} (handle : σ → List Char → σ) (values : List (List Char)) :
    ∀ (pre : List Char) (s0 : σ),
      values.foldl (readStep handle)
          ((splitBlankLine pre).getLast?.getD [],
            (splitBlankLine pre).dropLast.foldl
              (fun s chunk => handle s (chunk ++ ['\n', '\n'])) s0) =
        ((splitBlankLine (pre ++ values.flatten)).getLast?.getD [],
          (splitBlankLine (pre ++ values.flatten)).dropLast.foldl
            (fun s chunk => handle s (chunk ++ ['\n', '\n'])) s0) := by
  induction values with
  | nil => intro pre s0; simp
  | cons v vs ih =>
    intro pre s0
    have hstep : readStep handle
        ((splitBlankLine pre).getLast?.getD [],
          (splitBlankLine pre).dropLast.foldl
            (fun s chunk => handle s (chunk ++ ['\n', '\n'])) s0) v =
        ((splitBlankLine (pre ++ v)).getLast?.getD [],
          (splitBlankLine (pre ++ v)).dropLast.foldl
            (fun s chunk => handle s (chunk ++ ['\n', '\n'])) s0) := by
      simp only [readStep]
      rw [splitBlankLine_getLast_append pre v, splitBlankLine_dropLast_append pre v,
        List.foldl_append]
    rw [List.foldl_cons, hstep, ih (pre ++ v) s0]
    simp only [List.flatten_cons, List.append_assoc]

theorem readLoop_flatten {σ : Type} (handle : σ → List Char → σ) (values : List (List Char))
    (s0 : σ) : readLoop handle values s0 = readLoop handle [values.flatten] s0 := by
  have h0 : (([] : List Char), s0) =
      ((splitBlankLine []).getLast?.getD [],
        (splitBlankLine []).dropLast.foldl
          (fun s chunk => handle s (chunk ++ ['\n', '\n'])) s0) := by
    simp [splitBlankLine]
  unfold readLoop
  rw [h0, foldl_readStep handle values [] s0, foldl_readStep handle [values.flatten] [] s0]
  simp

theorem splitBlankLine_no_newline (f : List Char) (hf : '\n' ∉ f) : splitBlankLine f = [f] := by
  induction f with
  | nil => simp [splitBlankLine]
  | cons c rest ih =>
    have hc : c ≠ '\n' := fun e => hf (by simp [e])
    have hrest : '\n' ∉ rest := fun h => hf (List.mem_cons_of_mem c h)
    exact splitBlankLine_cons c rest rest [] (fun r h1 _ => hc h1) (ih hrest)

theorem splitBlankLine_terminated (f : List Char) (hf : '\n' ∉ f) :
    splitBlankLine (f ++ ['\n', '\n']) = [f, []] := by
  induction f with
  | nil => simp [splitBlankLine]
  | cons c rest ih =>
    have hc : c ≠ '\n' := fun e => hf (by simp [e])
    have hrest : '\n' ∉ rest := fun h => hf (List.mem_cons_of_mem c h)
    exact splitBlankLine_cons c (rest ++ ['\n', '\n']) rest [[]] (fun r h1 _ => hc h1) (ih hrest)

theorem framesHanded_terminated (f : List Char) (hf : '\n' ∉ f) :
    framesHanded [f ++ ['\n', '\n']] = [f ++ ['\n', '\n']] := by
  simp [framesHanded, readLoop, readStep, splitBlankLine_terminated f hf]

/-! ## Answer records -/

theorem truthy_of_get_str (evt : JsVal) (key s : String) (h : evt.get key = .str s) :
    evt.truthy = true := by
  cases evt <;> simp [JsVal.get] at h
  rfl

theorem handleRecord_answerClass (stringify : JsVal → String) (stamp : Stamp) (evt : JsVal)
    (st : ChatState) (htype : evt.answerClass) :
    handleRecord stringify stamp evt st = handleAnswer evt st := by
  rcases htype with h | h | h <;>
    · have ht := truthy_of_get_str evt "type" _ h
      simp only [handleRecord, h, ht]
      simp [JsVal.isStr, JsVal.truthy]

theorem finalizeNamed_summary (agent : JsVal) (st : ChatState) :
    (finalizeNamed agent st).summary = st.summary ∧
      (finalizeNamed agent st).recommendations = st.recommendations := by
  unfold finalizeNamed
  split
  · split <;> exact ⟨rfl, rfl⟩
  · exact ⟨rfl, rfl⟩

theorem appendSummary_prefix (prev cleaned : String) :
    prev.data <+: (appendSummary prev cleaned).data := by
  unfold appendSummary
  split
  · simp only [String.data_append, List.append_assoc]
    exact List.prefix_append _ _
  · rename_i h
    have : prev = "" := by simpa using h
    subst this
    exact List.nil_prefix

theorem answerGuidance_typed (c : JsVal) (st : ChatState)
    (hg : (c.get "synthesized_guidance").stringOrFalsy) (ht : (c.get "text").stringOrFalsy) :
    ∃ st', answerGuidance c st = some st' ∧ st'.recommendations = st.recommendations ∧
      (((c.get "synthesized_guidance").truthy = false ∧ (c.get "text").truthy = false) →
        st' = st) := by
  unfold answerGuidance
  by_cases h1 : (c.get "synthesized_guidance").truthy = true
  · obtain ⟨g, hgs⟩ := hg h1
    rw [if_pos h1, hgs]
    exact ⟨_, rfl, rfl, fun h => by rw [hgs, h.1] at h1; exact absurd h1 (by decide)⟩
  · rw [if_neg h1]
    by_cases h2 : (c.get "text").truthy = true
    · obtain ⟨g, hgs⟩ := ht h2
      rw [if_pos h2, hgs]
      exact ⟨_, rfl, rfl, fun h => by rw [hgs, h.2] at h2; exact absurd h2 (by decide)⟩
    · rw [if_neg h2]
      exact ⟨st, rfl, rfl, fun _ => rfl⟩

/-- C8: an answer-class record whose content is an object carrying an array
`recommendations` sets the recommendations to exactly that array, whatever
they were before.  The record's guidance and text are strings or falsy, as the
string-typed summary requires. -/
theorem answer_replaces_recommendations (stringify : JsVal → String) (stamp : Stamp)
    (evt : JsVal) (st : ChatState) (fields : List (String × JsVal)) (L : List JsVal)
    (htype : evt.answerClass) (hc : evt.get "content" = .obj fields)
    (hrecs : (JsVal.obj fields).get "recommendations" = .arr L)
    (hg : ((JsVal.obj fields).get "synthesized_guidance").stringOrFalsy)
    (ht : ((JsVal.obj fields).get "text").stringOrFalsy) :
    ∃ st', handleRecord stringify stamp evt st = some st' ∧ st'.recommendations = .arr L := by
  obtain ⟨st1, h1, hr, -⟩ := answerGuidance_typed (.obj fields) { st with recommendations := .arr L } hg ht
  refine ⟨finalizeNamed (evt.get "agent") st1, ?_, ?_⟩
  · rw [handleRecord_answerClass stringify stamp evt st htype]
    simp only [handleAnswer, hc, hrecs, JsVal.truthy, JsVal.isArray, Bool.and_self, if_true, h1,
      Option.map_some']
  · rw [(finalizeNamed_summary _ st1).2, hr]

/-- Witness for C8: the content `{recommendations: ["Drink water"]}` replaces
the prior list `["Rest", "Sleep"]`. -/
theorem answer_replaces_recommendations_witness :
    ∃ st', handleRecord (fun _ => "") ⟨"1", 1⟩
        (mkRecord "final" (.obj [("recommendations", .arr [.str "Drink water"])]) .undefined)
        ⟨[], "", .arr [.str "Rest", .str "Sleep"], ""⟩ = some st' ∧
      st'.recommendations = .arr [.str "Drink water"] :=
  answer_replaces_recommendations (fun _ => "") ⟨"1", 1⟩
    (mkRecord "final" (.obj [("recommendations", .arr [.str "Drink water"])]) .undefined)
    ⟨[], "", .arr [.str "Rest", .str "Sleep"], ""⟩
    [("recommendations", .arr [.str "Drink water"])] [.str "Drink water"]
    (Or.inr (Or.inl rfl)) rfl rfl (fun h => absurd h (by decide)) (fun h => absurd h (by decide))

/-- C9: an answer-class record with string content `c` sets the summary to
`cleanSynthesizedText c` when the prior summary is empty and to the prior
summary, a blank line and `cleanSynthesizedText c` otherwise; the prior summary
is a prefix of the new one. -/
theorem answer_string_appends_summary (stringify : JsVal → String) (stamp : Stamp)
    (evt : JsVal) (st : ChatState) (c : String)
    (htype : evt.answerClass) (hc : evt.get "content" = .str c) (hne : c ≠ "") :
    ∃ st', handleRecord stringify stamp evt st = some st' ∧
      st'.summary =
        (if st.summary = "" then cleanSynthesizedText c
         else st.summary ++ "\n\n" ++ cleanSynthesizedText c) ∧
      st.summary.data <+: st'.summary.data := by
  have _ := hne
  refine ⟨finalizeNamed (evt.get "agent")
    { st with summary := appendSummary st.summary (cleanSynthesizedText c) }, ?_, ?_, ?_⟩
  · rw [handleRecord_answerClass stringify stamp evt st htype]
    simp only [handleAnswer, hc, Option.map_some']
  · rw [(finalizeNamed_summary _ _).1]
    simp only [appendSummary, ne_eq, ite_not]
  · rw [(finalizeNamed_summary _ _).1]
    exact appendSummary_prefix _ _

/-- Witness for C9: the content "Rest well" after the summary "Drink water". -/
theorem answer_string_appends_summary_witness :
    ∃ st', handleRecord (fun _ => "") ⟨"1", 1⟩ (mkRecord "answer" (.str "Rest well") (.str "A"))
        ⟨[], "Drink water", .arr [], ""⟩ = some st' ∧
      st'.summary =
        (if "Drink water" = "" then cleanSynthesizedText "Rest well"
         else "Drink water" ++ "\n\n" ++ cleanSynthesizedText "Rest well") ∧
      "Drink water".data <+: st'.summary.data :=
  answer_string_appends_summary (fun _ => "") ⟨"1", 1⟩ (mkRecord "answer" (.str "Rest well") (.str "A"))
    ⟨[], "Drink water", .arr [], ""⟩ "Rest well" (Or.inl rfl) rfl (by decide)

/-- Counterexample to C10: after the summary "abc" a final record with the
empty string as content changes the summary to "abc" followed by a blank line,
and after the recommendations `["x"]` a final record with the content
`{recommendations: []}` changes them to the empty list. -/
theorem empty_answer_fields_change_state :
    (∃ st', handleRecord (fun _ => "") ⟨"1", 1⟩ (mkRecord "final" (.str "") .undefined)
          ⟨[], "abc", .arr [.str "x"], ""⟩ = some st' ∧
        st'.summary = "abc\n\n" ∧ st'.summary ≠ "abc") ∧
    (∃ st', handleRecord (fun _ => "") ⟨"1", 1⟩
          (mkRecord "final" (.obj [("recommendations", .arr [])]) .undefined)
          ⟨[], "abc", .arr [.str "x"], ""⟩ = some st' ∧
        st'.recommendations = .arr [] ∧ st'.recommendations ≠ .arr [.str "x"]) := by
  refine ⟨⟨⟨[], "abc\n\n", .arr [.str "x"], ""⟩, rfl, rfl, by decide⟩,
    ⟨⟨[], "abc", .arr [], ""⟩, rfl, rfl, ?_⟩⟩
  intro h
  cases h

/-- C10, amended: for an answer-class record whose content is an object with
falsy (empty or missing) guidance and text, the summary stays as it was, the
recommendations stay as they were unless the object carries an array
`recommendations`, and an array, the empty one included, replaces them; a
record whose content is the empty string leaves the recommendations as they
were. -/
theorem empty_answer_fields_amended (stringify : JsVal → String) (stamp : Stamp)
    (evt : JsVal) (st : ChatState) (htype : evt.answerClass) :
    (evt.get "content" = .str "" →
      ∃ st', handleRecord stringify stamp evt st = some st' ∧
        st'.recommendations = st.recommendations) ∧
    (∀ fields : List (String × JsVal), evt.get "content" = .obj fields →
      ((JsVal.obj fields).get "synthesized_guidance").truthy = false →
      ((JsVal.obj fields).get "text").truthy = false →
      ∃ st', handleRecord stringify stamp evt st = some st' ∧
        st'.summary = st.summary ∧
        (((JsVal.obj fields).get "recommendations").isArray = false →
          st'.recommendations = st.recommendations) ∧
        (∀ L, (JsVal.obj fields).get "recommendations" = .arr L →
          st'.recommendations = .arr L)) := by
  rw [handleRecord_answerClass stringify stamp evt st htype]
  constructor
  · intro hc
    refine ⟨_, by simp only [handleAnswer, hc, Option.map_some']; rfl, ?_⟩
    rw [(finalizeNamed_summary _ _).2]
  · intro fields hc hg ht
    have hgt : ∀ s0 : ChatState, answerGuidance (.obj fields) s0 = some s0 := by
      intro s0
      simp only [answerGuidance, hg, ht, Bool.false_eq_true, if_false]
    refine ⟨_, by simp only [handleAnswer, hc, hgt, Option.map_some']; rfl, ?_, ?_, ?_⟩
    · rw [(finalizeNamed_summary _ _).1]
      split <;> rfl
    · intro harr
      rw [(finalizeNamed_summary _ _).2, harr]
      simp
    · intro L hL
      rw [(finalizeNamed_summary _ _).2, hL]
      simp [JsVal.truthy, JsVal.isArray]

/-- Witness for the amended C10: the content `{text: ""}` after the summary
"abc" and the recommendations `["x"]`. -/
theorem empty_answer_fields_amended_witness :
    (mkRecord "final" (.obj [("text", .str "")]) .undefined).answerClass ∧
    ∃ st', handleRecord (fun _ => "") ⟨"1", 1⟩
        (mkRecord "final" (.obj [("text", .str "")]) .undefined)
        ⟨[], "abc", .arr [.str "x"], ""⟩ = some st' ∧
      st'.summary = "abc" ∧ st'.recommendations = .arr [.str "x"] := by
  refine ⟨Or.inr (Or.inl rfl), ?_⟩
  obtain ⟨st', h, hs, hr, -⟩ :=
    (empty_answer_fields_amended (fun _ => "") ⟨"1", 1⟩
      (mkRecord "final" (.obj [("text", .str "")]) .undefined)
      ⟨[], "abc", .arr [.str "x"], ""⟩ (Or.inr (Or.inl rfl))).2
      [("text", .str "")] rfl rfl rfl
  exact ⟨st', h, hs, hr rfl⟩

/-! ## Idempotence of the normalisers on already repaired text -/

theorem replaceAll_of_no_match (m : Matcher) (l : List Char)
    (h : ∀ s, s <:+ l → m s = none) : replaceAll m 0 l = l := by
  induction l with
  | nil => rfl
  | cons c rest ih =>
    have hc : m (c :: rest) = none := h _ (List.suffix_refl _)
    simp only [replaceAll, hc]
    rw [ih (fun s hs => h s (hs.trans (List.suffix_cons c rest)))]

theorem noAdjacent_iff_chain (P Q : Char → Bool) (l : List Char) :
    NoAdjacent P Q l ↔ l.Chain' (fun a b => ¬ (P a = true ∧ Q b = true)) := by
  unfold NoAdjacent
  induction l with
  | nil => simp [noAdjacentPair]
  | cons a rest ih =>
    cases rest with
    | nil => simp [noAdjacentPair]
    | cons b rest' =>
      rw [List.chain'_cons, ← ih]
      simp only [noAdjacentPair, Bool.and_eq_true, Bool.not_eq_true', Bool.and_eq_false_imp,
        not_and, Bool.not_eq_true]

theorem noAdjacent_of_isInfix {P Q : Char → Bool} {l s : List Char} (h : NoAdjacent P Q l)
    (hs : s <:+: l) : NoAdjacent P Q s :=
  (noAdjacent_iff_chain P Q s).mpr <| List.Chain'.infix ((noAdjacent_iff_chain P Q l).mp h) hs

theorem noAdjacent_suffix {P Q : Char → Bool} {l s : List Char} (h : NoAdjacent P Q l)
    (hs : s <:+ l) : NoAdjacent P Q s :=
  noAdjacent_of_isInfix h hs.isInfix

theorem noAdjacent_head {P Q : Char → Bool} {a b : Char} {rest : List Char}
    (h : NoAdjacent P Q (a :: b :: rest)) : ¬ (P a = true ∧ Q b = true) :=
  (List.chain'_cons.mp ((noAdjacent_iff_chain P Q _).mp h)).1

theorem spaceBetween_none (P Q : Char → Bool) (l : List Char) (h : NoAdjacent P Q l) :
    ∀ s, s <:+ l → spaceBetween P Q s = none := by
  intro s hs
  have hs' := noAdjacent_suffix h hs
  match s, hs' with
  | [], _ => rfl
  | [_], _ => rfl
  | a :: b :: rest, hs' =>
    have := noAdjacent_head hs'
    simp only [spaceBetween]
    rw [if_neg]
    simpa using this

theorem hyphenBreak_none (s : List Char) (h : '\n' ∉ s) : hyphenBreak s = none := by
  unfold hyphenBreak
  split
  · exact absurd (by simp) h
  · rfl

theorem softBreak_none (s : List Char) (h : '\n' ∉ s) : softBreak s = none := by
  unfold softBreak
  split
  · rename_i a b rest
    exact absurd (by simp) h
  · rfl

theorem overEmphasis_none (s : List Char) (h : '*' ∉ s) : overEmphasis s = none := by
  unfold overEmphasis
  split
  · exact absurd (by simp) h
  · rfl

theorem newlineRun_none (s : List Char) (h : '\n' ∉ s) : newlineRun s = none := by
  unfold newlineRun
  cases s with
  | nil => simp
  | cons c rest =>
    have hc : c ≠ '\n' := fun e => h (by simp [e])
    simp [List.takeWhile, hc]

theorem not_mem_of_suffix {c : Char} {l s : List Char} (h : c ∉ l) (hs : s <:+ l) : c ∉ s :=
  fun hc => h (hs.subset hc)

theorem repairSteps_of_repaired (t : List Char) (h : Repaired t) : repairSteps t = t := by
  obtain ⟨hnl, hstar, h1, h2, h5, h6⟩ := h
  unfold repairSteps
  simp only
  rw [replaceAll_of_no_match splitCamel t (spaceBetween_none _ _ t h1),
    replaceAll_of_no_match spaceAfterPunct t (spaceBetween_none _ _ t h2),
    replaceAll_of_no_match hyphenBreak t (fun s hs => hyphenBreak_none s (not_mem_of_suffix hnl hs)),
    replaceAll_of_no_match softBreak t (fun s hs => softBreak_none s (not_mem_of_suffix hnl hs)),
    replaceAll_of_no_match spaceAfterMarker t (spaceBetween_none _ _ t h5),
    replaceAll_of_no_match spaceBeforeColon t (spaceBetween_none _ _ t h6),
    replaceAll_of_no_match overEmphasis t
      (fun s hs => overEmphasis_none s (not_mem_of_suffix hstar hs))]

theorem splitOnChar_of_not_mem (sep : Char) (t : List Char) (h : sep ∉ t) :
    splitOnChar sep t = [t] := by
  induction t with
  | nil => rfl
  | cons c rest ih =>
    have hc : c ≠ sep := fun e => h (by simp [e])
    have hrest : sep ∉ rest := fun hm => h (List.mem_cons_of_mem c hm)
    simp [splitOnChar, hc, ih hrest]

theorem jsTrim_isInfix (l : List Char) : jsTrim l <:+: l :=
  (List.rdropWhile_prefix _ _).isInfix.trans (List.dropWhile_suffix _).isInfix

theorem not_mem_jsTrim {c : Char} {l : List Char} (h : c ∉ l) : c ∉ jsTrim l :=
  fun hc => h ((jsTrim_isInfix l).subset hc)

theorem dropWhile_rdropWhile_dropWhile (p : Char → Bool) (l : List Char) :
    ((l.dropWhile p).rdropWhile p).dropWhile p = (l.dropWhile p).rdropWhile p := by
  rw [List.dropWhile_eq_self_iff]
  intro hl
  obtain ⟨rest, hrest⟩ := List.rdropWhile_prefix p (l.dropWhile p)
  have hne : (l.dropWhile p).rdropWhile p ≠ [] := List.ne_nil_of_length_pos hl
  obtain ⟨a, as, has⟩ := List.exists_cons_of_ne_nil hne
  have hd : l.dropWhile p = a :: (as ++ rest) := by rw [← hrest, has]; rfl
  have ha : ¬ p a = true := by
    have := List.dropWhile_idempotent (p := p) (l := l)
    rw [hd, List.dropWhile_eq_self_iff] at this
    exact this (by simp)
  simpa [has] using ha

theorem jsTrim_idempotent (l : List Char) : jsTrim (jsTrim l) = jsTrim l := by
  unfold jsTrim
  rw [dropWhile_rdropWhile_dropWhile, List.rdropWhile_idempotent]

theorem joinWith_singleton (sep l : List Char) : joinWith sep [l] = l := by
  simp [joinWith, List.intercalate]

theorem buildParagraphs_singleton (l : List Char) : buildParagraphs [l] = [l] := by
  unfold buildParagraphs
  simp only [List.foldl_cons, List.foldl_nil, paragraphStep]
  by_cases h : isStructural l = true
  · simp [h]
  · simp [h, joinWith_singleton]

theorem cleanChars_of_repaired (t : List Char) (h : Repaired t) :
    cleanChars t = if jsTrim t = [] then t else jsTrim t := by
  have hnl : '\n' ∉ t := h.1
  unfold cleanChars
  simp only [repairSteps_of_repaired t h, splitOnChar_of_not_mem '\n' t hnl, List.map_cons,
    List.map_nil]
  by_cases hT : jsTrim t = []
  · simp [hT]
  · have hfilter : List.filter (fun l => decide (l ≠ [])) [jsTrim t] = [jsTrim t] := by
      simp [List.filter, hT]
    simp only [hfilter, if_neg hT, List.length_singleton, Nat.one_ne_zero, if_false]
    have htrim : '\n' ∉ jsTrim t := not_mem_jsTrim hnl
    split
    · rw [buildParagraphs_singleton]
      rw [joinWith_singleton, replaceAll_of_no_match newlineRun _
        (fun s hs => newlineRun_none s (not_mem_of_suffix htrim hs)), jsTrim_idempotent]
    · rw [replaceAll_of_no_match newlineRun _
        (fun s hs => newlineRun_none s (not_mem_of_suffix hnl hs))]

theorem repaired_of_isInfix {l s : List Char} (h : Repaired l) (hs : s <:+: l) : Repaired s :=
  ⟨fun hc => h.1 (hs.subset hc), fun hc => h.2.1 (hs.subset hc), noAdjacent_of_isInfix h.2.2.1 hs,
    noAdjacent_of_isInfix h.2.2.2.1 hs, noAdjacent_of_isInfix h.2.2.2.2.1 hs,
    noAdjacent_of_isInfix h.2.2.2.2.2 hs⟩

theorem cleanChars_idempotent_of_repaired (t : List Char) (h : Repaired t) :
    cleanChars (cleanChars t) = cleanChars t := by
  rw [cleanChars_of_repaired t h]
  by_cases hT : jsTrim t = []
  · rw [if_pos hT, cleanChars_of_repaired t h, if_pos hT]
  · rw [if_neg hT, cleanChars_of_repaired _ (repaired_of_isInfix h (jsTrim_isInfix t)), jsTrim_idempotent,
      if_neg hT]

/-! ## normalizeMarkdown on normalised text -/

theorem adjacent_of_takeWhile (p P Q : Char → Bool) (s : List Char) (y : Char) (ys : List Char)
    (hne : s.takeWhile p ≠ []) (hd : s.dropWhile p = y :: ys) (hP : ∀ c, p c = true → P c = true)
    (hQ : Q y = true) : ¬ NoAdjacent P Q s := by
  intro h
  have hc := (noAdjacent_iff_chain P Q s).mp h
  rw [← List.takeWhile_append_dropWhile p s, hd, List.chain'_append] at hc
  obtain ⟨x, hx⟩ := Option.isSome_iff_exists.mp (List.getLast?_isSome.mpr hne)
  have hpx : p x = true := (List.mem_takeWhile_imp (List.mem_of_getLast?_eq_some hx))
  exact hc.2.2 x hx y (by simp) ⟨hP x hpx, hQ⟩

theorem headingSpace_none (s : List Char) (h : '#' ∉ s) : headingSpace s = none := by
  unfold headingSpace
  split
  · exact absurd (by simp) h
  · rfl

theorem boldOpen_none (s : List Char) (h : '*' ∉ s) : boldOpen s = none := by
  unfold boldOpen
  split
  · exact absurd (by simp) h
  · rfl

theorem boldClose_none (s : List Char) (h : '*' ∉ s) : boldClose s = none := by
  unfold boldClose
  split
  · rename_i heq
    have : '*' ∈ s.dropWhile isJsSpace := by rw [heq]; simp
    exact absurd ((List.dropWhile_suffix isJsSpace).subset this) h
  · rfl

theorem doubleColon_none (s : List Char)
    (h : NoAdjacent (fun c => c = ':') (fun c => c = ':') s) : doubleColon s = none := by
  unfold doubleColon
  split
  · rename_i r heq
    have hs := noAdjacent_suffix h (List.dropWhile_suffix isJsSpace)
    rw [heq] at hs
    exact absurd ⟨by simp, by simp⟩ (noAdjacent_head hs)
  · rfl

theorem bulletSpace_none (s : List Char) (hstar : '*' ∉ s)
    (h : NoAdjacent (fun c => c = '-') isJsSpace s) : bulletSpace s = none := by
  unfold bulletSpace
  split
  · rename_i c rest
    split
    · rename_i hc
      split
      · rfl
      · rename_i w ws hw
        have hcstar : c ≠ '*' := fun e => hstar (by simp [e])
        have hcm : c = '-' := by simpa [hcstar] using hc
        cases rest with
        | nil => simp at hw
        | cons d rest' =>
          have hd : isJsSpace d = true := by
            by_contra hd
            simp [List.takeWhile, hd] at hw
          exact absurd ⟨by simp [hcm], hd⟩ (noAdjacent_head h)
    · rfl
  · rfl

theorem spaceBeforePunct_none (s : List Char) (h : NoAdjacent isJsSpace isClosingPunct s) :
    spaceBeforePunct s = none := by
  unfold spaceBeforePunct
  split
  · rename_i w ws p rest hw hd
    split
    · rename_i hp
      exact absurd h
        (adjacent_of_takeWhile isJsSpace isJsSpace isClosingPunct s p rest (by simp [hw]) hd
          (fun _ hc => hc) hp)
    · rfl
  · rfl

theorem numberedDot_none (s : List Char) (h1 : NoAdjacent isDigit09 (fun c => c = '.') s)
    (h2 : NoAdjacent isJsSpace isClosingPunct s) : numberedDot s = none := by
  unfold numberedDot
  dsimp only
  split
  · rename_i d ds r2 hdig hdrop
    by_cases hw : (s.dropWhile isDigit09).takeWhile isJsSpace = []
    · have hr : s.dropWhile isDigit09 = '.' :: r2 := by
        rw [← List.takeWhile_append_dropWhile isJsSpace (s.dropWhile isDigit09), hw, hdrop]
        rfl
      exact absurd h1
        (adjacent_of_takeWhile isDigit09 isDigit09 (fun c => c = '.') s '.' r2 (by simp [hdig]) hr
          (fun _ hc => hc) (by simp))
    · have hs := noAdjacent_suffix h2 (List.dropWhile_suffix isDigit09)
      exact absurd hs
        (adjacent_of_takeWhile isJsSpace isJsSpace isClosingPunct _ '.' r2 hw hdrop
          (fun _ hc => hc) (by decide))
  · rfl

theorem headingLine_none (s : List Char) (h : '#' ∉ s) : headingLine s = none := by
  have ht : s.takeWhile (fun c => c = '#') = [] := by
    cases s with
    | nil => rfl
    | cons c rest =>
      have hc : c ≠ '#' := fun e => h (by simp [e])
      simp [List.takeWhile, hc]
  unfold headingLine
  simp only [ht]

theorem headingAfterBreak_none (s : List Char) (h : '\n' ∉ s) : headingAfterBreak s = none := by
  unfold headingAfterBreak
  split
  · exact absurd (by simp) h
  · rfl

theorem replaceAllAnchored_of_no_match (m0 m : Matcher) (l : List Char) (h0 : m0 l = none)
    (h : ∀ s, s <:+ l → m s = none) : replaceAllAnchored m0 m l = l := by
  cases l with
  | nil => rfl
  | cons c rest =>
    simp only [replaceAllAnchored, h0]
    rw [replaceAll_of_no_match m rest (fun s hs => h s (hs.trans (List.suffix_cons c rest)))]

theorem markdownSteps_of_normalized (t : List Char) (h : Normalized t) : markdownSteps t = t := by
  obtain ⟨⟨hnl, hstar, -⟩, hhash, hdot, hcolon, hhyphen, hpunct⟩ := h
  unfold markdownSteps
  simp only
  rw [replaceAll_of_no_match headingSpace t
      (fun s hs => headingSpace_none s (not_mem_of_suffix hhash hs)),
    replaceAll_of_no_match numberedDot t
      (fun s hs => numberedDot_none s (noAdjacent_suffix hdot hs) (noAdjacent_suffix hpunct hs)),
    replaceAll_of_no_match boldOpen t (fun s hs => boldOpen_none s (not_mem_of_suffix hstar hs)),
    replaceAll_of_no_match boldClose t (fun s hs => boldClose_none s (not_mem_of_suffix hstar hs)),
    replaceAll_of_no_match doubleColon t
      (fun s hs => doubleColon_none s (noAdjacent_suffix hcolon hs)),
    replaceAll_of_no_match bulletSpace t
      (fun s hs => bulletSpace_none s (not_mem_of_suffix hstar hs) (noAdjacent_suffix hhyphen hs)),
    replaceAll_of_no_match spaceBeforePunct t
      (fun s hs => spaceBeforePunct_none s (noAdjacent_suffix hpunct hs)),
    replaceAllAnchored_of_no_match headingAtStart headingAfterBreak t
      (by simp only [headingAtStart, headingAfterBreak_none t hnl, headingLine_none t hhash,
            Option.map_none'])
      (fun s hs => headingAfterBreak_none s (not_mem_of_suffix hnl hs))]

theorem normalized_of_isInfix {l s : List Char} (h : Normalized l) (hs : s <:+: l) : Normalized s :=
  ⟨repaired_of_isInfix h.1 hs, fun hc => h.2.1 (hs.subset hc), noAdjacent_of_isInfix h.2.2.1 hs,
    noAdjacent_of_isInfix h.2.2.2.1 hs, noAdjacent_of_isInfix h.2.2.2.2.1 hs,
    noAdjacent_of_isInfix h.2.2.2.2.2 hs⟩

theorem normalizeMarkdown_of_normalized (text : String) (h : Normalized text.data) :
    normalizeMarkdown text = ⟨jsTrim text.data⟩ := by
  by_cases he : text = ""
  · subst he
    rfl
  · have hc : (cleanSynthesizedText text).data = cleanChars text.data := by
      simp only [cleanSynthesizedText, if_neg he]
    simp only [normalizeMarkdown, if_neg he, hc, cleanChars_of_repaired text.data h.1]
    by_cases hT : jsTrim text.data = []
    · rw [if_pos hT, markdownSteps_of_normalized _ h]
    · rw [if_neg hT, markdownSteps_of_normalized _ (normalized_of_isInfix h (jsTrim_isInfix _)),
        jsTrim_idempotent]

/-- Counterexample to C2: the input `a-\nB` is normalised to `aB` (the hyphen
and line break are removed after the camel-case step has run), and normalising
`aB` again gives `a B`. -/
theorem normalizeMarkdown_not_idempotent :
    normalizeMarkdown "a-\nB" = "aB" ∧
    normalizeMarkdown (normalizeMarkdown "a-\nB") = "a B" ∧
    normalizeMarkdown (normalizeMarkdown "a-\nB") ≠ normalizeMarkdown "a-\nB" := by
  refine ⟨by decide, by decide, by decide⟩

/-- C2, amended: `normalizeMarkdown` is idempotent on every input that is
already normalised: a single line without `*` and `#` in which none of the
two-character patterns of `cleanSynthesizedText` occurs, no digit is directly
followed by a dot, no colon by a colon, no hyphen by white space and no white
space by one of `,.!?;:`. -/
theorem normalizeMarkdown_idempotent_of_normalized (text : String) (h : Normalized text.data) :
    normalizeMarkdown (normalizeMarkdown text) = normalizeMarkdown text := by
  rw [normalizeMarkdown_of_normalized text h]
  rw [normalizeMarkdown_of_normalized ⟨jsTrim text.data⟩ (normalized_of_isInfix h (jsTrim_isInfix _))]
  simp only [jsTrim_idempotent]

/-- Witness for the amended C2: a line of spaced prose with surrounding blanks. -/
theorem normalizeMarkdown_idempotent_of_normalized_witness :
    Normalized "  Hello world. Drink 2 cups, then rest!  ".data ∧
    normalizeMarkdown (normalizeMarkdown "  Hello world. Drink 2 cups, then rest!  ") =
      normalizeMarkdown "  Hello world. Drink 2 cups, then rest!  " :=
  ⟨by unfold Normalized Repaired; decide,
    normalizeMarkdown_idempotent_of_normalized "  Hello world. Drink 2 cups, then rest!  "
      (by unfold Normalized Repaired; decide)⟩

/-! ## Finalize by agent name -/

theorem answerGuidance_agentLogs (c : JsVal) (st st' : ChatState)
    (h : answerGuidance c st = some st') : st'.agentLogs = st.agentLogs := by
  unfold answerGuidance at h
  split at h
  · split at h
    · simp only [Option.some.injEq] at h
      rw [← h]
    · exact absurd h (by simp)
  · split at h
    · split at h
      · simp only [Option.some.injEq] at h
        rw [← h]
      · exact absurd h (by simp)
    · simp only [Option.some.injEq] at h
      rw [← h]

theorem handleAnswer_typed (evt : JsVal) (st : ChatState)
    (hc : (evt.get "content").guidanceTyped) :
    ∃ st1, handleAnswer evt st = some (finalizeNamed (evt.get "agent") st1) ∧
      st1.agentLogs = st.agentLogs := by
  unfold handleAnswer
  cases hcontent : evt.get "content" with
  | str s => exact ⟨_, rfl, rfl⟩
  | obj fields =>
    rw [hcontent] at hc
    obtain ⟨st1, h1, -⟩ := answerGuidance_typed (.obj fields)
      (if ((JsVal.obj fields).get "recommendations").truthy &&
          ((JsVal.obj fields).get "recommendations").isArray
        then { st with recommendations := (JsVal.obj fields).get "recommendations" } else st)
      hc.1 hc.2
    refine ⟨st1, by simp only [h1, Option.map_some'], ?_⟩
    rw [answerGuidance_agentLogs _ _ _ h1]
    split <;> rfl
  | arr items =>
    rw [hcontent] at hc
    obtain ⟨st1, h1, -⟩ := answerGuidance_typed (.arr items)
      (if ((JsVal.arr items).get "recommendations").truthy &&
          ((JsVal.arr items).get "recommendations").isArray
        then { st with recommendations := (JsVal.arr items).get "recommendations" } else st)
      hc.1 hc.2
    refine ⟨st1, by simp only [h1, Option.map_some'], ?_⟩
    rw [answerGuidance_agentLogs _ _ _ h1]
    split <;> rfl
  | undefined => exact ⟨_, rfl, rfl⟩
  | null => exact ⟨_, rfl, rfl⟩
  | bool b => exact ⟨_, rfl, rfl⟩
  | num n => exact ⟨_, rfl, rfl⟩

theorem finalizeNamed_str (A : String) (hA : A ≠ "") (st : ChatState) :
    (finalizeNamed (.str A) st).agentLogs = finalizeAgentLog A st.agentLogs := by
  simp [finalizeNamed, JsVal.truthy, hA]

/-- Counterexample to C11: after chunks of agents A and B the entry of A is
non-finalized, yet `finalizeAgentLog "A"` returns the transcript unchanged,
because the last entry belongs to B. -/
theorem finalize_misses_earlier_open_entry :
    (∃ e ∈ runOps [.chunk ⟨"1", 1⟩ "A" "x", .chunk ⟨"2", 2⟩ "B" "y"],
        e.agent = "A" ∧ e.finalized = false) ∧
    finalizeAgentLog "A" (runOps [.chunk ⟨"1", 1⟩ "A" "x", .chunk ⟨"2", 2⟩ "B" "y"]) =
      runOps [.chunk ⟨"1", 1⟩ "A" "x", .chunk ⟨"2", 2⟩ "B" "y"] := by
  decide

/-- C11, amended: when the last entry of the transcript is a non-finalized
entry of agent A, `finalizeAgentLog A` marks that entry finalized with status
done and keeps everything else; it returns the transcript unchanged exactly
when the last entry is not a non-finalized entry of A; and an answer-class
record naming the agent A changes the transcript as `finalizeAgentLog A` does. -/
theorem finalize_last_entry (A : String) (logs : List AgentLog) :
    (∀ pre last, logs = pre ++ [last] → last.agent = A → last.finalized = false →
      finalizeAgentLog A logs = pre ++ [{ last with finalized := true, status := "done" }]) ∧
    (finalizeAgentLog A logs = logs ↔
      ¬ ∃ last, logs.getLast? = some last ∧ last.agent = A ∧ last.finalized = false) ∧
    (∀ (stringify : JsVal → String) (stamp : Stamp) (evt : JsVal) (st : ChatState),
      evt.answerClass → evt.get "agent" = .str A → A ≠ "" → (evt.get "content").guidanceTyped →
      st.agentLogs = logs →
      ∃ st', handleRecord stringify stamp evt st = some st' ∧
        st'.agentLogs = finalizeAgentLog A logs) := by
  refine ⟨?_, ?_, ?_⟩
  · intro pre last hlogs hag hfin
    rw [hlogs, finalize_snoc_same A pre last hag hfin]
  · rcases List.eq_nil_or_concat logs with rfl | ⟨pre, last, rfl⟩
    · simp [finalizeAgentLog]
    · rw [List.concat_eq_append]
      by_cases h : last.agent = A ∧ last.finalized = false
      · rw [finalize_snoc_same A pre last h.1 h.2]
        constructor
        · intro heq
          have hl := List.append_cancel_left heq
          simp only [List.cons.injEq, and_true] at hl
          have hf := congrArg AgentLog.finalized hl
          simp only [h.2] at hf
          exact absurd hf (by decide)
        · intro hno
          exact absurd ⟨last, by simp, h.1, h.2⟩ hno
      · rw [finalize_snoc_other A pre last h]
        constructor
        · intro _ hex
          obtain ⟨l, hl, hag, hfin⟩ := hex
          simp only [getLast?_snoc, Option.some.injEq] at hl
          subst hl
          exact h ⟨hag, hfin⟩
        · intro _
          rfl
  · intro stringify stamp evt st htype hagent hA hc hlogs
    obtain ⟨st1, h1, hl1⟩ := handleAnswer_typed evt st hc
    refine ⟨_, by rw [handleRecord_answerClass stringify stamp evt st htype, h1], ?_⟩
    rw [hagent, finalizeNamed_str A hA, hl1, hlogs]

/-- Witness for the amended C11: the answer record of agent "A" after one
chunk of "A". -/
theorem finalize_last_entry_witness :
    ∃ st', handleRecord (fun _ => "") ⟨"2", 2⟩ (mkRecord "answer" (.str "Rest") (.str "A"))
        ⟨runOps [.chunk ⟨"1", 1⟩ "A" "x"], "", .arr [], ""⟩ = some st' ∧
      st'.agentLogs = finalizeAgentLog "A" (runOps [.chunk ⟨"1", 1⟩ "A" "x"]) :=
  (finalize_last_entry "A" (runOps [.chunk ⟨"1", 1⟩ "A" "x"])).2.2 (fun _ => "") ⟨"2", 2⟩
    (mkRecord "answer" (.str "Rest") (.str "A")) ⟨runOps [.chunk ⟨"1", 1⟩ "A" "x"], "", .arr [], ""⟩
    (Or.inl rfl) rfl (by decide)
    ⟨fun h => absurd h (by decide), fun h => absurd h (by decide)⟩ rfl

/-! ## Frames and payloads -/

theorem all_space_of_jsTrim_nil (p : List Char) (h : jsTrim p = []) :
    ∀ c ∈ p, isJsSpace c = true := by
  unfold jsTrim at h
  have hd : p.dropWhile isJsSpace = [] := by
    by_contra hne
    obtain ⟨a, as, has⟩ := List.exists_cons_of_ne_nil hne
    have ha : ¬ isJsSpace a = true := by
      have := List.dropWhile_idempotent (p := isJsSpace) (l := p)
      rw [has, List.dropWhile_eq_self_iff] at this
      exact this (by simp)
    rw [List.rdropWhile_eq_nil_iff] at h
    exact ha (h a (by rw [has]; simp))
  exact List.dropWhile_eq_nil_iff.mp hd

theorem jsTrim_nil_of_all_space (p : List Char) (h : ∀ c ∈ p, isJsSpace c = true) :
    jsTrim p = [] := by
  unfold jsTrim
  rw [List.dropWhile_eq_nil_iff.mpr h]
  rfl

theorem mem_of_mem_splitOnChar (sep : Char) (p : List Char) :
    ∀ ln ∈ splitOnChar sep p, ∀ c ∈ ln, c ∈ p := by
  induction p with
  | nil =>
    intro ln hln c hc
    simp only [splitOnChar, List.mem_singleton] at hln
    rw [hln] at hc
    exact hc
  | cons a rest ih =>
    intro ln hln c hc
    unfold splitOnChar at hln
    split at hln
    · rcases List.mem_cons.mp hln with rfl | hmem
      · exact absurd hc (List.not_mem_nil c)
      · exact List.mem_cons_of_mem a (ih ln hmem c hc)
    · split at hln
      · rename_i hS
        simp only [List.mem_singleton] at hln
        rw [hln] at hc
        rcases List.mem_cons.mp hc with rfl | h
        · exact List.mem_cons_self _ _
        · exact absurd h (List.not_mem_nil c)
      · rename_i h0 t0 hS
        rcases List.mem_cons.mp hln with rfl | hmem
        · rcases List.mem_cons.mp hc with rfl | h
          · exact List.mem_cons_self _ _
          · exact List.mem_cons_of_mem a (ih h0 (by rw [hS]; exact List.mem_cons_self _ _) c h)
        · exact List.mem_cons_of_mem a (ih ln (by rw [hS]; exact List.mem_cons_of_mem _ hmem) c hc)

theorem jsTrim_ne_nil_of_dataLines (p : List Char) (h : dataLines p ≠ []) : jsTrim p ≠ [] := by
  intro hp
  obtain ⟨ln, lns, hlns⟩ := List.exists_cons_of_ne_nil h
  have hmem : ln ∈ dataLines p := by rw [hlns]; exact List.mem_cons_self _ _
  unfold dataLines at hmem
  rw [List.mem_filter] at hmem
  have hall : ∀ c ∈ ln, isJsSpace c = true :=
    fun c hc => all_space_of_jsTrim_nil p hp c (mem_of_mem_splitOnChar '\n' p ln hmem.1 c hc)
  have hln : jsTrim ln = [] := jsTrim_nil_of_all_space ln hall
  have hd := hmem.2
  simp [isDataLine, hln] at hd

theorem handleFrame_blank (parse : String → Option JsVal) (stringify : JsVal → String)
    (stamp : Stamp) (st : ChatState) : handleFrame parse stringify stamp [] st = some st := by
  simp [handleFrame, jsTrim]

theorem handleSseChunk_terminated (parse : String → Option JsVal) (stringify : JsVal → String)
    (stamps : Nat → Stamp) (raw p : List Char) (st : ChatState)
    (hraw : splitBlankLine raw = [p, []]) :
    handleSseChunk parse stringify stamps raw st = handleFrame parse stringify (stamps 0) p st := by
  unfold handleSseChunk
  rw [hraw]
  cases h : handleFrame parse stringify (stamps 0) p st with
  | none => simp [handleParts, h]
  | some st' => simp [handleParts, h, handleFrame_blank]

/-- C12: a frame with data lines whose payload `JSON.parse` rejects does not
make `handleSseChunk` fail: the frame makes exactly one push for the default
agent "Agent" with the raw payload as chunk, and summary, recommendations and
status stay as they were; the same holds for the frame followed by its blank
line, as the read loop hands it over. -/
theorem decode_failure_recovered (parse : String → Option JsVal) (stringify : JsVal → String)
    (stamps : Nat → Stamp) (p : List Char) (st : ChatState)
    (hdata : dataLines p ≠ []) (hbad : parse ⟨payload p⟩ = none) :
    (∃ st', handleFrame parse stringify (stamps 0) p st = some st' ∧
      st'.agentLogs = pushOrAppendAgentLog (stamps 0) "Agent" ⟨payload p⟩ noOpts st.agentLogs ∧
      st'.summary = st.summary ∧ st'.recommendations = st.recommendations ∧
      st'.status = st.status) ∧
    (∀ raw, splitBlankLine raw = [p, []] →
      ∃ st', handleSseChunk parse stringify stamps raw st = some st' ∧
        st'.agentLogs = pushOrAppendAgentLog (stamps 0) "Agent" ⟨payload p⟩ noOpts st.agentLogs ∧
        st'.summary = st.summary ∧ st'.recommendations = st.recommendations ∧
        st'.status = st.status) := by
  have hframe : handleFrame parse stringify (stamps 0) p st =
      some { st with
        agentLogs := pushOrAppendAgentLog (stamps 0) "Agent" ⟨payload p⟩ noOpts st.agentLogs } := by
    have hlen : (dataLines p).length ≠ 0 := fun h => hdata (List.length_eq_zero.mp h)
    simp only [handleFrame, if_neg (jsTrim_ne_nil_of_dataLines p hdata), if_neg hlen, hbad]
  refine ⟨⟨_, hframe, rfl, rfl, rfl, rfl⟩, ?_⟩
  intro raw hraw
  exact ⟨_, (handleSseChunk_terminated parse stringify stamps raw p st hraw).trans hframe,
    rfl, rfl, rfl, rfl⟩

/-- Witness for C12: the frame `data: hello` with a parser that rejects it. -/
theorem decode_failure_recovered_witness :
    ∃ st', handleSseChunk (fun _ => none) (fun _ => "") (fun i => ⟨"id", i⟩)
        "data: hello\n\n".data ⟨[], "s", .arr [], "busy"⟩ = some st' ∧
      st'.agentLogs =
        pushOrAppendAgentLog ⟨"id", 0⟩ "Agent" ⟨payload "data: hello".data⟩ noOpts [] ∧
      st'.summary = "s" ∧ st'.recommendations = .arr [] ∧ st'.status = "busy" :=
  (decode_failure_recovered (fun _ => none) (fun _ => "") (fun i => ⟨"id", i⟩)
    "data: hello".data ⟨[], "s", .arr [], "busy"⟩ (by decide) rfl).2 "data: hello\n\n".data
    (by decide)

/-- C13, evaluated on an indented data line: the line passes the filter, which
trims before it tests for `data:`, but the prefix replacement is anchored at
the start of the untrimmed line and leaves it as it is, so the payload handed
to `JSON.parse` still carries the indentation and the prefix. -/
theorem indented_data_line_keeps_prefix :
    dataLines "  data: \x7b\"type\":\"meta\",\"status\":\"ok\"\x7d".data =
      ["  data: \x7b\"type\":\"meta\",\"status\":\"ok\"\x7d".data] ∧
    payload "  data: \x7b\"type\":\"meta\",\"status\":\"ok\"\x7d".data =
      "  data: \x7b\"type\":\"meta\",\"status\":\"ok\"\x7d".data ∧
    payload "data: \x7b\"type\":\"meta\",\"status\":\"ok\"\x7d".data =
      "\x7b\"type\":\"meta\",\"status\":\"ok\"\x7d".data := by
  decide

/-! ## Records of unknown type -/

theorem find?_filter_ne (fields : List (String × JsVal)) (key k : String) (hk : k ≠ key) :
    (fields.filter (fun kv => kv.1 ≠ key)).find? (fun kv => kv.1 = k) =
      fields.find? (fun kv => kv.1 = k) := by
  induction fields with
  | nil => rfl
  | cons kv rest ih =>
    by_cases h1 : kv.1 = key
    · have h2 : ¬ kv.1 = k := fun e => hk (e.symm.trans h1)
      rw [List.filter_cons_of_neg (by simpa using h1), List.find?_cons_of_neg _ (by simpa using h2)]
      exact ih
    · rw [List.filter_cons_of_pos (by simpa using h1)]
      by_cases h2 : kv.1 = k
      · rw [List.find?_cons_of_pos _ (by simpa using h2), List.find?_cons_of_pos _ (by simpa using h2)]
      · rw [List.find?_cons_of_neg _ (by simpa using h2), List.find?_cons_of_neg _ (by simpa using h2)]
        exact ih

theorem get_setField_ne (evt v : JsVal) (key k : String) (hk : k ≠ key) :
    (evt.setField key v).get k = evt.get k := by
  cases evt with
  | obj fields =>
    have hkey : ¬ key = k := fun e => hk e.symm
    simp only [JsVal.setField, JsVal.get]
    rw [List.find?_cons_of_neg _ (by simpa using hkey), find?_filter_ne fields key k hk]
  | _ => rfl

theorem get_setField_self (fields : List (String × JsVal)) (v : JsVal) (key : String) :
    ((JsVal.obj fields).setField key v).get key = v := by
  simp [JsVal.setField, JsVal.get, List.find?]

theorem obj_of_get_truthy (evt : JsVal) (key : String) (h : (evt.get key).truthy = true) :
    ∃ fields, evt = .obj fields := by
  cases evt with
  | obj fields => exact ⟨fields, rfl⟩
  | _ => simp [JsVal.get, JsVal.truthy] at h

theorem handleRecord_unknown (stringify : JsVal → String) (stamp : Stamp) (evt : JsVal)
    (st : ChatState) (h : evt.unknownType) :
    handleRecord stringify stamp evt st = handleUnknown stringify stamp evt st := by
  obtain ⟨ht, h1, h2, h3, h4, h5, h6, h7⟩ := h
  obtain ⟨fields, rfl⟩ := obj_of_get_truthy evt "type" ht
  have hev : (JsVal.obj fields).truthy = true := rfl
  simp only [handleRecord, hev, ht, h1, h2, h3, h4, h5, h6, h7]
  simp

theorem handleRecord_thought (stringify : JsVal → String) (stamp : Stamp) (evt : JsVal)
    (st : ChatState) (h : evt.get "type" = .str "thought") :
    handleRecord stringify stamp evt st = handleThought stringify stamp evt st := by
  have ht := truthy_of_get_str evt "type" _ h
  simp only [handleRecord, h, ht]
  simp [JsVal.isStr, JsVal.truthy]

/-- Counterexample to C14: a record of the unknown type "note" that names its
sender in `from` is logged for the default agent "Agent", while the same
record with the type "thought" is logged for the sender "X"; and a content
object with a `text` is logged as its JSON encoding by the former and as the
text by the latter. -/
theorem unknown_type_differs_from_thought :
    (JsVal.obj [("type", .str "note"), ("from", .str "X"), ("content", .str "hi")]).unknownType ∧
    (handleRecord (fun _ => "\x7b..\x7d") ⟨"1", 1⟩
        (.obj [("type", .str "note"), ("from", .str "X"), ("content", .str "hi")])
        ⟨[], "", .arr [], ""⟩).map (fun s => s.agentLogs.map (fun e => (e.agent, e.output))) =
      some [("Agent", "hi")] ∧
    (handleRecord (fun _ => "\x7b..\x7d") ⟨"1", 1⟩
        ((JsVal.obj [("type", .str "note"), ("from", .str "X"), ("content", .str "hi")]).setField
          "type" (.str "thought"))
        ⟨[], "", .arr [], ""⟩).map (fun s => s.agentLogs.map (fun e => (e.agent, e.output))) =
      some [("X", "hi")] ∧
    (handleRecord (fun _ => "\x7b..\x7d") ⟨"1", 1⟩
        (.obj [("type", .str "note"), ("content", .obj [("text", .str "hi")])])
        ⟨[], "", .arr [], ""⟩).map (fun s => s.agentLogs.map (fun e => (e.agent, e.output))) =
      some [("Agent", "\x7b..\x7d")] ∧
    (handleRecord (fun _ => "\x7b..\x7d") ⟨"1", 1⟩
        ((JsVal.obj [("type", .str "note"), ("content", .obj [("text", .str "hi")])]).setField
          "type" (.str "thought"))
        ⟨[], "", .arr [], ""⟩).map (fun s => s.agentLogs.map (fun e => (e.agent, e.output))) =
      some [("Agent", "hi")] := by
  refine ⟨?_, by decide, by decide, by decide, by decide⟩
  unfold JsVal.unknownType
  decide

/-- C14, amended: a record of unknown type whose `from` is falsy and whose
content is a string or has no truthy `text` is handled exactly like the same
record with its type replaced by "thought"; when it names no agent, the chunk
is pushed for the default agent "Agent". -/
theorem unknown_type_as_thought (stringify : JsVal → String) (stamp : Stamp) (evt : JsVal)
    (st : ChatState) (hunk : evt.unknownType) (hfrom : (evt.get "from").truthy = false)
    (htext : (∃ s, evt.get "content" = .str s) ∨ ((evt.get "content").get "text").truthy = false) :
    handleRecord stringify stamp evt st =
      handleRecord stringify stamp (evt.setField "type" (.str "thought")) st ∧
    ((evt.get "agent").truthy = false →
      ∃ text, handleRecord stringify stamp evt st =
        some { st with agentLogs := pushOrAppendAgentLog stamp "Agent" text noOpts st.agentLogs }) := by
  obtain ⟨fields, rfl⟩ := obj_of_get_truthy evt "type" hunk.1
  have hty : ((JsVal.obj fields).setField "type" (.str "thought")).get "type" = .str "thought" :=
    get_setField_self fields _ _
  have hget : ∀ k, k ≠ "type" →
      ((JsVal.obj fields).setField "type" (.str "thought")).get k = (JsVal.obj fields).get k :=
    fun k hk => get_setField_ne _ _ _ k hk
  rw [handleRecord_unknown stringify stamp _ st hunk, handleRecord_thought stringify stamp _ st hty]
  constructor
  · simp only [handleUnknown, handleThought, hget "agent" (by decide), hget "from" (by decide),
      hget "content" (by decide)]
    have hor : ((JsVal.obj fields).get "from").orElse (.str "Agent") = .str "Agent" := by
      simp [JsVal.orElse, hfrom]
    rw [hor]
    generalize ((JsVal.obj fields).get "agent").orElse (.str "Agent") = ag
    rcases htext with ⟨s, hs⟩ | ht
    · rw [hs]
      cases ag <;> rfl
    · cases hcontent : (JsVal.obj fields).get "content" with
      | str s => cases ag <;> rfl
      | _ =>
        rw [hcontent] at ht
        cases ag <;> simp [ht]
  · intro hag
    refine ⟨match (JsVal.obj fields).get "content" with
      | .str s => s
      | c => stringify (c.orElse (.str "")), ?_⟩
    simp only [handleUnknown, JsVal.orElse, hag]
    rfl

/-- Witness for the amended C14: a record of type "note" with a string content
and no sender. -/
theorem unknown_type_as_thought_witness :
    handleRecord (fun _ => "") ⟨"1", 1⟩ (mkRecord "note" (.str "hi") .undefined)
        ⟨[], "", .arr [], ""⟩ =
      handleRecord (fun _ => "") ⟨"1", 1⟩
        ((mkRecord "note" (.str "hi") .undefined).setField "type" (.str "thought"))
        ⟨[], "", .arr [], ""⟩ :=
  (unknown_type_as_thought (fun _ => "") ⟨"1", 1⟩ (mkRecord "note" (.str "hi") .undefined)
    ⟨[], "", .arr [], ""⟩ (by unfold JsVal.unknownType; decide) rfl (Or.inl ⟨"hi", rfl⟩)).1

/-! ## handleSubmit and the fallback decision of startStream -/

/-- C19: for symptoms that are empty or consist of white space only,
`handleSubmit` does not call `startStream` (so no request is made) and sets
the status to the validation prompt, leaving the rest of the state alone. -/
theorem blank_symptoms_rejected (symptoms report : String) (st : ChatState)
    (hblank : ∀ c ∈ symptoms.data, isJsSpace c = true) :
    (handleSubmit symptoms report st).started = none ∧
    (handleSubmit symptoms report st).state =
      { st with status := "Please enter symptoms to continue." } ∧
    (∀ env stream fallback, submitTurn env symptoms report stream fallback st =
      some ({ st with status := "Please enter symptoms to continue." }, 0)) := by
  have h : jsTrim symptoms.data = [] := jsTrim_nil_of_all_space _ hblank
  refine ⟨by simp [handleSubmit, h], by simp [handleSubmit, h], ?_⟩
  intro env stream fallback
  simp [submitTurn, handleSubmit, h]

/-- Witness for C19: symptoms made of a blank, a tab and a line feed. -/
theorem blank_symptoms_rejected_witness :
    (handleSubmit " \t\n" "report" ⟨[], "old", .arr [], ""⟩).started = none ∧
    (handleSubmit " \t\n" "report" ⟨[], "old", .arr [], ""⟩).state =
      { (⟨[], "old", .arr [], ""⟩ : ChatState) with
        status := "Please enter symptoms to continue." } ∧
    (∀ env stream fallback,
      submitTurn env " \t\n" "report" stream fallback ⟨[], "old", .arr [], ""⟩ =
        some ({ (⟨[], "old", .arr [], ""⟩ : ChatState) with
          status := "Please enter symptoms to continue." }, 0)) :=
  blank_symptoms_rejected " \t\n" "report" ⟨[], "old", .arr [], ""⟩ (by decide)

theorem fallback_decided_by_closure (env : Env) (rendered : ChatState)
    (values : List (List Char)) (fallback : FallbackOutcome) (s : ChatState) (n : Nat)
    (h : startStream env rendered (.completed values) fallback = some (s, n)) :
    n = if looksEmpty rendered = true then 1 else 0 := by
  unfold startStream at h
  simp only at h
  split at h
  · exact absurd h (by simp)
  · split at h
    · rename_i hl
      rw [if_pos hl]
      cases fallback with
      | success body =>
        simp only at h
        split at h
        · simp only [Option.some.injEq, Prod.mk.injEq] at h
          exact h.2.symm
        · exact absurd h (by simp)
      | failure e =>
        simp only [Option.some.injEq, Prod.mk.injEq] at h
        exact h.2.symm
    · rename_i hl
      rw [if_neg hl]
      simp only [Option.some.injEq, Prod.mk.injEq] at h
      exact h.2.symm

/-- C15, evaluated: on a first submission (empty summary and recommendations
in the rendering that created the handlers) a stream that delivers the answer
"Rest well" and completes is still followed by one fallback request, whose
guidance is appended to the streamed summary; and on a submission made while
the previous summary is shown, a stream that delivers nothing is followed by no
fallback request, although summary and recommendations are both empty. -/
theorem fallback_ignores_streamed_state :
    submitTurn sampleEnv "headache" ""
        (.completed [("data: " ++ samplePayload ++ "\n\n").data])
        (.success (.obj [("synthesized_guidance", .str "Rest well")])) ⟨[], "", .arr [], ""⟩ =
      some (⟨[], "Rest well\n\nRest well", .arr [], ""⟩, 1) ∧
    submitTurn sampleEnv "headache" "" (.completed [])
        (.success (.obj [("synthesized_guidance", .str "Rest well")]))
        ⟨[], "Old summary", .arr [], ""⟩ =
      some (⟨[], "", .arr [], ""⟩, 0) := by
  constructor <;> rfl

/-- C20, evaluated: `cleanSynthesizedText` turns "WellnessPlanToaddress" into
"Wellness Plan Toaddress"; there is no uppercase letter inside "Toaddress" at
which step 1 could split, so the result is not "Wellness Plan To address". -/
theorem wellnessPlan_example :
    cleanSynthesizedText "WellnessPlanToaddress" = "Wellness Plan Toaddress" ∧
    cleanSynthesizedText "WellnessPlanToaddress" ≠ "Wellness Plan To address" := by
  constructor <;> decide

/-! ## The stream-error path -/

theorem fallbackLog_typed (env : Env) (idx : Nat) (a : JsVal) (h : a.flowElementTyped) :
    ∃ e, fallbackLog env idx a = some e ∧ e.finalized = true ∧ e.status = "done" ∧
      (∀ name, a.get "agent" = .str name → name ≠ "" → e.agent = name) ∧
      ((a.get "agent").truthy = false → e.agent = "Agent " ++ toString (idx + 1)) ∧
      (∀ t, a.get "output" = .str t → e.output = t) ∧
      ((∀ t, a.get "output" ≠ .str t) →
        e.output = env.stringify ((a.get "output").orElse (.str ""))) := by
  obtain ⟨hnull, hundef, hagent⟩ := h
  have hbody : fallbackLog env idx a =
      match (a.get "agent").orElse (.str ("Agent " ++ toString (idx + 1))) with
      | .str name =>
        some
          { id := "fallback-" ++ toString idx ++ "-" ++ toString (env.clock idx)
            agent := name
            output :=
              match a.get "output" with
              | .str s => s
              | o => env.stringify (o.orElse (.str ""))
            display :=
              match a.get "output" with
              | .str s => s
              | o => env.stringify (o.orElse (.str ""))
            color := chooseColorForAgent name
            status := "done"
            finalized := true
            timestamp := none }
      | _ => none := by
    cases a with
    | null => exact absurd rfl hnull
    | undefined => exact absurd rfl hundef
    | _ => rfl
  have hout : ∀ name : String,
      (∀ t, a.get "output" = .str t →
        (match a.get "output" with
          | .str s => s
          | o => env.stringify (o.orElse (.str ""))) = t) ∧
      ((∀ t, a.get "output" ≠ .str t) →
        (match a.get "output" with
          | .str s => s
          | o => env.stringify (o.orElse (.str ""))) =
          env.stringify ((a.get "output").orElse (.str ""))) := by
    intro _
    constructor
    · intro t ht
      rw [ht]
    · intro hno
      cases ho : a.get "output" with
      | str s => exact absurd ho (hno s)
      | _ => rfl
  by_cases ht : (a.get "agent").truthy = true
  · obtain ⟨name, hname⟩ := hagent ht
    have hor : (a.get "agent").orElse (.str ("Agent " ++ toString (idx + 1))) = .str name := by
      unfold JsVal.orElse
      rw [if_pos ht]
      exact hname
    rw [hbody, hor]
    refine ⟨_, rfl, rfl, rfl, ?_, ?_, (hout name).1, (hout name).2⟩
    · intro n hn _
      rw [hname] at hn
      exact (JsVal.str.inj hn)
    · intro hf
      rw [hf] at ht
      exact absurd ht (by decide)
  · have hor : (a.get "agent").orElse (.str ("Agent " ++ toString (idx + 1))) =
        .str ("Agent " ++ toString (idx + 1)) := by
      simp [JsVal.orElse, ht]
    rw [hbody, hor]
    refine ⟨_, rfl, rfl, rfl, ?_, ?_, (hout "").1, (hout "").2⟩
    · intro n hn hne
      rw [hn] at ht
      exact absurd (by simp [JsVal.truthy, hne]) ht
    · intro _
      rfl

theorem fallbackLogs_typed (env : Env) (F : List JsVal) :
    ∀ idx, (∀ a ∈ F, a.flowElementTyped) →
      ∃ entries, fallbackLogs env idx F = some entries ∧ entries.length = F.length ∧
        ∀ i a, F[i]? = some a → ∃ e, entries[i]? = some e ∧ fallbackLog env (idx + i) a = some e := by
  induction F with
  | nil =>
    intro idx _
    exact ⟨[], rfl, rfl, fun i a h => by simp at h⟩
  | cons a rest ih =>
    intro idx h
    obtain ⟨e, he, -⟩ := fallbackLog_typed env idx a (h a (List.mem_cons_self _ _))
    obtain ⟨es, hes, hlen, hget⟩ := ih (idx + 1) (fun b hb => h b (List.mem_cons_of_mem _ hb))
    refine ⟨e :: es, by simp only [fallbackLogs, he, hes], by simp [hlen], ?_⟩
    intro i b hb
    cases i with
    | zero =>
      simp only [List.getElem?_cons_zero, Option.some.injEq] at hb
      subst hb
      exact ⟨e, by simp, he⟩
    | succ j =>
      simp only [List.getElem?_cons_succ] at hb
      obtain ⟨e', he', hlog⟩ := hget j b hb
      refine ⟨e', by simpa using he', ?_⟩
      rw [← hlog]
      congr 1
      omega

theorem adoptGuidance_agentLogs (cleaned : String) (st : ChatState) :
    (adoptGuidance cleaned st).agentLogs = st.agentLogs ∧
      st.summary.data <+: (adoptGuidance cleaned st).summary.data := by
  unfold adoptGuidance
  split
  · exact ⟨rfl, appendSummary_prefix _ _⟩
  · exact ⟨rfl, List.prefix_refl _⟩

theorem appendAgentFlow_some (env : Env) (flow : JsVal) (st s : ChatState)
    (h : appendAgentFlow env flow st = some s) :
    ∃ items entries, flow = .arr items ∧ fallbackLogs env 0 items = some entries ∧
      s = { st with agentLogs := st.agentLogs ++ entries } := by
  unfold appendAgentFlow at h
  split at h
  · rename_i items
    split at h
    · rename_i entries hentries
      simp only [Option.some.injEq] at h
      exact ⟨items, entries, rfl, hentries, h.symm⟩
    · exact absurd h (by simp)
  · exact absurd h (by simp)

theorem adoptAfterError_keeps (env : Env) (body : JsVal) (st s : ChatState)
    (h : adoptAfterError env body st = some s) :
    st.agentLogs <+: s.agentLogs ∧ st.summary.data <+: s.summary.data := by
  unfold adoptAfterError at h
  simp only at h
  split at h
  · exact absurd h (by simp)
  · rename_i s2 hs2
    have h2 : st.agentLogs <+: s2.agentLogs ∧ s2.summary = st.summary := by
      split at hs2
      · obtain ⟨items, entries, -, -, rfl⟩ := appendAgentFlow_some env _ _ _ hs2
        exact ⟨List.prefix_append _ _, rfl⟩
      · simp only [Option.some.injEq] at hs2
        rw [← hs2]
        exact ⟨List.prefix_refl _, rfl⟩
    have hg : ∀ cleaned, st.agentLogs <+: (adoptGuidance cleaned s2).agentLogs ∧
        st.summary.data <+: (adoptGuidance cleaned s2).summary.data := by
      intro cleaned
      rw [(adoptGuidance_agentLogs cleaned s2).1, ← h2.2]
      exact ⟨h2.1, (adoptGuidance_agentLogs cleaned s2).2⟩
    split at h
    · simp only [Option.some.injEq] at h
      rw [← h]
      exact hg _
    · split at h
      · simp only [Option.some.injEq] at h
        rw [← h]
        exact hg _
      · simp only [Option.some.injEq] at h
        rw [← h]
        exact ⟨h2.1, by rw [h2.2]⟩
    · simp only [Option.some.injEq] at h
      rw [← h]
      exact hg _
    · exact absurd h (by simp)

theorem adoptAfterError_flow (env : Env) (data : JsVal) (F : List JsVal) (st : ChatState)
    (hflow : data.get "agent_flow" = .arr F) (hel : ∀ a ∈ F, a.flowElementTyped)
    (hg : data.fallbackGuidanceTyped) :
    ∃ s entries, adoptAfterError env data st = some s ∧
      s.agentLogs = st.agentLogs ++ entries ∧ fallbackLogs env 0 F = some entries := by
  obtain ⟨entries, hentries, -, -⟩ := fallbackLogs_typed env F 0 hel
  have hobj : ∃ fields, data = .obj fields := by
    cases data with
    | obj fields => exact ⟨fields, rfl⟩
    | _ => simp [JsVal.get] at hflow
  obtain ⟨fields, rfl⟩ := hobj
  have hor : (JsVal.obj fields).orElse (.obj []) = .obj fields := rfl
  have hflow2 : appendAgentFlow env (.arr F)
      { st with recommendations :=
          ((JsVal.obj fields).get "recommendations").orElse (.arr []) } =
      some { st with
        recommendations := ((JsVal.obj fields).get "recommendations").orElse (.arr [])
        agentLogs := st.agentLogs ++ entries } := by
    simp only [appendAgentFlow, hentries]
  unfold JsVal.fallbackGuidanceTyped at hg
  unfold adoptAfterError
  simp only [hor, hflow, JsVal.truthy, JsVal.isArray, Bool.and_self, if_true, hflow2]
  split at hg
  · exact ⟨_, entries, rfl, (adoptGuidance_agentLogs _ _).1, hentries⟩
  · split
    · exact ⟨_, entries, rfl, (adoptGuidance_agentLogs _ _).1, hentries⟩
    · exact ⟨_, entries, rfl, rfl, hentries⟩
  · exact ⟨_, entries, rfl, (adoptGuidance_agentLogs _ _).1, hentries⟩
  · exact absurd hg (by simp)

theorem startStream_failed (env : Env) (rendered : ChatState) (values : List (List Char))
    (fallback : FallbackOutcome) (s1 : ChatState) (hs1 : streamedBeforeError env values = some s1) :
    startStream env rendered (.failed values) fallback = streamErrorPath env fallback s1 := by
  simp only [startStream, hs1]

/-- C17: when the stream fails and the fallback request succeeds with an
`agent_flow` array, `startStream` makes exactly one fallback request and the
transcript becomes the transcript held at the failure followed by one entry
per element, in order, each finalized with status done, with the element's
agent (or "Agent" and the index plus one when the agent is falsy) and the
element's output (its JSON encoding when it is not a string). -/
theorem error_fallback_appends_agent_flow (env : Env) (rendered : ChatState)
    (values : List (List Char)) (data : JsVal) (F : List JsVal) (s1 : ChatState)
    (hs1 : streamedBeforeError env values = some s1) (hflow : data.get "agent_flow" = .arr F)
    (hel : ∀ a ∈ F, a.flowElementTyped) (hg : data.fallbackGuidanceTyped) :
    ∃ s entries, startStream env rendered (.failed values) (.success data) = some (s, 1) ∧
      s.agentLogs = s1.agentLogs ++ entries ∧ entries.length = F.length ∧
      ∀ i a, F[i]? = some a → ∃ e, entries[i]? = some e ∧
        e.finalized = true ∧ e.status = "done" ∧
        (∀ name, a.get "agent" = .str name → name ≠ "" → e.agent = name) ∧
        ((a.get "agent").truthy = false → e.agent = "Agent " ++ toString (i + 1)) ∧
        (∀ t, a.get "output" = .str t → e.output = t) ∧
        ((∀ t, a.get "output" ≠ .str t) →
          e.output = env.stringify ((a.get "output").orElse (.str ""))) := by
  obtain ⟨s, entries, hs, hlogs, hentries⟩ := adoptAfterError_flow env data F
    { s1 with status := "Streaming failed — trying standard request..." } hflow hel hg
  obtain ⟨entries', hentries', hlen, hget⟩ := fallbackLogs_typed env F 0 hel
  have heq : entries' = entries := Option.some.inj (hentries'.symm.trans hentries)
  subst heq
  refine ⟨s, entries', ?_, hlogs, hlen, ?_⟩
  · rw [startStream_failed env rendered values _ s1 hs1]
    simp only [streamErrorPath, hs]
  · intro i a hia
    obtain ⟨e, he, hlog⟩ := hget i a hia
    obtain ⟨e', he', hprops⟩ := fallbackLog_typed env (0 + i) a (hel a (List.getElem?_mem hia))
    have : e' = e := Option.some.inj (he'.symm.trans hlog)
    subst this
    rw [Nat.zero_add] at hprops
    exact ⟨e', he, hprops⟩

/-- Witness for C17: an immediately failing stream and a fallback response
with two elements, the second without agent and with a number as output. -/
theorem error_fallback_appends_agent_flow_witness :
    ∃ s entries, startStream sampleEnv ⟨[], "", .arr [], ""⟩ (.failed [])
        (.success (.obj [("agent_flow",
          .arr [.obj [("agent", .str "A"), ("output", .str "o1")], .obj [("output", .num 3)]])])) =
        some (s, 1) ∧
      s.agentLogs = resetState.agentLogs ++ entries ∧ entries.length = 2 ∧
      entries.map (fun e => (e.agent, e.output, e.status, e.finalized)) =
        [("A", "o1", "done", true), ("Agent 2", "\"\"", "done", true)] := by
  obtain ⟨s, entries, hs, hlogs, hlen, -⟩ :=
    error_fallback_appends_agent_flow sampleEnv ⟨[], "", .arr [], ""⟩ []
      (.obj [("agent_flow",
        .arr [.obj [("agent", .str "A"), ("output", .str "o1")], .obj [("output", .num 3)]])])
      [.obj [("agent", .str "A"), ("output", .str "o1")], .obj [("output", .num 3)]] resetState
      rfl rfl
      (by
        intro a ha
        simp only [List.mem_cons, List.mem_singleton, List.not_mem_nil, or_false] at ha
        rcases ha with rfl | rfl
        · exact ⟨by simp, by simp, fun _ => ⟨"A", rfl⟩⟩
        · exact ⟨by simp, by simp, fun h => absurd h (by decide)⟩)
      (by unfold JsVal.fallbackGuidanceTyped; trivial)
  refine ⟨s, entries, hs, hlogs, hlen, ?_⟩
  have hval : startStream sampleEnv ⟨[], "", .arr [], ""⟩ (.failed [])
      (.success (.obj [("agent_flow",
        .arr [.obj [("agent", .str "A"), ("output", .str "o1")], .obj [("output", .num 3)]])])) =
      some (⟨[⟨"fallback-0-0", "A", "o1", "o1", chooseColorForAgent "A", "done", true, none⟩,
              ⟨"fallback-1-0", "Agent 2", "\"\"", "\"\"", chooseColorForAgent "Agent 2", "done",
                true, none⟩], "", .arr [], ""⟩, 1) := rfl
  rw [hval] at hs
  simp only [Option.some.injEq, Prod.mk.injEq, and_true] at hs
  rw [← hs] at hlogs
  simp only [resetState, List.nil_append] at hlogs
  rw [← hlogs]
  rfl

theorem adoptAfterError_typed (env : Env) (body : JsVal) (st : ChatState)
    (h : body.fallbackTyped) : ∃ s, adoptAfterError env body st = some s := by
  obtain ⟨hg, hel⟩ := h
  unfold JsVal.fallbackGuidanceTyped at hg
  unfold adoptAfterError
  simp only
  generalize body.orElse (.obj []) = data at hg hel
  have hst2 : ∃ s2, (if ((data.get "agent_flow").truthy && (data.get "agent_flow").isArray) = true
      then appendAgentFlow env (data.get "agent_flow")
        { st with recommendations := (data.get "recommendations").orElse (.arr []) }
      else some { st with recommendations := (data.get "recommendations").orElse (.arr []) }) =
      some s2 := by
    split
    · rename_i hc
      cases hf : data.get "agent_flow" with
      | arr F =>
        obtain ⟨entries, hentries, -, -⟩ := fallbackLogs_typed env F 0 (hel F hf)
        simp only [appendAgentFlow, hentries]
        exact ⟨_, rfl⟩
      | _ => rw [hf] at hc; simp [JsVal.isArray] at hc
    · exact ⟨_, rfl⟩
  obtain ⟨s2, hs2⟩ := hst2
  rw [hs2]
  simp only
  split at hg
  · exact ⟨_, rfl⟩
  · split
    · exact ⟨_, rfl⟩
    · exact ⟨_, rfl⟩
  · exact ⟨_, rfl⟩
  · exact absurd hg (by simp)

/-- C18: on the stream-error path nothing accumulated is discarded.  For every
typed response body of a successful fallback request `startStream` returns,
having made one fallback request, and the transcript and the summary held at
the failure are prefixes of the final ones; a failed fallback request leaves
transcript, summary and recommendations as they were and only sets the status,
to the server's error text or to "Something went wrong. Please try again."
when there is none, again with one fallback request. -/
theorem error_path_keeps_progress (env : Env) (rendered : ChatState)
    (values : List (List Char)) (s1 : ChatState)
    (hs1 : streamedBeforeError env values = some s1) :
    (∀ data : JsVal, data.fallbackTyped →
      ∃ s, startStream env rendered (.failed values) (.success data) = some (s, 1) ∧
        s1.agentLogs <+: s.agentLogs ∧ s1.summary.data <+: s.summary.data) ∧
    (∀ error : JsVal, error.stringOrFalsy →
      ∃ s, startStream env rendered (.failed values) (.failure error) = some (s, 1) ∧
        s.agentLogs = s1.agentLogs ∧ s.summary = s1.summary ∧
        s.recommendations = s1.recommendations ∧
        (∀ e, error = .str e → e ≠ "" → s.status = e) ∧
        (error.truthy = false → s.status = "Something went wrong. Please try again.")) := by
  constructor
  · intro data hdata
    obtain ⟨s, hs⟩ := adoptAfterError_typed env data
      { s1 with status := "Streaming failed — trying standard request..." } hdata
    refine ⟨s, ?_, adoptAfterError_keeps env data
      { s1 with status := "Streaming failed — trying standard request..." } s hs⟩
    rw [startStream_failed env rendered values _ s1 hs1]
    simp only [streamErrorPath, hs]
  · intro error herr
    rw [startStream_failed env rendered values _ s1 hs1]
    by_cases ht : error.truthy = true
    · obtain ⟨e, rfl⟩ := herr ht
      refine ⟨{ s1 with status := e }, by simp only [streamErrorPath, ht, if_true], rfl, rfl,
        rfl, ?_, ?_⟩
      · intro e' he' _
        exact JsVal.str.inj he'
      · intro hf
        rw [hf] at ht
        exact absurd ht (by decide)
    · refine ⟨{ s1 with status := "Something went wrong. Please try again." },
        by simp only [streamErrorPath, ht, Bool.false_eq_true, if_false], rfl, rfl, rfl, ?_, ?_⟩
      · intro e he hne
        rw [he] at ht
        exact absurd (by simp [JsVal.truthy, hne]) ht
      · intro _
        rfl

/-- Witness for C18: one frame is streamed before the failure; the fallback
then succeeds with a guidance and one transcript element, or fails with the
error text "Server down". -/
theorem error_path_keeps_progress_witness :
    (∃ s1 s, streamedBeforeError sampleEnv [("data: " ++ samplePayload ++ "\n\n").data] = some s1 ∧
      s1.summary = "Rest well" ∧
      startStream sampleEnv ⟨[], "", .arr [], ""⟩
          (.failed [("data: " ++ samplePayload ++ "\n\n").data])
          (.success (.obj [("final_summary", .str "Sleep"),
            ("agent_flow", .arr [.obj [("agent", .str "A"), ("output", .str "o1")]])])) =
        some (s, 1) ∧
      s1.agentLogs <+: s.agentLogs ∧ s1.summary.data <+: s.summary.data) ∧
    (∃ s, startStream sampleEnv ⟨[], "", .arr [], ""⟩
          (.failed [("data: " ++ samplePayload ++ "\n\n").data])
          (.failure (.str "Server down")) = some (s, 1) ∧
      s.summary = "Rest well" ∧ s.status = "Server down") := by
  have hs1 : streamedBeforeError sampleEnv [("data: " ++ samplePayload ++ "\n\n").data] =
      some ⟨[], "Rest well", .arr [], "Preparing your wellness guidance…"⟩ := rfl
  have h := error_path_keeps_progress sampleEnv ⟨[], "", .arr [], ""⟩
    [("data: " ++ samplePayload ++ "\n\n").data] _ hs1
  have htyped : (JsVal.obj [("final_summary", .str "Sleep"),
      ("agent_flow", .arr [.obj [("agent", .str "A"), ("output", .str "o1")]])]).fallbackTyped := by
    refine ⟨by unfold JsVal.fallbackGuidanceTyped; trivial, ?_⟩
    intro F hF a ha
    have hF2 : F = [.obj [("agent", .str "A"), ("output", .str "o1")]] :=
      (JsVal.arr.inj hF).symm
    subst hF2
    simp only [List.mem_singleton] at ha
    subst ha
    exact ⟨by simp, by simp, fun _ => ⟨"A", rfl⟩⟩
  obtain ⟨s, hs, hlogs, hsum⟩ := h.1 _ htyped
  refine ⟨⟨_, s, hs1, rfl, hs, hlogs, hsum⟩, ?_⟩
  obtain ⟨s, hs, -, hsum, -, hst, -⟩ := h.2 (.str "Server down") (fun _ => ⟨_, rfl⟩)
  exact ⟨s, hs, hsum, hst "Server down" rfl (by decide)⟩

/-! ## Worked examples of the normalisers -/

/-- C21: `cleanSynthesizedText` turns "symptoms.Please rest" into
"symptoms. Please rest". -/
theorem symptoms_example :
    cleanSynthesizedText "symptoms.Please rest" = "symptoms. Please rest" := by
  decide

/-- C27, evaluated: `normalizeMarkdown` turns "1 . **Bold**" into "1.**Bold**":
step 2 produces "1. **Bold**", and the second pattern of step 3, which deletes
the white space in front of every `**`, removes the blank after the period
again. -/
theorem numbered_bold_example :
    normalizeMarkdown "1 . **Bold**" = "1.**Bold**" ∧
    normalizeMarkdown "1 . **Bold**" ≠ "1. **Bold**" ∧
    replaceAll numberedDot 0 "1 . **Bold**".data = "1. **Bold**".data ∧
    replaceAll boldClose 0 "1. **Bold**".data = "1.**Bold**".data := by
  refine ⟨by decide, by decide, by decide, by decide⟩

/-! ## Agent colours -/

theorem foldl_charCode (l : List Char) (init : Nat) :
    l.foldl (fun acc ch => acc + charCodeAt0 ch) init = init + (l.map charCodeAt0).sum := by
  induction l generalizing init with
  | nil => simp
  | cons c rest ih => simp [ih, Nat.add_assoc]

/-- C29: for every name `chooseColorForAgent` returns the palette entry at the
index given by the sum of the character codes of the name modulo 6, which is
one of the six `AGENT_COLORS`; the empty name gives the first entry, and
"Agent", with the sum 495, gives the entry at index 3, "#EBD5AB". -/
theorem chooseColorForAgent_hash (name : String) :
    AGENT_COLORS[(name.data.map charCodeAt0).sum % 6]? = some (chooseColorForAgent name) ∧
    chooseColorForAgent name ∈ AGENT_COLORS ∧
    AGENT_COLORS.length = 6 ∧
    chooseColorForAgent "" = "#8BAE66" ∧ AGENT_COLORS[0]? = some "#8BAE66" ∧
    ("Agent".data.map charCodeAt0).sum = 495 ∧ 495 % 6 = 3 ∧
    chooseColorForAgent "Agent" = "#EBD5AB" := by
  have hidx : AGENT_COLORS[(name.data.map charCodeAt0).sum % 6]? =
      some (chooseColorForAgent name) := by
    by_cases he : name = ""
    · subst he
      rfl
    · have hlen : AGENT_COLORS.length = 6 := rfl
      simp only [chooseColorForAgent, if_neg he, foldl_charCode, Nat.zero_add, hlen]
      exact List.getElem?_eq_getElem (l := AGENT_COLORS) (Nat.mod_lt _ (by decide))
  refine ⟨hidx, List.getElem?_mem hidx, rfl, by decide, rfl, by decide, rfl, by decide⟩

/-- The updater applied to the empty name, which no call in the component
passes (every call site applies `|| "Agent"` first): the entry would show the
agent "Agent" with the colour of the empty name, "#8BAE66", not the colour
"#EBD5AB" of an entry created for the name "Agent".  The colour invariant
below therefore rests on the names being non-empty. -/
theorem pushOrAppendAgentLog_empty_name :
    (pushOrAppendAgentLog ⟨"1", 1⟩ "" "x" noOpts []).map
        (fun e => (e.agent, e.color, chooseColorForAgent e.agent)) =
      [("Agent", "#8BAE66", "#EBD5AB")] ∧
    (pushOrAppendAgentLog ⟨"2", 2⟩ "Agent" "y" noOpts []).map (fun e => (e.agent, e.color)) =
      [("Agent", "#EBD5AB")] := by
  constructor <;> decide

/-! ## The final normalisation of cleanSynthesizedText -/

theorem replaceAll_skip (m : Matcher) (l : List Char) :
    ∀ k, replaceAll m k l = replaceAll m 0 (l.drop k) := by
  induction l with
  | nil => intro k; cases k <;> rfl
  | cons c rest ih =>
    intro k
    cases k with
    | zero => rfl
    | succ j =>
      rw [List.drop_succ_cons, ← ih j]
      rfl

/-- The number of line feeds at the head of a text. -/
theorem breakRun_cons (c : Char) (rest : List Char) :
    ((c :: rest).takeWhile (fun c => c = '\n')).length =
      if c = '\n' then (rest.takeWhile (fun c => c = '\n')).length + 1 else 0 := by
  by_cases h : c = '\n'
  · simp [List.takeWhile, h]
  · simp [List.takeWhile, h]

theorem triple_isInfix_cons (c : Char) (rest : List Char) :
    ['\n', '\n', '\n'] <:+: c :: rest ↔
      3 ≤ ((c :: rest).takeWhile (fun c => c = '\n')).length ∨ ['\n', '\n', '\n'] <:+: rest := by
  rw [List.infix_cons_iff]
  constructor
  · rintro (⟨t, ht⟩ | h)
    · left
      rw [← ht]
      simp [List.takeWhile]
    · exact Or.inr h
  · rintro (h | h)
    · left
      match rest, h with
      | [], h => simp [breakRun_cons] at h; split at h <;> omega
      | [d], h =>
        simp only [breakRun_cons] at h
        split at h
        · split at h
          · simp at h
          · omega
        · omega
      | d :: e :: tl, h =>
        simp only [breakRun_cons] at h
        split at h
        · rename_i hc
          split at h
          · rename_i hd
            split at h
            · rename_i he
              subst hc hd he
              exact ⟨tl, rfl⟩
            · omega
          · omega
        · omega
    · exact Or.inr h

theorem newlineRun_some (s out : List Char) (len : Nat) (h : newlineRun s = some (out, len)) :
    out = ['\n', '\n'] ∧ len = (s.takeWhile (fun c => c = '\n')).length ∧ 3 ≤ len := by
  unfold newlineRun at h
  simp only at h
  split at h
  · rename_i h3
    simp only [Option.some.injEq, Prod.mk.injEq] at h
    exact ⟨h.1.symm, h.2.symm, h.2 ▸ h3⟩
  · exact absurd h (by simp)

theorem newlineRun_none_iff (s : List Char) :
    newlineRun s = none ↔ (s.takeWhile (fun c => c = '\n')).length < 3 := by
  unfold newlineRun
  simp only
  split
  · simp; omega
  · simp; omega

theorem breakRun_drop (s : List Char) :
    ((s.drop (s.takeWhile (fun c => c = '\n')).length).takeWhile (fun c => c = '\n')).length = 0 := by
  induction s with
  | nil => rfl
  | cons c rest ih =>
    by_cases h : c = '\n'
    · simp only [List.takeWhile, h, decide_True, List.length_cons, List.drop_succ_cons]
      exact ih
    · simp [List.takeWhile, h]

theorem collapse_breaks (n : Nat) :
    ∀ l : List Char, l.length = n →
      ¬ (['\n', '\n', '\n'] <:+: replaceAll newlineRun 0 l) ∧
      ((replaceAll newlineRun 0 l).takeWhile (fun c => c = '\n')).length =
        min (l.takeWhile (fun c => c = '\n')).length 2 := by
  induction n using Nat.strong_induction_on with
  | _ n ih =>
    intro l hl
    cases l with
    | nil => exact ⟨by simp [replaceAll], rfl⟩
    | cons c rest =>
      cases hm : newlineRun (c :: rest) with
      | some r =>
        obtain ⟨out, len⟩ := r
        obtain ⟨rfl, hlen, h3⟩ := newlineRun_some _ _ _ hm
        have hrec : replaceAll newlineRun 0 (c :: rest) =
            '\n' :: '\n' :: replaceAll newlineRun 0 ((c :: rest).drop len) := by
          simp only [replaceAll, hm]
          rw [replaceAll_skip newlineRun rest (len - 1)]
          have : (c :: rest).drop len = rest.drop (len - 1) := by
            cases len with
            | zero => omega
            | succ j => rfl
          rw [this]
          rfl
        have hshort : ((c :: rest).drop len).length < n := by
          rw [List.length_drop, ← hl]
          simp only [List.length_cons]
          omega
        obtain ⟨ih1, ih2⟩ := ih _ hshort ((c :: rest).drop len) rfl
        have hrun0 : (((c :: rest).drop len).takeWhile (fun c => c = '\n')).length = 0 := by
          rw [hlen]
          exact breakRun_drop (c :: rest)
        rw [hrun0] at ih2
        simp only [Nat.zero_min] at ih2
        rw [hrec]
        refine ⟨?_, ?_⟩
        · rw [triple_isInfix_cons, triple_isInfix_cons]
          simp only [breakRun_cons, ih2, if_true]
          rintro (h | h | h)
          · omega
          · omega
          · exact ih1 h
        · have h3r : 3 ≤ ((c :: rest).takeWhile (fun c => c = '\n')).length := hlen ▸ h3
          generalize ((c :: rest).takeWhile (fun c => c = '\n')).length = R at h3r
          simp only [breakRun_cons, ih2, if_true]
          omega
      | none =>
        have hrun := (newlineRun_none_iff _).mp hm
        have hrec : replaceAll newlineRun 0 (c :: rest) = c :: replaceAll newlineRun 0 rest := by
          simp only [replaceAll, hm]
        have hshort : rest.length < n := by
          rw [← hl]
          simp
        obtain ⟨ih1, ih2⟩ := ih _ hshort rest rfl
        rw [hrec]
        rw [breakRun_cons] at hrun
        refine ⟨?_, ?_⟩
        · rw [triple_isInfix_cons]
          rw [breakRun_cons, ih2]
          rintro (h | h)
          · split at h
            · rw [if_pos (by assumption)] at hrun
              omega
            · omega
          · exact ih1 h
        · rw [breakRun_cons, breakRun_cons, ih2]
          split
          · rw [if_pos (by assumption)] at hrun
            omega
          · rfl

theorem jsTrim_head (l : List Char) (c : Char) (h : (jsTrim l).head? = some c) :
    isJsSpace c = false := by
  have hp : jsTrim l <+: l.dropWhile isJsSpace := List.rdropWhile_prefix _ _
  obtain ⟨t, ht⟩ := hp
  have hh : (l.dropWhile isJsSpace).head? = some c := by
    rw [← ht, List.head?_append, h]
    rfl
  have hn := List.head?_dropWhile_not isJsSpace l
  rw [hh] at hn
  exact hn

theorem jsTrim_last (l : List Char) (c : Char) (h : (jsTrim l).getLast? = some c) :
    isJsSpace c = false := by
  have hne : jsTrim l ≠ [] := by
    intro e
    rw [e] at h
    exact absurd h (by simp)
  have hn := List.rdropWhile_last_not (p := isJsSpace) (l := l.dropWhile isJsSpace) hne
  rw [List.getLast?_eq_getLast _ hne] at h
  have hc : (jsTrim l).getLast hne = c := Option.some.inj h
  have hc2 : ((l.dropWhile isJsSpace).rdropWhile isJsSpace).getLast hne = c := hc
  rw [hc2] at hn
  simpa using hn

theorem exists_line_of_mem (sep : Char) (t : List Char) (c : Char) (hc : c ∈ t)
    (hsep : c ≠ sep) : ∃ ln ∈ splitOnChar sep t, c ∈ ln := by
  induction t with
  | nil => exact absurd hc (by simp)
  | cons d rest ih =>
    by_cases hd : d = sep
    · have hcr : c ∈ rest := by
        rcases List.mem_cons.mp hc with e | e
        · exact absurd (e.trans hd) hsep
        · exact e
      obtain ⟨ln, hln, hmem⟩ := ih hcr
      refine ⟨ln, ?_, hmem⟩
      simp only [splitOnChar, if_pos hd]
      exact List.mem_cons_of_mem _ hln
    · simp only [splitOnChar, if_neg hd]
      rcases List.mem_cons.mp hc with e | e
      · cases hs : splitOnChar sep rest with
        | nil => exact ⟨[d], by simp, by simp [e]⟩
        | cons h t => exact ⟨d :: h, by simp, by simp [e]⟩
      · obtain ⟨ln, hln, hmem⟩ := ih e
        cases hs : splitOnChar sep rest with
        | nil => rw [hs] at hln; exact absurd hln (by simp)
        | cons h t =>
          rw [hs] at hln
          rcases List.mem_cons.mp hln with e2 | e2
          · exact ⟨d :: h, by simp, by simp [← e2, hmem]⟩
          · exact ⟨ln, by simp [e2], hmem⟩

/-- The non-empty trimmed lines of a text, as step 7 computes them. -/
theorem nonEmpty_lines_of_visible (t : List Char) (h : ∃ c ∈ t, isJsSpace c = false) :
    (((splitOnChar '\n' t).map jsTrim).filter (fun l => l ≠ [])).length ≠ 0 := by
  obtain ⟨c, hc, hsp⟩ := h
  have hne : c ≠ '\n' := by
    intro e
    rw [e] at hsp
    exact absurd hsp (by decide)
  obtain ⟨ln, hln, hmem⟩ := exists_line_of_mem '\n' t c hc hne
  have htrim : jsTrim ln ≠ [] := by
    intro e
    have := all_space_of_jsTrim_nil ln e c hmem
    rw [hsp] at this
    exact absurd this (by decide)
  have hin : jsTrim ln ∈ ((splitOnChar '\n' t).map jsTrim).filter (fun l => l ≠ []) := by
    rw [List.mem_filter]
    exact ⟨List.mem_map_of_mem _ hln, by simpa using htrim⟩
  intro h0
  rw [List.length_eq_zero] at h0
  rw [h0] at hin
  exact absurd hin (by simp)

theorem cleanChars_final_form (text : List Char)
    (h : ∃ c ∈ repairSteps text, isJsSpace c = false) :
    ∃ x, cleanChars text = jsTrim (replaceAll newlineRun 0 x) := by
  have hne := nonEmpty_lines_of_visible _ h
  unfold cleanChars
  dsimp only
  rw [if_neg hne]
  exact ⟨_, rfl⟩

/-- C26, counterexample: on a text with no visible character the final
normalisation is skipped; four line feeds come back as four line feeds, and two
blanks come back as two blanks. -/
theorem blank_text_not_normalised :
    cleanSynthesizedText "\n\n\n\n" = "\n\n\n\n" ∧
    ['\n', '\n', '\n'] <:+: (cleanSynthesizedText "\n\n\n\n").data ∧
    cleanSynthesizedText "  " = "  " ∧
    (cleanSynthesizedText "  ").data.head? = some ' ' ∧
    (cleanSynthesizedText "  ").data.getLast? = some ' ' ∧ isJsSpace ' ' = true := by
  refine ⟨by decide, ?_, by decide, ?_, ?_, by decide⟩
  · have e : cleanSynthesizedText "\n\n\n\n" = "\n\n\n\n" := by decide
    rw [e]
    exact ⟨[], ['\n'], rfl⟩
  · have e : cleanSynthesizedText "  " = "  " := by decide
    rw [e]
    rfl
  · have e : cleanSynthesizedText "  " = "  " := by decide
    rw [e]
    rfl

/-- C26, amended: for every input that still has a visible (non-white-space)
character after the repair steps 1 to 6, the output of `cleanSynthesizedText`
contains no run of three or more consecutive line feeds and neither starts nor
ends with white space. -/
theorem cleanSynthesizedText_normalised (text : String)
    (h : ∃ c ∈ repairSteps text.data, isJsSpace c = false) :
    ¬ (['\n', '\n', '\n'] <:+: (cleanSynthesizedText text).data) ∧
    (∀ c, (cleanSynthesizedText text).data.head? = some c → isJsSpace c = false) ∧
    (∀ c, (cleanSynthesizedText text).data.getLast? = some c → isJsSpace c = false) := by
  have hne : text ≠ "" := by
    intro e
    subst e
    obtain ⟨c, hc, _⟩ := h
    have hnil : repairSteps "".data = [] := by decide
    rw [hnil] at hc
    exact absurd hc (by simp)
  obtain ⟨x, hx⟩ := cleanChars_final_form text.data h
  have hd : (cleanSynthesizedText text).data = jsTrim (replaceAll newlineRun 0 x) := by
    simp only [cleanSynthesizedText, if_neg hne]
    exact hx
  rw [hd]
  refine ⟨?_, jsTrim_head _, jsTrim_last _⟩
  intro hin
  exact (collapse_breaks _ x rfl).1 (hin.trans (jsTrim_isInfix _))

theorem cleanSynthesizedText_normalised_witness :
    (∃ c ∈ repairSteps "a\n\n\n\nb ".data, isJsSpace c = false) ∧
    ¬ (['\n', '\n', '\n'] <:+: (cleanSynthesizedText "a\n\n\n\nb ").data) :=
  ⟨⟨'a', by decide, by decide⟩,
    (cleanSynthesizedText_normalised "a\n\n\n\nb " ⟨'a', by decide, by decide⟩).1⟩

/-! ## The normalisers keep the content characters -/

theorem contentClass_space {keep : Char → Bool} (hk : ContentClass keep) (c : Char)
    (hc : isJsSpace c = true) : keep c = false := by
  cases h : keep c with
  | false => rfl
  | true =>
    have := hk c h
    simp [isContentChar, hc] at this

theorem contentClass_mark {keep : Char → Bool} (hk : ContentClass keep) (c : Char)
    (hc : c = '-' ∨ c = '*' ∨ c = ':') : keep c = false := by
  cases h : keep c with
  | false => rfl
  | true =>
    have := hk c h
    rcases hc with rfl | rfl | rfl <;> exact absurd this (by decide)

theorem filter_spaces {keep : Char → Bool} (hk : ContentClass keep) (l : List Char)
    (h : ∀ c ∈ l, isJsSpace c = true) : l.filter keep = [] := by
  rw [List.filter_eq_nil_iff]
  intro c hc
  rw [contentClass_space hk c (h c hc)]
  simp

theorem filter_takeWhile_space {keep : Char → Bool} (hk : ContentClass keep) (l : List Char) :
    (l.takeWhile isJsSpace).filter keep = [] :=
  filter_spaces hk _ (fun _ hc => List.mem_takeWhile_imp hc)

theorem filter_dropWhile_space {keep : Char → Bool} (hk : ContentClass keep) (l : List Char) :
    (l.dropWhile isJsSpace).filter keep = l.filter keep := by
  conv_rhs => rw [← List.takeWhile_append_dropWhile isJsSpace l]
  rw [List.filter_append, filter_takeWhile_space hk, List.nil_append]

theorem filter_jsTrim {keep : Char → Bool} (hk : ContentClass keep) (l : List Char) :
    (jsTrim l).filter keep = l.filter keep := by
  unfold jsTrim
  rw [← filter_dropWhile_space hk l]
  generalize l.dropWhile isJsSpace = y
  unfold List.rdropWhile
  rw [List.filter_reverse, filter_dropWhile_space hk, ← List.filter_reverse, List.reverse_reverse]

theorem replaceAll_keepsContent (keep : Char → Bool) (m : Matcher) (hm : KeepsContent keep m)
    (n : Nat) : ∀ l : List Char, l.length = n →
      (replaceAll m 0 l).filter keep = l.filter keep := by
  induction n using Nat.strong_induction_on with
  | _ n ih =>
    intro l hl
    cases l with
    | nil => rfl
    | cons c rest =>
      cases hs : m (c :: rest) with
      | none =>
        have hrec : replaceAll m 0 (c :: rest) = c :: replaceAll m 0 rest := by
          simp only [replaceAll, hs]
        have hlt : rest.length < n := by rw [← hl]; simp
        rw [hrec, List.filter_cons, List.filter_cons, ih _ hlt rest rfl]
      | some r =>
        obtain ⟨out, len⟩ := r
        obtain ⟨h1, consumed, tl, hsplit, hlen, hf⟩ := hm _ _ _ hs
        have hdrop : rest.drop (len - 1) = tl := by
          have h2 : (c :: rest).drop len = tl := by
            rw [hsplit, ← hlen]
            exact List.drop_left' rfl
          cases len with
          | zero => omega
          | succ j => exact h2
        have hrec : replaceAll m 0 (c :: rest) = out ++ replaceAll m 0 tl := by
          simp only [replaceAll, hs]
          rw [replaceAll_skip m rest (len - 1), hdrop]
        have hlt : tl.length < n := by
          have := congrArg List.length hsplit
          rw [List.length_append, hlen, hl] at this
          omega
        rw [hrec, List.filter_append, ih _ hlt tl rfl, hf, hsplit, List.filter_append]

theorem replaceAllAnchored_keepsContent (keep : Char → Bool) (m0 m : Matcher)
    (hm0 : KeepsContent keep m0) (hm : KeepsContent keep m) (l : List Char) :
    (replaceAllAnchored m0 m l).filter keep = l.filter keep := by
  cases l with
  | nil => rfl
  | cons c rest =>
    cases hs : m0 (c :: rest) with
    | none =>
      have hrec : replaceAllAnchored m0 m (c :: rest) = c :: replaceAll m 0 rest := by
        simp only [replaceAllAnchored, hs]
      rw [hrec, List.filter_cons, List.filter_cons, replaceAll_keepsContent keep m hm _ rest rfl]
    | some r =>
      obtain ⟨out, len⟩ := r
      obtain ⟨h1, consumed, tl, hsplit, hlen, hf⟩ := hm0 _ _ _ hs
      have hdrop : rest.drop (len - 1) = tl := by
        have h2 : (c :: rest).drop len = tl := by
          rw [hsplit, ← hlen]
          exact List.drop_left' rfl
        cases len with
        | zero => omega
        | succ j => exact h2
      have hrec : replaceAllAnchored m0 m (c :: rest) = out ++ replaceAll m 0 tl := by
        simp only [replaceAllAnchored, hs]
        rw [replaceAll_skip m rest (len - 1), hdrop]
      rw [hrec, List.filter_append, replaceAll_keepsContent keep m hm _ tl rfl, hf, hsplit,
        List.filter_append]

theorem spaceBetween_keepsContent {keep : Char → Bool} (hk : ContentClass keep)
    (P Q : Char → Bool) : KeepsContent keep (spaceBetween P Q) := by
  intro s out len h
  match s, h with
  | a :: b :: tl, h =>
    simp only [spaceBetween] at h
    split at h
    · simp only [Option.some.injEq, Prod.mk.injEq] at h
      obtain ⟨rfl, rfl⟩ := h
      refine ⟨by decide, [a, b], tl, rfl, rfl, ?_⟩
      simp [List.filter_cons, contentClass_space hk ' ' (by decide)]
    · exact absurd h (by simp)
  | [], h => exact absurd h (by simp [spaceBetween])
  | [a], h => exact absurd h (by simp [spaceBetween])

theorem hyphenBreak_keepsContent {keep : Char → Bool} (hk : ContentClass keep) :
    KeepsContent keep hyphenBreak := by
  intro s out len h
  unfold hyphenBreak at h
  split at h
  · rename_i tl
    simp only [Option.some.injEq, Prod.mk.injEq] at h
    obtain ⟨rfl, rfl⟩ := h
    refine ⟨by decide, ['-', '\n'], tl, rfl, rfl, ?_⟩
    simp [List.filter_cons, contentClass_space hk '\n' (by decide),
      contentClass_mark hk '-' (Or.inl rfl)]
  · exact absurd h (by simp)

theorem softBreak_keepsContent {keep : Char → Bool} (hk : ContentClass keep) :
    KeepsContent keep softBreak := by
  intro s out len h
  unfold softBreak at h
  split at h
  · rename_i a b tl
    split at h
    · simp only [Option.some.injEq, Prod.mk.injEq] at h
      obtain ⟨rfl, rfl⟩ := h
      refine ⟨by decide, [a, '\n', b], tl, rfl, rfl, ?_⟩
      simp [List.filter_cons, contentClass_space hk '\n' (by decide),
        contentClass_space hk ' ' (by decide)]
    · exact absurd h (by simp)
  · exact absurd h (by simp)

theorem newlineRun_keepsContent {keep : Char → Bool} (hk : ContentClass keep) :
    KeepsContent keep newlineRun := by
  intro s out len h
  obtain ⟨rfl, hlen, h3⟩ := newlineRun_some s out len h
  refine ⟨by omega, s.takeWhile (fun c => c = '\n'), s.dropWhile (fun c => c = '\n'),
    (List.takeWhile_append_dropWhile _ s).symm, hlen.symm, ?_⟩
  have hsp : ∀ c ∈ s.takeWhile (fun c => c = '\n'), isJsSpace c = true := by
    intro c hc
    have := List.mem_takeWhile_imp hc
    simp only [decide_eq_true_eq] at this
    rw [this]
    decide
  rw [filter_spaces hk _ hsp]
  simp [List.filter_cons, contentClass_space hk '\n' (by decide)]

theorem filter_emphasisGroup {keep : Char → Bool} (hk : ContentClass keep) (run : List Char) :
    (emphasisGroup run).filter keep = run.filter keep := by
  unfold emphasisGroup
  split
  · rename_i hnil
    have hall : ∀ c ∈ run, isJsSpace c = true := by
      intro c hc
      exact List.dropWhile_eq_nil_iff.mp hnil c hc
    rw [filter_spaces hk run hall]
    apply filter_spaces hk
    intro c hc
    rw [Option.mem_toList, Option.mem_def] at hc
    exact hall c (List.mem_of_getLast?_eq_some hc)
  · exact filter_dropWhile_space hk run

theorem filter_stars {keep : Char → Bool} (hk : ContentClass keep) (l : List Char) :
    ('*' :: l).filter keep = l.filter keep := by
  rw [List.filter_cons, contentClass_mark hk '*' (Or.inr (Or.inl rfl))]
  rfl

theorem overEmphasis_keepsContent {keep : Char → Bool} (hk : ContentClass keep) :
    KeepsContent keep overEmphasis := by
  intro s out len h
  unfold overEmphasis at h
  split at h
  · rename_i rest0
    dsimp only at h
    generalize hop : (match rest0 with
      | '*' :: r => ((3 : Nat), r)
      | _ => (2, rest0)) = opened at h
    have hopened : ∃ stars : List Char, '*' :: '*' :: rest0 = stars ++ opened.2 ∧
        stars.length = opened.1 ∧ stars.filter keep = [] := by
      split at hop
      · rename_i r
        rw [← hop]
        exact ⟨['*', '*', '*'], rfl, rfl, by simp [filter_stars hk]⟩
      · rw [← hop]
        exact ⟨['*', '*'], rfl, rfl, by simp [filter_stars hk]⟩
    obtain ⟨stars, hst, hstlen, hstf⟩ := hopened
    have hsplit := (List.takeWhile_append_dropWhile (fun c => c != '*') opened.2).symm
    split at h
    · exact absurd h (by simp)
    · rename_i r0 rs tl hrun hdrop
      simp only [Option.some.injEq, Prod.mk.injEq] at h
      obtain ⟨rfl, rfl⟩ := h
      refine ⟨by omega, stars ++ opened.2.takeWhile (fun c => c != '*') ++ ['*', '*', ':'], tl,
        ?_, ?_, ?_⟩
      · rw [hst]
        conv_lhs => rw [hsplit, hdrop]
        simp
      · simp [hstlen, hrun]
        omega
      · simp [List.filter_append, hstf, filter_stars hk, filter_emphasisGroup hk,
          contentClass_mark hk ':' (Or.inr (Or.inr rfl)), List.filter_cons]
    · rename_i r0 rs tl hne hrun hdrop
      simp only [Option.some.injEq, Prod.mk.injEq] at h
      obtain ⟨rfl, rfl⟩ := h
      refine ⟨by omega, stars ++ opened.2.takeWhile (fun c => c != '*') ++ ['*', '*'], tl,
        ?_, ?_, ?_⟩
      · rw [hst]
        conv_lhs => rw [hsplit, hdrop]
        simp
      · simp [hstlen, hrun]
        omega
      · simp [List.filter_append, hstf, filter_stars hk, filter_emphasisGroup hk,
          List.filter_cons]
    · exact absurd h (by simp)
  · exact absurd h (by simp)

theorem repairSteps_keepsContent {keep : Char → Bool} (hk : ContentClass keep) (t : List Char) :
    (repairSteps t).filter keep = t.filter keep := by
  unfold repairSteps
  dsimp only
  rw [replaceAll_keepsContent keep _ (overEmphasis_keepsContent hk) _ _ rfl,
    replaceAll_keepsContent keep spaceBeforeColon (spaceBetween_keepsContent hk _ _) _ _ rfl,
    replaceAll_keepsContent keep spaceAfterMarker (spaceBetween_keepsContent hk _ _) _ _ rfl,
    replaceAll_keepsContent keep _ (softBreak_keepsContent hk) _ _ rfl,
    replaceAll_keepsContent keep _ (hyphenBreak_keepsContent hk) _ _ rfl,
    replaceAll_keepsContent keep spaceAfterPunct (spaceBetween_keepsContent hk _ _) _ _ rfl,
    replaceAll_keepsContent keep splitCamel (spaceBetween_keepsContent hk _ _) _ _ rfl]

theorem filter_joinWith {keep : Char → Bool} (sep : List Char) (hsep : sep.filter keep = [])
    (ps : List (List Char)) : (joinWith sep ps).filter keep = ps.flatten.filter keep := by
  unfold joinWith
  induction ps with
  | nil => rfl
  | cons p rest ih =>
    cases rest with
    | nil => simp [List.intercalate]
    | cons q tl =>
      have hstep : sep.intercalate (p :: q :: tl) = p ++ sep ++ sep.intercalate (q :: tl) := by
        simp [List.intercalate, List.intersperse]
      rw [hstep, List.filter_append, List.filter_append, hsep, ih]
      simp

theorem filter_flatten_splitOnChar {keep : Char → Bool} (sep : Char) (hsep : keep sep = false)
    (t : List Char) : (splitOnChar sep t).flatten.filter keep = t.filter keep := by
  induction t with
  | nil => rfl
  | cons c rest ih =>
    by_cases hc : c = sep
    · simp only [splitOnChar, if_pos hc, List.flatten_cons, List.nil_append, ih]
      rw [List.filter_cons, hc, hsep]
      rfl
    · simp only [splitOnChar, if_neg hc]
      cases hs : splitOnChar sep rest with
      | nil =>
        rw [hs] at ih
        simp only [List.flatten_nil, List.filter_nil] at ih
        simp [List.filter_cons, ← ih]
      | cons h tl =>
        rw [hs] at ih
        simp only [List.flatten_cons] at ih
        simp only [List.flatten_cons, List.cons_append, List.filter_cons, ih]

theorem filter_flatten_map_jsTrim {keep : Char → Bool} (hk : ContentClass keep)
    (ls : List (List Char)) : (ls.map jsTrim).flatten.filter keep = ls.flatten.filter keep := by
  induction ls with
  | nil => rfl
  | cons l rest ih =>
    simp only [List.map_cons, List.flatten_cons, List.filter_append, ih, filter_jsTrim hk]

theorem flatten_filter_nonEmpty (ls : List (List Char)) :
    (ls.filter (fun l => l ≠ [])).flatten = ls.flatten := by
  induction ls with
  | nil => rfl
  | cons l rest ih =>
    by_cases h : l = []
    · subst h
      rw [List.filter_cons_of_neg (by simp)]
      simpa using ih
    · rw [List.filter_cons_of_pos (by simpa using h), List.flatten_cons, List.flatten_cons, ih]

theorem paragraphLoop_keepsContent {keep : Char → Bool} (hk : ContentClass keep) :
    ∀ (ls : List (List Char)) (st : List (List Char) × List (List Char)),
      (if (ls.foldl paragraphStep st).2.length ≠ 0 then
          (ls.foldl paragraphStep st).1 ++ [joinWith [' '] (ls.foldl paragraphStep st).2]
        else (ls.foldl paragraphStep st).1).flatten.filter keep =
      (st.1.flatten ++ st.2.flatten ++ ls.flatten).filter keep := by
  have hblank : [' '].filter keep = [] := by
    simp [List.filter_cons, contentClass_space hk ' ' (by decide)]
  intro ls
  induction ls with
  | nil =>
    intro st
    simp only [List.foldl_nil, List.flatten_nil, List.append_nil]
    split
    · simp [List.filter_append, filter_joinWith _ hblank]
    · rename_i h
      have : st.2 = [] := by
        rw [← List.length_eq_zero]
        simpa using h
      simp [this]
  | cons l rest ih =>
    intro st
    rw [List.foldl_cons, ih (paragraphStep st l)]
    unfold paragraphStep
    by_cases hs : isStructural l = true
    · simp only [hs, if_true]
      split
      · simp [List.filter_append, filter_joinWith _ hblank]
      · rename_i h
        have : st.2 = [] := by
          rw [← List.length_eq_zero]
          simpa using h
        simp [this]
    · simp only [hs]
      simp [List.filter_append]

theorem buildParagraphs_keepsContent {keep : Char → Bool} (hk : ContentClass keep)
    (ls : List (List Char)) :
    (buildParagraphs ls).flatten.filter keep = ls.flatten.filter keep := by
  unfold buildParagraphs
  dsimp only
  rw [paragraphLoop_keepsContent hk ls ([], [])]
  simp

theorem cleanChars_keepsContent {keep : Char → Bool} (hk : ContentClass keep) (t : List Char) :
    (cleanChars t).filter keep = t.filter keep := by
  have hbreak : ['\n', '\n'].filter keep = [] := by
    simp [List.filter_cons, contentClass_space hk '\n' (by decide)]
  have hlines : (((splitOnChar '\n' (repairSteps t)).map jsTrim).filter
      (fun l => l ≠ [])).flatten.filter keep = t.filter keep := by
    rw [flatten_filter_nonEmpty, filter_flatten_map_jsTrim hk,
      filter_flatten_splitOnChar '\n' (contentClass_space hk '\n' (by decide)),
      repairSteps_keepsContent hk]
  unfold cleanChars
  dsimp only
  split
  · exact repairSteps_keepsContent hk t
  · rw [filter_jsTrim hk, replaceAll_keepsContent keep _ (newlineRun_keepsContent hk) _ _ rfl]
    split
    · rw [filter_joinWith _ hbreak, buildParagraphs_keepsContent hk, hlines]
    · exact repairSteps_keepsContent hk t

theorem cleanSynthesizedText_keepsContent {keep : Char → Bool} (hk : ContentClass keep)
    (text : String) : (cleanSynthesizedText text).data.filter keep = text.data.filter keep := by
  unfold cleanSynthesizedText
  split
  · rfl
  · exact cleanChars_keepsContent hk text.data

theorem headingSpace_keepsContent {keep : Char → Bool} (hk : ContentClass keep) :
    KeepsContent keep headingSpace := by
  intro s out len h
  unfold headingSpace at h
  split at h
  · rename_i rest
    simp only [Option.some.injEq, Prod.mk.injEq] at h
    obtain ⟨rfl, rfl⟩ := h
    refine ⟨by omega,
      '#' :: rest.takeWhile (fun c => c = '#') ++
        (rest.dropWhile (fun c => c = '#')).takeWhile isJsSpace,
      (rest.dropWhile (fun c => c = '#')).dropWhile isJsSpace, ?_, ?_, ?_⟩
    · simp [List.takeWhile_append_dropWhile]
    · simp
      omega
    · rw [List.filter_append, filter_jsTrim hk]
      simp [List.filter_cons, contentClass_space hk ' ' (by decide)]
  · exact absurd h (by simp)

theorem numberedDot_keepsContent {keep : Char → Bool} (hk : ContentClass keep) :
    KeepsContent keep numberedDot := by
  intro s out len h
  unfold numberedDot at h
  dsimp only at h
  split at h
  · rename_i d ds r2 hdig hdrop
    simp only [Option.some.injEq, Prod.mk.injEq] at h
    obtain ⟨rfl, rfl⟩ := h
    refine ⟨by rw [hdig]; simp; omega,
      s.takeWhile isDigit09 ++ (s.dropWhile isDigit09).takeWhile isJsSpace ++
        '.' :: r2.takeWhile isJsSpace,
      r2.dropWhile isJsSpace, ?_, ?_, ?_⟩
    · have h1 := (List.takeWhile_append_dropWhile isDigit09 s).symm
      have h2 := (List.takeWhile_append_dropWhile isJsSpace (s.dropWhile isDigit09)).symm
      have h3 := (List.takeWhile_append_dropWhile isJsSpace r2).symm
      rw [hdrop] at h2
      conv_lhs => rw [h1, h2, h3]
      simp
    · simp
      omega
    · simp [List.filter_append, List.filter_cons, filter_takeWhile_space hk,
        contentClass_space hk ' ' (by decide)]
  · exact absurd h (by simp)

theorem boldOpen_keepsContent {keep : Char → Bool} (hk : ContentClass keep) :
    KeepsContent keep boldOpen := by
  intro s out len h
  unfold boldOpen at h
  split at h
  · rename_i rest
    simp only [Option.some.injEq, Prod.mk.injEq] at h
    obtain ⟨rfl, rfl⟩ := h
    refine ⟨by omega, '*' :: '*' :: rest.takeWhile isJsSpace, rest.dropWhile isJsSpace,
      ?_, ?_, ?_⟩
    · simp [List.takeWhile_append_dropWhile]
    · simp
      omega
    · simp [filter_stars hk, filter_takeWhile_space hk]
  · exact absurd h (by simp)

theorem boldClose_keepsContent {keep : Char → Bool} (hk : ContentClass keep) :
    KeepsContent keep boldClose := by
  intro s out len h
  unfold boldClose at h
  split at h
  · rename_i tl hdrop
    simp only [Option.some.injEq, Prod.mk.injEq] at h
    obtain ⟨rfl, rfl⟩ := h
    refine ⟨by omega, s.takeWhile isJsSpace ++ ['*', '*'], tl, ?_, ?_, ?_⟩
    · conv_lhs => rw [← List.takeWhile_append_dropWhile isJsSpace s, hdrop]
      simp
    · simp
    · simp [List.filter_append, filter_stars hk, filter_takeWhile_space hk]
  · exact absurd h (by simp)

theorem doubleColon_keepsContent {keep : Char → Bool} (hk : ContentClass keep) :
    KeepsContent keep doubleColon := by
  intro s out len h
  unfold doubleColon at h
  split at h
  · rename_i r hdrop
    simp only [Option.some.injEq, Prod.mk.injEq] at h
    obtain ⟨rfl, rfl⟩ := h
    refine ⟨by omega, s.takeWhile isJsSpace ++ ':' :: ':' :: r.takeWhile isJsSpace,
      r.dropWhile isJsSpace, ?_, ?_, ?_⟩
    · conv_lhs => rw [← List.takeWhile_append_dropWhile isJsSpace s, hdrop]
      simp [List.takeWhile_append_dropWhile]
    · simp
      omega
    · simp [List.filter_append, List.filter_cons, filter_takeWhile_space hk,
        contentClass_space hk ' ' (by decide), contentClass_mark hk ':' (Or.inr (Or.inr rfl))]
  · exact absurd h (by simp)

theorem bulletSpace_keepsContent {keep : Char → Bool} (hk : ContentClass keep) :
    KeepsContent keep bulletSpace := by
  intro s out len h
  unfold bulletSpace at h
  split at h
  · rename_i c rest
    split at h
    · split at h
      · exact absurd h (by simp)
      · rename_i w ws htake
        simp only [Option.some.injEq, Prod.mk.injEq] at h
        obtain ⟨rfl, rfl⟩ := h
        refine ⟨by omega, c :: rest.takeWhile isJsSpace, rest.dropWhile isJsSpace, ?_, ?_, ?_⟩
        · simp [List.takeWhile_append_dropWhile]
        · simp [htake]
          omega
        · simp [List.filter_cons, filter_takeWhile_space hk,
            contentClass_space hk ' ' (by decide)]
    · exact absurd h (by simp)
  · exact absurd h (by simp)

theorem spaceBeforePunct_keepsContent {keep : Char → Bool} (hk : ContentClass keep) :
    KeepsContent keep spaceBeforePunct := by
  intro s out len h
  unfold spaceBeforePunct at h
  split at h
  · rename_i w ws p tl htake hdrop
    split at h
    · simp only [Option.some.injEq, Prod.mk.injEq] at h
      obtain ⟨rfl, rfl⟩ := h
      refine ⟨by omega, s.takeWhile isJsSpace ++ [p], tl, ?_, ?_, ?_⟩
      · conv_lhs => rw [← List.takeWhile_append_dropWhile isJsSpace s, hdrop]
        simp
      · simp [htake]
      · simp [List.filter_append, filter_takeWhile_space hk]
    · exact absurd h (by simp)
  · exact absurd h (by simp)

theorem headingLine_isPrefix (s h : List Char) (hh : headingLine s = some h) :
    h ≠ [] ∧ h <+: s := by
  unfold headingLine at hh
  dsimp only at hh
  have h1 := (List.takeWhile_append_dropWhile (fun c => c = '#') s).symm
  have h2 := (List.takeWhile_append_dropWhile isJsSpace (s.dropWhile (fun c => c = '#'))).symm
  split at hh
  · rename_i x xs w ws a after hx hw hd
    simp only [Option.some.injEq] at hh
    subst hh
    refine ⟨by rw [hx]; simp, ?_⟩
    refine ⟨(a :: after).dropWhile (fun c => c != '\n'), ?_⟩
    rw [List.append_assoc, List.append_assoc, List.takeWhile_append_dropWhile, ← hd, ← h2, ← h1]
  · rename_i x xs w ws hx hw hd
    split at hh
    · simp only [Option.some.injEq] at hh
      subst hh
      refine ⟨by rw [hx]; simp, ?_⟩
      obtain ⟨t, ht⟩ := List.rdropWhile_prefix (fun c => c = '\n')
        ((s.dropWhile (fun c => c = '#')).takeWhile isJsSpace)
      refine ⟨t ++ (s.dropWhile (fun c => c = '#')).dropWhile isJsSpace, ?_⟩
      rw [List.append_assoc, ← List.append_assoc _ t, ht, ← h2, ← h1]
    · exact absurd hh (by simp)
  · exact absurd hh (by simp)

theorem headingAfterBreak_keepsContent {keep : Char → Bool} (hk : ContentClass keep) :
    KeepsContent keep headingAfterBreak := by
  intro s out len h
  unfold headingAfterBreak at h
  split at h
  · rename_i rest
    cases hh : headingLine rest with
    | none => rw [hh] at h; exact absurd h (by simp)
    | some hd =>
      rw [hh] at h
      simp only [Option.map_some', Option.some.injEq, Prod.mk.injEq] at h
      obtain ⟨rfl, rfl⟩ := h
      obtain ⟨_, tl, htl⟩ := headingLine_isPrefix rest hd hh
      refine ⟨by omega, '\n' :: hd, tl, by simp [htl], by simp; omega, ?_⟩
      simp [List.filter_cons, contentClass_space hk '\n' (by decide)]
  · exact absurd h (by simp)

theorem headingAtStart_keepsContent {keep : Char → Bool} (hk : ContentClass keep) :
    KeepsContent keep headingAtStart := by
  intro s out len h
  unfold headingAtStart at h
  split at h
  · rename_i r hr
    simp only [Option.some.injEq] at h
    subst h
    exact headingAfterBreak_keepsContent hk s out len hr
  · cases hh : headingLine s with
    | none => rw [hh] at h; exact absurd h (by simp)
    | some hd =>
      rw [hh] at h
      simp only [Option.map_some', Option.some.injEq, Prod.mk.injEq] at h
      obtain ⟨rfl, rfl⟩ := h
      obtain ⟨hne, tl, htl⟩ := headingLine_isPrefix s hd hh
      refine ⟨?_, hd, tl, htl.symm, rfl, ?_⟩
      · cases hd with
        | nil => exact absurd rfl hne
        | cons _ _ => simp
      · simp [List.filter_cons, contentClass_space hk '\n' (by decide)]

theorem markdownSteps_keepsContent {keep : Char → Bool} (hk : ContentClass keep)
    (t : List Char) : (markdownSteps t).filter keep = t.filter keep := by
  unfold markdownSteps
  dsimp only
  rw [replaceAllAnchored_keepsContent keep _ _ (headingAtStart_keepsContent hk)
      (headingAfterBreak_keepsContent hk),
    replaceAll_keepsContent keep _ (spaceBeforePunct_keepsContent hk) _ _ rfl,
    replaceAll_keepsContent keep _ (bulletSpace_keepsContent hk) _ _ rfl,
    replaceAll_keepsContent keep _ (doubleColon_keepsContent hk) _ _ rfl,
    replaceAll_keepsContent keep _ (boldClose_keepsContent hk) _ _ rfl,
    replaceAll_keepsContent keep _ (boldOpen_keepsContent hk) _ _ rfl,
    replaceAll_keepsContent keep _ (numberedDot_keepsContent hk) _ _ rfl,
    replaceAll_keepsContent keep _ (headingSpace_keepsContent hk) _ _ rfl]

theorem normalizeMarkdown_keepsContent {keep : Char → Bool} (hk : ContentClass keep)
    (text : String) : (normalizeMarkdown text).data.filter keep = text.data.filter keep := by
  unfold normalizeMarkdown
  split
  · rfl
  · rw [filter_jsTrim hk, markdownSteps_keepsContent hk, cleanSynthesizedText_keepsContent hk]

theorem contentClass_isContentChar : ContentClass isContentChar := fun _ h => h

theorem contentClass_isLetterOrDigit : ContentClass isLetterOrDigit := by
  intro c h
  simp only [isLetterOrDigit, isLetter, isUpperAZ, isLowerAZ, isDigit09, Bool.or_eq_true,
    Bool.and_eq_true, decide_eq_true_eq] at h
  have hlt : c.toNat < 123 := by omega
  have hge : 48 ≤ c.toNat := by omega
  have e1 : c ≠ '-' := by rintro rfl; revert hge; decide
  have e2 : c ≠ '*' := by rintro rfl; revert hge; decide
  have e3 : c ≠ ':' := by rintro rfl; revert h; decide
  have e4 : isJsSpace c = false := by
    simp only [isJsSpace, Bool.or_eq_false_iff, Bool.and_eq_false_imp, decide_eq_false_iff_not,
      decide_eq_true_eq]
    omega
  simp [isContentChar, e1, e2, e3, e4]

/-- C22: neither normaliser rewrites content.  For every input string, the
letters and digits of `cleanSynthesizedText input` and of `normalizeMarkdown
input`, read in order, are the letters and digits of the input; the same holds
for the wider class of all characters other than white space, hyphen, star and
colon, so only such characters are inserted or removed. -/
theorem normalisers_keep_letters_and_digits (input : String) :
    (cleanSynthesizedText input).data.filter isLetterOrDigit =
      input.data.filter isLetterOrDigit ∧
    (normalizeMarkdown input).data.filter isLetterOrDigit =
      input.data.filter isLetterOrDigit ∧
    (cleanSynthesizedText input).data.filter isContentChar =
      input.data.filter isContentChar ∧
    (normalizeMarkdown input).data.filter isContentChar = input.data.filter isContentChar :=
  ⟨cleanSynthesizedText_keepsContent contentClass_isLetterOrDigit input,
    normalizeMarkdown_keepsContent contentClass_isLetterOrDigit input,
    cleanSynthesizedText_keepsContent contentClass_isContentChar input,
    normalizeMarkdown_keepsContent contentClass_isContentChar input⟩

/-! ## Paragraph reconstruction -/

theorem joinWith_snoc (sep : List Char) (buf : List (List Char)) (l : List Char)
    (h : buf ≠ []) : joinWith sep (buf ++ [l]) = joinWith sep buf ++ sep ++ l := by
  unfold joinWith
  induction buf with
  | nil => exact absurd rfl h
  | cons b rest ih =>
    cases rest with
    | nil => simp [List.intercalate, List.intersperse]
    | cons q tl =>
      have h1 : sep.intercalate (b :: q :: tl) = b ++ sep ++ sep.intercalate (q :: tl) := by
        simp [List.intercalate, List.intersperse]
      have h2 : sep.intercalate (b :: (q :: tl ++ [l])) =
          b ++ sep ++ sep.intercalate (q :: tl ++ [l]) := by
        simp [List.intercalate, List.intersperse]
      rw [List.cons_append, h2, ih (by simp), h1]
      simp

theorem joinOnto_joinOnto (a l : List Char) (ps : List (List Char)) :
    joinOnto a (joinOnto l ps) = joinOnto (a ++ ' ' :: l) ps := by
  cases ps with
  | nil => rfl
  | cons p tl => simp [joinOnto]

theorem paragraphsOf_cons_structural (l : List Char) (rest : List (List Char))
    (h : isStructural l = true) : paragraphsOf (l :: rest) = l :: paragraphsOf rest := by
  simp [paragraphsOf, h]

theorem paragraphsOf_cons_plain (l : List Char) (rest : List (List Char))
    (h : isStructural l = false) : paragraphsOf (l :: rest) = pendingThen l rest := by
  simp [paragraphsOf, pendingThen, h]

theorem pendingThen_snoc (b l : List Char) (rest : List (List Char))
    (h : isStructural l = false) :
    pendingThen b (l :: rest) = pendingThen (b ++ ' ' :: l) rest := by
  have h1 : runEnds (l :: rest) = false := h
  rw [pendingThen, h1, paragraphsOf_cons_plain l rest h]
  unfold pendingThen
  by_cases hr : runEnds rest = true
  · simp [hr, joinOnto]
  · simp [hr, joinOnto_joinOnto]

theorem paragraphLoop_refines :
    ∀ (ls : List (List Char)) (ps buf : List (List Char)),
      (if (ls.foldl paragraphStep (ps, buf)).2.length ≠ 0 then
          (ls.foldl paragraphStep (ps, buf)).1 ++
            [joinWith [' '] (ls.foldl paragraphStep (ps, buf)).2]
        else (ls.foldl paragraphStep (ps, buf)).1) =
      ps ++ (if buf = [] then paragraphsOf ls else pendingThen (joinWith [' '] buf) ls) := by
  intro ls
  induction ls with
  | nil =>
    intro ps buf
    cases buf with
    | nil => simp [paragraphsOf]
    | cons b tl => simp [pendingThen, runEnds, paragraphsOf]
  | cons l rest ih =>
    intro ps buf
    rw [List.foldl_cons]
    by_cases hs : isStructural l = true
    · have hstep : paragraphStep (ps, buf) l =
          ((if buf.length ≠ 0 then ps ++ [joinWith [' '] buf] else ps) ++ [l], []) := by
        simp [paragraphStep, hs]
      rw [hstep, ih]
      cases buf with
      | nil => simp [paragraphsOf_cons_structural l rest hs]
      | cons b tl =>
        simp [pendingThen, runEnds, hs, paragraphsOf_cons_structural l rest hs]
    · have hs2 : isStructural l = false := by simpa using hs
      have hstep : paragraphStep (ps, buf) l = (ps, buf ++ [l]) := by
        simp [paragraphStep, hs2]
      rw [hstep, ih]
      cases buf with
      | nil =>
        simp [paragraphsOf_cons_plain l rest hs2, joinWith_singleton]
      | cons b tl =>
        have hj : joinWith [' '] (b :: (tl ++ [l])) = joinWith [' '] (b :: tl) ++ ' ' :: l := by
          have := joinWith_snoc [' '] (b :: tl) l (by simp)
          simpa using this
        simp [pendingThen_snoc _ l rest hs2, hj]

theorem buildParagraphs_eq_paragraphsOf (ls : List (List Char)) :
    buildParagraphs ls = paragraphsOf ls := by
  unfold buildParagraphs
  dsimp only
  rw [paragraphLoop_refines ls [] []]
  simp

theorem joinWith_cons_cons (sep a b : List Char) (tl : List (List Char)) :
    joinWith sep (a :: b :: tl) = a ++ sep ++ joinWith sep (b :: tl) := by
  simp [joinWith, List.intercalate, List.intersperse]

theorem joinWith_joined_head (sep a b : List Char) (tl : List (List Char)) :
    joinWith sep ((a ++ sep ++ b) :: tl) = a ++ sep ++ joinWith sep (b :: tl) := by
  cases tl with
  | nil => simp [joinWith_singleton]
  | cons c rest => simp [joinWith_cons_cons]

theorem pendingThen_run (b : List Char) (rest : List (List Char)) :
    pendingThen b rest =
      joinWith [' '] (b :: rest.takeWhile (fun r => !isStructural r)) ::
        paragraphsOf (rest.dropWhile (fun r => !isStructural r)) := by
  induction rest generalizing b with
  | nil => simp [pendingThen, runEnds, paragraphsOf, joinWith_singleton]
  | cons r tl ih =>
    by_cases hr : isStructural r = true
    · simp [pendingThen, runEnds, hr, List.takeWhile, List.dropWhile, joinWith_singleton]
    · have hr2 : isStructural r = false := by simpa using hr
      rw [pendingThen_snoc b r tl hr2, ih]
      simp only [List.takeWhile, List.dropWhile, hr2, Bool.not_false]
      congr 1
      have := joinWith_joined_head [' '] b r (tl.takeWhile (fun r => !isStructural r))
      simpa using this

/-- The unfolding of `paragraphsOf` by maximal runs: a non-structural line opens
a paragraph that takes every directly following non-structural line. -/
theorem paragraphsOf_run (l : List Char) (rest : List (List Char))
    (h : isStructural l = false) :
    paragraphsOf (l :: rest) =
      joinWith [' '] (l :: rest.takeWhile (fun r => !isStructural r)) ::
        paragraphsOf (rest.dropWhile (fun r => !isStructural r)) := by
  rw [paragraphsOf_cons_plain l rest h, pendingThen_run]

theorem not_mem_line_of_splitOnChar (sep : Char) (t : List Char) :
    ∀ ln ∈ splitOnChar sep t, sep ∉ ln := by
  induction t with
  | nil =>
    intro ln hln
    simp only [splitOnChar, List.mem_singleton] at hln
    rw [hln]
    simp
  | cons c rest ih =>
    intro ln hln
    by_cases hc : c = sep
    · simp only [splitOnChar, if_pos hc, List.mem_cons] at hln
      rcases hln with e | e
      · rw [e]
        simp
      · exact ih ln e
    · simp only [splitOnChar, if_neg hc] at hln
      cases hs : splitOnChar sep rest with
      | nil =>
        rw [hs] at hln
        simp only [List.mem_singleton] at hln
        rw [hln]
        simpa using fun e => hc e.symm
      | cons h tl =>
        rw [hs] at hln ih
        rcases List.mem_cons.mp hln with e | e
        · rw [e]
          have := ih h (by simp)
          simp only [List.mem_cons, not_or]
          exact ⟨fun e2 => hc e2.symm, this⟩
        · exact ih ln (List.mem_cons_of_mem _ e)

theorem repairedLines_trimmed (text : List Char) :
    ∀ l ∈ repairedLines text, TrimmedLine l := by
  intro l hl
  unfold repairedLines at hl
  rw [List.mem_filter, List.mem_map] at hl
  obtain ⟨⟨ln, hln, rfl⟩, hne⟩ := hl
  refine ⟨by simpa using hne, ?_, jsTrim_head ln, jsTrim_last ln⟩
  exact not_mem_jsTrim (not_mem_line_of_splitOnChar '\n' _ ln hln)

theorem trimmedLine_join (l p : List Char) (hl : TrimmedLine l) (hp : TrimmedLine p) :
    TrimmedLine (l ++ ' ' :: p) := by
  obtain ⟨l1, l2, l3, _⟩ := hl
  obtain ⟨p1, p2, _, p4⟩ := hp
  refine ⟨by simp, ?_, ?_, ?_⟩
  · simp only [List.mem_append, List.mem_cons, not_or]
    exact ⟨l2, by decide, p2⟩
  · intro c hc
    cases l with
    | nil => exact absurd rfl l1
    | cons a tl => exact l3 c (by simpa using hc)
  · intro c hc
    apply p4 c
    cases p with
    | nil => exact absurd rfl p1
    | cons d tl =>
      rw [List.getLast?_append, List.getLast?_cons_cons] at hc
      cases hpl : (d :: tl).getLast? with
      | none =>
        rw [List.getLast?_eq_none_iff] at hpl
        exact absurd hpl p1
      | some e =>
        rw [hpl] at hc
        simpa using hc

theorem paragraphsOf_trimmed (ls : List (List Char)) (h : ∀ l ∈ ls, TrimmedLine l) :
    ∀ p ∈ paragraphsOf ls, TrimmedLine p := by
  induction ls with
  | nil =>
    intro p hp
    exact absurd hp (by simp [paragraphsOf])
  | cons l rest ih =>
    have hl := h l (by simp)
    have hrest := ih (fun x hx => h x (List.mem_cons_of_mem _ hx))
    intro p hp
    unfold paragraphsOf at hp
    split at hp
    · rcases List.mem_cons.mp hp with e | e
      · rw [e]
        exact hl
      · exact hrest p e
    · cases hps : paragraphsOf rest with
      | nil =>
        rw [hps] at hp
        simp only [joinOnto, List.mem_singleton] at hp
        rw [hp]
        exact hl
      | cons q tl =>
        rw [hps] at hp hrest
        simp only [joinOnto] at hp
        rcases List.mem_cons.mp hp with e | e
        · rw [e]
          exact trimmedLine_join l q hl (hrest q (by simp))
        · exact hrest p (List.mem_cons_of_mem _ e)

theorem no_triple_of_not_mem (p : List Char) (h : '\n' ∉ p) : ¬ (['\n', '\n', '\n'] <:+: p) :=
  fun hin => h (hin.subset (by simp))

theorem no_triple_append (p y : List Char) (hp : '\n' ∉ p)
    (hy0 : (y.takeWhile (fun c => c = '\n')).length = 0) (hy : ¬ (['\n', '\n', '\n'] <:+: y)) :
    ¬ (['\n', '\n', '\n'] <:+: p ++ '\n' :: '\n' :: y) := by
  induction p with
  | nil =>
    rw [List.nil_append, triple_isInfix_cons, triple_isInfix_cons]
    simp only [breakRun_cons, hy0, if_true]
    rintro (h | h | h)
    · omega
    · omega
    · exact hy h
  | cons c rest ih =>
    have hc : c ≠ '\n' := fun e => hp (by simp [e])
    rw [List.cons_append, triple_isInfix_cons, breakRun_cons, if_neg hc]
    rintro (h | h)
    · omega
    · exact ih (fun hm => hp (List.mem_cons_of_mem _ hm)) h

theorem joined_paragraphs_clean (ps : List (List Char)) (h : ∀ p ∈ ps, TrimmedLine p) :
    (ps ≠ [] → joinWith ['\n', '\n'] ps ≠ []) ∧
    ¬ (['\n', '\n', '\n'] <:+: joinWith ['\n', '\n'] ps) ∧
    (∀ c, (joinWith ['\n', '\n'] ps).head? = some c → isJsSpace c = false) ∧
    (∀ c, (joinWith ['\n', '\n'] ps).getLast? = some c → isJsSpace c = false) := by
  induction ps with
  | nil =>
    refine ⟨fun e => absurd rfl e, ?_, ?_, ?_⟩
    · simp [joinWith, List.intercalate]
    · intro c hc
      simp [joinWith, List.intercalate] at hc
    · intro c hc
      simp [joinWith, List.intercalate] at hc
  | cons p rest ih =>
    obtain ⟨p1, p2, p3, p4⟩ := h p (by simp)
    cases rest with
    | nil =>
      rw [joinWith_singleton]
      exact ⟨fun _ => p1, no_triple_of_not_mem p p2, p3, p4⟩
    | cons q tl =>
      obtain ⟨i1, i2, i3, i4⟩ := ih (fun x hx => h x (List.mem_cons_of_mem _ hx))
      have i1 := i1 (by simp)
      rw [joinWith_cons_cons]
      generalize joinWith ['\n', '\n'] (q :: tl) = y at i1 i2 i3 i4
      refine ⟨by simp [p1], ?_, ?_, ?_⟩
      · have hy0 : (y.takeWhile (fun c => c = '\n')).length = 0 := by
          cases y with
          | nil => rfl
          | cons d rest =>
            have hd := i3 d rfl
            have : d ≠ '\n' := by
              rintro rfl
              exact absurd hd (by decide)
            simp [List.takeWhile, this]
        have := no_triple_append p y p2 hy0 i2
        simpa using this
      · intro c hc
        cases p with
        | nil => exact absurd rfl p1
        | cons a tl2 => exact p3 c (by simpa using hc)
      · intro c hc
        apply i4 c
        cases hyl : y.getLast? with
        | none =>
          rw [List.getLast?_eq_none_iff] at hyl
          exact absurd hyl i1
        | some d =>
          rw [List.getLast?_append, hyl] at hc
          simpa using hc

theorem jsTrim_eq_self (l : List Char) (hh : ∀ c, l.head? = some c → isJsSpace c = false)
    (hl : ∀ c, l.getLast? = some c → isJsSpace c = false) : jsTrim l = l := by
  unfold jsTrim
  have h1 : l.dropWhile isJsSpace = l := by
    cases l with
    | nil => rfl
    | cons a tl =>
      have := hh a rfl
      simp [List.dropWhile, this]
  rw [h1, List.rdropWhile_eq_self_iff]
  intro hne
  have := hl _ (List.getLast?_eq_getLast l hne)
  simp [this]

theorem collapse_of_no_triple (x : List Char) (h : ¬ (['\n', '\n', '\n'] <:+: x)) :
    replaceAll newlineRun 0 x = x := by
  apply replaceAll_of_no_match
  intro s hs
  rw [newlineRun_none_iff]
  by_contra hlt
  have h3 : 3 ≤ (s.takeWhile (fun c => c = '\n')).length := by omega
  cases s with
  | nil => simp at h3
  | cons c rest =>
    exact h (((triple_isInfix_cons c rest).mpr (Or.inl h3)).trans hs.isInfix)

theorem cleanChars_unfold (text : List Char) :
    cleanChars text =
      if (repairedLines text).length = 0 then repairSteps text
      else jsTrim (replaceAll newlineRun 0
        (if mostlyShort (repairedLines text) = true then
          joinWith ['\n', '\n'] (buildParagraphs (repairedLines text))
        else repairSteps text)) := by
  unfold cleanChars mostlyShort repairedLines
  simp only [decide_eq_true_eq]

theorem cleanSynthesizedText_data (text : String) :
    (cleanSynthesizedText text).data = cleanChars text.data := by
  unfold cleanSynthesizedText
  split
  · rename_i h
    subst h
    decide
  · rfl

/-- C24: paragraph reconstruction.  When more than half of the non-empty
trimmed lines of the repaired text have at most three words, the output of
`cleanSynthesizedText` is the paragraphs of those lines (each structural line
alone, each maximal run of non-structural lines joined by single blanks),
joined by exactly two line feeds.  Otherwise step 7 changes nothing: the output
is the repaired text itself when it has no visible line, and else the repaired
text after the final collapse of line-feed runs and trim. -/
theorem paragraph_reconstruction (text : String) :
    (mostlyShort (repairedLines text.data) = true →
      (cleanSynthesizedText text).data =
        joinWith ['\n', '\n'] (paragraphsOf (repairedLines text.data))) ∧
    (mostlyShort (repairedLines text.data) = false →
      (cleanSynthesizedText text).data =
        if repairedLines text.data = [] then repairSteps text.data
        else jsTrim (replaceAll newlineRun 0 (repairSteps text.data))) := by
  rw [cleanSynthesizedText_data, cleanChars_unfold]
  constructor
  · intro hshort
    have hne : (repairedLines text.data).length ≠ 0 := by
      intro h0
      rw [List.length_eq_zero] at h0
      rw [h0] at hshort
      exact absurd hshort (by decide)
    rw [if_neg hne, if_pos hshort, buildParagraphs_eq_paragraphsOf]
    obtain ⟨_, h2, h3, h4⟩ := joined_paragraphs_clean _
      (paragraphsOf_trimmed _ (repairedLines_trimmed text.data))
    rw [collapse_of_no_triple _ h2, jsTrim_eq_self _ h3 h4]
  · intro hlong
    by_cases h0 : repairedLines text.data = []
    · rw [if_pos (by rw [h0]; rfl), if_pos h0]
    · rw [if_neg (by simpa [List.length_eq_zero] using h0), if_neg h0, hlong]
      rfl

theorem paragraph_reconstruction_witness :
    mostlyShort (repairedLines "Rest.\n# Plan.\nDrink water.\nSleep well.".data) = true ∧
    (cleanSynthesizedText "Rest.\n# Plan.\nDrink water.\nSleep well.").data =
      joinWith ['\n', '\n']
        (paragraphsOf (repairedLines "Rest.\n# Plan.\nDrink water.\nSleep well.".data)) ∧
    paragraphsOf (repairedLines "Rest.\n# Plan.\nDrink water.\nSleep well.".data) =
      ["Rest.".data, "# Plan.".data, "Drink water. Sleep well.".data] :=
  ⟨by decide,
    (paragraph_reconstruction "Rest.\n# Plan.\nDrink water.\nSleep well.").1 (by decide),
    by decide⟩

/-! ## Plain prose is left as it is -/

theorem noAdjacent_of_left (P Q : Char → Bool) (l : List Char) (h : ∀ c ∈ l, P c = false) :
    NoAdjacent P Q l := by
  unfold NoAdjacent
  induction l with
  | nil => rfl
  | cons a rest ih =>
    cases rest with
    | nil => rfl
    | cons b tl =>
      simp only [noAdjacentPair, h a (by simp), Bool.false_and, Bool.not_false, Bool.true_and]
      exact ih (fun c hc => h c (List.mem_cons_of_mem _ hc))

theorem noAdjacent_of_right (P Q : Char → Bool) (l : List Char) (h : ∀ c ∈ l, Q c = false) :
    NoAdjacent P Q l := by
  unfold NoAdjacent
  induction l with
  | nil => rfl
  | cons a rest ih =>
    cases rest with
    | nil => rfl
    | cons b tl =>
      simp only [noAdjacentPair, h b (by simp), Bool.and_false, Bool.not_false, Bool.true_and]
      exact ih (fun c hc => h c (List.mem_cons_of_mem _ hc))

theorem noAdjacent_mono {P Q P2 Q2 : Char → Bool} (l : List Char)
    (hcl : ∀ a ∈ l, ∀ b ∈ l, P2 a = true → Q2 b = true → P a = true ∧ Q b = true)
    (h : NoAdjacent P Q l) : NoAdjacent P2 Q2 l := by
  unfold NoAdjacent at h ⊢
  induction l with
  | nil => rfl
  | cons a rest ih =>
    cases rest with
    | nil => rfl
    | cons b tl =>
      simp only [noAdjacentPair, Bool.and_eq_true, Bool.not_eq_true'] at h ⊢
      refine ⟨?_, ih (fun x hx y hy => hcl x (List.mem_cons_of_mem _ hx) y
        (List.mem_cons_of_mem _ hy)) h.2⟩
      by_contra hne
      have hp : P2 a = true ∧ Q2 b = true := by
        cases h1 : P2 a <;> cases h2 : Q2 b <;> simp [h1, h2] at hne ⊢
      have := hcl a (by simp) b (by simp) hp.1 hp.2
      simp [this.1, this.2] at h

theorem replaceAll_almost_identity (m : Matcher) (e : List Char) (n : Nat) :
    ∀ l : List Char, l.length = n →
      (∀ s, s <:+ l → ∀ out len, m s = some (out, len) →
        1 ≤ len ∧ ((len ≤ s.length ∧ out = s.take len) ∨ (s.length ≤ len ∧ out = s ++ e))) →
      replaceAll m 0 l = l ∨ replaceAll m 0 l = l ++ e := by
  induction n using Nat.strong_induction_on with
  | _ n ih =>
    intro l hl h
    cases l with
    | nil => exact Or.inl rfl
    | cons c rest =>
      cases hs : m (c :: rest) with
      | none =>
        have hrec : replaceAll m 0 (c :: rest) = c :: replaceAll m 0 rest := by
          simp only [replaceAll, hs]
        have hlt : rest.length < n := by rw [← hl]; simp
        rw [hrec]
        rcases ih _ hlt rest rfl (fun s hsuf => h s (hsuf.trans (List.suffix_cons c rest)))
          with e1 | e1
        · exact Or.inl (by rw [e1])
        · exact Or.inr (by rw [e1]; rfl)
      | some r =>
        obtain ⟨out, len⟩ := r
        obtain ⟨h1, hcase⟩ := h _ (List.suffix_refl _) out len hs
        have hrec : replaceAll m 0 (c :: rest) = out ++ replaceAll m 0 ((c :: rest).drop len) := by
          simp only [replaceAll, hs]
          rw [replaceAll_skip m rest (len - 1)]
          cases len with
          | zero => omega
          | succ j => rfl
        rw [hrec]
        rcases hcase with ⟨hle, hout⟩ | ⟨hle, hout⟩
        · have hlt : ((c :: rest).drop len).length < n := by
            rw [List.length_drop, ← hl]
            simp only [List.length_cons]
            omega
          rcases ih _ hlt _ rfl (fun s hsuf => h s (hsuf.trans (List.drop_suffix _ _)))
            with e1 | e1
          · left
            rw [e1, hout, List.take_append_drop]
          · right
            rw [e1, hout, ← List.append_assoc, List.take_append_drop]
        · right
          rw [List.drop_eq_nil_of_le hle, hout]
          simp [replaceAll]

theorem numberedDot_prose (s : List Char) (hsp : ∀ c ∈ s, isJsSpace c = true → c = ' ')
    (h1 : NoAdjacent isJsSpace isClosingPunct s)
    (h2 : NoAdjacent (fun c => c = '.') (fun c => c != ' ') s)
    (h3 : NoAdjacent (fun c => c = ' ') (fun c => c = ' ') s) :
    ∀ out len, numberedDot s = some (out, len) →
      1 ≤ len ∧ ((len ≤ s.length ∧ out = s.take len) ∨ (s.length ≤ len ∧ out = s ++ [' '])) := by
  intro out len h
  unfold numberedDot at h
  dsimp only at h
  split at h
  · rename_i d ds r2 hdig hdrop
    simp only [Option.some.injEq, Prod.mk.injEq] at h
    obtain ⟨rfl, rfl⟩ := h
    have hsplit := (List.takeWhile_append_dropWhile isDigit09 s).symm
    have hrsuf : s.dropWhile isDigit09 <:+ s := List.dropWhile_suffix _
    have hws1 : (s.dropWhile isDigit09).takeWhile isJsSpace = [] := by
      by_contra hne
      exact adjacent_of_takeWhile isJsSpace isJsSpace isClosingPunct _ '.' r2 hne hdrop
        (fun _ hc => hc) (by decide) (noAdjacent_suffix h1 hrsuf)
    have hr : s.dropWhile isDigit09 = '.' :: r2 := by
      have := (List.takeWhile_append_dropWhile isJsSpace (s.dropWhile isDigit09)).symm
      rw [hws1, hdrop] at this
      exact this
    rw [hr] at hsplit hrsuf
    rw [hws1]
    refine ⟨by simp; omega, ?_⟩
    cases r2 with
    | nil =>
      right
      generalize s.takeWhile isDigit09 = D at hsplit ⊢
      rw [hsplit]
      simp
    | cons c r3 =>
      left
      have hc : c = ' ' := by
        have := noAdjacent_head (noAdjacent_suffix h2 hrsuf)
        simpa using this
      subst hc
      have hr3 : r3.takeWhile isJsSpace = [] := by
        cases r3 with
        | nil => rfl
        | cons c2 r4 =>
          have hsuf2 : ' ' :: c2 :: r4 <:+ s := (List.suffix_cons '.' _).trans hrsuf
          have hc2 : isJsSpace c2 = false := by
            cases hb : isJsSpace c2 with
            | false => rfl
            | true =>
              have hmem : c2 ∈ s := hsuf2.subset (by simp)
              have e := hsp c2 hmem hb
              have := noAdjacent_head (noAdjacent_suffix h3 hsuf2)
              simp [e] at this
          simp [List.takeWhile, hc2]
      have htake : (' ' :: r3).takeWhile isJsSpace = [' '] := by
        have hb : isJsSpace ' ' = true := by decide
        simp [List.takeWhile, hb, hr3]
      rw [htake]
      generalize s.takeWhile isDigit09 = D at hsplit ⊢
      rw [hsplit]
      constructor
      · simp
        omega
      · have : D ++ '.' :: ' ' :: r3 = (D ++ ['.', ' ']) ++ r3 := by simp
        rw [this, List.take_left' (by simp)]
  · exact absurd h (by simp)

theorem noAdjacent_snoc {P Q : Char → Bool} {l : List Char} (h : NoAdjacent P Q l) (c : Char)
    (hc : Q c = false) : NoAdjacent P Q (l ++ [c]) := by
  rw [noAdjacent_iff_chain] at h ⊢
  rw [List.chain'_append]
  refine ⟨h, List.chain'_singleton c, ?_⟩
  intro x _ y hy
  simp only [List.head?_cons, Option.mem_def, Option.some.injEq] at hy
  subst hy
  simp [hc]

theorem jsTrim_append_blank (u : List Char) : jsTrim (u ++ [' ']) = jsTrim u := by
  have hb : isJsSpace ' ' = true := by decide
  unfold jsTrim
  rw [List.dropWhile_append]
  split
  · rename_i hempty
    have hnil : u.dropWhile isJsSpace = [] := by simpa using hempty
    rw [hnil]
    simp [List.dropWhile, hb, List.rdropWhile]
  · exact List.rdropWhile_concat_pos _ _ _ hb

theorem spacedProse_of_plainProse (t : List Char) (h : PlainProse t) : SpacedProse t := by
  obtain ⟨hall, hsingle, hattached, hfollowed, _⟩ := h
  rw [List.all_eq_true] at hall
  have hmark : ∀ c ∈ t, isMarkup c = false := by
    intro c hc
    have := hall c hc
    simp only [Bool.and_eq_true, Bool.not_eq_true'] at this
    exact this.1
  have hblank : ∀ c ∈ t, isJsSpace c = true → c = ' ' := by
    intro c hc hs
    have := hall c hc
    simp only [Bool.and_eq_true, Bool.or_eq_true, Bool.not_eq_true', decide_eq_true_eq, hs]
      at this
    rcases this.2 with e | e
    · exact absurd e (by simp)
    · exact e
  refine ⟨hmark, hblank, ?_, ?_, hsingle⟩
  · refine noAdjacent_mono t ?_ hattached
    intro a ha b hb h1 h2
    have ea := hblank a ha h1
    have hbm := hmark b hb
    subst ea
    refine ⟨by decide, ?_⟩
    simp only [isClosingPunct, Bool.or_eq_true, decide_eq_true_eq] at h2
    simp only [isMarkup, isMarker, Bool.or_eq_false_iff, decide_eq_false_iff_not] at hbm
    simp only [isProsePunct, isSentencePunct, Bool.or_eq_true, decide_eq_true_eq]
    tauto
  · refine noAdjacent_mono t ?_ hfollowed
    intro a _ b _ h1 h2
    simp only [decide_eq_true_eq] at h1
    subst h1
    exact ⟨by decide, h2⟩

theorem spacedProse_of_isInfix {l s : List Char} (h : SpacedProse l) (hs : s <:+: l) :
    SpacedProse s :=
  ⟨fun c hc => h.1 c (hs.subset hc), fun c hc => h.2.1 c (hs.subset hc),
    noAdjacent_of_isInfix h.2.2.1 hs, noAdjacent_of_isInfix h.2.2.2.1 hs,
    noAdjacent_of_isInfix h.2.2.2.2 hs⟩

theorem not_mem_of_no_markup (v : List Char) (h : ∀ c ∈ v, isMarkup c = false) (x : Char)
    (hx : isMarkup x = true) : x ∉ v := by
  intro hm
  rw [h x hm] at hx
  exact absurd hx (by simp)

theorem markdownTail_of_no_markup (v : List Char) (hmark : ∀ c ∈ v, isMarkup c = false)
    (hnl : '\n' ∉ v) (hpunct : NoAdjacent isJsSpace isClosingPunct v) :
    replaceAllAnchored headingAtStart headingAfterBreak
      (replaceAll spaceBeforePunct 0 (replaceAll bulletSpace 0 (replaceAll doubleColon 0
        (replaceAll boldClose 0 (replaceAll boldOpen 0 v))))) = v := by
  have hstar : '*' ∉ v := not_mem_of_no_markup v hmark '*' (by decide)
  have hhash : '#' ∉ v := not_mem_of_no_markup v hmark '#' (by decide)
  have hcolon : NoAdjacent (fun c => c = ':') (fun c => c = ':') v := by
    apply noAdjacent_of_left
    intro c hc
    have : c ≠ ':' := fun e => not_mem_of_no_markup v hmark ':' (by decide) (e ▸ hc)
    simpa using this
  have hhyphen : NoAdjacent (fun c => c = '-') isJsSpace v := by
    apply noAdjacent_of_left
    intro c hc
    have : c ≠ '-' := fun e => not_mem_of_no_markup v hmark '-' (by decide) (e ▸ hc)
    simpa using this
  rw [replaceAll_of_no_match boldOpen v (fun s hs => boldOpen_none s (not_mem_of_suffix hstar hs)),
    replaceAll_of_no_match boldClose v (fun s hs => boldClose_none s (not_mem_of_suffix hstar hs)),
    replaceAll_of_no_match doubleColon v
      (fun s hs => doubleColon_none s (noAdjacent_suffix hcolon hs)),
    replaceAll_of_no_match bulletSpace v
      (fun s hs => bulletSpace_none s (not_mem_of_suffix hstar hs) (noAdjacent_suffix hhyphen hs)),
    replaceAll_of_no_match spaceBeforePunct v
      (fun s hs => spaceBeforePunct_none s (noAdjacent_suffix hpunct hs)),
    replaceAllAnchored_of_no_match headingAtStart headingAfterBreak v
      (by simp only [headingAtStart, headingAfterBreak_none v hnl, headingLine_none v hhash,
            Option.map_none'])
      (fun s hs => headingAfterBreak_none s (not_mem_of_suffix hnl hs))]

theorem markdownSteps_spacedProse (u : List Char) (h : SpacedProse u) :
    markdownSteps u = u ∨ markdownSteps u = u ++ [' '] := by
  obtain ⟨hmark, hblank, hpunct, hdot, hsingle⟩ := h
  have hnl : '\n' ∉ u := by
    intro hm
    have := hblank '\n' hm (by decide)
    exact absurd this (by decide)
  have hhash : '#' ∉ u := not_mem_of_no_markup u hmark '#' (by decide)
  have h1 : replaceAll headingSpace 0 u = u :=
    replaceAll_of_no_match headingSpace u
      (fun s hs => headingSpace_none s (not_mem_of_suffix hhash hs))
  have h2 := replaceAll_almost_identity numberedDot [' '] _ u rfl
    (fun s hs => numberedDot_prose s (fun c hc => hblank c (hs.subset hc))
      (noAdjacent_suffix hpunct hs) (noAdjacent_suffix hdot hs) (noAdjacent_suffix hsingle hs))
  unfold markdownSteps
  dsimp only
  rw [h1]
  rcases h2 with e | e
  · left
    rw [e]
    exact markdownTail_of_no_markup u hmark hnl hpunct
  · right
    rw [e]
    apply markdownTail_of_no_markup
    · intro c hc
      rcases List.mem_append.mp hc with hc | hc
      · exact hmark c hc
      · simp only [List.mem_singleton] at hc
        subst hc
        decide
    · intro hm
      rcases List.mem_append.mp hm with hc | hc
      · exact hnl hc
      · exact absurd hc (by decide)
    · exact noAdjacent_snoc hpunct ' ' (by decide)

theorem repaired_of_plainProse (t : List Char) (h : PlainProse t)
    (hcamel : NoAdjacent isLowerOrDigit isUpperAZ t) : Repaired t := by
  have hs := spacedProse_of_plainProse t h
  obtain ⟨hmark, hblank, -, -, -⟩ := hs
  refine ⟨?_, not_mem_of_no_markup t hmark '*' (by decide), hcamel, ?_, ?_, ?_⟩
  · intro hm
    have := hblank '\n' hm (by decide)
    exact absurd this (by decide)
  · refine noAdjacent_mono t ?_ h.2.2.2.1
    intro a _ b _ h1 h2
    refine ⟨by simp [isProsePunct, h1], ?_⟩
    have : b ≠ ' ' := by
      rintro rfl
      exact absurd h2 (by decide)
    simpa using this
  · apply noAdjacent_of_left
    intro c hc
    have := hmark c hc
    simp only [isMarkup, Bool.or_eq_false_iff] at this
    exact this.1
  · apply noAdjacent_of_right
    intro c hc
    have : c ≠ ':' := fun e => not_mem_of_no_markup t hmark ':' (by decide) (e ▸ hc)
    simpa using this

/-- C23, counterexample: "I use my iPhone daily." is a single line of spaced
plain prose without markup, and `normalizeMarkdown` changes it inside: step 1 of
`cleanSynthesizedText` splits the word `iPhone` between the lowercase and the
uppercase letter. -/
theorem camel_case_prose_changed :
    PlainProse "I use my iPhone daily.".data ∧
    normalizeMarkdown "I use my iPhone daily." = "I use my i Phone daily." ∧
    normalizeMarkdown "I use my iPhone daily." ≠ ⟨jsTrim "I use my iPhone daily.".data⟩ := by
  refine ⟨by decide, by decide, by decide⟩

/-- C23, amended: for every well-formed clean input (a single line of already
spaced plain prose, as in `PlainProse`) in which no lowercase letter or digit is
directly followed by an uppercase letter, `normalizeMarkdown` returns the input
unchanged apart from surrounding white space. -/
theorem normalizeMarkdown_plain_prose (text : String) (h : PlainProse text.data)
    (hcamel : NoAdjacent isLowerOrDigit isUpperAZ text.data) :
    normalizeMarkdown text = ⟨jsTrim text.data⟩ := by
  by_cases he : text = ""
  · subst he
    rfl
  · have hrep := repaired_of_plainProse text.data h hcamel
    have hsp := spacedProse_of_plainProse text.data h
    simp only [normalizeMarkdown, if_neg he, cleanSynthesizedText_data,
      cleanChars_of_repaired text.data hrep]
    congr 1
    by_cases hT : jsTrim text.data = []
    · rw [if_pos hT]
      rcases markdownSteps_spacedProse _ hsp with e | e
      · rw [e]
      · rw [e, jsTrim_append_blank]
    · rw [if_neg hT]
      rcases markdownSteps_spacedProse _ (spacedProse_of_isInfix hsp (jsTrim_isInfix _))
        with e | e
      · rw [e, jsTrim_idempotent]
      · rw [e, jsTrim_append_blank, jsTrim_idempotent]

theorem normalizeMarkdown_plain_prose_witness :
    PlainProse " Room 5. Then we rest, ok? Yes! It is 3.".data ∧
    NoAdjacent isLowerOrDigit isUpperAZ " Room 5. Then we rest, ok? Yes! It is 3.".data ∧
    normalizeMarkdown " Room 5. Then we rest, ok? Yes! It is 3." =
      "Room 5. Then we rest, ok? Yes! It is 3." :=
  ⟨by decide, by decide,
    (normalizeMarkdown_plain_prose " Room 5. Then we rest, ok? Yes! It is 3."
      (by decide) (by decide)).trans (by decide)⟩

/-! ## Headings and blank lines -/

/-- C28, evaluated: for the two-line input "Intro line of text here." followed
by the heading line "## **Plan**", `normalizeMarkdown` returns the two lines
"Intro line of text here." and "##**Plan**" with a single line feed between
them.  Step 3 deletes the blank between `##` and `**`, so the pattern of step
7, which asks for white space after the `#` run, no longer matches and no blank
line is put in front of the heading.  With the plain heading "## Plan" the blank
line is inserted. -/
theorem bold_heading_without_blank_line :
    normalizeMarkdown "Intro line of text here.\n## **Plan**" =
      "Intro line of text here.\n##**Plan**" ∧
    splitOnChar '\n' (normalizeMarkdown "Intro line of text here.\n## **Plan**").data =
      ["Intro line of text here.".data, "##**Plan**".data] ∧
    replaceAll boldClose 0 "Intro line of text here.\n## **Plan**".data =
      "Intro line of text here.\n##**Plan**".data ∧
    headingAfterBreak "\n##**Plan**".data = none ∧
    normalizeMarkdown "Intro line of text here.\n## Plan" =
      "Intro line of text here.\n\n## Plan" := by
  refine ⟨by decide, by decide, by decide, by decide, by decide⟩

/-! ## Linebreaks in front of a marker -/

theorem replaceAll_split_at (m : Matcher) (c : Char) (rest : List Char)
    (hC : m (c :: rest) = none) :
    ∀ x : List Char,
      (∀ x2, x2 ≠ [] → x2 <:+ x → m (x2 ++ c :: rest) = m x2) →
      (∀ x2 out len, x2 <:+ x → m x2 = some (out, len) → len ≤ x2.length) →
      ∀ k, k ≤ x.length →
        replaceAll m k (x ++ c :: rest) = replaceAll m k x ++ c :: replaceAll m 0 rest := by
  intro x
  induction x with
  | nil =>
    intro _ _ k hk
    have : k = 0 := by simpa using hk
    subst this
    simp [replaceAll, hC]
  | cons a x2 ih =>
    intro hA hB k hk
    have ih2 := ih (fun y hy hs => hA y hy (hs.trans (List.suffix_cons a x2)))
      (fun y out len hs => hB y out len (hs.trans (List.suffix_cons a x2)))
    cases k with
    | succ j =>
      have hj : j ≤ x2.length := by simpa using hk
      exact ih2 j hj
    | zero =>
      have hctx := hA (a :: x2) (by simp) (List.suffix_refl _)
      cases hm : m (a :: x2) with
      | none =>
        rw [hm] at hctx
        have hctx2 : m (a :: (x2 ++ c :: rest)) = none := hctx
        have h1 : replaceAll m 0 (a :: x2 ++ c :: rest) =
            a :: replaceAll m 0 (x2 ++ c :: rest) := by
          show replaceAll m 0 (a :: (x2 ++ c :: rest)) = _
          simp only [replaceAll, hctx2]
        have h2 : replaceAll m 0 (a :: x2) = a :: replaceAll m 0 x2 := by
          simp only [replaceAll, hm]
        rw [h1, h2, ih2 0 (Nat.zero_le _)]
        rfl
      | some r =>
        obtain ⟨out, len⟩ := r
        rw [hm] at hctx
        have hlen := hB (a :: x2) out len (List.suffix_refl _) hm
        have hctx2 : m (a :: (x2 ++ c :: rest)) = some (out, len) := hctx
        have h1 : replaceAll m 0 (a :: x2 ++ c :: rest) =
            out ++ replaceAll m (len - 1) (x2 ++ c :: rest) := by
          show replaceAll m 0 (a :: (x2 ++ c :: rest)) = _
          simp only [replaceAll, hctx2]
        have h2 : replaceAll m 0 (a :: x2) = out ++ replaceAll m (len - 1) x2 := by
          simp only [replaceAll, hm]
        have hk2 : len - 1 ≤ x2.length := by
          simp only [List.length_cons] at hlen
          omega
        rw [h1, h2, ih2 (len - 1) hk2, List.append_assoc]

theorem spaceBetween_split (P Q : Char → Bool) (hP : P '\n' = false) (hQ : Q '\n' = false)
    (x rest : List Char) :
    replaceAll (spaceBetween P Q) 0 (x ++ '\n' :: rest) =
      replaceAll (spaceBetween P Q) 0 x ++ '\n' :: replaceAll (spaceBetween P Q) 0 rest := by
  apply replaceAll_split_at (spaceBetween P Q) '\n' rest ?_ x ?_ ?_ 0 (Nat.zero_le _)
  · cases rest with
    | nil => rfl
    | cons d tl => simp [spaceBetween, hP]
  · intro x2 hne _
    match x2, hne with
    | [a], _ => simp [spaceBetween, hQ]
    | a :: d :: tl, _ => simp [spaceBetween]
  · intro x2 out len _ h
    match x2, h with
    | [], h => simp [spaceBetween] at h
    | [a], h => simp [spaceBetween] at h
    | a :: d :: tl, h =>
      simp only [spaceBetween] at h
      split at h
      · simp only [Option.some.injEq, Prod.mk.injEq] at h
        rw [← h.2]
        simp
      · exact absurd h (by simp)

theorem spaceBetween_head (P Q : Char → Bool) (b : Char) (y : List Char) :
    ∃ q, replaceAll (spaceBetween P Q) 0 (b :: y) = b :: q := by
  cases y with
  | nil => exact ⟨[], by simp [replaceAll, spaceBetween]⟩
  | cons d tl =>
    by_cases hc : (P b && Q d) = true
    · exact ⟨' ' :: d :: replaceAll (spaceBetween P Q) 1 (d :: tl), by
        simp [replaceAll, spaceBetween, hc]⟩
    · exact ⟨replaceAll (spaceBetween P Q) 0 (d :: tl), by
        simp [replaceAll, spaceBetween, hc]⟩

theorem head?_spaceBetween (P Q : Char → Bool) (l : List Char) :
    (replaceAll (spaceBetween P Q) 0 l).head? = l.head? := by
  cases l with
  | nil => rfl
  | cons b y =>
    obtain ⟨q, hq⟩ := spaceBetween_head P Q b y
    rw [hq]
    rfl

theorem noAdjacent_spaceBetween (P Q A B : Char → Bool) (hA : A ' ' = false)
    (hB : B ' ' = false) (n : Nat) :
    ∀ l : List Char, l.length = n → NoAdjacent A B l →
      NoAdjacent A B (replaceAll (spaceBetween P Q) 0 l) := by
  induction n using Nat.strong_induction_on with
  | _ n ih =>
    intro l hl h
    match l, hl, h with
    | [], _, _ => rfl
    | [a], _, _ => rfl
    | a :: d :: tl, hl, h =>
      have hpair := noAdjacent_head h
      have hrest : NoAdjacent A B (d :: tl) := noAdjacent_suffix h (List.suffix_cons a _)
      by_cases hm : (P a && Q d) = true
      · have hrec : replaceAll (spaceBetween P Q) 0 (a :: d :: tl) =
            a :: ' ' :: d :: replaceAll (spaceBetween P Q) 0 tl := by
          simp [replaceAll, spaceBetween, hm]
        have htl : NoAdjacent A B (replaceAll (spaceBetween P Q) 0 tl) :=
          ih tl.length (by rw [← hl]; simp; omega) tl rfl
            (noAdjacent_suffix hrest (List.suffix_cons d tl))
        rw [hrec, noAdjacent_iff_chain, List.chain'_cons, List.chain'_cons, List.chain'_cons']
        refine ⟨by simp [hB], by simp [hA], ?_, (noAdjacent_iff_chain A B _).mp htl⟩
        intro e he
        rw [head?_spaceBetween] at he
        cases tl with
        | nil => exact absurd he (by simp)
        | cons e2 tl2 =>
          simp only [List.head?_cons, Option.mem_def, Option.some.injEq] at he
          subst he
          exact noAdjacent_head hrest
      · have hrec : replaceAll (spaceBetween P Q) 0 (a :: d :: tl) =
            a :: replaceAll (spaceBetween P Q) 0 (d :: tl) := by
          simp [replaceAll, spaceBetween, hm]
        have htl : NoAdjacent A B (replaceAll (spaceBetween P Q) 0 (d :: tl)) :=
          ih (d :: tl).length (by rw [← hl]; simp) (d :: tl) rfl hrest
        rw [hrec, noAdjacent_iff_chain, List.chain'_cons']
        refine ⟨?_, (noAdjacent_iff_chain A B _).mp htl⟩
        intro e he
        rw [head?_spaceBetween] at he
        simp only [List.head?_cons, Option.mem_def, Option.some.injEq] at he
        subst he
        exact hpair

theorem softBreak_cons3 (a d e : Char) (tl : List Char) :
    softBreak (a :: d :: e :: tl) =
      if d = '\n' ∧ (isLetterOrDigit a && (isLetterOrDigit e || e = '*')) = true then
        some ([a, ' ', e], 3)
      else none := by
  by_cases hd : d = '\n'
  · subst hd
    simp [softBreak]
  · rw [if_neg (fun h => hd h.1)]
    unfold softBreak
    split
    · rename_i heq
      simp only [List.cons.injEq] at heq
      exact absurd heq.2.1 hd
    · rfl

theorem softBreak_short (l : List Char) (h : l.length < 3) : softBreak l = none := by
  unfold softBreak
  split
  · simp only [List.length_cons] at h
    omega
  · rfl

theorem lineMark_not_joined (b : Char) (hb : isLineMark b = true) :
    (isLetterOrDigit b || decide (b = '*')) = false := by
  simp only [isLineMark, Bool.or_eq_true, decide_eq_true_eq] at hb
  rcases hb with (rfl | rfl) | rfl <;> decide

theorem softBreak_split (x y : List Char) (b : Char) (hb : isLineMark b = true) :
    replaceAll softBreak 0 (x ++ '\n' :: b :: y) =
      replaceAll softBreak 0 x ++ '\n' :: b :: replaceAll softBreak 0 y := by
  have hb2 := lineMark_not_joined b hb
  have hbl : isLetterOrDigit b = false := by
    simp only [Bool.or_eq_false_iff] at hb2
    exact hb2.1
  have hnl : isLetterOrDigit '\n' = false := by decide
  have hmark : softBreak (b :: y) = none := by
    match y with
    | [] => exact softBreak_short _ (by simp)
    | [_] => exact softBreak_short _ (by simp)
    | d :: e :: tl => simp [softBreak_cons3, hbl]
  have hC : softBreak ('\n' :: b :: y) = none := by
    cases y with
    | nil => exact softBreak_short _ (by simp)
    | cons e tl => simp [softBreak_cons3, hnl]
  have hsplit := replaceAll_split_at softBreak '\n' (b :: y) hC x ?_ ?_ 0 (Nat.zero_le _)
  · rw [hsplit]
    simp only [replaceAll, hmark]
  · intro x2 hne _
    match x2, hne with
    | [a], _ =>
      have : softBreak ([a] ++ '\n' :: b :: y) = none := by
        show softBreak (a :: '\n' :: b :: y) = none
        rw [softBreak_cons3, if_neg]
        intro h
        rw [Bool.and_eq_true] at h
        rw [h.2.2] at hb2
        exact absurd hb2 (by simp)
      rw [this]
      exact (softBreak_short _ (by simp)).symm
    | [a, d], _ =>
      have : softBreak ([a, d] ++ '\n' :: b :: y) = none := by
        show softBreak (a :: d :: '\n' :: b :: y) = none
        rw [softBreak_cons3, if_neg]
        intro h
        rw [Bool.and_eq_true] at h
        have : (isLetterOrDigit '\n' || decide ('\n' = '*')) = false := by decide
        rw [this] at h
        exact absurd h.2.2 (by simp)
      rw [this]
      exact (softBreak_short _ (by simp)).symm
    | a :: d :: e :: tl, _ =>
      show softBreak (a :: d :: e :: (tl ++ '\n' :: b :: y)) = softBreak (a :: d :: e :: tl)
      rw [softBreak_cons3, softBreak_cons3]
  · intro x2 out len _ h
    match x2, h with
    | [], h => rw [softBreak_short _ (by simp)] at h; exact absurd h (by simp)
    | [_], h => rw [softBreak_short _ (by simp)] at h; exact absurd h (by simp)
    | [_, _], h => rw [softBreak_short _ (by simp)] at h; exact absurd h (by simp)
    | a :: d :: e :: tl, h =>
      rw [softBreak_cons3] at h
      split at h
      · simp only [Option.some.injEq, Prod.mk.injEq] at h
        rw [← h.2]
        simp
      · exact absurd h (by simp)

theorem spaceBetween_keeps (keep : Char → Bool) (hk : keep ' ' = false) (P Q : Char → Bool) :
    KeepsContent keep (spaceBetween P Q) := by
  intro s out len h
  match s, h with
  | a :: b :: tl, h =>
    simp only [spaceBetween] at h
    split at h
    · simp only [Option.some.injEq, Prod.mk.injEq] at h
      obtain ⟨rfl, rfl⟩ := h
      refine ⟨by decide, [a, b], tl, rfl, rfl, ?_⟩
      simp [List.filter_cons, hk]
    · exact absurd h (by simp)
  | [], h => exact absurd h (by simp [spaceBetween])
  | [a], h => exact absurd h (by simp [spaceBetween])

theorem softBreak_keeps (keep : Char → Bool) (hk : keep ' ' = false) (hn : keep '\n' = false) :
    KeepsContent keep softBreak := by
  intro s out len h
  unfold softBreak at h
  split at h
  · rename_i a b tl
    split at h
    · simp only [Option.some.injEq, Prod.mk.injEq] at h
      obtain ⟨rfl, rfl⟩ := h
      refine ⟨by decide, [a, '\n', b], tl, rfl, rfl, ?_⟩
      simp [List.filter_cons, hk, hn]
    · exact absurd h (by simp)
  · exact absurd h (by simp)

theorem not_mem_iff_filter (c : Char) (l : List Char) :
    c ∉ l ↔ l.filter (fun d => d = c) = [] := by
  rw [List.filter_eq_nil_iff]
  constructor
  · intro h d hd hdc
    simp only [decide_eq_true_eq] at hdc
    exact h (hdc ▸ hd)
  · intro h hc
    exact h c hc (by simp)

theorem hyphenBreak_none_of_noAdjacent (s : List Char)
    (h : NoAdjacent (fun c => c = '-') (fun c => c = '\n') s) : hyphenBreak s = none := by
  unfold hyphenBreak
  split
  · have := noAdjacent_head h
    simp at this
  · rfl

theorem splitOnChar_ne_nil (sep : Char) (t : List Char) : splitOnChar sep t ≠ [] := by
  cases t with
  | nil => simp [splitOnChar]
  | cons c rest =>
    simp only [splitOnChar]
    split
    · simp
    · split <;> simp

theorem splitOnChar_cons_sep (sep : Char) (r : List Char) :
    splitOnChar sep (sep :: r) = [] :: splitOnChar sep r := by
  simp [splitOnChar]

theorem splitOnChar_cons_other (sep c : Char) (r h : List Char) (tl : List (List Char))
    (hc : c ≠ sep) (hs : splitOnChar sep r = h :: tl) :
    splitOnChar sep (c :: r) = (c :: h) :: tl := by
  simp [splitOnChar, hc, hs]

theorem splitOnChar_append_sep (sep : Char) (x y : List Char) :
    splitOnChar sep (x ++ sep :: y) = splitOnChar sep x ++ splitOnChar sep y := by
  induction x with
  | nil => simp [splitOnChar]
  | cons c rest ih =>
    show splitOnChar sep (c :: (rest ++ sep :: y)) = splitOnChar sep (c :: rest) ++ _
    by_cases hc : c = sep
    · subst hc
      rw [splitOnChar_cons_sep, splitOnChar_cons_sep, ih]
      rfl
    · cases hs : splitOnChar sep rest with
      | nil => exact absurd hs (splitOnChar_ne_nil sep rest)
      | cons h tl =>
        rw [splitOnChar_cons_other sep c rest h tl hc hs,
          splitOnChar_cons_other sep c (rest ++ sep :: y) h (tl ++ splitOnChar sep y) hc
            (by rw [ih, hs]; rfl)]
        rfl

theorem splitOnChar_cons_ne (sep b : Char) (q : List Char) (hb : b ≠ sep) :
    ∃ q0 qs, splitOnChar sep (b :: q) = (b :: q0) :: qs := by
  simp only [splitOnChar, if_neg hb]
  cases hs : splitOnChar sep q with
  | nil => exact ⟨[], [], rfl⟩
  | cons h tl => exact ⟨h, tl, rfl⟩

theorem rdropWhile_cons_neg (p : Char → Bool) (b : Char) (x : List Char) (hb : p b = false) :
    (b :: x).rdropWhile p = b :: x.rdropWhile p := by
  unfold List.rdropWhile
  rw [List.reverse_cons, List.dropWhile_append]
  split
  · rename_i hempty
    have hnil : x.reverse.dropWhile p = [] := by simpa using hempty
    simp [hnil, List.dropWhile, hb]
  · simp

theorem jsTrim_cons_visible (b : Char) (x : List Char) (hb : isJsSpace b = false) :
    ∃ y, jsTrim (b :: x) = b :: y := by
  refine ⟨x.rdropWhile isJsSpace, ?_⟩
  unfold jsTrim
  have : (b :: x).dropWhile isJsSpace = b :: x := by simp [List.dropWhile, hb]
  rw [this, rdropWhile_cons_neg _ _ _ hb]

theorem lineMark_visible (b : Char) (hb : isLineMark b = true) :
    isJsSpace b = false ∧ b ≠ '\n' ∧ isLetterOrDigit b = false := by
  simp only [isLineMark, Bool.or_eq_true, decide_eq_true_eq] at hb
  rcases hb with (rfl | rfl) | rfl <;> decide

theorem lineMark_structural (b : Char) (y : List Char) (hb : isLineMark b = true) :
    isStructural (b :: y) = true := by
  simp only [isLineMark, Bool.or_eq_true, decide_eq_true_eq] at hb
  rcases hb with (rfl | rfl) | rfl <;> simp [isStructural]

/-- The non-empty trimmed lines of a text with a linebreak directly in front of
a marker: the lines in front of the linebreak, then a line that starts with the
marker. -/
theorem lines_split (P Q : List Char) (b : Char) (hb : isLineMark b = true) :
    ∃ y LQ, ((splitOnChar '\n' (P ++ '\n' :: b :: Q)).map jsTrim).filter (fun l => l ≠ []) =
      ((splitOnChar '\n' P).map jsTrim).filter (fun l => l ≠ []) ++ (b :: y) :: LQ := by
  obtain ⟨hsp, hnl, _⟩ := lineMark_visible b hb
  obtain ⟨q0, qs, hq⟩ := splitOnChar_cons_ne '\n' b Q hnl
  obtain ⟨y, hy⟩ := jsTrim_cons_visible b q0 hsp
  refine ⟨y, (qs.map jsTrim).filter (fun l => l ≠ []), ?_⟩
  rw [splitOnChar_append_sep, hq, List.map_append, List.filter_append, List.map_cons, hy,
    List.filter_cons_of_pos (by simp)]

theorem paragraphsOf_ne_nil (ls : List (List Char)) (h : ls ≠ []) : paragraphsOf ls ≠ [] := by
  cases ls with
  | nil => exact absurd rfl h
  | cons l rest =>
    unfold paragraphsOf
    split
    · simp
    · cases paragraphsOf rest <;> simp [joinOnto]

theorem joinOnto_append (a : List Char) (X Y : List (List Char)) (h : X ≠ []) :
    joinOnto a (X ++ Y) = joinOnto a X ++ Y := by
  cases X with
  | nil => exact absurd rfl h
  | cons p ps => rfl

theorem runEnds_append_structural (A B : List (List Char)) (s : List Char)
    (hs : isStructural s = true) : runEnds (A ++ s :: B) = runEnds A := by
  cases A with
  | nil => simp [runEnds, hs]
  | cons a tl => rfl

theorem paragraphsOf_cons (a : List Char) (L : List (List Char)) :
    paragraphsOf (a :: L) =
      if (isStructural a || runEnds L) = true then a :: paragraphsOf L
      else joinOnto a (paragraphsOf L) := by
  rw [paragraphsOf]

theorem paragraphsOf_split (A B : List (List Char)) (s : List Char)
    (hs : isStructural s = true) :
    paragraphsOf (A ++ s :: B) = paragraphsOf A ++ s :: paragraphsOf B := by
  induction A with
  | nil => simp [paragraphsOf, hs]
  | cons a A2 ih =>
    show paragraphsOf (a :: (A2 ++ s :: B)) = paragraphsOf (a :: A2) ++ _
    rw [paragraphsOf_cons, paragraphsOf_cons, runEnds_append_structural A2 B s hs, ih]
    split
    · rfl
    · rename_i hcond
      have hA2 : A2 ≠ [] := by
        rintro rfl
        simp [runEnds] at hcond
      rw [joinOnto_append a _ _ (paragraphsOf_ne_nil A2 hA2)]

theorem joinWith_split (sep s : List Char) (A B : List (List Char)) :
    ∃ tail, joinWith sep (A ++ s :: B) =
      (if A = [] then [] else joinWith sep A ++ sep) ++ s ++ tail := by
  induction A with
  | nil =>
    cases B with
    | nil => exact ⟨[], by simp [joinWith_singleton]⟩
    | cons q tl => exact ⟨sep ++ joinWith sep (q :: tl), by simp [joinWith_cons_cons]⟩
  | cons a A2 ih =>
    obtain ⟨tail, ht⟩ := ih
    refine ⟨tail, ?_⟩
    cases A2 with
    | nil =>
      simp only [List.nil_append, if_true] at ht
      rw [List.singleton_append, joinWith_cons_cons, ht]
      simp [joinWith_singleton]
    | cons a2 A3 =>
      simp only [List.cons_append] at ht ⊢
      rw [joinWith_cons_cons, ht, joinWith_cons_cons]
      simp

theorem lines_keepContent {keep : Char → Bool} (hk : ContentClass keep) (P : List Char) :
    (paragraphsOf (((splitOnChar '\n' P).map jsTrim).filter (fun l => l ≠ []))).flatten.filter
      keep = P.filter keep := by
  rw [← buildParagraphs_eq_paragraphsOf, buildParagraphs_keepsContent hk, flatten_filter_nonEmpty,
    filter_flatten_map_jsTrim hk,
    filter_flatten_splitOnChar '\n' (contentClass_space hk '\n' (by decide))]

theorem paragraphs_keep_marker_line (P Q : List Char) (b : Char) (hb : isLineMark b = true) :
    ∃ pre2 post2,
      joinWith ['\n', '\n'] (paragraphsOf
        (((splitOnChar '\n' (P ++ '\n' :: b :: Q)).map jsTrim).filter (fun l => l ≠ []))) =
        pre2 ++ b :: post2 ∧
      (pre2 = [] ∨ pre2.getLast? = some '\n') ∧
      ∀ keep, ContentClass keep → pre2.filter keep = P.filter keep := by
  obtain ⟨y, LQ, hlines⟩ := lines_split P Q b hb
  rw [hlines, paragraphsOf_split _ _ _ (lineMark_structural b y hb)]
  have hc : ∀ keep, ContentClass keep →
      (paragraphsOf (((splitOnChar '\n' P).map jsTrim).filter (fun l => l ≠ []))).flatten.filter
        keep = P.filter keep := fun keep hk => lines_keepContent hk P
  generalize paragraphsOf (((splitOnChar '\n' P).map jsTrim).filter (fun l => l ≠ [])) = A at hc ⊢
  obtain ⟨tail, ht⟩ := joinWith_split ['\n', '\n'] (b :: y) A (paragraphsOf LQ)
  rw [ht]
  by_cases hA : A = []
  · refine ⟨[], y ++ tail, by simp [hA], Or.inl rfl, ?_⟩
    intro keep hk
    have := hc keep hk
    rw [hA] at this
    simpa using this
  · refine ⟨joinWith ['\n', '\n'] A ++ ['\n', '\n'], y ++ tail, by simp [hA], Or.inr ?_, ?_⟩
    · rw [List.getLast?_append]
      rfl
    · intro keep hk
      have hsep : ['\n', '\n'].filter keep = [] := by
        simp [List.filter_cons, contentClass_space hk '\n' (by decide)]
      rw [List.filter_append, filter_joinWith _ hsep, hc keep hk, hsep, List.append_nil]

theorem takeWhile_append_stop (p : Char → Bool) (x rest : List Char) (b : Char)
    (hb : p b = false) : (x ++ b :: rest).takeWhile p = x.takeWhile p := by
  induction x with
  | nil => simp [List.takeWhile, hb]
  | cons a tl ih =>
    show (a :: (tl ++ b :: rest)).takeWhile p = (a :: tl).takeWhile p
    by_cases ha : p a = true
    · rw [List.takeWhile_cons_of_pos ha, List.takeWhile_cons_of_pos ha, ih]
    · rw [List.takeWhile_cons_of_neg ha, List.takeWhile_cons_of_neg ha]

theorem collapse_split (X rest : List Char) (b : Char) (hb : b ≠ '\n') :
    replaceAll newlineRun 0 (X ++ b :: rest) =
      replaceAll newlineRun 0 X ++ b :: replaceAll newlineRun 0 rest := by
  have hpb : (fun c : Char => decide (c = '\n')) b = false := by simpa using hb
  apply replaceAll_split_at newlineRun b rest ?_ X ?_ ?_ 0 (Nat.zero_le _)
  · rw [newlineRun_none_iff]
    simp [List.takeWhile, hb]
  · intro x2 _ _
    unfold newlineRun
    rw [takeWhile_append_stop (fun c => decide (c = '\n')) x2 rest b hpb]
  · intro x2 out len _ h
    obtain ⟨_, hlen, _⟩ := newlineRun_some x2 out len h
    rw [hlen]
    exact (List.takeWhile_prefix _).length_le

theorem getLast?_of_suffix {s l : List Char} (h : s <:+ l) (hne : s ≠ []) :
    s.getLast? = l.getLast? := by
  obtain ⟨t, ht⟩ := h
  rw [← ht, List.getLast?_append]
  cases hs : s.getLast? with
  | none =>
    rw [List.getLast?_eq_none_iff] at hs
    exact absurd hs hne
  | some e => rfl

theorem getLast?_cons_of_some (c e : Char) (Z : List Char) (h : Z.getLast? = some e) :
    (c :: Z).getLast? = some e := by
  cases Z with
  | nil => exact absurd h (by simp)
  | cons d tl =>
    rw [List.getLast?_cons_cons]
    exact h

theorem collapse_last (n : Nat) :
    ∀ l : List Char, l.length = n → l.getLast? = some '\n' →
      (replaceAll newlineRun 0 l).getLast? = some '\n' := by
  induction n using Nat.strong_induction_on with
  | _ n ih =>
    intro l hl h
    cases l with
    | nil => exact absurd h (by simp)
    | cons c rest =>
      cases hm : newlineRun (c :: rest) with
      | none =>
        have hrec : replaceAll newlineRun 0 (c :: rest) = c :: replaceAll newlineRun 0 rest := by
          simp only [replaceAll, hm]
        rw [hrec]
        cases rest with
        | nil =>
          simp only [List.getLast?_singleton, Option.some.injEq] at h
          subst h
          rfl
        | cons d tl =>
          rw [List.getLast?_cons_cons] at h
          exact getLast?_cons_of_some _ _ _ (ih _ (by rw [← hl]; simp) (d :: tl) rfl h)
      | some r =>
        obtain ⟨out, len⟩ := r
        obtain ⟨rfl, hlen, h3⟩ := newlineRun_some _ _ _ hm
        have hrec : replaceAll newlineRun 0 (c :: rest) =
            '\n' :: '\n' :: replaceAll newlineRun 0 ((c :: rest).drop len) := by
          simp only [replaceAll, hm]
          rw [replaceAll_skip newlineRun rest (len - 1)]
          have : (c :: rest).drop len = rest.drop (len - 1) := by
            cases len with
            | zero => omega
            | succ j => rfl
          rw [this]
          rfl
        rw [hrec]
        by_cases hd : (c :: rest).drop len = []
        · rw [hd]
          rfl
        · have hshort : ((c :: rest).drop len).length < n := by
            rw [List.length_drop, ← hl]
            simp only [List.length_cons]
            omega
          have hlast : ((c :: rest).drop len).getLast? = some '\n' := by
            rw [getLast?_of_suffix (List.drop_suffix _ _) hd]
            exact h
          exact getLast?_cons_of_some _ _ _
            (getLast?_cons_of_some _ _ _ (ih _ hshort _ rfl hlast))

theorem rdropWhile_append_visible (p : Char → Bool) (W V : List Char) (b : Char)
    (hb : p b = false) : (W ++ b :: V).rdropWhile p = W ++ b :: V.rdropWhile p := by
  induction W with
  | nil => exact rdropWhile_cons_neg p b V hb
  | cons a tl ih =>
    show (a :: (tl ++ b :: V)).rdropWhile p = a :: (tl ++ b :: V.rdropWhile p)
    rw [← ih]
    unfold List.rdropWhile
    rw [List.reverse_cons, List.dropWhile_append]
    split
    · rename_i hempty
      have hnil : (tl ++ b :: V).rdropWhile p = [] := by
        unfold List.rdropWhile
        simpa using hempty
      rw [ih] at hnil
      exact absurd hnil (by simp)
    · simp

theorem jsTrim_keeps_marker (W V : List Char) (b : Char) (hb : isJsSpace b = false)
    (hW : W.getLast? = some '\n') :
    ∃ pre2 post2, jsTrim (W ++ b :: V) = pre2 ++ b :: post2 ∧
      (pre2 = [] ∨ pre2.getLast? = some '\n') ∧
      ∀ keep, ContentClass keep → pre2.filter keep = W.filter keep := by
  unfold jsTrim
  rw [List.dropWhile_append]
  split
  · rename_i hempty
    have hnil : W.dropWhile isJsSpace = [] := by simpa using hempty
    have hdrop : (b :: V).dropWhile isJsSpace = b :: V := by simp [List.dropWhile, hb]
    rw [hdrop, rdropWhile_cons_neg _ _ _ hb]
    refine ⟨[], _, rfl, Or.inl rfl, ?_⟩
    intro keep hk
    rw [← filter_dropWhile_space hk W, hnil]
  · rename_i hne
    have hne2 : W.dropWhile isJsSpace ≠ [] := by simpa using hne
    rw [rdropWhile_append_visible _ _ _ _ hb]
    refine ⟨W.dropWhile isJsSpace, _, rfl, Or.inr ?_, ?_⟩
    · rw [getLast?_of_suffix (List.dropWhile_suffix _) hne2]
      exact hW
    · intro keep hk
      exact filter_dropWhile_space hk W

theorem collapse_keeps_marker_line (P Q : List Char) (b : Char) (hb : isLineMark b = true) :
    ∃ pre2 post2,
      jsTrim (replaceAll newlineRun 0 (P ++ '\n' :: b :: Q)) = pre2 ++ b :: post2 ∧
      (pre2 = [] ∨ pre2.getLast? = some '\n') ∧
      ∀ keep, ContentClass keep → pre2.filter keep = P.filter keep := by
  obtain ⟨hsp, hnl, _⟩ := lineMark_visible b hb
  have hsplit : replaceAll newlineRun 0 (P ++ '\n' :: b :: Q) =
      replaceAll newlineRun 0 (P ++ ['\n']) ++ b :: replaceAll newlineRun 0 Q := by
    have := collapse_split (P ++ ['\n']) Q b hnl
    simpa using this
  have hlast : (replaceAll newlineRun 0 (P ++ ['\n'])).getLast? = some '\n' :=
    collapse_last _ _ rfl (by simp)
  obtain ⟨pre2, post2, h1, h2, h3⟩ := jsTrim_keeps_marker _ (replaceAll newlineRun 0 Q) b hsp hlast
  refine ⟨pre2, post2, by rw [hsplit, h1], h2, ?_⟩
  intro keep hk
  rw [h3 keep hk, replaceAll_keepsContent keep _ (newlineRun_keepsContent hk) _ _ rfl,
    List.filter_append]
  simp [List.filter_cons, contentClass_space hk '\n' (by decide)]

theorem finish_joined (lines : List (List Char)) (h : ∀ l ∈ lines, TrimmedLine l) :
    jsTrim (replaceAll newlineRun 0 (joinWith ['\n', '\n'] (paragraphsOf lines))) =
      joinWith ['\n', '\n'] (paragraphsOf lines) := by
  obtain ⟨_, h2, h3, h4⟩ := joined_paragraphs_clean _ (paragraphsOf_trimmed _ h)
  rw [collapse_of_no_triple _ h2, jsTrim_eq_self _ h3 h4]

/-! ## Every entry carries the colour of its agent name -/

theorem coloured_snoc (prev : List AgentLog) (e : AgentLog) (h : ColouredByName prev)
    (he : e.color = chooseColorForAgent e.agent) : ColouredByName (prev ++ [e]) := by
  intro x hx
  rcases List.mem_append.mp hx with hx | hx
  · exact h x hx
  · simp only [List.mem_singleton] at hx
    rw [hx]
    exact he

theorem coloured_update_last (prev : List AgentLog) (last e : AgentLog)
    (h : ColouredByName prev) (hl : prev.getLast? = some last)
    (ha : e.agent = last.agent) (hc : e.color = last.color) :
    ColouredByName (prev.dropLast ++ [e]) := by
  intro x hx
  rcases List.mem_append.mp hx with hx | hx
  · exact h x (List.dropLast_subset prev hx)
  · simp only [List.mem_singleton] at hx
    rw [hx, ha, hc]
    exact h last (List.mem_of_getLast?_eq_some hl)

theorem coloured_push (stamp : Stamp) (name chunk : String) (opts : PushOpts)
    (prev : List AgentLog) (hname : name ≠ "") (h : ColouredByName prev) :
    ColouredByName (pushOrAppendAgentLog stamp name chunk opts prev) := by
  unfold pushOrAppendAgentLog
  simp only [if_pos hname]
  split
  · rename_i last hl
    split
    · exact coloured_update_last prev last _ h hl rfl rfl
    · exact coloured_snoc prev _ h rfl
  · exact coloured_snoc prev _ h rfl

theorem coloured_finalize (name : String) (prev : List AgentLog) (h : ColouredByName prev) :
    ColouredByName (finalizeAgentLog name prev) := by
  unfold finalizeAgentLog
  split
  · rename_i last hl
    split
    · exact coloured_update_last prev last _ h hl rfl rfl
    · exact h
  · exact h

theorem orElse_default_ne_empty (x : JsVal) (d a : String) (hd : d ≠ "")
    (h : x.orElse (.str d) = .str a) : a ≠ "" := by
  unfold JsVal.orElse at h
  split at h
  · rename_i ht
    rw [h] at ht
    simpa [JsVal.truthy] using ht
  · rw [← JsVal.str.inj h]
    exact hd

/-- The name the thought branch hands to `pushOrAppendAgentLog`,
`evt.agent || evt.from || "Agent"`, is never empty. -/
theorem thought_agent_ne_empty (evt : JsVal) (a : String)
    (h : (evt.get "agent").orElse ((evt.get "from").orElse (.str "Agent")) = .str a) :
    a ≠ "" := by
  unfold JsVal.orElse at h
  split at h
  · rename_i ht
    rw [h] at ht
    simpa [JsVal.truthy] using ht
  · exact orElse_default_ne_empty (evt.get "from") "Agent" a (by decide) h

theorem coloured_handleThought (stringify : JsVal → String) (stamp : Stamp) (evt : JsVal)
    (st st2 : ChatState) (h : ColouredByName st.agentLogs)
    (hs : handleThought stringify stamp evt st = some st2) : ColouredByName st2.agentLogs := by
  unfold handleThought at hs
  simp only at hs
  split at hs
  · rename_i a c ha _
    simp only [Option.some.injEq] at hs
    rw [← hs]
    exact coloured_push stamp a c noOpts _ (thought_agent_ne_empty evt a ha) h
  · exact absurd hs (by simp)

theorem coloured_handleUnknown (stringify : JsVal → String) (stamp : Stamp) (evt : JsVal)
    (st st2 : ChatState) (h : ColouredByName st.agentLogs)
    (hs : handleUnknown stringify stamp evt st = some st2) : ColouredByName st2.agentLogs := by
  unfold handleUnknown at hs
  simp only at hs
  split at hs
  · rename_i a ha
    simp only [Option.some.injEq] at hs
    rw [← hs]
    exact coloured_push stamp a _ noOpts _
      (orElse_default_ne_empty (evt.get "agent") "Agent" a (by decide) ha) h
  · exact absurd hs (by simp)

theorem coloured_finalizeNamed (agent : JsVal) (st : ChatState)
    (h : ColouredByName st.agentLogs) : ColouredByName (finalizeNamed agent st).agentLogs := by
  unfold finalizeNamed
  split
  · split
    · exact coloured_finalize _ _ h
    · exact h
  · exact h

theorem coloured_handleAnswer (evt : JsVal) (st st2 : ChatState)
    (h : ColouredByName st.agentLogs) (hs : handleAnswer evt st = some st2) :
    ColouredByName st2.agentLogs := by
  unfold handleAnswer at hs
  simp only [Option.map_eq_some'] at hs
  obtain ⟨u, hu, rfl⟩ := hs
  apply coloured_finalizeNamed
  have hlogs : u.agentLogs = st.agentLogs := by
    split at hu
    · simp only [Option.some.injEq] at hu
      rw [← hu]
    · rw [answerGuidance_agentLogs _ _ _ hu]
      split <;> rfl
    · rw [answerGuidance_agentLogs _ _ _ hu]
      split <;> rfl
    · simp only [Option.some.injEq] at hu
      rw [← hu]
  rw [hlogs]
  exact h

theorem coloured_handleMeta (evt : JsVal) (st st2 : ChatState)
    (h : ColouredByName st.agentLogs) (hs : handleMeta evt st = some st2) :
    ColouredByName st2.agentLogs := by
  unfold handleMeta at hs
  split at hs
  · split at hs
    · simp only [Option.some.injEq] at hs
      rw [← hs]
      exact h
    · exact absurd hs (by simp)
  · simp only [Option.some.injEq] at hs
    rw [← hs]
    exact h

theorem coloured_handleRecord (stringify : JsVal → String) (stamp : Stamp) (evt : JsVal)
    (st st2 : ChatState) (h : ColouredByName st.agentLogs)
    (hs : handleRecord stringify stamp evt st = some st2) : ColouredByName st2.agentLogs := by
  unfold handleRecord at hs
  simp only at hs
  split at hs
  · simp only [Option.some.injEq] at hs
    rw [← hs]
    exact h
  · split at hs
    · exact coloured_handleThought stringify stamp evt st st2 h hs
    · split at hs
      · exact coloured_handleAnswer evt st st2 h hs
      · split at hs
        · exact coloured_handleMeta evt st st2 h hs
        · exact coloured_handleUnknown stringify stamp evt st st2 h hs

theorem coloured_handleFrame (parse : String → Option JsVal) (stringify : JsVal → String)
    (stamp : Stamp) (p : List Char) (st st2 : ChatState) (h : ColouredByName st.agentLogs)
    (hs : handleFrame parse stringify stamp p st = some st2) : ColouredByName st2.agentLogs := by
  unfold handleFrame at hs
  split at hs
  · simp only [Option.some.injEq] at hs
    rw [← hs]
    exact h
  · split at hs
    · simp only [Option.some.injEq] at hs
      rw [← hs]
      exact h
    · split at hs
      · simp only [Option.some.injEq] at hs
        rw [← hs]
        exact coloured_push stamp "Agent" _ noOpts _ (by decide) h
      · exact coloured_handleRecord stringify stamp _ st st2 h hs

theorem coloured_handleParts (parse : String → Option JsVal) (stringify : JsVal → String)
    (stamps : Nat → Stamp) (ps : List (List Char)) :
    ∀ (i : Nat) (st st2 : ChatState), ColouredByName st.agentLogs →
      handleParts parse stringify stamps i ps st = some st2 → ColouredByName st2.agentLogs := by
  induction ps with
  | nil =>
    intro i st st2 h hs
    simp only [handleParts, Option.some.injEq] at hs
    rw [← hs]
    exact h
  | cons p rest ih =>
    intro i st st2 h hs
    simp only [handleParts] at hs
    split at hs
    · rename_i st1 h1
      exact ih (i + 1) st1 st2 (coloured_handleFrame parse stringify _ p st st1 h h1) hs
    · exact absurd hs (by simp)

/-- The invariant on the accumulator of the read loop. -/
theorem coloured_streamHandle (env : Env) (acc : Nat × Option ChatState) (frame : List Char)
    (h : ∀ s, acc.2 = some s → ColouredByName s.agentLogs) :
    ∀ s, (streamHandle env acc frame).2 = some s → ColouredByName s.agentLogs := by
  intro s hs
  unfold streamHandle at hs
  simp only at hs
  split at hs
  · rename_i st hst
    exact coloured_handleParts env.parse env.stringify _ _ 0 st s (h st hst) hs
  · exact absurd hs (by simp)

theorem coloured_foldl_handle (env : Env) (frames : List (List Char)) :
    ∀ acc : Nat × Option ChatState, (∀ s, acc.2 = some s → ColouredByName s.agentLogs) →
      ∀ s, (frames.foldl (fun a chunk => streamHandle env a (chunk ++ ['\n', '\n'])) acc).2 =
        some s → ColouredByName s.agentLogs := by
  induction frames with
  | nil => intro acc h s hs; exact h s hs
  | cons f rest ih =>
    intro acc h
    rw [List.foldl_cons]
    exact ih _ (coloured_streamHandle env acc _ h)

theorem coloured_foldl_readStep (env : Env) (values : List (List Char)) :
    ∀ acc : List Char × Nat × Option ChatState,
      (∀ s, acc.2.2 = some s → ColouredByName s.agentLogs) →
      ∀ s, (values.foldl (readStep (streamHandle env)) acc).2.2 = some s →
        ColouredByName s.agentLogs := by
  induction values with
  | nil => intro acc h s hs; exact h s hs
  | cons v rest ih =>
    intro acc h
    rw [List.foldl_cons]
    apply ih
    unfold readStep
    exact coloured_foldl_handle env _ acc.2 h

theorem coloured_reset : ∀ s, (some resetState : Option ChatState) = some s →
    ColouredByName s.agentLogs := by
  intro s hs
  rw [← Option.some.inj hs]
  intro e he
  exact absurd he (by simp [resetState])

theorem coloured_fallbackLog (env : Env) (idx : Nat) (a : JsVal) (e : AgentLog)
    (h : fallbackLog env idx a = some e) : e.color = chooseColorForAgent e.agent := by
  unfold fallbackLog at h
  split at h
  · exact absurd h (by simp)
  · exact absurd h (by simp)
  · split at h
    · simp only [Option.some.injEq] at h
      rw [← h]
    · exact absurd h (by simp)

theorem coloured_fallbackLogs (env : Env) (F : List JsVal) :
    ∀ idx entries, fallbackLogs env idx F = some entries → ColouredByName entries := by
  induction F with
  | nil =>
    intro idx entries h
    simp only [fallbackLogs, Option.some.injEq] at h
    rw [← h]
    intro e he
    exact absurd he (by simp)
  | cons a rest ih =>
    intro idx entries h
    simp only [fallbackLogs] at h
    split at h
    · rename_i e es he hes
      simp only [Option.some.injEq] at h
      rw [← h]
      intro x hx
      rcases List.mem_cons.mp hx with hx | hx
      · rw [hx]
        exact coloured_fallbackLog env idx a e he
      · exact ih (idx + 1) es hes x hx
    · exact absurd h (by simp)

theorem coloured_appendAgentFlow (env : Env) (flow : JsVal) (st s : ChatState)
    (h : ColouredByName st.agentLogs) (hs : appendAgentFlow env flow st = some s) :
    ColouredByName s.agentLogs := by
  obtain ⟨items, entries, -, hentries, rfl⟩ := appendAgentFlow_some env flow st s hs
  intro x hx
  rcases List.mem_append.mp hx with hx | hx
  · exact h x hx
  · exact coloured_fallbackLogs env items 0 entries hentries x hx

theorem coloured_startStream (env : Env) (rendered : ChatState) (stream : StreamOutcome)
    (fallback : FallbackOutcome) (s : ChatState) (n : Nat)
    (h : startStream env rendered stream fallback = some (s, n)) :
    ColouredByName s.agentLogs := by
  unfold startStream at h
  cases stream with
  | completed values =>
    simp only at h
    split at h
    · exact absurd h (by simp)
    · rename_i s1 hs1
      have h1 : ColouredByName s1.agentLogs := by
        unfold readLoop at hs1
        simp only at hs1
        have hfold := coloured_foldl_readStep env values ([], (0, some resetState)) coloured_reset
        split at hs1
        · exact coloured_streamHandle env _ _ hfold s1 hs1
        · exact hfold s1 hs1
      split at h
      · cases fallback with
        | success body =>
          simp only at h
          split at h
          · rename_i s2 hs2
            simp only [Option.some.injEq, Prod.mk.injEq] at h
            rw [← h.1]
            show ColouredByName s2.agentLogs
            unfold adoptAfterStream at hs2
            simp only at hs2
            split at hs2
            · rename_i u hu
              have hu2 : ColouredByName u.agentLogs := by
                split at hu
                · split at hu
                  · simp only [Option.some.injEq] at hu
                    rw [← hu]
                    show ColouredByName (ite _ _ _ : ChatState).agentLogs
                    split <;> exact h1
                  · exact absurd hu (by simp)
                · simp only [Option.some.injEq] at hu
                  rw [← hu]
                  split <;> exact h1
              split at hs2
              · exact coloured_appendAgentFlow env _ u s2 hu2 hs2
              · simp only [Option.some.injEq] at hs2
                rw [← hs2]
                exact hu2
            · exact absurd hs2 (by simp)
          · exact absurd h (by simp)
        | failure e =>
          simp only [Option.some.injEq, Prod.mk.injEq] at h
          rw [← h.1]
          exact h1
      · simp only [Option.some.injEq, Prod.mk.injEq] at h
        rw [← h.1]
        exact h1
  | failed values =>
    simp only at h
    split at h
    · exact absurd h (by simp)
    · rename_i s1 hs1
      have h1 : ColouredByName s1.agentLogs :=
        coloured_foldl_readStep env values ([], (0, some resetState)) coloured_reset s1 hs1
      unfold streamErrorPath at h
      cases fallback with
      | success body =>
        simp only at h
        split at h
        · rename_i s2 hs2
          simp only [Option.some.injEq, Prod.mk.injEq] at h
          rw [← h.1]
          unfold adoptAfterError at hs2
          simp only at hs2
          split at hs2
          · exact absurd hs2 (by simp)
          · rename_i u hu
            have hu2 : ColouredByName u.agentLogs := by
              split at hu
              · refine coloured_appendAgentFlow env _ _ u ?_ hu
                exact h1
              · simp only [Option.some.injEq] at hu
                rw [← hu]
                exact h1
            have hadopt : ∀ g, ColouredByName (adoptGuidance g u).agentLogs := by
              intro g
              unfold adoptGuidance
              split <;> exact hu2
            split at hs2
            · simp only [Option.some.injEq] at hs2
              rw [← hs2]
              exact hadopt _
            · split at hs2
              · simp only [Option.some.injEq] at hs2
                rw [← hs2]
                exact hadopt _
              · simp only [Option.some.injEq] at hs2
                rw [← hs2]
                exact hu2
            · simp only [Option.some.injEq] at hs2
              rw [← hs2]
              exact hadopt _
            · exact absurd hs2 (by simp)
        · exact absurd h (by simp)
      | failure e =>
        simp only at h
        split at h
        · split at h
          · simp only [Option.some.injEq, Prod.mk.injEq] at h
            rw [← h.1]
            exact h1
          · exact absurd h (by simp)
        · simp only [Option.some.injEq, Prod.mk.injEq] at h
          rw [← h.1]
          exact h1

/-- C30: an entry's colour is derived from its agent name.  The function
`pushOrAppendAgentLog` is local to the component and every call of it passes a
name that went through `|| "Agent"`: the thought branch passes
`evt.agent || evt.from || "Agent"`, the last branch `evt.agent || "Agent"`, and
the branch for text that is not JSON the literal "Agent"; none of them is
empty, and an absent or empty `agent` (and `from`) gives the name "Agent".  For
every such name the function keeps the invariant that each entry carries
`chooseColorForAgent` of its agent, and the entry it creates has the name as
agent and the colour of the name.  Hence in every state `startStream` returns,
and in every state reached when a read is rejected, every entry satisfies
`color = chooseColorForAgent(agent)`, so two entries showing the same agent
carry the same colour. -/
theorem entries_coloured_by_agent :
    (∀ (stamp : Stamp) (name chunk : String) (opts : PushOpts) (prev : List AgentLog),
      name ≠ "" →
        (ColouredByName prev → ColouredByName (pushOrAppendAgentLog stamp name chunk opts prev)) ∧
        ∃ e, pushOrAppendAgentLog stamp name chunk opts [] = [e] ∧ e.agent = name ∧
          e.color = chooseColorForAgent e.agent) ∧
    (∀ (stringify : JsVal → String) (stamp : Stamp) (evt : JsVal) (st s : ChatState),
      handleThought stringify stamp evt st = some s →
        ∃ a c, a ≠ "" ∧
          s = { st with agentLogs := pushOrAppendAgentLog stamp a c noOpts st.agentLogs } ∧
          ((evt.get "agent").truthy = false → (evt.get "from").truthy = false → a = "Agent")) ∧
    (∀ (stringify : JsVal → String) (stamp : Stamp) (evt : JsVal) (st s : ChatState),
      handleUnknown stringify stamp evt st = some s →
        ∃ a c, a ≠ "" ∧
          s = { st with agentLogs := pushOrAppendAgentLog stamp a c noOpts st.agentLogs } ∧
          ((evt.get "agent").truthy = false → a = "Agent")) ∧
    (∀ (env : Env) (rendered : ChatState) (stream : StreamOutcome) (fallback : FallbackOutcome)
        (s : ChatState) (n : Nat),
      startStream env rendered stream fallback = some (s, n) →
        ColouredByName s.agentLogs ∧
        ∀ e1 ∈ s.agentLogs, ∀ e2 ∈ s.agentLogs, e1.agent = e2.agent → e1.color = e2.color) ∧
    (∀ (env : Env) (values : List (List Char)) (s : ChatState),
      streamedBeforeError env values = some s → ColouredByName s.agentLogs) := by
  refine ⟨?_, ?_, ?_, ?_, ?_⟩
  · intro stamp name chunk opts prev hname
    refine ⟨coloured_push stamp name chunk opts prev hname, _, rfl, ?_, ?_⟩
    · simp only [if_pos hname]
    · simp only [if_pos hname]
  · intro stringify stamp evt st s hs
    unfold handleThought at hs
    simp only at hs
    split at hs
    · rename_i a c ha _
      simp only [Option.some.injEq] at hs
      refine ⟨a, c, thought_agent_ne_empty evt a ha, hs.symm, ?_⟩
      intro h1 h2
      simp only [JsVal.orElse, h1, h2] at ha
      exact (JsVal.str.inj ha).symm
    · exact absurd hs (by simp)
  · intro stringify stamp evt st s hs
    unfold handleUnknown at hs
    simp only at hs
    split at hs
    · rename_i a ha
      simp only [Option.some.injEq] at hs
      refine ⟨a, _, orElse_default_ne_empty (evt.get "agent") "Agent" a (by decide) ha,
        hs.symm, ?_⟩
      intro h1
      simp only [JsVal.orElse, h1] at ha
      exact (JsVal.str.inj ha).symm
    · exact absurd hs (by simp)
  · intro env rendered stream fallback s n h
    have hc := coloured_startStream env rendered stream fallback s n h
    refine ⟨hc, ?_⟩
    intro e1 h1 e2 h2 hag
    rw [hc e1 h1, hc e2 h2, hag]
  · intro env values s hs
    exact coloured_foldl_readStep env values ([], (0, some resetState)) coloured_reset s hs

/-- C30, instance: a thought record without `agent` and `from` creates an entry
with the agent "Agent" and its colour "#EBD5AB"; a stream whose only frame is
not JSON, followed by a fallback response with one unnamed flow element, ends
with two entries, "Agent" and "Agent 1", each with the colour of its name. -/
theorem entries_coloured_by_agent_witness :
    (∃ s, handleThought (fun _ => "") ⟨"1", 1⟩
        (.obj [("type", .str "thought"), ("content", .str "Checking")])
        ⟨[], "", .arr [], ""⟩ = some s ∧
      s.agentLogs.map (fun e => (e.agent, e.color)) = [("Agent", "#EBD5AB")]) ∧
    (∃ s, startStream sampleEnv ⟨[], "", .arr [], ""⟩ (.completed ["data: hello\n\n".data])
        (.success (.obj [("agent_flow", .arr [.obj [("output", .str "o1")]])])) = some (s, 1) ∧
      s.agentLogs.map (fun e => e.agent) = ["Agent", "Agent 1"] ∧
      ColouredByName s.agentLogs) := by
  have hthought : handleThought (fun _ => "") ⟨"1", 1⟩
      (.obj [("type", .str "thought"), ("content", .str "Checking")]) ⟨[], "", .arr [], ""⟩ =
      some ⟨pushOrAppendAgentLog ⟨"1", 1⟩ "Agent" "Checking" noOpts [], "", .arr [], ""⟩ := rfl
  obtain ⟨a, c, -, -, hdef⟩ := entries_coloured_by_agent.2.1 _ _ _ _ _ hthought
  refine ⟨⟨_, hthought, by decide⟩, ?_⟩
  have hrun : startStream sampleEnv ⟨[], "", .arr [], ""⟩ (.completed ["data: hello\n\n".data])
      (.success (.obj [("agent_flow", .arr [.obj [("output", .str "o1")]])])) =
      some (⟨[⟨"id", "Agent", "hello", "hello", "#EBD5AB", "thinking", false, some 0⟩,
        ⟨"fallback-0-0", "Agent 1", "o1", "o1", chooseColorForAgent "Agent 1", "done", true,
          none⟩], "", .arr [], ""⟩, 1) := rfl
  exact ⟨_, hrun, by decide, (entries_coloured_by_agent.2.2.2.1 _ _ _ _ _ _ hrun).1⟩

/-! ## The frames of a stream in closed form -/

/-- The text has a blank line: two line feeds in a row. -/
theorem blankLine_cons_iff (c : Char) (l : List Char) :
    ['\n', '\n'] <:+: c :: l ↔ (c = '\n' ∧ l.head? = some '\n') ∨ ['\n', '\n'] <:+: l := by
  rw [List.infix_cons_iff]
  constructor
  · rintro (⟨t, ht⟩ | h)
    · left
      simp only [List.cons_append, List.nil_append, List.cons.injEq] at ht
      obtain ⟨h1, h2⟩ := ht
      exact ⟨h1.symm, by rw [← h2]; rfl⟩
    · exact Or.inr h
  · rintro (⟨h1, h2⟩ | h)
    · left
      cases l with
      | nil => simp at h2
      | cons d tl =>
        simp only [List.head?_cons, Option.some.injEq] at h2
        subst h1 h2
        exact ⟨tl, rfl⟩
    · exact Or.inr h

theorem splitBlankLine_sep (rest : List Char) :
    splitBlankLine ('\n' :: '\n' :: rest) = [] :: splitBlankLine rest := by
  rw [splitBlankLine]

theorem splitBlankLine_join (t : List Char) : joinWith ['\n', '\n'] (splitBlankLine t) = t := by
  induction t using splitBlankLine.induct with
  | case1 => rfl
  | case2 rest ih =>
    obtain ⟨h, tl, hS⟩ := List.exists_cons_of_ne_nil (splitBlankLine_ne_nil rest)
    rw [splitBlankLine_sep, hS, joinWith_cons_cons, ← hS, ih]
    rfl
  | case3 c rest hc hS _ => exact absurd hS (splitBlankLine_ne_nil rest)
  | case4 c rest hc h tl hS ih =>
    rw [splitBlankLine_cons c rest h tl hc hS]
    rw [hS] at ih
    cases tl with
    | nil =>
      rw [joinWith_singleton] at ih ⊢
      rw [ih]
    | cons q tl2 =>
      rw [joinWith_cons_cons] at ih ⊢
      rw [← ih]
      rfl

/-- No complete piece of `split("\n\n")` reaches a blank line before its own
separator, and the last piece holds no blank line: the separators are the
blank lines found from left to right. -/
theorem splitBlankLine_pieces (t : List Char) :
    (∀ p ∈ (splitBlankLine t).dropLast, ¬ ['\n', '\n'] <:+: p ++ ['\n']) ∧
    ¬ ['\n', '\n'] <:+: (splitBlankLine t).getLast?.getD [] := by
  induction t using splitBlankLine.induct with
  | case1 => simp [splitBlankLine]
  | case2 rest ih =>
    obtain ⟨h, tl, hS⟩ := List.exists_cons_of_ne_nil (splitBlankLine_ne_nil rest)
    rw [splitBlankLine_sep, hS]
    rw [hS] at ih
    refine ⟨?_, ?_⟩
    · intro p hp
      rw [List.dropLast_cons₂] at hp
      rcases List.mem_cons.mp hp with hp | hp
      · subst hp
        decide
      · exact ih.1 p hp
    · rw [List.getLast?_cons_cons]
      exact ih.2
  | case3 c rest hc hS _ => exact absurd hS (splitBlankLine_ne_nil rest)
  | case4 c rest hc h tl hS ih =>
    have hjoin := splitBlankLine_join rest
    rw [splitBlankLine_cons c rest h tl hc hS]
    rw [hS] at ih hjoin
    cases tl with
    | nil =>
      rw [joinWith_singleton] at hjoin
      subst hjoin
      refine ⟨by simp, ?_⟩
      simp only [List.getLast?_singleton, Option.getD_some] at ih ⊢
      rw [blankLine_cons_iff]
      rintro (⟨h1, h2⟩ | h2)
      · cases h with
        | nil => simp at h2
        | cons d r =>
          simp only [List.head?_cons, Option.some.injEq] at h2
          exact hc r h1 (by rw [h2])
      · exact ih.2 h2
    | cons q tl2 =>
      rw [joinWith_cons_cons] at hjoin
      refine ⟨?_, ?_⟩
      · intro p hp
        rw [List.dropLast_cons₂] at hp ih
        rcases List.mem_cons.mp hp with hp | hp
        · subst hp
          rw [List.cons_append, blankLine_cons_iff]
          rintro (⟨h1, h2⟩ | h2)
          · have hrest : ∃ r, rest = '\n' :: r := by
              rw [← hjoin]
              cases h with
              | nil => exact ⟨_, rfl⟩
              | cons d r =>
                simp only [List.cons_append, List.head?_cons, Option.some.injEq] at h2
                exact ⟨_, by rw [h2]; rfl⟩
            obtain ⟨r, hr⟩ := hrest
            exact hc r h1 hr
          · exact ih.1 h (List.mem_cons_self _ _) h2
        · exact ih.1 p (List.mem_cons_of_mem _ hp)
      · rw [List.getLast?_cons_cons] at ih ⊢
        exact ih.2

theorem foldl_collect (frames : List (List Char)) :
    ∀ acc : List (List Char),
      frames.foldl (fun calls chunk => calls ++ [chunk ++ ['\n', '\n']]) acc =
        acc ++ frames.map (fun chunk => chunk ++ ['\n', '\n']) := by
  induction frames with
  | nil => intro acc; simp
  | cons f rest ih =>
    intro acc
    rw [List.foldl_cons, ih, List.map_cons, List.append_assoc]
    rfl

/-- The frames of a stream: every complete piece of the whole text with its
separator put back, then the leftover if it is more than white space. -/
theorem framesHanded_closed (values : List (List Char)) :
    framesHanded values =
      (splitBlankLine values.flatten).dropLast.map (fun p => p ++ ['\n', '\n']) ++
        (if jsTrim ((splitBlankLine values.flatten).getLast?.getD []) ≠ [] then
          [(splitBlankLine values.flatten).getLast?.getD []]
        else []) := by
  unfold framesHanded
  rw [readLoop_flatten]
  simp only [readLoop, List.foldl_cons, List.foldl_nil, readStep, List.nil_append, foldl_collect]
  by_cases h : jsTrim ((splitBlankLine values.flatten).getLast?.getD []) = []
  · rw [if_neg (fun hh => hh.2 h), if_neg (fun hh => hh h)]
    simp
  · have hne : (splitBlankLine values.flatten).getLast?.getD [] ≠ [] := by
      intro hnil
      rw [hnil] at h
      exact h rfl
    rw [if_pos ⟨hne, h⟩, if_pos h]

theorem splitBlankLine_frame (f : List Char) (hf : ¬ ['\n', '\n'] <:+: f ++ ['\n']) :
    splitBlankLine (f ++ ['\n', '\n']) = [f, []] := by
  induction f with
  | nil => rfl
  | cons c rest ih =>
    rw [List.cons_append, blankLine_cons_iff] at hf
    have hrest := ih (fun h => hf (Or.inr h))
    refine splitBlankLine_cons c (rest ++ ['\n', '\n']) rest [[]] ?_ hrest
    intro r h1 h2
    apply hf
    left
    refine ⟨h1, ?_⟩
    cases rest with
    | nil => rfl
    | cons d tl =>
      simp only [List.cons_append, List.cons.injEq] at h2
      rw [h2.1]
      rfl

/-- C3: the frames the read loop hands to `handleSseChunk` do not depend on how
the stream text is cut into chunks.  For every division `values` of a text the
frames are those of the whole text read as one chunk, and they are the
blank-line-delimited pieces of the text: every piece but the last, each with its
separator put back, followed by the last piece (the leftover flush) when it is
more than white space.  The pieces are pinned down by the text: joined with
blank lines they give the text back, no piece reaches a blank line before its
own separator, and the leftover holds no blank line.  In particular a frame
(any text, of one or several lines, without a blank line and not ending in a
line feed) followed by its blank-line terminator and cut anywhere into two
appends is handed over exactly once. -/
theorem frames_independent_of_chunking (values : List (List Char)) (frame : List Char)
    (hframe : ¬ ['\n', '\n'] <:+: frame ++ ['\n']) :
    framesHanded values = framesHanded [values.flatten] ∧
    framesHanded values =
      (splitBlankLine values.flatten).dropLast.map (fun p => p ++ ['\n', '\n']) ++
        (if jsTrim ((splitBlankLine values.flatten).getLast?.getD []) ≠ [] then
          [(splitBlankLine values.flatten).getLast?.getD []]
        else []) ∧
    joinWith ['\n', '\n'] (splitBlankLine values.flatten) = values.flatten ∧
    (∀ p ∈ (splitBlankLine values.flatten).dropLast, ¬ ['\n', '\n'] <:+: p ++ ['\n']) ∧
    ¬ ['\n', '\n'] <:+: (splitBlankLine values.flatten).getLast?.getD [] ∧
    (∀ a b : List Char, a ++ b = frame ++ ['\n', '\n'] →
      framesHanded [a, b] = [frame ++ ['\n', '\n']]) ∧
    (∀ a b rest : List Char, a ++ b = frame ++ ['\n', '\n'] → '\n' ∉ rest → jsTrim rest ≠ [] →
      framesHanded [a, b, rest] = [frame ++ ['\n', '\n'], rest]) := by
  refine ⟨readLoop_flatten _ values [], framesHanded_closed values,
    splitBlankLine_join _, (splitBlankLine_pieces _).1, (splitBlankLine_pieces _).2, ?_, ?_⟩
  · intro a b hab
    rw [framesHanded_closed]
    simp only [List.flatten_cons, List.flatten_nil, List.append_nil, hab,
      splitBlankLine_frame frame hframe]
    rfl
  · intro a b rest hab hrest htrim
    rw [framesHanded_closed]
    have hflat : [a, b, rest].flatten = (frame ++ ['\n', '\n']) ++ rest := by
      simp only [List.flatten_cons, List.flatten_nil, List.append_nil, ← hab, List.append_assoc]
    rw [hflat, splitBlankLine_append, splitBlankLine_frame frame hframe]
    simp only [List.dropLast_cons₂, List.dropLast_single, List.getLast?_cons_cons,
      List.getLast?_singleton, Option.getD_some, List.nil_append,
      splitBlankLine_no_newline rest hrest, List.map_cons, List.map_nil, List.append_nil,
      List.cons_append]
    rw [if_pos htrim]

/-- Witness for C3: a frame of two lines, cut inside its first line and again
inside its terminator, followed by an unterminated record. -/
theorem frames_independent_of_chunking_witness :
    ¬ ['\n', '\n'] <:+: "data: a\ndata: b".data ++ ['\n'] ∧
    framesHanded ["data: a\ndata: b\n".data, "\n".data] = ["data: a\ndata: b\n\n".data] ∧
    framesHanded ["da".data, "ta: a\ndata: b\n".data, "\ndata: c".data] =
      ["data: a\ndata: b\n\n".data, "data: c".data] ∧
    framesHanded ["da".data, "ta: a\ndata: b\n".data, "\ndata: c".data] =
      framesHanded ["data: a\ndata: b\n\ndata: c".data] := by
  have hf : ¬ ['\n', '\n'] <:+: "data: a\ndata: b".data ++ ['\n'] := by decide
  have h := frames_independent_of_chunking ["da".data, "ta: a\ndata: b\n".data, "\ndata: c".data]
    "data: a\ndata: b".data hf
  exact ⟨hf, h.2.2.2.2.2.1 _ _ rfl, by decide, h.1⟩

theorem starSkeleton_star (t : List Char) :
    starSkeleton ('*' :: t) = true :: starSkeleton t := by
  simp [starSkeleton]

theorem starSkeleton_other (d : Char) (t : List Char) (hd : d ≠ '*') :
    starSkeleton (d :: t) =
      match starSkeleton t with
      | false :: s => false :: s
      | s => false :: s := by
  simp [starSkeleton, hd]

theorem starSkeleton_other_head (d : Char) (t : List Char) (hd : d ≠ '*') :
    ∃ s, starSkeleton (d :: t) = false :: s := by
  rw [starSkeleton_other d t hd]
  split
  · exact ⟨_, rfl⟩
  · exact ⟨_, rfl⟩

theorem closedSpans_false (s : List Bool) : closedSpans (false :: s) = closedSpans s := by
  rw [closedSpans]

theorem closed_cons_other (d : Char) (t : List Char) (hd : d ≠ '*') :
    closedSpans (starSkeleton (d :: t)) = closedSpans (starSkeleton t) := by
  rw [starSkeleton_other d t hd]
  split
  · rename_i s hs
    rw [hs]
  · rw [closedSpans_false]

theorem starSkeleton_congr (c : Char) (t t2 : List Char) (h : starSkeleton t = starSkeleton t2) :
    starSkeleton (c :: t) = starSkeleton (c :: t2) := by
  by_cases hc : c = '*'
  · subst hc
    rw [starSkeleton_star, starSkeleton_star, h]
  · rw [starSkeleton_other c t hc, starSkeleton_other c t2 hc, h]

theorem starSkeleton_blank (c d : Char) (t : List Char) (hc : c ≠ '*') (hd : d ≠ '*') :
    starSkeleton (c :: d :: t) = starSkeleton (d :: t) := by
  obtain ⟨s, hs⟩ := starSkeleton_other_head d t hd
  rw [starSkeleton_other c _ hc, hs]

theorem starSkeleton_swap (c d : Char) (t : List Char) (hc : c ≠ '*') (hd : d ≠ '*') :
    starSkeleton (c :: t) = starSkeleton (d :: t) := by
  rw [starSkeleton_other c t hc, starSkeleton_other d t hd]

theorem starSkeleton_inv_true (u : List Char) (z : List Bool)
    (h : starSkeleton u = true :: z) : ∃ u2, u = '*' :: u2 ∧ starSkeleton u2 = z := by
  cases u with
  | nil => simp [starSkeleton] at h
  | cons c t =>
    by_cases hc : c = '*'
    · subst hc
      rw [starSkeleton_star] at h
      exact ⟨t, rfl, (List.cons.inj h).2⟩
    · obtain ⟨s, hs⟩ := starSkeleton_other_head c t hc
      rw [hs] at h
      exact absurd (List.cons.inj h).1 (by decide)

theorem starSkeleton_run (run u : List Char) (hne : run ≠ []) (hrun : ∀ c ∈ run, c ≠ '*')
    (hu : u = [] ∨ ∃ u2, u = '*' :: u2) :
    starSkeleton (run ++ u) = false :: starSkeleton u := by
  induction run with
  | nil => exact absurd rfl hne
  | cons d rs ih =>
    have hd : d ≠ '*' := hrun d (by simp)
    cases rs with
    | nil =>
      show starSkeleton (d :: u) = _
      rw [starSkeleton_other d u hd]
      rcases hu with rfl | ⟨u2, rfl⟩
      · rfl
      · rw [starSkeleton_star]
    | cons d2 rs2 =>
      have := ih (by simp) (fun c hc => hrun c (List.mem_cons_of_mem _ hc))
      show starSkeleton (d :: (d2 :: rs2 ++ u)) = _
      rw [starSkeleton_other d _ hd, this]

theorem dropWhile_star (w : List Char) :
    w.dropWhile (fun c => c != '*') = [] ∨
      ∃ u2, w.dropWhile (fun c => c != '*') = '*' :: u2 := by
  induction w with
  | nil => exact Or.inl rfl
  | cons c t ih =>
    by_cases hc : c = '*'
    · subst hc
      exact Or.inr ⟨t, by simp [List.dropWhile]⟩
    · have : (c :: t).dropWhile (fun c => c != '*') = t.dropWhile (fun c => c != '*') :=
        List.dropWhile_cons_of_pos (by simpa using hc)
      rw [this]
      exact ih

/-- A text whose skeleton opens with a run and two stars is a non-empty run
without stars followed by two stars. -/
theorem starSkeleton_inv_span (w : List Char) (s : List Bool)
    (h : starSkeleton w = false :: true :: true :: s) :
    ∃ run u, w = run ++ '*' :: '*' :: u ∧ run ≠ [] ∧ (∀ c ∈ run, c ≠ '*') ∧
      starSkeleton u = s := by
  have hsplit := (List.takeWhile_append_dropWhile (fun c => c != '*') w).symm
  have hrun : ∀ c ∈ w.takeWhile (fun c => c != '*'), c ≠ '*' := by
    intro c hc
    have := List.mem_takeWhile_imp hc
    simpa using this
  have hu := dropWhile_star w
  by_cases hne : w.takeWhile (fun c => c != '*') = []
  · rw [hne, List.nil_append] at hsplit
    rcases hu with e | ⟨u2, e⟩
    · rw [hsplit, e] at h
      simp [starSkeleton] at h
    · rw [hsplit, e, starSkeleton_star] at h
      exact absurd (List.cons.inj h).1 (by decide)
  · have hsk := starSkeleton_run _ _ hne hrun hu
    rw [← hsplit, h] at hsk
    have h1 := (List.cons.inj hsk).2
    obtain ⟨u1, e1, hs1⟩ := starSkeleton_inv_true _ _ h1.symm
    obtain ⟨u2, e2, hs2⟩ := starSkeleton_inv_true _ _ hs1
    refine ⟨_, u2, ?_, hne, hrun, hs2⟩
    rw [← e2, ← e1]
    exact hsplit

theorem closedSpans_two (s : List Bool) (h : closedSpans (true :: true :: s) = true) :
    (∃ s2, s = false :: true :: true :: s2 ∧ closedSpans s2 = true) ∨
    (∃ s2, s = true :: false :: true :: true :: s2 ∧ closedSpans s2 = true) := by
  match s, h with
  | false :: true :: true :: s2, h =>
    left
    refine ⟨s2, rfl, ?_⟩
    rw [closedSpans] at h
    exact h
  | true :: false :: true :: true :: s2, h =>
    right
    refine ⟨s2, rfl, ?_⟩
    rw [closedSpans] at h
    exact h
  | [], h => simp [closedSpans] at h
  | [false], h => simp [closedSpans] at h
  | [true], h => simp [closedSpans] at h
  | false :: false :: _, h => simp [closedSpans] at h
  | [false, true], h => simp [closedSpans] at h
  | false :: true :: false :: _, h => simp [closedSpans] at h
  | true :: true :: _, h => simp [closedSpans] at h
  | [true, false], h => simp [closedSpans] at h
  | true :: false :: false :: _, h => simp [closedSpans] at h
  | [true, false, true], h => simp [closedSpans] at h
  | true :: false :: true :: false :: _, h => simp [closedSpans] at h
theorem takeWhile_run (run w : List Char) (hrun : ∀ c ∈ run, c ≠ '*') :
    (run ++ '*' :: w).takeWhile (fun c => c != '*') = run := by
  rw [List.takeWhile_append_of_pos (fun a ha => by simpa using hrun a ha)]
  simp [List.takeWhile]

theorem dropWhile_run (run w : List Char) (hrun : ∀ c ∈ run, c ≠ '*') :
    (run ++ '*' :: w).dropWhile (fun c => c != '*') = '*' :: w := by
  rw [List.dropWhile_append_of_pos (fun a ha => by simpa using hrun a ha)]
  simp [List.dropWhile]

/-- Step 6 where the opening stars are followed by a non-empty run without
stars and two closing stars. -/
theorem overEmphasis_opened (k : Nat) (rest0 w : List Char) (r0 : Char) (rs v : List Char)
    (hop : (match rest0 with
      | '*' :: r => ((3 : Nat), r)
      | _ => (2, rest0)) = (k, w))
    (hw : w = (r0 :: rs) ++ '*' :: '*' :: v) (hrun : ∀ c ∈ r0 :: rs, c ≠ '*') :
    overEmphasis ('*' :: '*' :: rest0) =
      some ('*' :: '*' :: emphasisGroup (r0 :: rs) ++ ['*', '*'],
        k + (r0 :: rs).length + (if v.head? = some ':' then 3 else 2)) := by
  have htake : w.takeWhile (fun c => c != '*') = r0 :: rs := by
    rw [hw]
    exact takeWhile_run (r0 :: rs) ('*' :: v) hrun
  have hdrop : w.dropWhile (fun c => c != '*') = '*' :: '*' :: v := by
    rw [hw]
    exact dropWhile_run (r0 :: rs) ('*' :: v) hrun
  simp only [overEmphasis]
  generalize hg : (match rest0 with
    | '*' :: r => ((3 : Nat), r)
    | _ => (2, rest0)) = opened
  have hk : opened = (k, w) := hg.symm.trans hop
  subst hk
  simp only [htake, hdrop]
  cases v with
  | nil => simp
  | cons c v2 =>
    by_cases hc : c = ':'
    · subst hc
      simp
    · simp only [List.head?_cons, Option.some.injEq, hc, if_false]
      split
      · rename_i heq
        exact absurd heq (List.cons_ne_nil _ _)
      · rename_i heq
        simp only [List.cons.injEq] at heq
        exact absurd heq.2.2.1 hc
      · rfl
      · rename_i h2
        exact (h2 _ _ _ rfl rfl).elim

theorem replaceAll_match (m : Matcher) (pfx rest out : List Char) (hne : pfx ≠ [])
    (hm : m (pfx ++ rest) = some (out, pfx.length)) :
    replaceAll m 0 (pfx ++ rest) = out ++ replaceAll m 0 rest := by
  obtain ⟨a, p, rfl⟩ := List.exists_cons_of_ne_nil hne
  have h1 : replaceAll m 0 (a :: p ++ rest) = out ++ replaceAll m ((a :: p).length - 1) (p ++ rest) := by
    show replaceAll m 0 (a :: (p ++ rest)) = _
    simp only [replaceAll]
    rw [show a :: (p ++ rest) = a :: p ++ rest from rfl, hm]
  rw [h1, replaceAll_skip]
  simp

/-- Step 6 at two stars in front of a complete bold span. -/
theorem overEmphasis_span2 (r0 : Char) (rs v : List Char) (hrun : ∀ c ∈ r0 :: rs, c ≠ '*') :
    overEmphasis ('*' :: '*' :: ((r0 :: rs) ++ '*' :: '*' :: v)) =
      some ('*' :: '*' :: emphasisGroup (r0 :: rs) ++ ['*', '*'],
        2 + (r0 :: rs).length + (if v.head? = some ':' then 3 else 2)) := by
  refine overEmphasis_opened 2 _ _ r0 rs v ?_ rfl hrun
  split
  · rename_i r heq
    exact absurd (List.cons.inj heq).1 (hrun r0 (by simp))
  · rfl

/-- Step 6 at three stars in front of a complete bold span. -/
theorem overEmphasis_span3 (r0 : Char) (rs v : List Char) (hrun : ∀ c ∈ r0 :: rs, c ≠ '*') :
    overEmphasis ('*' :: '*' :: '*' :: ((r0 :: rs) ++ '*' :: '*' :: v)) =
      some ('*' :: '*' :: emphasisGroup (r0 :: rs) ++ ['*', '*'],
        3 + (r0 :: rs).length + (if v.head? = some ':' then 3 else 2)) :=
  overEmphasis_opened 3 _ _ r0 rs v rfl rfl hrun

/-- The global replace of step 6 at a complete bold span: the span is
rewritten, a colon after it is dropped, and the scan goes on behind it. -/
theorem replaceAll_span (stars : List Char)
    (hs : stars = ['*', '*'] ∨ stars = ['*', '*', '*']) (r0 : Char) (rs v : List Char)
    (hrun : ∀ c ∈ r0 :: rs, c ≠ '*') :
    replaceAll overEmphasis 0 (stars ++ ((r0 :: rs) ++ '*' :: '*' :: v)) =
      '*' :: '*' :: emphasisGroup (r0 :: rs) ++ ['*', '*'] ++
        replaceAll overEmphasis 0 (if v.head? = some ':' then v.tail else v) := by
  have hm : overEmphasis (stars ++ ((r0 :: rs) ++ '*' :: '*' :: v)) =
      some ('*' :: '*' :: emphasisGroup (r0 :: rs) ++ ['*', '*'],
        stars.length + (r0 :: rs).length + (if v.head? = some ':' then 3 else 2)) := by
    rcases hs with rfl | rfl
    · exact overEmphasis_span2 r0 rs v hrun
    · exact overEmphasis_span3 r0 rs v hrun
  by_cases hv : v.head? = some ':'
  · obtain ⟨v2, rfl⟩ : ∃ v2, v = ':' :: v2 := by
      cases v with
      | nil => simp at hv
      | cons c v2 =>
        simp only [List.head?_cons, Option.some.injEq] at hv
        exact ⟨v2, by rw [hv]⟩
    rw [if_pos hv] at hm ⊢
    have e : stars ++ ((r0 :: rs) ++ '*' :: '*' :: ':' :: v2) =
        (stars ++ (r0 :: rs) ++ ['*', '*', ':']) ++ v2 := by simp
    rw [e] at hm ⊢
    refine replaceAll_match overEmphasis _ v2 _ (by simp) ?_
    rw [hm]
    simp
    omega
  · rw [if_neg hv] at hm ⊢
    have e : stars ++ ((r0 :: rs) ++ '*' :: '*' :: v) =
        (stars ++ (r0 :: rs) ++ ['*', '*']) ++ v := by simp
    rw [e] at hm ⊢
    refine replaceAll_match overEmphasis _ v _ (by simp) ?_
    rw [hm]
    simp
    omega

theorem overEmphasis_other (c : Char) (t : List Char) (hc : c ≠ '*') :
    overEmphasis (c :: t) = none := by
  unfold overEmphasis
  split
  · rename_i heq
    exact absurd (List.cons.inj heq).1 hc
  · rfl

theorem overEmphasis_single (d : Char) (t : List Char) (hd : d ≠ '*') :
    overEmphasis ('*' :: d :: t) = none := by
  unfold overEmphasis
  split
  · rename_i heq
    exact absurd (List.cons.inj (List.cons.inj heq).2).1 hd
  · rfl

/-- Step 6 on a text whose bold spans are complete, followed by a linebreak:
no span reaches over the linebreak, so the text in front of it and the text
behind it are rewritten on their own. -/
theorem overEmphasis_split (n : Nat) :
    ∀ x : List Char, x.length = n → BoldClosed x → ∀ rest : List Char,
      replaceAll overEmphasis 0 (x ++ '\n' :: rest) =
        replaceAll overEmphasis 0 x ++ '\n' :: replaceAll overEmphasis 0 rest := by
  induction n using Nat.strong_induction_on with
  | _ n ih =>
    intro x hl hx rest
    have hstep : ∀ (c : Char) (t l : List Char), overEmphasis (c :: l) = none →
        replaceAll overEmphasis 0 (c :: l) = c :: replaceAll overEmphasis 0 l := by
      intro c t l h
      simp only [replaceAll, h]
    have hbreak : replaceAll overEmphasis 0 ('\n' :: rest) =
        '\n' :: replaceAll overEmphasis 0 rest :=
      hstep '\n' [] rest (overEmphasis_other _ _ (by decide))
    match x, hl, hx with
    | [], _, _ => simpa [replaceAll] using hbreak
    | a :: t, hl, hx =>
      have hlt : t.length < n := by rw [← hl]; simp
      by_cases ha : a = '*'
      · subst ha
        match t, hl, hx, hlt with
        | [], _, _, _ =>
          show replaceAll overEmphasis 0 ('*' :: '\n' :: rest) = _
          rw [hstep '*' [] _ (overEmphasis_single _ _ (by decide)), hbreak]
          rfl
        | d :: t2, hl, hx, hlt =>
          by_cases hd : d = '*'
          · subst hd
            have hx2 : closedSpans (true :: true :: starSkeleton t2) = true := by
              have := hx
              unfold BoldClosed at this
              rwa [starSkeleton_star, starSkeleton_star] at this
            have key : ∀ (stars : List Char) (w : List Char) (s2 : List Bool),
                (stars = ['*', '*'] ∨ stars = ['*', '*', '*']) →
                '*' :: '*' :: t2 = stars ++ w →
                starSkeleton w = false :: true :: true :: s2 → closedSpans s2 = true →
                replaceAll overEmphasis 0 ('*' :: '*' :: t2 ++ '\n' :: rest) =
                  replaceAll overEmphasis 0 ('*' :: '*' :: t2) ++
                    '\n' :: replaceAll overEmphasis 0 rest := by
              intro stars w s2 hs hw hsk hcl
              obtain ⟨run, u, hwu, hne, hrun, hu⟩ := starSkeleton_inv_span w s2 hsk
              obtain ⟨r0, rs, rfl⟩ := List.exists_cons_of_ne_nil hne
              have hlen : u.length < n := by
                rw [← hl]
                have := congrArg List.length hw
                rw [hwu] at this
                simp only [List.length_cons, List.length_append] at this ⊢
                omega
              have hcu : BoldClosed u := by
                unfold BoldClosed
                rw [hu]
                exact hcl
              rw [hw, hwu]
              have e : stars ++ ((r0 :: rs) ++ '*' :: '*' :: u) ++ '\n' :: rest =
                  stars ++ ((r0 :: rs) ++ '*' :: '*' :: (u ++ '\n' :: rest)) := by simp
              rw [e, replaceAll_span stars hs r0 rs u hrun,
                replaceAll_span stars hs r0 rs (u ++ '\n' :: rest) hrun]
              cases u with
              | nil =>
                have h1 : ¬ ((([] : List Char) ++ '\n' :: rest).head? = some ':') := by simp
                have h2 : ¬ (([] : List Char).head? = some ':') := by simp
                rw [if_neg h1, if_neg h2, List.nil_append, hbreak]
                simp [replaceAll]
              | cons c u2 =>
                by_cases hc : c = ':'
                · subst hc
                  have h1 : ((':' :: u2) ++ '\n' :: rest).head? = some ':' := rfl
                  have h2 : (':' :: u2).head? = some ':' := rfl
                  rw [if_pos h1, if_pos h2]
                  have hcu2 : BoldClosed u2 := by
                    unfold BoldClosed at hcu ⊢
                    rwa [closed_cons_other ':' u2 (by decide)] at hcu
                  have hlen2 : u2.length < n := by
                    simp only [List.length_cons] at hlen
                    omega
                  show _ ++ replaceAll overEmphasis 0 (u2 ++ '\n' :: rest) = _
                  rw [ih _ hlen2 u2 rfl hcu2 rest]
                  simp
                · have h1 : ¬ (((c :: u2) ++ '\n' :: rest).head? = some ':') := by
                    simpa using hc
                  have h2 : ¬ ((c :: u2).head? = some ':') := by simpa using hc
                  rw [if_neg h1, if_neg h2, ih _ hlen (c :: u2) rfl hcu rest]
                  simp
            rcases closedSpans_two _ hx2 with ⟨s2, hs2, hcl⟩ | ⟨s2, hs2, hcl⟩
            · exact key ['*', '*'] t2 s2 (Or.inl rfl) rfl hs2 hcl
            · obtain ⟨t3, rfl, hs3⟩ := starSkeleton_inv_true t2 _ hs2
              exact key ['*', '*', '*'] t3 s2 (Or.inr rfl) rfl hs3 hcl
          · have hx2 : BoldClosed (d :: t2) := by
              unfold BoldClosed at hx ⊢
              obtain ⟨s, hs⟩ := starSkeleton_other_head d t2 hd
              rw [starSkeleton_star, hs] at hx
              rw [hs, closedSpans_false]
              rw [closedSpans] at hx
              exact hx
            have h1 : replaceAll overEmphasis 0 ('*' :: d :: (t2 ++ '\n' :: rest)) =
                '*' :: replaceAll overEmphasis 0 (d :: (t2 ++ '\n' :: rest)) :=
              hstep '*' [] _ (overEmphasis_single d _ hd)
            have h2 : replaceAll overEmphasis 0 ('*' :: d :: t2) =
                '*' :: replaceAll overEmphasis 0 (d :: t2) :=
              hstep '*' [] _ (overEmphasis_single d _ hd)
            have h3 : replaceAll overEmphasis 0 (d :: (t2 ++ '\n' :: rest)) =
                replaceAll overEmphasis 0 (d :: t2) ++ '\n' :: replaceAll overEmphasis 0 rest :=
              ih _ hlt (d :: t2) rfl hx2 rest
            show replaceAll overEmphasis 0 ('*' :: d :: (t2 ++ '\n' :: rest)) = _
            rw [h1, h2, h3]
            rfl
      · have hx2 : BoldClosed t := by
          unfold BoldClosed at hx ⊢
          rwa [closed_cons_other a t ha] at hx
        have h1 : replaceAll overEmphasis 0 (a :: (t ++ '\n' :: rest)) =
            a :: replaceAll overEmphasis 0 (t ++ '\n' :: rest) :=
          hstep a [] _ (overEmphasis_other a _ ha)
        have h2 : replaceAll overEmphasis 0 (a :: t) = a :: replaceAll overEmphasis 0 t :=
          hstep a [] _ (overEmphasis_other a _ ha)
        show replaceAll overEmphasis 0 (a :: (t ++ '\n' :: rest)) = _
        rw [h1, h2, ih _ hlt t rfl hx2 rest]
        rfl

theorem starSkeleton_spaceBetween (P Q : Char → Bool) (hQ : Q '*' = false) (n : Nat) :
    ∀ l : List Char, l.length = n →
      starSkeleton (replaceAll (spaceBetween P Q) 0 l) = starSkeleton l := by
  induction n using Nat.strong_induction_on with
  | _ n ih =>
    intro l hl
    match l, hl with
    | [], _ => rfl
    | [a], _ => rfl
    | a :: d :: tl, hl =>
      by_cases hm : (P a && Q d) = true
      · have hrec : replaceAll (spaceBetween P Q) 0 (a :: d :: tl) =
            a :: ' ' :: d :: replaceAll (spaceBetween P Q) 0 tl := by
          simp [replaceAll, spaceBetween, hm]
        have hd : d ≠ '*' := by
          rintro rfl
          rw [hQ] at hm
          simp at hm
        have htl := ih tl.length (by rw [← hl]; simp; omega) tl rfl
        rw [hrec]
        apply starSkeleton_congr
        rw [starSkeleton_blank ' ' d _ (by decide) hd]
        exact starSkeleton_congr d _ _ htl
      · have hrec : replaceAll (spaceBetween P Q) 0 (a :: d :: tl) =
            a :: replaceAll (spaceBetween P Q) 0 (d :: tl) := by
          simp [replaceAll, spaceBetween, hm]
        rw [hrec]
        exact starSkeleton_congr a _ _ (ih (d :: tl).length (by rw [← hl]; simp) (d :: tl) rfl)

theorem starSkeleton_softBreak (n : Nat) :
    ∀ l : List Char, l.length = n → starSkeleton (replaceAll softBreak 0 l) = starSkeleton l := by
  induction n using Nat.strong_induction_on with
  | _ n ih =>
    intro l hl
    match l, hl with
    | [], _ => rfl
    | c :: rest, hl =>
      cases hm : softBreak (c :: rest) with
      | none =>
        have hrec : replaceAll softBreak 0 (c :: rest) = c :: replaceAll softBreak 0 rest := by
          simp only [replaceAll, hm]
        rw [hrec]
        exact starSkeleton_congr c _ _ (ih rest.length (by rw [← hl]; simp) rest rfl)
      | some r =>
        match rest, hl, hm with
        | [], _, hm => rw [softBreak_short _ (by simp)] at hm; exact absurd hm (by simp)
        | [_], _, hm => rw [softBreak_short _ (by simp)] at hm; exact absurd hm (by simp)
        | d :: e :: tl, hl, hm =>
          rw [softBreak_cons3] at hm
          split at hm
          · rename_i hcond
            obtain ⟨hd, _⟩ := hcond
            subst hd
            have hr : r = ([c, ' ', e], 3) := (Option.some.inj hm).symm
            subst hr
            have hrec : replaceAll softBreak 0 (c :: '\n' :: e :: tl) =
                c :: ' ' :: e :: replaceAll softBreak 0 tl := by
              have hm2 : softBreak (c :: '\n' :: e :: tl) = some ([c, ' ', e], 3) := by
                rw [softBreak_cons3, if_pos ⟨rfl, by assumption⟩]
              simp only [replaceAll, hm2]
              rfl
            have htl := ih tl.length (by rw [← hl]; simp; omega) tl rfl
            rw [hrec]
            apply starSkeleton_congr
            rw [starSkeleton_swap ' ' '\n' _ (by decide) (by decide)]
            apply starSkeleton_congr
            exact starSkeleton_congr e _ _ htl
          · exact absurd hm (by simp)

theorem lineMark_not_star (b : Char) (hb : isLineMark b = true) : b ≠ '*' := by
  simp only [isLineMark, Bool.or_eq_true, decide_eq_true_eq] at hb
  rcases hb with (rfl | rfl) | rfl <;> decide

/-- Steps 1 to 6 on a text with a linebreak directly in front of a marker: the
linebreak and the marker stay, and the text in front of them is rewritten on its
own. -/
theorem repairSteps_split (pre post : List Char) (b : Char) (hb : isLineMark b = true)
    (hbold : BoldClosed pre)
    (hhyphen : NoAdjacent (fun c => c = '-') (fun c => c = '\n') (pre ++ '\n' :: b :: post)) :
    ∃ P Q, repairSteps (pre ++ '\n' :: b :: post) = P ++ '\n' :: b :: Q ∧
      ∀ keep, ContentClass keep → P.filter keep = pre.filter keep := by
  -- step 1
  obtain ⟨q1, hq1⟩ := spaceBetween_head isLowerOrDigit isUpperAZ b post
  have e1 : replaceAll splitCamel 0 (pre ++ '\n' :: b :: post) =
      replaceAll splitCamel 0 pre ++ '\n' :: b :: q1 := by
    rw [← hq1]
    exact spaceBetween_split _ _ (by decide) (by decide) pre (b :: post)
  have n1 : NoAdjacent (fun c => c = '-') (fun c => c = '\n')
      (replaceAll splitCamel 0 (pre ++ '\n' :: b :: post)) :=
    noAdjacent_spaceBetween _ _ _ _ (by decide) (by decide) _ _ rfl hhyphen
  have k1 : starSkeleton (replaceAll splitCamel 0 pre) = starSkeleton pre :=
    starSkeleton_spaceBetween _ _ (by decide) _ pre rfl
  have f1 : ∀ keep, ContentClass keep →
      (replaceAll splitCamel 0 pre).filter keep = pre.filter keep := fun keep hk =>
    replaceAll_keepsContent keep splitCamel (spaceBetween_keepsContent hk _ _) _ _ rfl
  rw [e1] at n1
  generalize replaceAll splitCamel 0 pre = p1 at e1 n1 k1 f1
  -- step 2
  obtain ⟨q2, hq2⟩ := spaceBetween_head isSentencePunct isLetter b q1
  have e2 : replaceAll spaceAfterPunct 0 (p1 ++ '\n' :: b :: q1) =
      replaceAll spaceAfterPunct 0 p1 ++ '\n' :: b :: q2 := by
    rw [← hq2]
    exact spaceBetween_split _ _ (by decide) (by decide) _ (b :: q1)
  have n2 : NoAdjacent (fun c => c = '-') (fun c => c = '\n')
      (replaceAll spaceAfterPunct 0 (p1 ++ '\n' :: b :: q1)) :=
    noAdjacent_spaceBetween _ _ _ _ (by decide) (by decide) _ _ rfl n1
  have k2 : starSkeleton (replaceAll spaceAfterPunct 0 p1) = starSkeleton p1 :=
    starSkeleton_spaceBetween _ _ (by decide) _ p1 rfl
  have f2 : ∀ keep, ContentClass keep →
      (replaceAll spaceAfterPunct 0 p1).filter keep = pre.filter keep := fun keep hk =>
    (replaceAll_keepsContent keep spaceAfterPunct (spaceBetween_keepsContent hk _ _) _ _
      rfl).trans (f1 keep hk)
  rw [e2] at n2
  generalize replaceAll spaceAfterPunct 0 p1 = p2 at e2 n2 k2 f2
  -- step 3
  have e3 : replaceAll hyphenBreak 0 (p2 ++ '\n' :: b :: q2) = p2 ++ '\n' :: b :: q2 :=
    replaceAll_of_no_match hyphenBreak _
      (fun s hs => hyphenBreak_none_of_noAdjacent s (noAdjacent_suffix n2 hs))
  -- step 4
  have e4 := softBreak_split p2 q2 b hb
  have k4 : starSkeleton (replaceAll softBreak 0 p2) = starSkeleton p2 :=
    starSkeleton_softBreak _ p2 rfl
  have f4 : ∀ keep, ContentClass keep →
      (replaceAll softBreak 0 p2).filter keep = pre.filter keep := fun keep hk =>
    (replaceAll_keepsContent keep _ (softBreak_keepsContent hk) _ _ rfl).trans (f2 keep hk)
  generalize replaceAll softBreak 0 q2 = q4 at e4
  generalize replaceAll softBreak 0 p2 = p4 at e4 k4 f4
  -- step 5
  obtain ⟨q5, hq5⟩ := spaceBetween_head isMarker isLetter b q4
  have e5 : replaceAll spaceAfterMarker 0 (p4 ++ '\n' :: b :: q4) =
      replaceAll spaceAfterMarker 0 p4 ++ '\n' :: b :: q5 := by
    rw [← hq5]
    exact spaceBetween_split _ _ (by decide) (by decide) _ (b :: q4)
  have k5 : starSkeleton (replaceAll spaceAfterMarker 0 p4) = starSkeleton p4 :=
    starSkeleton_spaceBetween _ _ (by decide) _ p4 rfl
  have f5 : ∀ keep, ContentClass keep →
      (replaceAll spaceAfterMarker 0 p4).filter keep = pre.filter keep := fun keep hk =>
    (replaceAll_keepsContent keep spaceAfterMarker (spaceBetween_keepsContent hk _ _) _ _
      rfl).trans (f4 keep hk)
  generalize replaceAll spaceAfterMarker 0 p4 = p5 at e5 k5 f5
  obtain ⟨q6, hq6⟩ := spaceBetween_head isLetter (fun c => c = ':') b q5
  have e6 : replaceAll spaceBeforeColon 0 (p5 ++ '\n' :: b :: q5) =
      replaceAll spaceBeforeColon 0 p5 ++ '\n' :: b :: q6 := by
    rw [← hq6]
    exact spaceBetween_split _ _ (by decide) (by decide) _ (b :: q5)
  have k6 : starSkeleton (replaceAll spaceBeforeColon 0 p5) = starSkeleton p5 :=
    starSkeleton_spaceBetween _ _ (by decide) _ p5 rfl
  have f6 : ∀ keep, ContentClass keep →
      (replaceAll spaceBeforeColon 0 p5).filter keep = pre.filter keep := fun keep hk =>
    (replaceAll_keepsContent keep spaceBeforeColon (spaceBetween_keepsContent hk _ _) _ _
      rfl).trans (f5 keep hk)
  generalize replaceAll spaceBeforeColon 0 p5 = p6 at e6 k6 f6
  -- step 6
  have hclosed : BoldClosed p6 := by
    unfold BoldClosed at hbold ⊢
    rw [k6, k5, k4, k2, k1]
    exact hbold
  have e7 : replaceAll overEmphasis 0 (p6 ++ '\n' :: b :: q6) =
      replaceAll overEmphasis 0 p6 ++ '\n' :: b :: replaceAll overEmphasis 0 q6 := by
    rw [overEmphasis_split _ p6 rfl hclosed]
    have hmark : overEmphasis (b :: q6) = none :=
      overEmphasis_other b q6 (lineMark_not_star b hb)
    simp only [replaceAll, hmark]
  refine ⟨replaceAll overEmphasis 0 p6, replaceAll overEmphasis 0 q6, ?_, ?_⟩
  · unfold repairSteps
    dsimp only
    rw [e1, e2, e3, e4, e5, e6, e7]
  · intro keep hk
    exact (replaceAll_keepsContent keep _ (overEmphasis_keepsContent hk) _ _ rfl).trans
      (f6 keep hk)
theorem cleanChars_keeps_marker_line (pre post : List Char) (b : Char)
    (hb : isLineMark b = true) (hbold : BoldClosed pre)
    (hhyphen : NoAdjacent (fun c => c = '-') (fun c => c = '\n') (pre ++ '\n' :: b :: post)) :
    ∃ pre2 post2, cleanChars (pre ++ '\n' :: b :: post) = pre2 ++ b :: post2 ∧
      (pre2 = [] ∨ pre2.getLast? = some '\n') ∧
      ∀ keep, ContentClass keep → pre2.filter keep = pre.filter keep := by
  obtain ⟨P, Q, hrep, hP⟩ := repairSteps_split pre post b hb hbold hhyphen
  have hlines : repairedLines (pre ++ '\n' :: b :: post) =
      ((splitOnChar '\n' (P ++ '\n' :: b :: Q)).map jsTrim).filter (fun l => l ≠ []) := by
    unfold repairedLines
    rw [hrep]
  have htrim := repairedLines_trimmed (pre ++ '\n' :: b :: post)
  have hne : (repairedLines (pre ++ '\n' :: b :: post)).length ≠ 0 := by
    obtain ⟨y, LQ, hl⟩ := lines_split P Q b hb
    rw [hlines, hl]
    simp
  rw [cleanChars_unfold, if_neg hne]
  by_cases hshort : mostlyShort (repairedLines (pre ++ '\n' :: b :: post)) = true
  · rw [if_pos hshort, buildParagraphs_eq_paragraphsOf, finish_joined _ htrim, hlines]
    obtain ⟨pre2, post2, h1, h2, h3⟩ := paragraphs_keep_marker_line P Q b hb
    exact ⟨pre2, post2, h1, h2, fun keep hk => (h3 keep hk).trans (hP keep hk)⟩
  · rw [if_neg hshort, hrep]
    obtain ⟨pre2, post2, h1, h2, h3⟩ := collapse_keeps_marker_line P Q b hb
    exact ⟨pre2, post2, h1, h2, fun keep hk => (h3 keep hk).trans (hP keep hk)⟩

/-- C25, counterexamples: a linebreak in front of a line that starts with `*` is
collapsed into a blank when the line before it ends with a letter or digit (the
second class of the step 4 pattern holds the star); a linebreak that follows a
hyphen is deleted by step 3 even in front of `#`; and a linebreak behind an
unclosed `**` is swallowed by step 6 when two further stars follow, because the
`\s*` behind the opening stars takes it. -/
theorem star_line_joined :
    cleanSynthesizedText "intro\n* item" = "intro * item" ∧
    '\n' ∉ (cleanSynthesizedText "intro\n* item").data ∧
    softBreak "o\n* item".data = some ("o *".data, 3) ∧
    cleanSynthesizedText "a-\n# b" = "a# b" ∧
    cleanSynthesizedText "**\n# b**" = "**# b**" ∧
    ¬ BoldClosed "**".data := by
  refine ⟨by decide, by decide, by decide, by decide, by decide, by decide⟩

/-- C25, amended: in an input without a hyphen directly in front of a
linebreak, a linebreak that immediately precedes a line starting with `#`, `-`
or a backtick, and in front of which every `**` belongs to a complete bold span
(`BoldClosed`; single stars and any text behind the linebreak are free), is not
collapsed: in the output of `cleanSynthesizedText` that line still starts on
its own line (it opens the output or follows a linebreak), with the letters and
digits of the input in front of it and behind it. -/
theorem marker_line_keeps_linebreak (text : String) (pre post : List Char) (b : Char)
    (hsplit : text.data = pre ++ '\n' :: b :: post) (hb : isLineMark b = true)
    (hbold : BoldClosed pre)
    (hhyphen : NoAdjacent (fun c => c = '-') (fun c => c = '\n') text.data) :
    ∃ pre2 post2, (cleanSynthesizedText text).data = pre2 ++ b :: post2 ∧
      (pre2 = [] ∨ pre2.getLast? = some '\n') ∧
      pre2.filter isLetterOrDigit = pre.filter isLetterOrDigit ∧
      post2.filter isLetterOrDigit = post.filter isLetterOrDigit := by
  rw [hsplit] at hhyphen
  obtain ⟨pre2, post2, h1, h2, h3⟩ := cleanChars_keeps_marker_line pre post b hb hbold hhyphen
  have hpre := h3 isLetterOrDigit contentClass_isLetterOrDigit
  refine ⟨pre2, post2, by rw [cleanSynthesizedText_data, hsplit, h1], h2, hpre, ?_⟩
  have hall := cleanChars_keepsContent contentClass_isLetterOrDigit (pre ++ '\n' :: b :: post)
  have hbl := (lineMark_visible b hb).2.2
  have hnl : isLetterOrDigit '\n' = false := by decide
  rw [h1, List.filter_append, List.filter_append, hpre, List.filter_cons, List.filter_cons,
    List.filter_cons, hbl, hnl] at hall
  simpa using hall

/-- C25, instance: a line with a bold span and a single star in front of a list
item that holds a bold span of its own. -/
theorem marker_line_keeps_linebreak_witness :
    BoldClosed "**Plan** for a * b".data ∧
    ∃ pre2 post2,
      (cleanSynthesizedText "**Plan** for a * b\n- **item** one").data = pre2 ++ '-' :: post2 ∧
      (pre2 = [] ∨ pre2.getLast? = some '\n') ∧
      pre2.filter isLetterOrDigit = "Planforab".data ∧
      post2.filter isLetterOrDigit = "itemone".data :=
  ⟨by decide,
    marker_line_keeps_linebreak "**Plan** for a * b\n- **item** one" "**Plan** for a * b".data
      " **item** one".data '-' (by decide) (by decide) (by decide) (by decide)⟩

theorem noAdjacent_after_spaceBetween (P Q : Char → Bool)
    (hdisj : ∀ c, Q c = true → P c = false) (hP : P ' ' = false) (hQ : Q ' ' = false)
    (n : Nat) :
    ∀ l : List Char, l.length = n → NoAdjacent P Q (replaceAll (spaceBetween P Q) 0 l) := by
  induction n using Nat.strong_induction_on with
  | _ n ih =>
    intro l hl
    match l, hl with
    | [], _ => rfl
    | [a], _ => rfl
    | a :: d :: tl, hl =>
      by_cases hm : (P a && Q d) = true
      · have hrec : replaceAll (spaceBetween P Q) 0 (a :: d :: tl) =
            a :: ' ' :: d :: replaceAll (spaceBetween P Q) 0 tl := by
          simp [replaceAll, spaceBetween, hm]
        have hd : P d = false := hdisj d (by simp only [Bool.and_eq_true] at hm; exact hm.2)
        have htl := ih tl.length (by rw [← hl]; simp; omega) tl rfl
        rw [hrec, noAdjacent_iff_chain, List.chain'_cons, List.chain'_cons, List.chain'_cons']
        refine ⟨by simp [hQ], by simp [hP], ?_, (noAdjacent_iff_chain P Q _).mp htl⟩
        intro e _
        simp [hd]
      · have hrec : replaceAll (spaceBetween P Q) 0 (a :: d :: tl) =
            a :: replaceAll (spaceBetween P Q) 0 (d :: tl) := by
          simp [replaceAll, spaceBetween, hm]
        have htl := ih (d :: tl).length (by rw [← hl]; simp) (d :: tl) rfl
        rw [hrec, noAdjacent_iff_chain, List.chain'_cons']
        refine ⟨?_, (noAdjacent_iff_chain P Q _).mp htl⟩
        intro e he
        rw [head?_spaceBetween] at he
        simp only [List.head?_cons, Option.mem_def, Option.some.injEq] at he
        subst he
        simpa using hm

theorem overEmphasis_none_of_noAdjacent (s : List Char)
    (h : NoAdjacent (fun c => c = '*') (fun c => c = '*') s) : overEmphasis s = none := by
  unfold overEmphasis
  split
  · have := noAdjacent_head h
    simp at this
  · rfl

theorem not_mem_spaceBetween (c : Char) (hc : c ≠ ' ') (P Q : Char → Bool) (l : List Char)
    (h : c ∉ l) : c ∉ replaceAll (spaceBetween P Q) 0 l := by
  rw [not_mem_iff_filter] at h ⊢
  rw [replaceAll_keepsContent _ _ (spaceBetween_keeps _ (by simpa using Ne.symm hc) P Q) _ _ rfl]
  exact h

/-- A single line without two adjacent stars in which none of the
two-character patterns of steps 1, 2 and 5 of `cleanSynthesizedText` occurs. -/
theorem repairSteps_of_line (t : List Char) (hnl : '\n' ∉ t)
    (hstar : NoAdjacent (fun c => c = '*') (fun c => c = '*') t)
    (h1 : NoAdjacent isLowerOrDigit isUpperAZ t) (h2 : NoAdjacent isSentencePunct isLetter t)
    (h5 : NoAdjacent isMarker isLetter t) (h6 : NoAdjacent isLetter (fun c => c = ':') t) :
    repairSteps t = t := by
  unfold repairSteps
  simp only
  rw [replaceAll_of_no_match splitCamel t (spaceBetween_none _ _ t h1),
    replaceAll_of_no_match spaceAfterPunct t (spaceBetween_none _ _ t h2),
    replaceAll_of_no_match hyphenBreak t (fun s hs => hyphenBreak_none s (not_mem_of_suffix hnl hs)),
    replaceAll_of_no_match softBreak t (fun s hs => softBreak_none s (not_mem_of_suffix hnl hs)),
    replaceAll_of_no_match spaceAfterMarker t (spaceBetween_none _ _ t h5),
    replaceAll_of_no_match spaceBeforeColon t (spaceBetween_none _ _ t h6),
    replaceAll_of_no_match overEmphasis t
      (fun s hs => overEmphasis_none_of_noAdjacent s (noAdjacent_suffix hstar hs))]

/-- Steps 1 to 6 on a single line without two adjacent stars: only the four
patterns that insert a blank act, and none of them occurs in the result. -/
theorem repairSteps_line (t : List Char) (hnl : '\n' ∉ t)
    (hstar : NoAdjacent (fun c => c = '*') (fun c => c = '*') t) :
    repairSteps t = replaceAll spaceBeforeColon 0 (replaceAll spaceAfterMarker 0
      (replaceAll spaceAfterPunct 0 (replaceAll splitCamel 0 t))) ∧
    '\n' ∉ repairSteps t ∧
    NoAdjacent (fun c => c = '*') (fun c => c = '*') (repairSteps t) ∧
    NoAdjacent isLowerOrDigit isUpperAZ (repairSteps t) ∧
    NoAdjacent isSentencePunct isLetter (repairSteps t) ∧
    NoAdjacent isMarker isLetter (repairSteps t) ∧
    NoAdjacent isLetter (fun c => c = ':') (repairSteps t) := by
  have hup : ∀ c, isUpperAZ c = true → isLowerOrDigit c = false := by
    intro c hc
    simp only [isUpperAZ, Bool.and_eq_true, decide_eq_true_eq] at hc
    simp only [isLowerOrDigit, isLowerAZ, isDigit09, Bool.or_eq_false_iff, Bool.and_eq_false_imp,
      decide_eq_true_eq, decide_eq_false_iff_not]
    omega
  have hlet1 : ∀ c, isLetter c = true → isSentencePunct c = false := by
    intro c hc
    by_contra hne
    simp only [Bool.not_eq_false, isSentencePunct, Bool.or_eq_true, decide_eq_true_eq] at hne
    rcases hne with ((rfl | rfl) | rfl) | rfl <;> exact absurd hc (by decide)
  have hlet2 : ∀ c, isLetter c = true → isMarker c = false := by
    intro c hc
    by_contra hne
    simp only [Bool.not_eq_false, isMarker, Bool.or_eq_true, decide_eq_true_eq] at hne
    rcases hne with (((rfl | rfl) | rfl) | rfl) | rfl <;> exact absurd hc (by decide)
  have hcol : ∀ c, (fun c => decide (c = ':')) c = true → isLetter c = false := by
    intro c hc
    simp only [decide_eq_true_eq] at hc
    subst hc
    decide
  -- the text after each step
  have a1 : NoAdjacent isLowerOrDigit isUpperAZ (replaceAll splitCamel 0 t) :=
    noAdjacent_after_spaceBetween isLowerOrDigit isUpperAZ hup (by decide) (by decide) _ t rfl
  have s1 : NoAdjacent (fun c => c = '*') (fun c => c = '*') (replaceAll splitCamel 0 t) :=
    noAdjacent_spaceBetween _ _ _ _ (by decide) (by decide) _ _ rfl hstar
  have l1 : '\n' ∉ replaceAll splitCamel 0 t := not_mem_spaceBetween _ (by decide) _ _ _ hnl
  generalize ht1 : replaceAll splitCamel 0 t = t1 at a1 s1 l1
  have a2 : NoAdjacent isSentencePunct isLetter (replaceAll spaceAfterPunct 0 t1) :=
    noAdjacent_after_spaceBetween isSentencePunct isLetter hlet1 (by decide) (by decide) _ t1 rfl
  have b2 : NoAdjacent isLowerOrDigit isUpperAZ (replaceAll spaceAfterPunct 0 t1) :=
    noAdjacent_spaceBetween _ _ _ _ (by decide) (by decide) _ _ rfl a1
  have s2 : NoAdjacent (fun c => c = '*') (fun c => c = '*') (replaceAll spaceAfterPunct 0 t1) :=
    noAdjacent_spaceBetween _ _ _ _ (by decide) (by decide) _ _ rfl s1
  have l2 : '\n' ∉ replaceAll spaceAfterPunct 0 t1 := not_mem_spaceBetween _ (by decide) _ _ _ l1
  generalize ht2 : replaceAll spaceAfterPunct 0 t1 = t2 at a2 b2 s2 l2
  have a3 : NoAdjacent isMarker isLetter (replaceAll spaceAfterMarker 0 t2) :=
    noAdjacent_after_spaceBetween isMarker isLetter hlet2 (by decide) (by decide) _ t2 rfl
  have b3 : NoAdjacent isLowerOrDigit isUpperAZ (replaceAll spaceAfterMarker 0 t2) :=
    noAdjacent_spaceBetween _ _ _ _ (by decide) (by decide) _ _ rfl b2
  have c3 : NoAdjacent isSentencePunct isLetter (replaceAll spaceAfterMarker 0 t2) :=
    noAdjacent_spaceBetween _ _ _ _ (by decide) (by decide) _ _ rfl a2
  have s3 : NoAdjacent (fun c => c = '*') (fun c => c = '*') (replaceAll spaceAfterMarker 0 t2) :=
    noAdjacent_spaceBetween _ _ _ _ (by decide) (by decide) _ _ rfl s2
  have l3 : '\n' ∉ replaceAll spaceAfterMarker 0 t2 := not_mem_spaceBetween _ (by decide) _ _ _ l2
  generalize ht3 : replaceAll spaceAfterMarker 0 t2 = t3 at a3 b3 c3 s3 l3
  have a4 : NoAdjacent isLetter (fun c => c = ':') (replaceAll spaceBeforeColon 0 t3) :=
    noAdjacent_after_spaceBetween isLetter (fun c => c = ':') hcol (by decide) (by decide) _ t3
      rfl
  have b4 : NoAdjacent isLowerOrDigit isUpperAZ (replaceAll spaceBeforeColon 0 t3) :=
    noAdjacent_spaceBetween _ _ _ _ (by decide) (by decide) _ _ rfl b3
  have c4 : NoAdjacent isSentencePunct isLetter (replaceAll spaceBeforeColon 0 t3) :=
    noAdjacent_spaceBetween _ _ _ _ (by decide) (by decide) _ _ rfl c3
  have d4 : NoAdjacent isMarker isLetter (replaceAll spaceBeforeColon 0 t3) :=
    noAdjacent_spaceBetween _ _ _ _ (by decide) (by decide) _ _ rfl a3
  have s4 : NoAdjacent (fun c => c = '*') (fun c => c = '*') (replaceAll spaceBeforeColon 0 t3) :=
    noAdjacent_spaceBetween _ _ _ _ (by decide) (by decide) _ _ rfl s3
  have l4 : '\n' ∉ replaceAll spaceBeforeColon 0 t3 := not_mem_spaceBetween _ (by decide) _ _ _ l3
  generalize ht4 : replaceAll spaceBeforeColon 0 t3 = t4 at a4 b4 c4 d4 s4 l4
  have hrep : repairSteps t = t4 := by
    unfold repairSteps
    simp only
    rw [ht1, ht2,
      replaceAll_of_no_match hyphenBreak t2
        (fun s hs => hyphenBreak_none s (not_mem_of_suffix l2 hs)),
      replaceAll_of_no_match softBreak t2 (fun s hs => softBreak_none s (not_mem_of_suffix l2 hs)),
      ht3, ht4,
      replaceAll_of_no_match overEmphasis t4
        (fun s hs => overEmphasis_none_of_noAdjacent s (noAdjacent_suffix s4 hs))]
  rw [hrep]
  exact ⟨rfl, l4, s4, b4, c4, d4, a4⟩
/-- The function on a text whose repaired form is a single line: the repaired
text, trimmed unless it is blank. -/
theorem cleanChars_line (t : List Char) (hnl : '\n' ∉ repairSteps t) :
    cleanChars t =
      if jsTrim (repairSteps t) = [] then repairSteps t else jsTrim (repairSteps t) := by
  unfold cleanChars
  simp only [splitOnChar_of_not_mem '\n' _ hnl, List.map_cons, List.map_nil]
  by_cases hT : jsTrim (repairSteps t) = []
  · simp [hT]
  · have hfilter : List.filter (fun l => decide (l ≠ [])) [jsTrim (repairSteps t)] =
        [jsTrim (repairSteps t)] := by
      simp [List.filter, hT]
    simp only [hfilter, if_neg hT, List.length_singleton, Nat.one_ne_zero, if_false]
    have htrim : '\n' ∉ jsTrim (repairSteps t) := not_mem_jsTrim hnl
    split
    · rw [buildParagraphs_singleton]
      rw [joinWith_singleton, replaceAll_of_no_match newlineRun _
        (fun s hs => newlineRun_none s (not_mem_of_suffix htrim hs)), jsTrim_idempotent]
    · rw [replaceAll_of_no_match newlineRun _
        (fun s hs => newlineRun_none s (not_mem_of_suffix hnl hs))]

theorem cleanChars_idempotent_line (t : List Char) (hnl : '\n' ∉ t)
    (hstar : NoAdjacent (fun c => c = '*') (fun c => c = '*') t) :
    cleanChars (cleanChars t) = cleanChars t := by
  obtain ⟨-, l4, s4, b4, c4, d4, a4⟩ := repairSteps_line t hnl hstar
  have hfix : ∀ v, v <:+: repairSteps t → repairSteps v = v := fun v hv =>
    repairSteps_of_line v (fun hc => l4 (hv.subset hc)) (noAdjacent_of_isInfix s4 hv)
      (noAdjacent_of_isInfix b4 hv) (noAdjacent_of_isInfix c4 hv) (noAdjacent_of_isInfix d4 hv)
      (noAdjacent_of_isInfix a4 hv)
  rw [cleanChars_line t l4]
  by_cases hT : jsTrim (repairSteps t) = []
  · rw [if_pos hT]
    have h := hfix _ (List.infix_refl _)
    rw [cleanChars_line _ (by rw [h]; exact l4), h, if_pos hT]
  · rw [if_neg hT]
    have h := hfix _ (jsTrim_isInfix (repairSteps t))
    rw [cleanChars_line _ (by rw [h]; exact not_mem_jsTrim l4), h, jsTrim_idempotent, if_neg hT]

/-- Counterexamples to C1.  The steps run once, in a fixed order, and the
global replaces do not rescan their own output.  (1) `a.-\nb` is cleaned to
`a.b` (step 3 removes the hyphen and line break after step 2 has run) and
`a.b` to `a. b`.  (2) Without any hyphen or star: a line of one character
between two long lines; the matches of step 4 cannot overlap, so the first pass
joins only the first linebreak and the second pass joins the other one.
(3) On a single line: four stars around a letter lose one star in each of the
first two passes of step 6, and a doubled colon behind a bold span loses one
colon per pass. -/
theorem cleanSynthesizedText_not_idempotent :
    cleanSynthesizedText "a.-\nb" = "a.b" ∧
    cleanSynthesizedText (cleanSynthesizedText "a.-\nb") = "a. b" ∧
    cleanSynthesizedText "aaaa bbbb cccc dddd\nb\ncccc dddd eeee ffff" =
      "aaaa bbbb cccc dddd b\ncccc dddd eeee ffff" ∧
    cleanSynthesizedText (cleanSynthesizedText "aaaa bbbb cccc dddd\nb\ncccc dddd eeee ffff") =
      "aaaa bbbb cccc dddd b cccc dddd eeee ffff" ∧
    cleanSynthesizedText "****a****" = "***a****" ∧
    cleanSynthesizedText (cleanSynthesizedText "****a****") = "**a****" ∧
    cleanSynthesizedText "**Note**::" = "**Note**:" ∧
    cleanSynthesizedText (cleanSynthesizedText "**Note**::") = "**Note**" := by
  refine ⟨by decide, by decide, by decide, by decide, by decide, by decide, by decide, by decide⟩

/-- C1, amended: `cleanSynthesizedText` is idempotent on every single line (a
text without line feed) that holds no two adjacent stars.  On such a text the
four blank-inserting patterns of steps 1, 2 and 5 do their work (CamelCase is
split, punctuation and markers are spaced, a blank is put in front of a colon
behind a letter) and the result is trimmed; no pattern occurs in the result, so
a second application returns it as it is. -/
theorem cleanSynthesizedText_idempotent_of_line (text : String) (hline : '\n' ∉ text.data)
    (hstar : NoAdjacent (fun c => c = '*') (fun c => c = '*') text.data) :
    cleanSynthesizedText (cleanSynthesizedText text) = cleanSynthesizedText text ∧
    (cleanSynthesizedText text).data =
      (if jsTrim (repairSteps text.data) = [] then repairSteps text.data
       else jsTrim (repairSteps text.data)) ∧
    repairSteps text.data = replaceAll spaceBeforeColon 0 (replaceAll spaceAfterMarker 0
      (replaceAll spaceAfterPunct 0 (replaceAll splitCamel 0 text.data))) := by
  obtain ⟨hrep, l4, -⟩ := repairSteps_line text.data hline hstar
  refine ⟨?_, by rw [cleanSynthesizedText_data, cleanChars_line _ l4], hrep⟩
  apply String.ext
  rw [cleanSynthesizedText_data, cleanSynthesizedText_data,
    cleanChars_idempotent_line text.data hline hstar]

/-- C1, instance: a fused line is repaired, and repairing it again changes
nothing. -/
theorem cleanSynthesizedText_idempotent_of_line_witness :
    cleanSynthesizedText "  WellnessPlan.Go:now, a * b  " = "Wellness Plan. Go : now, a * b" ∧
    cleanSynthesizedText (cleanSynthesizedText "  WellnessPlan.Go:now, a * b  ") =
      cleanSynthesizedText "  WellnessPlan.Go:now, a * b  " :=
  ⟨by decide,
    (cleanSynthesizedText_idempotent_of_line "  WellnessPlan.Go:now, a * b  " (by decide)
      (by decide)).1⟩

/-! ## A call never overlaps the next one -/

theorem Ui.run_snoc (events : List UiEvent) (e : UiEvent) :
    Ui.run (events ++ [e]) = (Ui.run events).bind (fun s => s.step e) := by
  unfold Ui.run
  rw [List.foldl_append]
  rfl

theorem split_snoc {α : Type} (h before after : List α) (e x : α)
    (hs : h ++ [e] = before ++ x :: after) :
    (after = [] ∧ x = e ∧ h = before) ∨ ∃ after2, after = after2 ++ [e] ∧ h = before ++ x :: after2 := by
  rcases List.eq_nil_or_concat after with rfl | ⟨after2, y, rfl⟩
  · left
    have := List.append_inj' hs rfl
    exact ⟨rfl, (List.cons.inj this.2).1.symm, this.1⟩
  · right
    rw [List.concat_eq_append] at hs ⊢
    have e2 : before ++ x :: (after2 ++ [y]) = (before ++ x :: after2) ++ [y] := by simp
    rw [e2] at hs
    have := List.append_inj' hs rfl
    refine ⟨after2, ?_, this.1⟩
    rw [(List.cons.inj this.2).1]

theorem Ui.ordered_snoc (h : List UiTrace) (e : UiTrace) (ho : Ui.Ordered h)
    (hwrote : ∀ k, e = UiTrace.wrote k → ∀ j, UiTrace.started j ∈ h → j ≤ k) :
    Ui.Ordered (h ++ [e]) := by
  intro before after j hs i hij hmem
  rcases split_snoc _ _ _ _ _ hs with ⟨rfl, -, -⟩ | ⟨after2, rfl, hh⟩
  · exact absurd hmem (by simp)
  · rcases List.mem_append.mp hmem with hm | hm
    · exact ho before after2 j hh i hij hm
    · simp only [List.mem_singleton] at hm
      have hj : UiTrace.started j ∈ h := by
        rw [hh]
        simp
      have := hwrote i hm.symm j hj
      omega

theorem Ui.inv_initial : Ui.Inv Ui.initial :=
  ⟨Or.inl ⟨rfl, rfl, rfl⟩, fun k hk => absurd hk (by simp [Ui.initial]),
    fun j hj => absurd hj (by simp [Ui.initial]),
    fun before after j hs => absurd hs (by simp [Ui.initial])⟩

theorem Ui.inv_step (s s2 : Ui) (e : UiEvent) (hinv : Ui.Inv s) (hs : s.step e = some s2) :
    Ui.Inv s2 := by
  obtain ⟨shape, noAbort, below, ordered⟩ := hinv
  cases e with
  | submit symptoms =>
    simp only [Ui.step] at hs
    split at hs
    · exact absurd hs (by simp)
    · rename_i hgen
      split at hs
      · rw [← Option.some.inj hs]
        exact ⟨shape, noAbort, below, ordered⟩
      · rcases shape with ⟨hl, -, hc⟩ | ⟨k, -, hg, -⟩
        · rw [← Option.some.inj hs]
          refine ⟨Or.inr ⟨s.calls, by simp [hl], rfl, rfl, rfl⟩, ?_, ?_, ?_⟩
          · intro k hk
            simp only [hc, List.append_nil, List.mem_append, List.mem_singleton] at hk
            rcases hk with hk | hk
            · exact noAbort k hk
            · exact absurd hk (by simp)
          · intro j hj
            simp only [hc, List.append_nil, List.mem_append, List.mem_singleton] at hj
            rcases hj with hj | hj
            · exact Nat.lt_succ_of_lt (below j hj)
            · rw [UiTrace.started.inj hj]
              exact Nat.lt_succ_self _
          · simp only [hc, List.append_nil]
            exact Ui.ordered_snoc _ _ ordered
              (fun k hk => absurd hk (by simp))
        · rw [hg] at hgen
          exact absurd rfl hgen
  | write k =>
    simp only [Ui.step] at hs
    split at hs
    · rename_i hk
      rw [← Option.some.inj hs]
      refine ⟨shape, ?_, ?_, ?_⟩
      · intro a ha
        simp only [List.mem_append, List.mem_singleton] at ha
        rcases ha with ha | ha
        · exact noAbort a ha
        · exact absurd ha (by simp)
      · intro j hj
        simp only [List.mem_append, List.mem_singleton] at hj
        rcases hj with hj | hj
        · exact below j hj
        · exact absurd hj (by simp)
      · apply Ui.ordered_snoc _ _ ordered
        intro k2 hk2 j hj
        have hkk : k2 = k := (UiTrace.wrote.inj hk2).symm
        subst hkk
        rcases shape with ⟨hl, -, -⟩ | ⟨k3, hl, -, -, hcalls⟩
        · rw [hl] at hk
          exact absurd hk (by simp)
        · rw [hl] at hk
          simp only [List.mem_singleton] at hk
          have := below j hj
          omega
    · exact absurd hs (by simp)
  | finish k =>
    simp only [Ui.step] at hs
    split at hs
    · rename_i hk
      rw [← Option.some.inj hs]
      refine ⟨Or.inl ⟨?_, rfl, rfl⟩, ?_, ?_, ?_⟩
      · rcases shape with ⟨hl, -, -⟩ | ⟨k3, hl, -, -, -⟩
        · rw [hl] at hk
          exact absurd hk (by simp)
        · rw [hl] at hk ⊢
          simp only [List.mem_singleton] at hk
          subst hk
          simp
      · intro a ha
        simp only [List.mem_append, List.mem_singleton] at ha
        rcases ha with ha | ha
        · exact noAbort a ha
        · exact absurd ha (by simp)
      · intro j hj
        simp only [List.mem_append, List.mem_singleton] at hj
        rcases hj with hj | hj
        · exact below j hj
        · exact absurd hj (by simp)
      · exact Ui.ordered_snoc _ _ ordered
          (fun k2 hk2 => absurd hk2 (by simp))
    · exact absurd hs (by simp)

theorem Ui.inv_run (events : List UiEvent) : ∀ s, Ui.run events = some s → Ui.Inv s := by
  induction events using List.reverseRecOn with
  | nil =>
    intro s hs
    rw [← Option.some.inj hs]
    exact Ui.inv_initial
  | append_singleton es e ih =>
    intro s hs
    rw [Ui.run_snoc] at hs
    cases hr : Ui.run es with
    | none => rw [hr] at hs; exact absurd hs (by simp)
    | some s1 =>
      rw [hr] at hs
      exact Ui.inv_step s1 s e (ih s1 hr) hs

/-- C16: a call of `startStream` makes no change to the conversation state once
a newer submission has started.  The submit button is disabled while
`isGenerating` is set, `startStream` sets the flag before its first `await` and
only the end of its `finally` block clears it, so in every sequence of events
of the mounted component at most one call is live, a submission arrives only
when no call is live, the abort of a previous controller at the head of
`startStream` is never taken, and in the history no write of an earlier call
stands behind the start of a later call. -/
theorem no_write_after_next_submission (events : List UiEvent) (s : Ui)
    (h : Ui.run events = some s) :
    ((s.live = [] ∧ s.isGenerating = false ∧ s.controller = none) ∨
      (∃ k, s.live = [k] ∧ s.isGenerating = true ∧ s.controller = some k ∧ k + 1 = s.calls)) ∧
    (∀ k, UiTrace.aborted k ∉ s.history) ∧
    (∀ before after j, s.history = before ++ UiTrace.started j :: after →
      ∀ i, i < j → UiTrace.wrote i ∉ after) ∧
    (∀ symptoms, s.isGenerating = true → s.step (.submit symptoms) = none) := by
  obtain ⟨shape, noAbort, -, ordered⟩ := Ui.inv_run events s h
  refine ⟨shape, noAbort, ordered, ?_⟩
  intro symptoms hg
  simp [Ui.step, hg]

/-- C16, instance: two submissions; the second can only follow the end of the
first call, and a submission while the first call is live cannot happen. -/
theorem no_write_after_next_submission_witness :
    (∃ s, Ui.run [.submit "headache", .write 0, .finish 0, .submit "fever", .write 1] = some s ∧
      s.history = [.started 0, .wrote 0, .finished 0, .started 1, .wrote 1] ∧
      ∀ i, i < 1 → UiTrace.wrote i ∉ [UiTrace.wrote 1]) ∧
    Ui.run [.submit "headache", .write 0, .submit "fever"] = none := by
  have hrun : Ui.run [.submit "headache", .write 0, .finish 0, .submit "fever", .write 1] =
      some ⟨true, some 1, [1], 2, [.started 0, .wrote 0, .finished 0, .started 1, .wrote 1]⟩ := by
    decide
  refine ⟨⟨_, hrun, rfl, ?_⟩, by decide⟩
  exact (no_write_after_next_submission _ _ hrun).2.2.1
    [.started 0, .wrote 0, .finished 0] [.wrote 1] 1 rfl

/-! ## Lines as cells -/

theorem render_toCells (t : List Char) : (toCells t).1 ++ renderCells (toCells t).2 = t := by
  induction t with
  | nil => rfl
  | cons c rest ih =>
    by_cases hc : isJsSpace c = true
    · simp only [toCells, if_pos hc, List.cons_append, ih]
    · simp only [toCells, if_neg hc, List.nil_append, renderCells, ih]

theorem toCells_ok (t : List Char) (hnl : '\n' ∉ t) :
    (∀ x ∈ (toCells t).1, isJsSpace x = true ∧ x ≠ '\n') ∧ CellsOk (toCells t).2 := by
  induction t with
  | nil => exact ⟨fun x hx => absurd hx (by simp [toCells]), fun c hc => absurd hc (by simp [toCells])⟩
  | cons c rest ih =>
    have hc0 : c ≠ '\n' := fun e => hnl (by simp [e])
    obtain ⟨ih1, ih2⟩ := ih (fun h => hnl (List.mem_cons_of_mem _ h))
    by_cases hc : isJsSpace c = true
    · simp only [toCells, if_pos hc]
      refine ⟨?_, ih2⟩
      intro x hx
      rcases List.mem_cons.mp hx with rfl | hx
      · exact ⟨hc, hc0⟩
      · exact ih1 x hx
    · simp only [toCells, if_neg hc]
      refine ⟨fun x hx => absurd hx (by simp), ?_⟩
      intro cell hcell
      rcases List.mem_cons.mp hcell with rfl | hcell
      · exact ⟨by simpa using hc, ih1⟩
      · exact ih2 cell hcell

theorem cellsOk_cons {c : Char} {g : List Char} {rest : Cells} (h : CellsOk ((c, g) :: rest)) :
    isJsSpace c = false ∧ (∀ x ∈ g, isJsSpace x = true ∧ x ≠ '\n') ∧ CellsOk rest :=
  ⟨(h (c, g) (by simp)).1, (h (c, g) (by simp)).2, fun cell hc => h cell (List.mem_cons_of_mem _ hc)⟩

theorem nextChar_mapCtx (f : Option Char → Char → Option Char → List Char → List Char)
    (p : Option Char) (cells : Cells) : nextChar (mapCtx f p cells) = nextChar cells := by
  cases cells with
  | nil => rfl
  | cons x rest =>
    obtain ⟨c, g⟩ := x
    rfl

theorem mapCtx_mapCtx (f1 f2 : Option Char → Char → Option Char → List Char → List Char)
    (cells : Cells) : ∀ p, mapCtx f2 p (mapCtx f1 p cells) =
      mapCtx (fun p c n g => f2 p c n (f1 p c n g)) p cells := by
  induction cells with
  | nil => intro p; rfl
  | cons x rest ih =>
    intro p
    obtain ⟨c, g⟩ := x
    simp only [mapCtx, nextChar_mapCtx, ih]

theorem mapCtx_congr (f1 f2 : Option Char → Char → Option Char → List Char → List Char)
    (cells : Cells) : ∀ p, ForallCtx (fun p c n g => f1 p c n g = f2 p c n g) p cells →
      mapCtx f1 p cells = mapCtx f2 p cells := by
  induction cells with
  | nil => intro p _; rfl
  | cons x rest ih =>
    intro p h
    obtain ⟨c, g⟩ := x
    simp only [ForallCtx] at h
    simp only [mapCtx, h.1, ih _ h.2]

theorem forallCtx_mono {Pr Pr2 : Option Char → Char → Option Char → List Char → Prop}
    (himp : ∀ p c n g, Pr p c n g → Pr2 p c n g) (cells : Cells) :
    ∀ p, ForallCtx Pr p cells → ForallCtx Pr2 p cells := by
  induction cells with
  | nil => intro p _; trivial
  | cons x rest ih =>
    intro p h
    obtain ⟨c, g⟩ := x
    exact ⟨himp _ _ _ _ h.1, ih _ h.2⟩

theorem forallCtx_and {Pr Pr2 : Option Char → Char → Option Char → List Char → Prop}
    (cells : Cells) : ∀ p, ForallCtx Pr p cells → ForallCtx Pr2 p cells →
      ForallCtx (fun p c n g => Pr p c n g ∧ Pr2 p c n g) p cells := by
  induction cells with
  | nil => intro p _ _; trivial
  | cons x rest ih =>
    intro p h h2
    obtain ⟨c, g⟩ := x
    exact ⟨⟨h.1, h2.1⟩, ih _ h.2 h2.2⟩

theorem forallCtx_mapCtx {Pr Pr2 : Option Char → Char → Option Char → List Char → Prop}
    (f : Option Char → Char → Option Char → List Char → List Char)
    (himp : ∀ p c n g, Pr p c n g → Pr2 p c n (f p c n g)) (cells : Cells) :
    ∀ p, ForallCtx Pr p cells → ForallCtx Pr2 p (mapCtx f p cells) := by
  induction cells with
  | nil => intro p _; trivial
  | cons x rest ih =>
    intro p h
    obtain ⟨c, g⟩ := x
    refine ⟨?_, ih _ h.2⟩
    rw [nextChar_mapCtx]
    exact himp _ _ _ _ h.1

theorem cellsOk_forallCtx (cells : Cells) (h : CellsOk cells) :
    ∀ p, ForallCtx (fun _ c _ g => isJsSpace c = false ∧ ∀ x ∈ g, isJsSpace x = true ∧ x ≠ '\n')
      p cells := by
  induction cells with
  | nil => intro p; trivial
  | cons x rest ih =>
    intro p
    obtain ⟨c, g⟩ := x
    obtain ⟨h1, h2, h3⟩ := cellsOk_cons h
    exact ⟨⟨h1, h2⟩, ih h3 _⟩

theorem cellsOk_of_forallCtx (cells : Cells) :
    ∀ p, ForallCtx (fun _ c _ g => isJsSpace c = false ∧ ∀ x ∈ g, isJsSpace x = true ∧ x ≠ '\n')
      p cells → CellsOk cells := by
  induction cells with
  | nil => intro p _ cell hc; exact absurd hc (by simp)
  | cons x rest ih =>
    intro p h cell hc
    obtain ⟨c, g⟩ := x
    rcases List.mem_cons.mp hc with rfl | hc
    · exact h.1
    · exact ih _ h.2 cell hc

/-- A rule that returns the gap, a blank or nothing keeps the cells well formed. -/
theorem cellsOk_mapCtx (f : Option Char → Char → Option Char → List Char → List Char)
    (hf : ∀ p c n g, f p c n g = g ∨ f p c n g = [' '] ∨ f p c n g = [])
    (cells : Cells) (h : CellsOk cells) (p : Option Char) : CellsOk (mapCtx f p cells) := by
  apply cellsOk_of_forallCtx _ p
  refine forallCtx_mapCtx f ?_ cells p (cellsOk_forallCtx cells h p)
  intro p c n g ⟨h1, h2⟩
  refine ⟨h1, ?_⟩
  rcases hf p c n g with e | e | e <;> rw [e]
  · exact h2
  · intro x hx
    simp only [List.mem_singleton] at hx
    subst hx
    decide
  · intro x hx
    exact absurd hx (by simp)

theorem render_head (cells : Cells) : (renderCells cells).head? = nextChar cells := by
  cases cells with
  | nil => rfl
  | cons x rest =>
    obtain ⟨c, g⟩ := x
    rfl

theorem render_eq_nil_or (cells : Cells) (h : CellsOk cells) :
    renderCells cells = [] ∨
      ∃ n tl, renderCells cells = n :: tl ∧ isJsSpace n = false ∧ nextChar cells = some n := by
  cases cells with
  | nil => exact Or.inl rfl
  | cons x rest =>
    obtain ⟨c, g⟩ := x
    exact Or.inr ⟨c, _, rfl, (cellsOk_cons h).1, rfl⟩

theorem takeWhile_gap (g : List Char) (cells : Cells) (hg : ∀ x ∈ g, isJsSpace x = true)
    (h : CellsOk cells) : (g ++ renderCells cells).takeWhile isJsSpace = g := by
  rw [List.takeWhile_append_of_pos hg]
  rcases render_eq_nil_or cells h with e | ⟨n, tl, e, hn, -⟩
  · rw [e]
    simp
  · rw [e, List.takeWhile_cons_of_neg (by simp [hn])]
    simp

theorem dropWhile_gap (g : List Char) (cells : Cells) (hg : ∀ x ∈ g, isJsSpace x = true)
    (h : CellsOk cells) : (g ++ renderCells cells).dropWhile isJsSpace = renderCells cells := by
  rw [List.dropWhile_append_of_pos hg]
  rcases render_eq_nil_or cells h with e | ⟨n, tl, e, hn, -⟩
  · rw [e]
    simp
  · rw [e, List.dropWhile_cons_of_neg (by simp [hn])]

theorem rdropWhile_all (g : List Char) (hg : ∀ x ∈ g, isJsSpace x = true) :
    g.rdropWhile isJsSpace = [] := by
  unfold List.rdropWhile
  rw [List.dropWhile_eq_nil_iff.mpr (fun x hx => hg x (List.mem_reverse.mp hx))]
  rfl

theorem rdropWhile_render (cells : Cells) (h : CellsOk cells) :
    (renderCells cells).rdropWhile isJsSpace = renderCells (dropLastGap cells) := by
  induction cells with
  | nil => rfl
  | cons x rest ih =>
    obtain ⟨c, g⟩ := x
    obtain ⟨h1, h2, h3⟩ := cellsOk_cons h
    cases rest with
    | nil =>
      simp only [renderCells, dropLastGap, List.append_nil]
      rw [rdropWhile_cons_neg _ _ _ h1, rdropWhile_all g (fun x hx => (h2 x hx).1)]
    | cons y rest2 =>
      obtain ⟨d, k⟩ := y
      have ih2 := ih h3
      have hd := (cellsOk_cons h3).1
      have e1 : (c :: (g ++ renderCells ((d, k) :: rest2))).rdropWhile isJsSpace =
          c :: (g ++ renderCells ((d, k) :: rest2)).rdropWhile isJsSpace :=
        rdropWhile_cons_neg _ _ _ h1
      have e2 : (g ++ d :: (k ++ renderCells rest2)).rdropWhile isJsSpace =
          g ++ d :: (k ++ renderCells rest2).rdropWhile isJsSpace :=
        rdropWhile_append_visible _ _ _ _ hd
      have e3 : (d :: (k ++ renderCells rest2)).rdropWhile isJsSpace =
          d :: (k ++ renderCells rest2).rdropWhile isJsSpace :=
        rdropWhile_cons_neg _ _ _ hd
      show (c :: (g ++ renderCells ((d, k) :: rest2))).rdropWhile isJsSpace =
        c :: (g ++ renderCells (dropLastGap ((d, k) :: rest2)))
      rw [e1, ← ih2]
      show c :: (g ++ d :: (k ++ renderCells rest2)).rdropWhile isJsSpace =
        c :: (g ++ (d :: (k ++ renderCells rest2)).rdropWhile isJsSpace)
      rw [e2, e3]

/-- Trimming a line: the leading white space and the last gap go. -/
theorem jsTrim_render (g0 : List Char) (cells : Cells) (hg : ∀ x ∈ g0, isJsSpace x = true)
    (h : CellsOk cells) :
    jsTrim (g0 ++ renderCells cells) = renderCells (dropLastGap cells) := by
  unfold jsTrim
  rw [dropWhile_gap g0 cells hg h, rdropWhile_render cells h]

theorem dropLastGap_cons (x : Char × List Char) (Y : Cells) (hY : Y ≠ []) :
    dropLastGap (x :: Y) = x :: dropLastGap Y := by
  cases Y with
  | nil => exact absurd rfl hY
  | cons y rest => rfl

theorem mapCtx_ne_nil (f : Option Char → Char → Option Char → List Char → List Char)
    (p : Option Char) (cells : Cells) (h : cells ≠ []) : mapCtx f p cells ≠ [] := by
  cases cells with
  | nil => exact absurd rfl h
  | cons x rest =>
    obtain ⟨c, g⟩ := x
    simp [mapCtx]

theorem dropLastGap_ne_nil (cells : Cells) (h : cells ≠ []) : dropLastGap cells ≠ [] := by
  match cells, h with
  | [(c, g)], _ => simp [dropLastGap]
  | x :: y :: rest, _ => simp [dropLastGap]

theorem nextChar_dropLastGap (cells : Cells) : nextChar (dropLastGap cells) = nextChar cells := by
  match cells with
  | [] => rfl
  | [(c, g)] => rfl
  | x :: y :: rest => rfl

theorem dropLastGap_mapCtx (f : Option Char → Char → Option Char → List Char → List Char)
    (cells : Cells) : ∀ p, dropLastGap (mapCtx f p (dropLastGap cells)) =
      dropLastGap (mapCtx f p cells) := by
  induction cells with
  | nil => intro p; rfl
  | cons x rest ih =>
    intro p
    obtain ⟨c, g⟩ := x
    cases rest with
    | nil => rfl
    | cons y rest2 =>
      have hne : y :: rest2 ≠ [] := by simp
      rw [dropLastGap_cons _ _ hne]
      have e1 : mapCtx f p ((c, g) :: dropLastGap (y :: rest2)) =
          (c, f p c (nextChar (y :: rest2)) g) :: mapCtx f (some c) (dropLastGap (y :: rest2)) := by
        simp only [mapCtx, nextChar_dropLastGap]
      have e2 : mapCtx f p ((c, g) :: y :: rest2) =
          (c, f p c (nextChar (y :: rest2)) g) :: mapCtx f (some c) (y :: rest2) := rfl
      rw [e1, e2, dropLastGap_cons _ _ (mapCtx_ne_nil f _ _ (dropLastGap_ne_nil _ hne)),
        dropLastGap_cons _ _ (mapCtx_ne_nil f _ _ hne), ih]

theorem dropLastGap_idem (cells : Cells) : dropLastGap (dropLastGap cells) = dropLastGap cells := by
  induction cells with
  | nil => rfl
  | cons x rest ih =>
    cases rest with
    | nil => obtain ⟨c, g⟩ := x; rfl
    | cons y rest2 =>
      have hne : y :: rest2 ≠ [] := by simp
      rw [dropLastGap_cons _ _ hne, dropLastGap_cons _ _ (dropLastGap_ne_nil _ hne), ih]

theorem replaceAll_none_cons (m : Matcher) (c : Char) (l : List Char) (h : m (c :: l) = none) :
    replaceAll m 0 (c :: l) = c :: replaceAll m 0 l := by
  simp only [replaceAll, h]

theorem replaceAll_gap (m : Matcher) (hm : ∀ x rest, isJsSpace x = true → m (x :: rest) = none)
    (g l : List Char) (hg : ∀ x ∈ g, isJsSpace x = true) :
    replaceAll m 0 (g ++ l) = g ++ replaceAll m 0 l := by
  induction g with
  | nil => rfl
  | cons x g2 ih =>
    show replaceAll m 0 (x :: (g2 ++ l)) = x :: (g2 ++ replaceAll m 0 l)
    rw [replaceAll_none_cons m x _ (hm x _ (hg x (by simp))),
      ih (fun y hy => hg y (List.mem_cons_of_mem _ hy))]

theorem spaceBetween_cells (P Q : Char → Bool) (hP : ∀ x, isJsSpace x = true → P x = false)
    (hQ : ∀ x, isJsSpace x = true → Q x = false) (hdisj : ∀ c, Q c = true → P c = false)
    (cells : Cells) (hok : CellsOk cells) :
    ∀ p, replaceAll (spaceBetween P Q) 0 (renderCells cells) =
      renderCells (mapCtx (gapBetween P Q) p cells) := by
  have hws : ∀ x rest, isJsSpace x = true → spaceBetween P Q (x :: rest) = none := by
    intro x rest hx
    cases rest with
    | nil => rfl
    | cons d tl => simp [spaceBetween, hP x hx]
  induction cells with
  | nil => intro p; rfl
  | cons x rest ih =>
    intro p
    obtain ⟨c, g⟩ := x
    obtain ⟨h1, h2, h3⟩ := cellsOk_cons hok
    have ih2 := ih h3 (some c)
    cases g with
    | cons x g2 =>
      have hx := (h2 x (by simp)).1
      have hnone : spaceBetween P Q (c :: (x :: g2 ++ renderCells rest)) = none := by
        show spaceBetween P Q (c :: x :: (g2 ++ renderCells rest)) = none
        simp [spaceBetween, hQ x hx]
      have hgap : gapBetween P Q p c (nextChar rest) (x :: g2) = x :: g2 := by
        simp [gapBetween]
      show replaceAll (spaceBetween P Q) 0 (c :: (x :: g2 ++ renderCells rest)) =
        c :: (gapBetween P Q p c (nextChar rest) (x :: g2) ++
          renderCells (mapCtx (gapBetween P Q) (some c) rest))
      rw [replaceAll_none_cons _ _ _ hnone,
        replaceAll_gap _ hws _ _ (fun y hy => (h2 y hy).1), ih2, hgap]
    | nil =>
      show replaceAll (spaceBetween P Q) 0 (c :: ([] ++ renderCells rest)) =
        c :: (gapBetween P Q p c (nextChar rest) [] ++
          renderCells (mapCtx (gapBetween P Q) (some c) rest))
      rw [List.nil_append]
      cases rest with
      | nil =>
        have hgap : gapBetween P Q p c (nextChar []) [] = [] := by
          simp [gapBetween, nextChar]
        rw [hgap]
        rfl
      | cons y rest2 =>
        obtain ⟨d, k⟩ := y
        have hrin : renderCells ((d, k) :: rest2) = d :: (k ++ renderCells rest2) := rfl
        by_cases hm : (P c && Q d) = true
        · have hrec : replaceAll (spaceBetween P Q) 0 (c :: d :: (k ++ renderCells rest2)) =
              c :: ' ' :: d :: replaceAll (spaceBetween P Q) 0 (k ++ renderCells rest2) := by
            simp [replaceAll, spaceBetween, hm]
          simp only [Bool.and_eq_true] at hm
          have hpd : P d = false := hdisj d hm.2
          have hd0 : spaceBetween P Q (d :: (k ++ renderCells rest2)) = none := by
            cases hkk : k ++ renderCells rest2 with
            | nil => rfl
            | cons e tl => simp [spaceBetween, hpd]
          have hgap : gapBetween P Q p c (nextChar ((d, k) :: rest2)) [] = [' '] := by
            simp [gapBetween, nextChar, hm.1, hm.2]
          rw [hgap, ← ih2, hrin, hrec, replaceAll_none_cons _ _ _ hd0]
          rfl
        · have hnone : spaceBetween P Q (c :: d :: (k ++ renderCells rest2)) = none := by
            simp only [spaceBetween]
            rw [if_neg hm]
          have hgap : gapBetween P Q p c (nextChar ((d, k) :: rest2)) [] = [] := by
            simp only [gapBetween, nextChar, List.head?_cons, Option.map_some', Option.any_some]
            rw [if_neg]
            intro h
            exact hm (by simp [h.2.1, h.2.2])
          rw [hgap, ← ih2, hrin, replaceAll_none_cons _ _ _ hnone]
          rfl
theorem replaceAll_some (m : Matcher) (c : Char) (rest out : List Char) (len : Nat)
    (hm : m (c :: rest) = some (out, len)) (hlen : 1 ≤ len) :
    replaceAll m 0 (c :: rest) = out ++ replaceAll m 0 ((c :: rest).drop len) := by
  simp only [replaceAll, hm]
  rw [replaceAll_skip m rest (len - 1)]
  cases len with
  | zero => omega
  | succ j => rfl

theorem bulletSpace_cells (cells : Cells) (hok : CellsOk cells) :
    ∀ p, replaceAll bulletSpace 0 (renderCells cells) =
      renderCells (mapCtx gapBullet p cells) := by
  have hws : ∀ x rest, isJsSpace x = true → bulletSpace (x :: rest) = none := by
    intro x rest hx
    have h1 : x ≠ '*' := by rintro rfl; exact absurd hx (by decide)
    have h2 : x ≠ '-' := by rintro rfl; exact absurd hx (by decide)
    simp [bulletSpace, h1, h2]
  induction cells with
  | nil => intro p; rfl
  | cons x rest ih =>
    intro p
    obtain ⟨c, g⟩ := x
    obtain ⟨h1, h2, h3⟩ := cellsOk_cons hok
    have hg : ∀ y ∈ g, isJsSpace y = true := fun y hy => (h2 y hy).1
    have htake := takeWhile_gap g rest hg h3
    show replaceAll bulletSpace 0 (c :: (g ++ renderCells rest)) =
      c :: (gapBullet p c (nextChar rest) g ++ renderCells (mapCtx gapBullet (some c) rest))
    rw [← ih h3 (some c)]
    by_cases hc : (c = '*' ∨ c = '-') ∧ g ≠ []
    · obtain ⟨w, ws, hw⟩ := List.exists_cons_of_ne_nil hc.2
      subst hw
      have hm : bulletSpace ((c :: w :: ws) ++ renderCells rest) =
          some ([c, ' '], (c :: w :: ws).length) := by
        show bulletSpace (c :: (w :: ws ++ renderCells rest)) = _
        have hcc : (c = '*' || c = '-') = true := by simpa using hc.1
        simp only [bulletSpace, hcc, if_true, htake, List.length_cons]
        have e : 1 + (ws.length + 1) = ws.length + 1 + 1 := by omega
        rw [e]
      have := replaceAll_match bulletSpace (c :: w :: ws) (renderCells rest) _ (by simp) hm
      rw [show c :: (w :: ws ++ renderCells rest) = (c :: w :: ws) ++ renderCells rest from rfl,
        this]
      simp [gapBullet, hc]
    · have hm : bulletSpace (c :: (g ++ renderCells rest)) = none := by
        simp only [bulletSpace, htake]
        split
        · rename_i hcc
          cases g with
          | nil => rfl
          | cons w ws =>
            exact absurd ⟨by simpa using hcc, by simp⟩ hc
        · rfl
      rw [replaceAll_none_cons _ _ _ hm, replaceAll_gap _ hws _ _ hg]
      simp [gapBullet, hc]

theorem spaceBeforePunct_visible (c : Char) (l : List Char) (hc : isJsSpace c = false) :
    spaceBeforePunct (c :: l) = none := by
  unfold spaceBeforePunct
  rw [List.takeWhile_cons_of_neg (by simp [hc])]

/-- Step 6 on a gap and the cells behind it. -/
theorem spaceBeforePunct_gap (g : List Char) (rest : Cells) (hg : ∀ y ∈ g, isJsSpace y = true)
    (hrest : CellsOk rest) :
    replaceAll spaceBeforePunct 0 (g ++ renderCells rest) =
      (if (nextChar rest).any isClosingPunct = true then [] else g) ++
        replaceAll spaceBeforePunct 0 (renderCells rest) := by
  by_cases hp : (nextChar rest).any isClosingPunct = true
  · rw [if_pos hp]
    cases g with
    | nil => rfl
    | cons w ws =>
      cases rest with
      | nil => simp [nextChar] at hp
      | cons y rest2 =>
        obtain ⟨d, k⟩ := y
        have hd : isClosingPunct d = true := by simpa [nextChar] using hp
        have hdv := (cellsOk_cons hrest).1
        have htake : ((w :: ws) ++ renderCells ((d, k) :: rest2)).takeWhile isJsSpace = w :: ws :=
          takeWhile_gap _ _ hg hrest
        have hdrop : ((w :: ws) ++ renderCells ((d, k) :: rest2)).dropWhile isJsSpace =
            d :: (k ++ renderCells rest2) := dropWhile_gap _ _ hg hrest
        have hm : spaceBeforePunct (((w :: ws) ++ [d]) ++ (k ++ renderCells rest2)) =
            some ([d], ((w :: ws) ++ [d]).length) := by
          have e : ((w :: ws) ++ [d]) ++ (k ++ renderCells rest2) =
              (w :: ws) ++ renderCells ((d, k) :: rest2) := by simp [renderCells]
          rw [e]
          unfold spaceBeforePunct
          rw [htake, hdrop]
          simp [hd]
        have e2 : (w :: ws) ++ renderCells ((d, k) :: rest2) =
            ((w :: ws) ++ [d]) ++ (k ++ renderCells rest2) := by simp [renderCells]
        rw [e2, replaceAll_match spaceBeforePunct _ _ _ (by simp) hm]
        show _ = [] ++ replaceAll spaceBeforePunct 0 (d :: (k ++ renderCells rest2))
        rw [replaceAll_none_cons _ _ _ (spaceBeforePunct_visible d _ hdv)]
        rfl
  · rw [if_neg hp]
    induction g with
    | nil => rfl
    | cons w ws ih =>
      have hws : ∀ y ∈ ws, isJsSpace y = true := fun y hy => hg y (List.mem_cons_of_mem _ hy)
      have hm : spaceBeforePunct (w :: (ws ++ renderCells rest)) = none := by
        have htake : ((w :: ws) ++ renderCells rest).takeWhile isJsSpace = w :: ws :=
          takeWhile_gap _ _ hg hrest
        have hdrop : ((w :: ws) ++ renderCells rest).dropWhile isJsSpace = renderCells rest :=
          dropWhile_gap _ _ hg hrest
        show spaceBeforePunct ((w :: ws) ++ renderCells rest) = none
        unfold spaceBeforePunct
        rw [htake, hdrop]
        cases rest with
        | nil => rfl
        | cons y rest2 =>
          obtain ⟨d, k⟩ := y
          have hd : isClosingPunct d = false := by simpa [nextChar] using hp
          simp [renderCells, hd]
      show replaceAll spaceBeforePunct 0 (w :: (ws ++ renderCells rest)) = _
      rw [replaceAll_none_cons _ _ _ hm, ih hws]
      rfl

theorem spaceBeforePunct_cells (cells : Cells) (hok : CellsOk cells) :
    ∀ p, replaceAll spaceBeforePunct 0 (renderCells cells) =
      renderCells (mapCtx gapPunct p cells) := by
  induction cells with
  | nil => intro p; rfl
  | cons x rest ih =>
    intro p
    obtain ⟨c, g⟩ := x
    obtain ⟨h1, h2, h3⟩ := cellsOk_cons hok
    show replaceAll spaceBeforePunct 0 (c :: (g ++ renderCells rest)) =
      c :: (gapPunct p c (nextChar rest) g ++ renderCells (mapCtx gapPunct (some c) rest))
    rw [replaceAll_none_cons _ _ _ (spaceBeforePunct_visible c _ h1),
      spaceBeforePunct_gap g rest (fun y hy => (h2 y hy).1) h3, ih h3 (some c)]
    rfl
theorem rdropWhile_append_all (p : Char → Bool) (A W : List Char) (hW : ∀ x ∈ W, p x = true) :
    (A ++ W).rdropWhile p = A.rdropWhile p := by
  unfold List.rdropWhile
  rw [List.reverse_append,
    List.dropWhile_append_of_pos (fun x hx => hW x (List.mem_reverse.mp hx))]

theorem jsTrim_append_gap (u W : List Char) (hW : ∀ x ∈ W, isJsSpace x = true) :
    jsTrim (u ++ W) = jsTrim u := by
  unfold jsTrim
  rw [List.dropWhile_append]
  split
  · rename_i hempty
    have hnil : u.dropWhile isJsSpace = [] := by simpa using hempty
    rw [hnil, List.dropWhile_eq_nil_iff.mpr hW]
  · exact rdropWhile_append_all _ _ _ hW

theorem jsTrim_hashes (H W : List Char) (hH : ∀ x ∈ H, x = '#')
    (hW : ∀ x ∈ W, isJsSpace x = true) : jsTrim ('#' :: H ++ W) = '#' :: H := by
  rw [jsTrim_append_gap _ _ hW]
  apply jsTrim_eq_self
  · intro c hc
    simp only [List.head?_cons, Option.some.injEq] at hc
    subst hc
    decide
  · intro c hc
    have hmem := List.mem_of_getLast?_eq_some hc
    rcases List.mem_cons.mp hmem with rfl | hm
    · decide
    · rw [hH c hm]
      decide

theorem headingSpace_hash (rest : List Char) :
    headingSpace ('#' :: rest) =
      some (jsTrim ('#' :: rest.takeWhile (fun c => c = '#') ++
          (rest.dropWhile (fun c => c = '#')).takeWhile isJsSpace) ++ [' '],
        1 + (rest.takeWhile (fun c => c = '#')).length +
          ((rest.dropWhile (fun c => c = '#')).takeWhile isJsSpace).length) := by
  simp [headingSpace]

theorem headingSpace_other (c : Char) (rest : List Char) (hc : c ≠ '#') :
    headingSpace (c :: rest) = none := by
  unfold headingSpace
  split
  · rename_i heq
    exact absurd (List.cons.inj heq).1 hc
  · rfl

/-- Step 1 inside a run of `#`: the scan may as well start at the second one. -/
theorem headingSpace_run (l : List Char) :
    replaceAll headingSpace 0 ('#' :: '#' :: l) = '#' :: replaceAll headingSpace 0 ('#' :: l) := by
  have hH : ∀ x ∈ l.takeWhile (fun c => c = '#'), x = '#' := by
    intro x hx
    simpa using List.mem_takeWhile_imp hx
  have hW : ∀ x ∈ (l.dropWhile (fun c => c = '#')).takeWhile isJsSpace, isJsSpace x = true :=
    fun x hx => List.mem_takeWhile_imp hx
  have h1 := headingSpace_hash ('#' :: l)
  have h2 := headingSpace_hash l
  have ht : ('#' :: l).takeWhile (fun c => c = '#') = '#' :: l.takeWhile (fun c => c = '#') :=
    List.takeWhile_cons_of_pos (by simp)
  have hd : ('#' :: l).dropWhile (fun c => c = '#') = l.dropWhile (fun c => c = '#') :=
    List.dropWhile_cons_of_pos (by simp)
  rw [ht, hd] at h1
  have j1 : jsTrim ('#' :: ('#' :: l.takeWhile (fun c => c = '#')) ++
      (l.dropWhile (fun c => c = '#')).takeWhile isJsSpace) =
      '#' :: '#' :: l.takeWhile (fun c => c = '#') :=
    jsTrim_hashes _ _ (fun x hx => by
      rcases List.mem_cons.mp hx with rfl | hx
      · rfl
      · exact hH x hx) hW
  have j2 := jsTrim_hashes _ _ hH hW
  rw [j1] at h1
  rw [j2] at h2
  rw [replaceAll_some _ _ _ _ _ h1 (by omega), replaceAll_some _ _ _ _ _ h2 (by omega)]
  have e : 1 + ('#' :: l.takeWhile (fun c => c = '#')).length +
      ((l.dropWhile (fun c => c = '#')).takeWhile isJsSpace).length =
      (1 + (l.takeWhile (fun c => c = '#')).length +
        ((l.dropWhile (fun c => c = '#')).takeWhile isJsSpace).length) + 1 := by
    simp only [List.length_cons]
    omega
  rw [e, List.drop_succ_cons]
  rfl

theorem headingSpace_cells (cells : Cells) (hok : CellsOk cells) :
    ∀ p, replaceAll headingSpace 0 (renderCells cells) =
      renderCells (mapCtx gapHeading p cells) := by
  have hws : ∀ x rest, isJsSpace x = true → headingSpace (x :: rest) = none := by
    intro x rest hx
    exact headingSpace_other x rest (by rintro rfl; exact absurd hx (by decide))
  induction cells with
  | nil => intro p; rfl
  | cons x rest ih =>
    intro p
    obtain ⟨c, g⟩ := x
    obtain ⟨h1, h2, h3⟩ := cellsOk_cons hok
    have hg : ∀ y ∈ g, isJsSpace y = true := fun y hy => (h2 y hy).1
    show replaceAll headingSpace 0 (c :: (g ++ renderCells rest)) =
      c :: (gapHeading p c (nextChar rest) g ++ renderCells (mapCtx gapHeading (some c) rest))
    rw [← ih h3 (some c)]
    by_cases hc : c = '#'
    · subst hc
      by_cases hrun : g = [] ∧ nextChar rest = some '#'
      · obtain ⟨rfl, hn⟩ := hrun
        cases rest with
        | nil => simp [nextChar] at hn
        | cons y rest2 =>
          obtain ⟨d, k⟩ := y
          have hd : d = '#' := by simpa [nextChar] using hn
          subst hd
          have hgap : gapHeading p '#' (nextChar (('#', k) :: rest2)) [] = [] := by
            simp [gapHeading, nextChar]
          rw [hgap]
          exact headingSpace_run _
      · have hhead : ∀ r, g ++ renderCells rest ≠ '#' :: r := by
          intro r hr
          cases g with
          | nil =>
            apply hrun
            refine ⟨rfl, ?_⟩
            rw [← render_head, show renderCells rest = '#' :: r from hr]
            rfl
          | cons w ws =>
            have hw := hg w (by simp)
            simp only [List.cons_append, List.cons.injEq] at hr
            rw [hr.1] at hw
            exact absurd hw (by decide)
        have ht : (g ++ renderCells rest).takeWhile (fun c => c = '#') = [] := by
          cases hgr : g ++ renderCells rest with
          | nil => rfl
          | cons a r =>
            have : a ≠ '#' := by
              rintro rfl
              exact hhead r hgr
            simp [List.takeWhile, this]
        have hdr : (g ++ renderCells rest).dropWhile (fun c => c = '#') = g ++ renderCells rest := by
          cases hgr : g ++ renderCells rest with
          | nil => rfl
          | cons a r =>
            have : a ≠ '#' := by
              rintro rfl
              exact hhead r hgr
            simp [List.dropWhile, this]
        have hm := headingSpace_hash (g ++ renderCells rest)
        rw [ht, hdr, takeWhile_gap g rest hg h3] at hm
        have hj : jsTrim ('#' :: [] ++ g) = ['#'] :=
          jsTrim_hashes [] g (fun x hx => absurd hx (by simp)) hg
        rw [hj] at hm
        have hm2 : headingSpace (('#' :: g) ++ renderCells rest) =
            some (['#', ' '], ('#' :: g).length) := by
          show headingSpace ('#' :: (g ++ renderCells rest)) = _
          rw [hm]
          simp only [List.length_nil, List.length_cons, List.singleton_append]
          congr 2
          omega
        have := replaceAll_match headingSpace ('#' :: g) (renderCells rest) _ (by simp) hm2
        rw [show '#' :: (g ++ renderCells rest) = ('#' :: g) ++ renderCells rest from rfl, this]
        simp only [gapHeading, if_true, if_neg hrun]
        rfl
    · rw [replaceAll_none_cons _ _ _ (headingSpace_other c _ hc), replaceAll_gap _ hws _ _ hg]
      simp [gapHeading, hc]
theorem numberedDot_nondigit (c : Char) (l : List Char) (hc : isDigit09 c = false) :
    numberedDot (c :: l) = none := by
  unfold numberedDot
  rw [List.takeWhile_cons_of_neg (by simp [hc])]

/-- Step 2 inside a run of digits: a match at the first digit is the match at
the second one with that digit in front. -/
theorem numberedDot_run (c d : Char) (l : List Char) (hc : isDigit09 c = true)
    (hd : isDigit09 d = true) :
    replaceAll numberedDot 0 (c :: d :: l) = c :: replaceAll numberedDot 0 (d :: l) := by
  have ht : (c :: d :: l).takeWhile isDigit09 = c :: (d :: l).takeWhile isDigit09 :=
    List.takeWhile_cons_of_pos hc
  have hdr : (c :: d :: l).dropWhile isDigit09 = (d :: l).dropWhile isDigit09 :=
    List.dropWhile_cons_of_pos hc
  have ht2 : (d :: l).takeWhile isDigit09 = d :: l.takeWhile isDigit09 :=
    List.takeWhile_cons_of_pos hd
  cases hm : numberedDot (d :: l) with
  | none =>
    have hm1 : numberedDot (c :: d :: l) = none := by
      unfold numberedDot at hm ⊢
      simp only [ht, hdr, ht2] at hm ⊢
      split at hm
      · exact absurd hm (by simp)
      · rename_i hno
        split
        · rename_i a as r2 h1 h2
          exact (hno _ _ _ rfl h2).elim
        · rfl
    rw [replaceAll_none_cons _ _ _ hm1, replaceAll_none_cons _ _ _ hm]
  | some r =>
    obtain ⟨out, len⟩ := r
    have hlen : 1 ≤ len ∧ numberedDot (c :: d :: l) = some (c :: out, len + 1) := by
      unfold numberedDot at hm ⊢
      simp only [ht, hdr, ht2] at hm ⊢
      split at hm
      · rename_i a as r2 h1 h2
        simp only [Option.some.injEq, Prod.mk.injEq] at hm
        obtain ⟨rfl, rfl⟩ := hm
        refine ⟨by simp only [List.length_cons]; omega, ?_⟩
        rw [h2]
        simp only [List.length_cons, List.cons_append, Option.some.injEq, Prod.mk.injEq, true_and]
        omega
      · exact absurd hm (by simp)
    rw [replaceAll_some _ _ _ _ _ hlen.2 (by omega), replaceAll_some _ _ _ _ _ hm hlen.1,
      List.drop_succ_cons]
    rfl

theorem space_not_digit (x : Char) (hx : isJsSpace x = true) : isDigit09 x = false := by
  cases hd : isDigit09 x with
  | false => rfl
  | true =>
    simp only [isDigit09, Bool.and_eq_true, decide_eq_true_eq] at hd
    simp only [isJsSpace, Bool.or_eq_true, decide_eq_true_eq, Bool.and_eq_true] at hx
    omega

theorem digit_ne_dot (c : Char) (hc : isDigit09 c = true) : c ≠ '.' := by
  rintro rfl
  exact absurd hc (by decide)

/-- Step 2 at the last digit of a run. -/
theorem numberedDot_last (c : Char) (g : List Char) (rest : Cells) (hc : isDigit09 c = true)
    (hg : ∀ y ∈ g, isJsSpace y = true)
    (hrun : ¬ (g = [] ∧ ∃ d, nextChar rest = some d ∧ isDigit09 d = true)) :
    (c :: (g ++ renderCells rest)).takeWhile isDigit09 = [c] ∧
    (c :: (g ++ renderCells rest)).dropWhile isDigit09 = g ++ renderCells rest := by
  have hhead : ∀ a r, g ++ renderCells rest = a :: r → isDigit09 a = false := by
    intro a r har
    cases g with
    | nil =>
      cases hda : isDigit09 a with
      | false => rfl
      | true =>
        exfalso
        apply hrun
        refine ⟨rfl, a, ?_, hda⟩
        rw [← render_head, show renderCells rest = a :: r from har]
        rfl
    | cons w ws =>
      simp only [List.cons_append, List.cons.injEq] at har
      rw [← har.1]
      exact space_not_digit w (hg w (by simp))
  rw [List.takeWhile_cons_of_pos hc, List.dropWhile_cons_of_pos hc]
  cases hgr : g ++ renderCells rest with
  | nil => exact ⟨rfl, rfl⟩
  | cons a r =>
    have := hhead a r hgr
    exact ⟨by rw [List.takeWhile_cons_of_neg (by simp [this])],
      by rw [List.dropWhile_cons_of_neg (by simp [this])]⟩

theorem numberedDot_cells_aux (n : Nat) : ∀ cells : Cells, cells.length = n → CellsOk cells →
    ∀ p, ¬ (p.any isDigit09 = true ∧ nextChar cells = some '.') →
      replaceAll numberedDot 0 (renderCells cells) = renderCells (mapCtx gapDot p cells) := by
  have hws : ∀ x rest, isJsSpace x = true → numberedDot (x :: rest) = none :=
    fun x rest hx => numberedDot_nondigit x rest (space_not_digit x hx)
  induction n using Nat.strong_induction_on with
  | _ n ihn =>
  intro cells hlen hok
  have ih : ∀ r : Cells, r.length < n → CellsOk r → ∀ p,
      ¬ (p.any isDigit09 = true ∧ nextChar r = some '.') →
      replaceAll numberedDot 0 (renderCells r) = renderCells (mapCtx gapDot p r) :=
    fun r hr => ihn r.length hr r rfl
  cases cells with
  | nil => intro p _; rfl
  | cons x rest =>
    intro p hp
    obtain ⟨c, g⟩ := x
    obtain ⟨h1, h2, h3⟩ := cellsOk_cons hok
    have hlt : rest.length < n := by rw [← hlen]; simp
    have hg : ∀ y ∈ g, isJsSpace y = true := fun y hy => (h2 y hy).1
    show replaceAll numberedDot 0 (c :: (g ++ renderCells rest)) =
      c :: (gapDot p c (nextChar rest) g ++ renderCells (mapCtx gapDot (some c) rest))
    by_cases hdig : isDigit09 c = true
    · have hcdot := digit_ne_dot c hdig
      by_cases hnext : nextChar rest = some '.'
      · cases rest with
        | nil => simp [nextChar] at hnext
        | cons y rest2 =>
          obtain ⟨d, h⟩ := y
          have hd : d = '.' := by simpa [nextChar] using hnext
          subst hd
          obtain ⟨-, hh, h4⟩ := cellsOk_cons h3
          have hrun : ¬ (g = [] ∧ ∃ d, nextChar (('.', h) :: rest2) = some d ∧
              isDigit09 d = true) := by
            rintro ⟨-, d, hd, hdd⟩
            have : d = '.' := by simpa [nextChar] using hd.symm
            subst this
            exact absurd hdd (by decide)
          obtain ⟨ht, hdr⟩ := numberedDot_last c g _ hdig hg hrun
          have hm : numberedDot ((c :: g ++ '.' :: h) ++ renderCells rest2) =
              some ([c, '.', ' '], (c :: g ++ '.' :: h).length) := by
            have e : (c :: g ++ '.' :: h) ++ renderCells rest2 =
                c :: (g ++ renderCells (('.', h) :: rest2)) := by simp [renderCells]
            rw [e]
            have hd2 : (g ++ renderCells (('.', h) :: rest2)).dropWhile isJsSpace =
                '.' :: (h ++ renderCells rest2) := dropWhile_gap g _ hg h3
            have ht2 : (g ++ renderCells (('.', h) :: rest2)).takeWhile isJsSpace = g :=
              takeWhile_gap g _ hg h3
            have ht3 : (h ++ renderCells rest2).takeWhile isJsSpace = h :=
              takeWhile_gap h rest2 (fun y hy => (hh y hy).1) h4
            unfold numberedDot
            simp only [ht, hdr, hd2, ht2, ht3]
            simp only [List.length_cons, List.length_nil, List.singleton_append,
              List.length_append, List.nil_append, List.cons_append]
            congr 2
            omega
          have e2 : c :: (g ++ renderCells (('.', h) :: rest2)) =
              (c :: g ++ '.' :: h) ++ renderCells rest2 := by simp [renderCells]
          have hlt2 : rest2.length < n := by
            simp only [List.length_cons] at hlt
            omega
          rw [e2, replaceAll_match numberedDot _ _ _ (by simp) hm,
            ih rest2 hlt2 h4 (some '.') (fun hh2 => absurd hh2.1 (by decide))]
          have hg1 : gapDot p c (nextChar (('.', h) :: rest2)) g = [] := by
            simp [gapDot, nextChar, hdig]
          have hg2 : gapDot (some c) '.' (nextChar rest2) h = [' '] := by
            have hdot : isDigit09 '.' = false := by decide
            simp [gapDot, hdig, hdot]
          rw [hg1]
          simp only [mapCtx, renderCells, hg2]
          rfl
      · have hgap : gapDot p c (nextChar rest) g = g := by
          simp [gapDot, hnext, hcdot]
        have ihr := ih rest hlt h3 (some c) (fun hh2 => hnext hh2.2)
        rw [hgap, ← ihr]
        by_cases hrun : g = [] ∧ ∃ d, nextChar rest = some d ∧ isDigit09 d = true
        · obtain ⟨rfl, d, hd, hdd⟩ := hrun
          cases rest with
          | nil => simp [nextChar] at hd
          | cons y rest2 =>
            obtain ⟨d2, k⟩ := y
            have : d2 = d := by simpa [nextChar] using hd
            subst this
            exact numberedDot_run c d2 _ hdig hdd
        · obtain ⟨ht, hdr⟩ := numberedDot_last c g rest hdig hg hrun
          have hm : numberedDot (c :: (g ++ renderCells rest)) = none := by
            unfold numberedDot
            simp only [ht, hdr, dropWhile_gap g _ hg h3]
            split
            · rename_i r2 _ hr2
              exfalso
              apply hnext
              rw [← render_head, hr2]
              rfl
            · rfl
          rw [replaceAll_none_cons _ _ _ hm, replaceAll_gap _ hws _ _ hg]
    · have hdig2 : isDigit09 c = false := by simpa using hdig
      have hgap : gapDot p c (nextChar rest) g = g := by
        have hsecond : ¬ (c = '.' ∧ p.any isDigit09 = true) := by
          rintro ⟨rfl, hpd⟩
          exact hp ⟨hpd, rfl⟩
        simp only [gapDot, hdig2, Bool.false_eq_true, false_and, if_false, if_neg hsecond]
      rw [hgap, replaceAll_none_cons _ _ _ (numberedDot_nondigit c _ hdig2),
        replaceAll_gap _ hws _ _ hg,
        ih rest hlt h3 (some c) (fun hh2 => by simp [hdig2] at hh2)]

theorem numberedDot_cells (cells : Cells) (hok : CellsOk cells) (p : Option Char)
    (hp : ¬ (p.any isDigit09 = true ∧ nextChar cells = some '.')) :
    replaceAll numberedDot 0 (renderCells cells) = renderCells (mapCtx gapDot p cells) :=
  numberedDot_cells_aux _ cells rfl hok p hp

end ChatInterface
